import Mathlib

/-!
# gbacomp: GBA BIOS-compatible codecs (LZ77, RLE, Huffman)

A shallow embedding of the C sources (`cprs.c`, `cprs.h`, `cprs_rle.c`,
`cprs_lz.c`, `huffman.c`, `huffman_decode_vba.c`) and theorems about them.

Conventions of the embedding.

* A byte buffer is a `List Nat`; a well-formed buffer holds values below 256
  (`Bytes`).  Narrowing stores (`BYTE x = e`) are written `e % 256`.
* `malloc` returns uninitialised memory.  Where the code copies bytes it never
  wrote, the embedding takes the prior contents of the block as a parameter
  `heap : Nat → Nat` (the byte found at each offset of the block).
* Process-global scratch state that a call does not reset is a parameter of the
  call (`LzStatics`).
* `none` stands for an execution that does not return a value: an access
  outside a buffer, a null dereference, or a loop that has used up its fuel.
-/

namespace Gbacomp

/-! ## cprs.h / cprs.c : framing helpers -/

/-- A buffer of bytes: every element is below 256. -/
def Bytes (xs : List Nat) : Prop := ∀ b ∈ xs, b < 256

instance (xs : List Nat) : Decidable (Bytes xs) := by
  unfold Bytes; infer_instance

def CPRS_LZ77_TAG : Nat := 0x10
def CPRS_HUFF4_TAG : Nat := 0x24
def CPRS_HUFF8_TAG : Nat := 0x28
def CPRS_RLE_TAG : Nat := 0x30

/-- `#define ALIGN4(nn) ( ((nn)+3)&~3 )` -/
def ALIGN4 (nn : Nat) : Nat := (nn + 3) - (nn + 3) % 4

/-- `cprs_create_header`: the four bytes `data[0..3]` the function assembles.
The C function returns them reinterpreted as a host word, and every caller
stores that word back to memory, which yields these four bytes again. -/
def cprs_create_header (size tag : Nat) : List Nat :=
  [tag % 256, size % 256, (size / 2 ^ 8) % 256, (size / 2 ^ 16) % 256]

/-- `read32le`: `src[0] | src[1]<<8 | src[2]<<16 | src[3]<<24`. -/
def read32le (b0 b1 b2 b3 : Nat) : Nat :=
  b0 ||| (b1 <<< 8) ||| (b2 <<< 16) ||| (b3 <<< 24)

/-- `write16le`. -/
def write16le (src : Nat) : List Nat := [src % 256, (src / 2 ^ 8) % 256]

/-- `write32le`: two `write16le` of the low and the high half word. -/
def write32le (src : Nat) : List Nat :=
  write16le (src % 2 ^ 16) ++ write16le ((src / 2 ^ 16) % 2 ^ 16)

/-- Header parsing as every decompressor performs it: the little-endian word
of the first four bytes, split into `word & 255` (tag) and `word >> 8`
(size).  `none` when fewer than four bytes are present. -/
def parse_header (y : List Nat) : Option (Nat × Nat) :=
  match y with
  | b0 :: b1 :: b2 :: b3 :: _ =>
    let header := read32le b0 b1 b2 b3
    some (header &&& 255, header >>> 8)
  | _ => none

/-- `memcpy(dst, src + off, n)` out of the buffer `src`: the `n` bytes read. -/
def memcpy (src : List Nat) (off n : Nat) : List Nat :=
  (src.drop off).take n

/-- Subtraction of `unsigned int` values: `a - b` modulo `2^32` (the difference
of the residues, wrapped around when it would be negative). -/
def usub (a b : Nat) : Nat :=
  if b % 2 ^ 32 ≤ a % 2 ^ 32 then a % 2 ^ 32 - b % 2 ^ 32
  else 2 ^ 32 - (b % 2 ^ 32 - a % 2 ^ 32)

/-- Addition of `unsigned int` values: `a + b` modulo `2^32`. -/
def uadd (a b : Nat) : Nat := (a + b) % 2 ^ 32

/-- The bytes found in an uninitialised block between offsets `from` and
`from + n`. -/
def heapBytes (heap : Nat → Nat) (start n : Nat) : List Nat :=
  (List.range n).map (fun k => heap (start + k) % 256)

/-! ## cprs_rle.c -/

/-- Loop state of `rle8gba_compress`: the locals `rle`, `non`, `curr`, `prev`
and the bytes written to the scratch buffer so far (`dstD[0 .. dstL)`). -/
structure RleState where
  rle : Nat
  non : Nat
  curr : Nat
  prev : Nat
  dst : List Nat
deriving Repr, DecidableEq

/-- One iteration of the `for(ii=1; ii<=srcS; ii++)` loop of
`rle8gba_compress`. -/
def rleIter (srcD : List Nat) (srcS ii : Nat) (st : RleState) : RleState :=
  -- if(ii != srcS) curr= srcD[ii];
  let curr := if ii ≠ srcS then srcD.getD ii 0 else st.curr
  -- if(rle==0x82 || ii==srcS) prev= ~curr;
  let prev := if st.rle = 0x82 ∨ ii = srcS then 255 - curr % 256 else st.prev
  if st.rle < 3 ∧ (st.non + st.rle > 0x80 ∨ ii = srcS) then
    -- ** mini non
    let non := st.non + st.rle
    { rle := 1, non := 1, curr := curr, prev := curr,
      dst := st.dst ++
        (usub non 2 % 256 :: memcpy srcD (uadd (usub ii non) 1) (usub non 1)) }
  else if curr = prev then
    -- ** start rle / non on hold
    let rle := st.rle + 1
    if rle = 3 ∧ st.non > 1 then
      { rle := rle, non := 1, curr := curr, prev := curr,
        dst := st.dst ++
          (usub st.non 2 % 256 :: memcpy srcD (usub (usub ii st.non) 1) (usub st.non 1)) }
    else
      { rle := rle, non := st.non, curr := curr, prev := curr, dst := st.dst }
  else
    -- ** rle end / non start
    if st.rle ≥ 3 then
      { rle := 1, non := 0 + 1, curr := curr, prev := curr,
        dst := st.dst ++ [(0x80 ||| usub st.rle 3) % 256, srcD.getD (usub ii 1) 0] }
    else
      { rle := 1, non := st.non + st.rle, curr := curr, prev := curr, dst := st.dst }

/-- The loop `for(ii=1; ii<=srcS; ii++)`, with `n` iterations left to run
starting at index `ii`. -/
def rleLoop (srcD : List Nat) (srcS : Nat) : Nat → Nat → RleState → RleState
  | 0, _, st => st
  | n + 1, ii, st => rleLoop srcD srcS n (ii + 1) (rleIter srcD srcS ii st)

/-- The payload `rle8gba_compress` writes to its scratch buffer `dstD`.
`curr0` is the indeterminate initial value of the local `curr`. -/
def rlePayload (curr0 : Nat) (srcD : List Nat) : List Nat :=
  let srcS := srcD.length
  (rleLoop srcD srcS srcS 1
    { rle := 1, non := 1, curr := curr0 % 256, prev := srcD.getD 0 0, dst := [] }).dst

/-- `rle8gba_compress` on a non-null record of `srcD.length` bytes: the bytes
of the output record (its length is the return value).  `heap` is the prior
content of the scratch block `dstD`, of which the final `memcpy` copies the
bytes up to the 4-byte boundary. -/
def rle8gba_compress (heap : Nat → Nat) (curr0 : Nat) (srcD : List Nat) : List Nat :=
  let srcS := srcD.length
  let payload := rlePayload curr0 srcD
  -- dstS= ALIGN4(dstL-dstD)+4;
  let dstS := ALIGN4 payload.length + 4
  cprs_create_header srcS CPRS_RLE_TAG ++
    payload ++ heapBytes heap payload.length (dstS - 4 - payload.length)

/-- The loop `for(ii=0; ii<dstS; ii += size)` of `rle8gba_decompress`; `srcL`
is the unread rest of the input and `dstD` the output written so far. -/
def rleDecLoop (dstS : Nat) : Nat → List Nat → Nat → List Nat → Option (List Nat)
  | 0, _, ii, dstD => if ii < dstS then none else some dstD
  | fuel + 1, srcL, ii, dstD =>
    if ii < dstS then
      match srcL with
      | [] => none
      | header :: srcL =>
        if header &&& 0x80 ≠ 0 then
          -- compressed stint
          match srcL with
          | [] => none
          | v :: srcL =>
            let size := min ((header &&& 0xFFFFFF7F) + 3) (dstS - ii)
            rleDecLoop dstS fuel srcL (ii + size) (dstD ++ List.replicate size v)
        else
          -- noncompressed stint
          let size := min (header + 1) (dstS - ii)
          if srcL.length < size then none
          else rleDecLoop dstS fuel (srcL.drop size) (ii + size) (dstD ++ srcL.take size)
    else some dstD

/-- `rle8gba_decompress`: `some []` is the return value 0 on a tag mismatch,
`none` a read past the end of the input. -/
def rle8gba_decompress (src : List Nat) : Option (List Nat) :=
  match src with
  | b0 :: b1 :: b2 :: b3 :: srcL =>
    let header := read32le b0 b1 b2 b3
    if header &&& 255 ≠ CPRS_RLE_TAG then some []
    else
      let dstS := header >>> 8
      rleDecLoop dstS dstS srcL 0 []
  | _ => none

end Gbacomp

namespace Gbacomp

/-! ## cprs_lz.c -/

def RING_MAX : Nat := 4096
def FRAME_MAX : Nat := 18
def THRESHOLD : Nat := 2
def NIL : Nat := RING_MAX
def NMASK : Nat := RING_MAX - 1

/-- Array store `a[i] = v`. -/
def store (a : Nat → Nat) (i v : Nat) : Nat → Nat :=
  fun j => if j = i then v else a j

/-- `x & NMASK` for an `int` `x` (two's complement): the residue modulo 4096. -/
def andNMASK (x : Int) : Nat := (x % 4096).toNat

/-- The file-scope variables of `cprs_lz.c` that the tree routines work on:
`text_buf`, `match_position`, `match_length`, `lson`, `rson`, `dad`.  A value
of this type is also what an earlier call leaves behind for the next one. -/
structure LzState where
  text_buf : Nat → Nat
  match_position : Nat
  match_length : Nat
  lson : Nat → Nat
  rson : Nat → Nat
  dad : Nat → Nat

/-- `InitTree`: `rson[RING_MAX+1 .. RING_MAX+256] = NIL`, `dad[0 .. RING_MAX-1] = NIL`. -/
def InitTree (st : LzState) : LzState :=
  { st with
    rson := fun i => if RING_MAX + 1 ≤ i ∧ i ≤ RING_MAX + 256 then NIL else st.rson i
    dad := fun i => if i < RING_MAX then NIL else st.dad i }

/-- The comparison loop of `InsertNode`,
`for(i=1; i<FRAME_MAX; i++) if((cmp = key[i] - text_buf[p+i]) != 0) break;`
with `n` the number of indices left (`FRAME_MAX - i`); returns the final
`(i, cmp)`. -/
def cmpLoop (text_buf : Nat → Nat) (r p : Nat) : Nat → Nat → Int → Nat × Int
  | 0, i, cmp => (i, cmp)
  | n + 1, i, _ =>
    let cmp : Int := (text_buf (r + i) : Int) - (text_buf (p + i) : Int)
    if cmp ≠ 0 then (i, cmp) else cmpLoop text_buf r p n (i + 1) cmp

/-- The tail of `InsertNode` after the `for(;;)` loop is left by `break`: the
new node `r` takes the place of the old node `p`. -/
def replaceNode (st : LzState) (r p : Nat) : LzState :=
  -- dad[r]= dad[p]; lson[r]= lson[p]; rson[r]= rson[p];
  let dad1 := store st.dad r (st.dad p)
  let lson1 := store st.lson r (st.lson p)
  let rson1 := store st.rson r (st.rson p)
  -- dad[lson[p]]= r; dad[rson[p]]= r;
  let dad2 := store dad1 (lson1 p) r
  let dad3 := store dad2 (rson1 p) r
  -- if(rson[dad[p]] == p) rson[dad[p]]= r; else lson[dad[p]]= r;
  let rson2 := if rson1 (dad3 p) = p then store rson1 (dad3 p) r else rson1
  let lson2 := if rson1 (dad3 p) = p then lson1 else store lson1 (dad3 p) r
  -- dad[p]= NIL;
  { st with lson := lson2, rson := rson2, dad := store dad3 p NIL }

/-- The `for(;;)` loop of `InsertNode(r)`, entered with the current node `p`
and the last comparison result `cmp`. -/
def insertLoop (r : Nat) : Nat → LzState → Nat → Int → Option LzState
  | 0, _, _, _ => none
  | fuel + 1, st, p, cmp =>
    if cmp ≥ 0 ∧ st.rson p = NIL then
      -- rson[p]= r; dad[r]= p; return;
      some { st with rson := store st.rson p r, dad := store st.dad r p }
    else if ¬ cmp ≥ 0 ∧ st.lson p = NIL then
      -- lson[p]= r; dad[r]= p; return;
      some { st with lson := store st.lson p r, dad := store st.dad r p }
    else
      let p := if cmp ≥ 0 then st.rson p else st.lson p
      let ic := cmpLoop st.text_buf r p (FRAME_MAX - 1) 1 cmp
      let i := ic.1
      let cmp := ic.2
      if i > st.match_length then
        let st :=
          if p ≠ andNMASK ((r : Int) - 1) then
            { st with match_length := i, match_position := p }
          else st
        if st.match_length ≥ FRAME_MAX then some (replaceNode st r p)
        else insertLoop r fuel st p cmp
      else insertLoop r fuel st p cmp

/-- `InsertNode(r)`.  The descent visits pairwise different nodes when the
trees are well formed, so `RING_MAX + 1` rounds are enough. -/
def InsertNode (r : Nat) (st : LzState) : Option LzState :=
  -- cmp= 1; key= &text_buf[r]; p= RING_MAX + 1 + key[0];
  -- rson[r]= lson[r]= NIL; prev_length= match_length= 0;
  let p := RING_MAX + 1 + st.text_buf r
  let st := { st with
    lson := store st.lson r NIL, rson := store st.rson r NIL, match_length := 0 }
  insertLoop r (RING_MAX + 1) st p 1

/-- `do { q = rson[q]; } while(rson[q] != NIL);` of `DeleteNode`. -/
def rightmost (rson : Nat → Nat) : Nat → Nat → Option Nat
  | 0, _ => none
  | fuel + 1, q =>
    let q := rson q
    if rson q ≠ NIL then rightmost rson fuel q else some q

/-- `DeleteNode(p)`. -/
def DeleteNode (p : Nat) (st : LzState) : Option LzState :=
  if st.dad p = NIL then some st
  else
    -- the node q that takes the place of p, and the arrays after moving it
    let r : Option (Nat × (Nat → Nat) × (Nat → Nat) × (Nat → Nat)) :=
      if st.rson p = NIL then some (st.lson p, st.lson, st.rson, st.dad)
      else if st.lson p = NIL then some (st.rson p, st.lson, st.rson, st.dad)
      else
        let q := st.lson p
        if st.rson q ≠ NIL then
          match rightmost st.rson RING_MAX q with
          | none => none
          | some q =>
            -- rson[dad[q]] = lson[q]; dad[lson[q]] = dad[q];
            let rson1 := store st.rson (st.dad q) (st.lson q)
            let dad1 := store st.dad (st.lson q) (st.dad q)
            -- lson[q] = lson[p]; dad[lson[p]] = q;
            let lson1 := store st.lson q (st.lson p)
            let dad2 := store dad1 (lson1 p) q
            -- rson[q] = rson[p]; dad[rson[p]] = q;
            let rson2 := store rson1 q (rson1 p)
            some (q, lson1, rson2, store dad2 (rson2 p) q)
        else
          let rson2 := store st.rson q (st.rson p)
          some (q, st.lson, rson2, store st.dad (rson2 p) q)
    match r with
    | none => none
    | some (q, lson, rson, dad) =>
      -- dad[q] = dad[p];
      let dad := store dad q (dad p)
      -- if(rson[dad[p]] == p) rson[dad[p]] = q; else lson[dad[p]] = q;
      let rson3 := if rson (dad p) = p then store rson (dad p) q else rson
      let lson3 := if rson (dad p) = p then lson else store lson (dad p) q
      -- dad[p] = NIL;
      some { st with lson := lson3, rson := rson3, dad := store dad p NIL }

/-- The locals of `CompressLZ77` together with the globals: `g` the tree
globals, `InOffset` the read cursor, `code_buf0` the flag byte `code_buf[0]`,
`code_buf` the unit bytes `code_buf[1 .. code_buf_ptr)`, and `out` the bytes
written to `OutBuf[4 .. OutSize)`. -/
structure LzEnc where
  g : LzState
  InOffset : Nat
  len : Int
  r : Nat
  s : Nat
  curmatch : Nat
  code_buf0 : Nat
  code_buf : List Nat
  mask : Nat
  out : List Nat

/-- The loop `for(len = 0; len < FRAME_MAX && (c = InChar()) != -1; len++)
text_buf[r + len] = c;` with `n` rounds left. -/
def fillLoop (InBuf : List Nat) (r : Nat) : Nat → Nat → (Nat → Nat) → Nat × (Nat → Nat)
  | 0, len, text_buf => (len, text_buf)
  | n + 1, len, text_buf =>
    if len < InBuf.length then
      fillLoop InBuf r n (len + 1) (store text_buf (r + len) (InBuf.getD len 0))
    else (len, text_buf)

/-- The loop `for(i=0; i < last_match_length && (c = InChar()) != -1; i++)`
of `CompressLZ77` with `n = last_match_length - i` rounds left; returns the
state and the rounds not run. -/
def readLoop (InBuf : List Nat) : Nat → LzEnc → Option (LzEnc × Nat)
  | 0, e => some (e, 0)
  | n + 1, e =>
    if e.InOffset < InBuf.length then
      let c := InBuf.getD e.InOffset 0
      -- DeleteNode(s); text_buf[s] = c; if(s < FRAME_MAX-1) text_buf[s + RING_MAX] = c;
      match DeleteNode e.s e.g with
      | none => none
      | some g =>
        let tb := store g.text_buf e.s c
        let tb := if e.s < FRAME_MAX - 1 then store tb (e.s + RING_MAX) c else tb
        -- s = (s + 1) & NMASK; r = (r + 1) & NMASK; InsertNode(r);
        let s := (e.s + 1) % RING_MAX
        let r := (e.r + 1) % RING_MAX
        match InsertNode r { g with text_buf := tb } with
        | none => none
        | some g => readLoop InBuf n { e with g := g, s := s, r := r, InOffset := e.InOffset + 1 }
    else some (e, n + 1)

/-- The loop `while(i++ < last_match_length)` of `CompressLZ77` (after the end
of the text) with `n` rounds left. -/
def tailLoop : Nat → LzEnc → Option LzEnc
  | 0, e => some e
  | n + 1, e =>
    match DeleteNode e.s e.g with
    | none => none
    | some g =>
      let s := (e.s + 1) % RING_MAX
      let r := (e.r + 1) % RING_MAX
      -- if(--len) InsertNode(r);
      let len := e.len - 1
      if len ≠ 0 then
        match InsertNode r g with
        | none => none
        | some g => tailLoop n { e with g := g, s := s, r := r, len := len }
      else tailLoop n { e with g := g, s := s, r := r, len := len }

/-- The first half of the body of the `do … while(len > 0)` loop of
`CompressLZ77`: clamp `match_length`, put one unit into `code_buf`, advance
`curmatch`, and write the code buffer out when the mask runs empty. -/
def emitUnit (e : LzEnc) : LzEnc :=
  -- if(match_length > len) match_length = len;
  let ml : Int := if (e.g.match_length : Int) > e.len then e.len else e.g.match_length
  let e1 : LzEnc :=
    if ml ≤ THRESHOLD then
      -- match_length = 1; code_buf[code_buf_ptr++] = text_buf[r];
      { e with g := { e.g with match_length := 1 },
               code_buf := e.code_buf ++ [e.g.text_buf e.r] }
    else
      -- code_buf[0] |= mask;
      -- savematch= ((curmatch-match_position)&NMASK)-1;
      let savematch := usub (usub e.curmatch (e.g.match_position % 2 ^ 32) &&& NMASK) 1
      { e with g := { e.g with match_length := ml.toNat },
               code_buf0 := (e.code_buf0 ||| e.mask) % 256,
               code_buf := e.code_buf ++
                 [((((savematch >>> 8) &&& 0xf) % 256) ||| ((ml.toNat - (THRESHOLD + 1)) <<< 4)) % 256,
                  savematch % 256] }
  -- curmatch += match_length; curmatch &= NMASK;
  let curmatch := uadd e1.curmatch e1.g.match_length &&& NMASK
  -- if((mask >>= 1) == 0) { write out code_buf; code_buf[0] = 0; code_buf_ptr = 1; mask = 0x80; }
  let mask := e1.mask >>> 1
  if mask = 0 then
    { e1 with curmatch := curmatch, out := e1.out ++ (e1.code_buf0 :: e1.code_buf),
              code_buf0 := 0, code_buf := [], mask := 0x80 }
  else { e1 with curmatch := curmatch, mask := mask }

/-- The `do … while(len > 0)` loop of `CompressLZ77`. -/
def mainLoop (InBuf : List Nat) : Nat → LzEnc → Option LzEnc
  | 0, _ => none
  | fuel + 1, e =>
    let e := emitUnit e
    -- last_match_length = match_length;
    let last_match_length := e.g.match_length
    match readLoop InBuf last_match_length e with
    | none => none
    | some (e, n) =>
      match tailLoop n e with
      | none => none
      | some e => if e.len > 0 then mainLoop InBuf fuel e else some e

/-- `CompressLZ77`: the bytes of `OutBuf[0 .. OutSize)` on return.  `heap` is
the prior content of the `malloc`ed block `OutBuf`, `statics` the file-scope
arrays as the previous call left them. -/
def CompressLZ77 (heap : Nat → Nat) (statics : LzState) (InBuf : List Nat) :
    Option (List Nat) :=
  let InSize := InBuf.length
  -- match_position= curmatch= RING_MAX-FRAME_MAX; InitTree();
  let g := InitTree { statics with match_position := RING_MAX - FRAME_MAX }
  let s := 0
  let r := RING_MAX - FRAME_MAX
  -- for(i = s; i < r; i++) text_buf[i] = TEXT_BUF_CLEAR;
  let tb : Nat → Nat := fun i => if s ≤ i ∧ i < r then 0 else g.text_buf i
  let lt := fillLoop InBuf r FRAME_MAX 0 tb
  let len := lt.1
  -- if(len == 0) return;
  if len = 0 then some (heapBytes heap 0 4)
  else
    match InsertNode r { g with text_buf := lt.2 } with
    | none => none
    | some g =>
      let e : LzEnc :=
        { g := g, InOffset := len, len := len, r := r, s := s,
          curmatch := RING_MAX - FRAME_MAX,
          code_buf0 := 0, code_buf := [], mask := 0x80, out := [] }
      match mainLoop InBuf InSize e with
      | none => none
      | some e =>
        -- if(code_buf_ptr > 1) send remaining code
        let out := if e.code_buf.length + 1 > 1 then e.out ++ (e.code_buf0 :: e.code_buf) else e.out
        some ([CPRS_LZ77_TAG, (InSize >>> 0) &&& 0xFF, (InSize >>> 8) &&& 0xFF,
               (InSize >>> 16) &&& 0xFF] ++ out)

/-- `lz77gba_compress` on a non-null record of `InBuf.length` bytes: the bytes
of the output record, `OutBuf[0 .. ALIGN4(OutSize))`. -/
def lz77gba_compress (heap : Nat → Nat) (statics : LzState) (InBuf : List Nat) :
    Option (List Nat) :=
  match CompressLZ77 heap statics InBuf with
  | none => none
  | some buf =>
    let OutSize := ALIGN4 buf.length
    some (buf ++ heapBytes heap buf.length (OutSize - buf.length))

/-- The copy loop `while(count--) { dstD[ii]= dstD[ii-ofs]; ii++; }` of
`lz77gba_decompress`; `dstD` holds the `ii` bytes written so far, `dstS` is
the size of the block.  `none`: an index outside the block. -/
def lzCopy (dstS ofs : Nat) : Nat → List Nat → Option (List Nat)
  | 0, dstD => some dstD
  | count + 1, dstD =>
    if ofs ≤ dstD.length ∧ dstD.length < dstS then
      lzCopy dstS ofs count (dstD ++ [dstD.getD (dstD.length - ofs) 0])
    else none

/-- The loop `for(ii=0, jj=-1; ii<dstS; jj--)` of `lz77gba_decompress`;
`ii` is `dstD.length`. -/
def lzDecLoop (dstS : Nat) : Nat → List Nat → Nat → Int → List Nat → Option (List Nat)
  | 0, _, _, _, dstD => if dstD.length < dstS then none else some dstD
  | fuel + 1, srcL, flags, jj, dstD =>
    if dstD.length < dstS then
      -- if(jj<0) { flags= *srcL++; jj= 7; }
      let fr : Option (Nat × Int × List Nat) :=
        if jj < 0 then
          match srcL with
          | [] => none
          | f :: srcL => some (f, 7, srcL)
        else some (flags, jj, srcL)
      match fr with
      | none => none
      | some (flags, jj, srcL) =>
        if (flags >>> jj.toNat) &&& 1 ≠ 0 then
          match srcL with
          | b0 :: b1 :: srcL =>
            let count := (b0 >>> 4) + THRESHOLD + 1
            let ofs := (((b0 &&& 15) <<< 8) ||| b1) + 1
            match lzCopy dstS ofs count dstD with
            | none => none
            | some dstD => lzDecLoop dstS fuel srcL flags (jj - 1) dstD
          | _ => none
        else
          match srcL with
          | [] => none
          | b :: srcL => lzDecLoop dstS fuel srcL flags (jj - 1) (dstD ++ [b])
    else some dstD

/-- `lz77gba_decompress`: `some []` is the return value 0 on a tag mismatch. -/
def lz77gba_decompress (src : List Nat) : Option (List Nat) :=
  match src with
  | b0 :: b1 :: b2 :: b3 :: srcL =>
    let header := read32le b0 b1 b2 b3
    if header &&& 255 ≠ CPRS_LZ77_TAG then some []
    else
      let dstS := header >>> 8
      lzDecLoop dstS dstS srcL 0 (-1) []
  | _ => none

end Gbacomp

namespace Gbacomp

/-! ## huffman.c

`Memory` is `calloc`: every block of this file starts zero-filled.  The stores
through `unsigned int *` (`HUF_Code`) and the loads through it (`HUF_Decode`)
are those of a little-endian host.  The scratch arrays `stack` (of
`HUF_CreateCodeBranch`) and `scode` (of `HUF_CreateCodeWorks`) are lists
without a capacity. -/

def CMD_CODE_20 : Nat := 0x20
def CMD_CODE_28 : Nat := 0x28
def CMD_CODE_24 : Nat := 0x24
def HUF_LNODE : Nat := 0
def HUF_RNODE : Nat := 1
def HUF_MASK : Nat := 0x80
def HUF_MASK4 : Nat := 0x80000000
def HUF_LCHAR : Nat := 0x80
def HUF_RCHAR : Nat := 0x40
def HUF_NEXT : Nat := 0x3F
def HUF_MAXIM : Nat := 0x01400000

/-- `huffman_node`; the pointers `dad`, `lson`, `rson` are indices into the
array `tree` (`none` is `NULL`): every node is allocated once and stored in
the next free slot of `tree`. -/
structure HNode where
  symbol : Nat
  weight : Nat
  leafs : Nat
  dad : Option Nat
  lson : Option Nat
  rson : Option Nat
deriving Repr, DecidableEq

/-- `huffman_code`: `nbits` and the bytes of `codework`. -/
structure HCode where
  nbits : Nat
  codework : List Nat
deriving Repr, DecidableEq

/-- The symbols of one byte in the order
`for (nbits = 8; nbits; nbits -= num_bits) { … ch >> (8 - num_bits) …;
ch = (ch << num_bits) & 0xFF; }` visits them; `fuel` bounds the rounds. -/
def symbolsOfByte (num_bits : Nat) : Nat → Nat → Nat → List Nat
  | 0, _, _ => []
  | fuel + 1, nbits, ch =>
    if nbits ≠ 0 then
      (ch >>> (8 - num_bits)) ::
        symbolsOfByte num_bits fuel (usub nbits num_bits) ((ch <<< num_bits) &&& 0xFF)
    else []

/-- The symbols of a buffer, byte after byte. -/
def symbolsOf (num_bits : Nat) (raw : List Nat) : List Nat :=
  raw.flatMap (fun ch => symbolsOfByte num_bits 8 8 ch)

/-- The counting loop of `HUF_CreateFreqs`: `freqs[sym]++` for every symbol. -/
def countFreqs (freqs : Nat → Nat) : List Nat → (Nat → Nat)
  | [] => freqs
  | sym :: rest => countFreqs (store freqs sym (uadd (freqs sym) 1)) rest

/-- `for (i = 0; i < max_symbols; i++) if (freqs[i]) num_leafs++;` -/
def countLeafs (freqs : Nat → Nat) (max_symbols : Nat) : Nat :=
  ((List.range max_symbols).filter (fun i => freqs i ≠ 0)).length

/-- `for (i = 0; i < max_symbols; i++) if (freqs[i]) { freqs[i] = 1; break; }` -/
def setFirstUsed (freqs : Nat → Nat) (max_symbols : Nat) : Nat → Nat :=
  match (List.range max_symbols).find? (fun i => freqs i ≠ 0) with
  | some i => store freqs i 1
  | none => freqs

/-- `for (i = 0; i < max_symbols; i++) if (!freqs[i]) { freqs[i] = 2; break; }` -/
def setFirstUnused (freqs : Nat → Nat) (max_symbols : Nat) : Nat → Nat :=
  match (List.range max_symbols).find? (fun i => freqs i = 0) with
  | some i => store freqs i 2
  | none => freqs

/-- `while (num_leafs++ < 2) { … freqs[i] = 2 … }`: returns `freqs` and the
value of `num_leafs` when the loop is left; `fuel` bounds the rounds. -/
def dummyLoop (max_symbols : Nat) : Nat → Nat → (Nat → Nat) → (Nat → Nat) × Nat
  | 0, num_leafs, freqs => (freqs, num_leafs)
  | fuel + 1, num_leafs, freqs =>
    -- the test reads num_leafs, then the increment happens, also when the test fails
    if num_leafs < 2 then
      dummyLoop max_symbols fuel (num_leafs + 1) (setFirstUnused freqs max_symbols)
    else (freqs, num_leafs + 1)

/-- `HUF_InitFreqs` and `HUF_CreateFreqs`: `(freqs, num_leafs, num_nodes)`. -/
def HUF_CreateFreqs (num_bits : Nat) (raw_buffer : List Nat) : (Nat → Nat) × Nat × Nat :=
  let max_symbols := 1 <<< num_bits
  let freqs := countFreqs (fun _ => 0) (symbolsOf num_bits raw_buffer)
  let num_leafs := countLeafs freqs max_symbols
  let fl : (Nat → Nat) × Nat :=
    if num_leafs < 2 then
      let freqs := if num_leafs = 1 then setFirstUsed freqs max_symbols else freqs
      dummyLoop max_symbols 3 num_leafs freqs
    else (freqs, num_leafs)
  -- num_nodes = (num_leafs << 1) - 1;
  (fl.1, fl.2, usub (fl.2 <<< 1) 1)

/-- The first loop of `HUF_CreateTree`: one leaf per symbol with a non-zero
frequency, in ascending symbol order. -/
def createLeaves (freqs : Nat → Nat) (max_symbols : Nat) : List HNode :=
  ((List.range max_symbols).filter (fun i => freqs i ≠ 0)).map
    (fun i => { symbol := i, weight := freqs i, leafs := 1,
                dad := none, lson := none, rson := none })

/-- Scan state of the selection loop of `HUF_CreateTree`: `lnode`, `rnode`
(indices into `tree`), `lweight`, `rweight`. -/
structure Pick where
  lnode : Option Nat
  rnode : Option Nat
  lweight : Nat
  rweight : Nat
deriving Repr, DecidableEq

/-- One round `i` of `for (i = 0; i < num_node; i++) if (tree[i]->dad == NULL) …`. -/
def pickStep (pk : Pick) (i : Nat) (nd : HNode) : Pick :=
  if nd.dad = none then
    if pk.lweight = 0 ∨ nd.weight < pk.lweight then
      { lnode := some i, rnode := pk.lnode, lweight := nd.weight, rweight := pk.lweight }
    else if pk.rweight = 0 ∨ nd.weight < pk.rweight then
      { pk with rnode := some i, rweight := nd.weight }
    else pk
  else pk

/-- The selection loop over `tree[i ..]`. -/
def pickLoop : List HNode → Nat → Pick → Pick
  | [], _, pk => pk
  | nd :: rest, i, pk => pickLoop rest (i + 1) (pickStep pk i nd)

/-- `node->dad = v` for the node at index `i`. -/
def setDad (tree : List HNode) (i v : Nat) : List HNode :=
  match tree.get? i with
  | some nd => tree.set i { nd with dad := some v }
  | none => tree

/-- The loop `while (num_node < num_nodes)` of `HUF_CreateTree` with `n`
rounds left (`num_nodes - num_node`); `num_node` is `tree.length`.  `none`:
`lnode` or `rnode` is `NULL` when it is dereferenced. -/
def mergeLoop (num_leafs max_symbols : Nat) : Nat → List HNode → Option (List HNode)
  | 0, tree => some tree
  | n + 1, tree =>
    let pk := pickLoop tree 0 { lnode := none, rnode := none, lweight := 0, rweight := 0 }
    match pk.lnode, pk.rnode with
    | some l, some r =>
      match tree.get? l, tree.get? r with
      | some lnode, some rnode =>
        let num_node := tree.length + 1
        let node : HNode :=
          { symbol := uadd (usub num_node num_leafs) max_symbols,
            weight := uadd lnode.weight rnode.weight,
            leafs := uadd lnode.leafs rnode.leafs,
            dad := none, lson := some l, rson := some r }
        -- lnode->dad = rnode->dad = node;
        let tree := setDad (setDad (tree ++ [node]) r tree.length) l tree.length
        mergeLoop num_leafs max_symbols n tree
      | _, _ => none
    | _, _ => none

/-- `HUF_InitTree` and `HUF_CreateTree`. -/
def HUF_CreateTree (freqs : Nat → Nat) (max_symbols num_leafs num_nodes : Nat) :
    Option (List HNode) :=
  let leaves := createLeaves freqs max_symbols
  mergeLoop num_leafs max_symbols (num_nodes - leaves.length) leaves

/-- The tables `codetree` and `codemask` (both of `max_nodes` bytes). -/
structure CodeTree where
  codetree : List Nat
  codemask : List Nat
deriving Repr, DecidableEq

/-- `HUF_InitCodeTree`: two zero-filled tables of
`max_nodes = (((num_leafs - 1) | 1) + 1) << 1` bytes. -/
def HUF_InitCodeTree (num_leafs : Nat) : CodeTree :=
  let max_nodes := (uadd (usub num_leafs 1 ||| 1) 1 <<< 1) % 2 ^ 32
  { codetree := List.replicate max_nodes 0, codemask := List.replicate max_nodes 0 }

/-- `codetree[i] = v; codemask[i] = m;`, `none` when `i` is outside the tables. -/
def putNode (ct : CodeTree) (i v m : Nat) : Option CodeTree :=
  if i < ct.codetree.length ∧ i < ct.codemask.length then
    some { codetree := ct.codetree.set i (v % 256), codemask := ct.codemask.set i (m % 256) }
  else none

/-- The loop `while (s < r)` of the first regime of `HUF_CreateCodeBranch`.
`stack` is the whole array written so far (`r = stack.length`), `s` the read
index, `q` the next free slot; `fuel` bounds the rounds. -/
def branchLoop (tree : List HNode) (p : Nat) :
    Nat → List Nat → Nat → Nat → CodeTree → Option CodeTree
  | 0, stack, s, _, ct => if s < stack.length then none else some ct
  | fuel + 1, stack, s, q, ct =>
    if s < stack.length then
      match stack.get? s with
      | none => none
      | some ni =>
        match tree.get? ni with
        | none => none
        | some node =>
          let s := s + 1
          if node.leafs = 1 then
            match putNode ct (if s = 1 then p else q) node.symbol 0xFF with
            | none => none
            | some ct => branchLoop tree p fuel stack s (if s = 1 then q else q + 1) ct
          else
            match node.lson, node.rson with
            | some l, some r =>
              match tree.get? l, tree.get? r with
              | some lnode, some rnode =>
                let mask := (if lnode.leafs = 1 then HUF_LCHAR else 0) |||
                            (if rnode.leafs = 1 then HUF_RCHAR else 0)
                match putNode ct (if s = 1 then p else q) ((stack.length - s) >>> 1) mask with
                | none => none
                | some ct =>
                  branchLoop tree p fuel (stack ++ [l, r]) s (if s = 1 then q else q + 1) ct
              | _, _ => none
            | _, _ => none
    else some ct

/-- `HUF_CreateCodeBranch(root, p, q)`: the tables afterwards and the return
value `root->leafs`; `fuel` bounds the depth of the recursion. -/
def HUF_CreateCodeBranch (tree : List HNode) :
    Nat → Nat → Nat → Nat → CodeTree → Option (CodeTree × Nat)
  | 0, _, _, _, _ => none
  | fuel + 1, root, p, q, ct =>
    match tree.get? root with
    | none => none
    | some node =>
      if node.leafs ≤ HUF_NEXT + 1 then
        match branchLoop tree p (2 * tree.length + 1) [root] 0 q ct with
        | none => none
        | some ct => some (ct, node.leafs)
      else
        match node.lson, node.rson with
        | some l, some r =>
          match tree.get? l, tree.get? r with
          | some lnode, some rnode =>
            let mask := (if lnode.leafs = 1 then HUF_LCHAR else 0) |||
                        (if rnode.leafs = 1 then HUF_RCHAR else 0)
            -- codetree[p] = 0; codemask[p] = mask;
            match putNode ct p 0 mask with
            | none => none
            | some ct =>
              if lnode.leafs ≤ rnode.leafs then
                match HUF_CreateCodeBranch tree fuel l q (q + 2) ct with
                | none => none
                | some (ct, l_leafs) =>
                  match HUF_CreateCodeBranch tree fuel r (q + 1) (q + (l_leafs <<< 1)) ct with
                  | none => none
                  | some (ct, _) =>
                    -- codetree[q + 1] = l_leafs - 1;
                    if q + 1 < ct.codetree.length then
                      some ({ ct with codetree := ct.codetree.set (q + 1) (usub l_leafs 1 % 256) },
                            node.leafs)
                    else none
              else
                match HUF_CreateCodeBranch tree fuel r (q + 1) (q + 2) ct with
                | none => none
                | some (ct, r_leafs) =>
                  match HUF_CreateCodeBranch tree fuel l q (q + (r_leafs <<< 1)) ct with
                  | none => none
                  | some (ct, _) =>
                    -- codetree[q] = r_leafs - 1;
                    if q < ct.codetree.length then
                      some ({ ct with codetree := ct.codetree.set q (usub r_leafs 1 % 256) },
                            node.leafs)
                    else none
          | _, _ => none
        | _, _ => none

/-- Read of a table byte, `none` outside the table. -/
def rd (t : List Nat) (i : Nat) : Option Nat := t.get? i

/-- Write of a table byte, `none` outside the table. -/
def wr (t : List Nat) (i v : Nat) : Option (List Nat) :=
  if i < t.length then some (t.set i (v % 256)) else none

/-- The loop `for (j = l1; j > l0; j -= 2)` of `HUF_UpdateCodeTree`, moving
the two-byte units of one table up by one unit; `n` rounds left. -/
def slideLoop (l0 : Nat) : Nat → Nat → List Nat → Option (List Nat)
  | 0, _, t => some t
  | n + 1, j, t =>
    if j > l0 then
      match rd t (usub j 2), rd t (usub j 2 + 1) with
      | some a, some b =>
        match wr t j a with
        | none => none
        | some t =>
          match wr t (j + 1) b with
          | none => none
          | some t => slideLoop l0 n (usub j 2) t
      | _, _ => none
    else some t

/-- The loop `for (j = i + 1; j < l0; j++)` of `HUF_UpdateCodeTree`:
`if (codemask[j] != 0xFF) { k = (j >> 1) + 1 + codetree[j];
if ((k >= n0) && (k < n1)) codetree[j]++; }`; `n` rounds left. -/
def bumpLoop (codemask : List Nat) (l0 n0 n1 : Nat) : Nat → Nat → List Nat → Option (List Nat)
  | 0, _, t => some t
  | n + 1, j, t =>
    if j < l0 then
      match rd codemask j, rd t j with
      | some m, some c =>
        if m ≠ 0xFF then
          let k := (j >>> 1) + 1 + c
          if k ≥ n0 ∧ k < n1 then
            match wr t j (c + 1) with
            | none => none
            | some t => bumpLoop codemask l0 n0 n1 n (j + 1) t
          else bumpLoop codemask l0 n0 n1 n (j + 1) t
        else bumpLoop codemask l0 n0 n1 n (j + 1) t
      | _, _ => none
    else some t

/-- The loop `for (j = l0 + 2; j < l1 + 2; j++)` of `HUF_UpdateCodeTree`:
`if (codemask[j] != 0xFF) { k = (j >> 1) + 1 + codetree[j];
if (k > n1) codetree[j]--; }`; `n` rounds left. -/
def dropLoop (codemask : List Nat) (l1 n1 : Nat) : Nat → Nat → List Nat → Option (List Nat)
  | 0, _, t => some t
  | n + 1, j, t =>
    if j < l1 + 2 then
      match rd codemask j, rd t j with
      | some m, some c =>
        if m ≠ 0xFF then
          let k := (j >>> 1) + 1 + c
          if k > n1 then
            match wr t j (usub c 1) with
            | none => none
            | some t => dropLoop codemask l1 n1 n (j + 1) t
          else dropLoop codemask l1 n1 n (j + 1) t
        else dropLoop codemask l1 n1 n (j + 1) t
      | _, _ => none
    else some t

/-- The choice at the head of the `if` body of `HUF_UpdateCodeTree`:
`if ((i & 1) && (codetree[i-1] == HUF_NEXT)) { i--; inc = 1; }
else if (!(i & 1) && (codetree[i+1] == HUF_NEXT)) { i++; inc = 1; }
else inc = codetree[i] - HUF_NEXT;` as the pair `(i, inc)`. -/
def updateSel (codetree : List Nat) (i : Nat) : Option (Nat × Nat) :=
  let nb := if i &&& 1 ≠ 0 then usub i 1 else i + 1
  match rd codetree i, rd codetree nb with
  | some ci, some c => if c = HUF_NEXT then some (nb, 1) else some (i, usub ci HUF_NEXT)
  | _, _ => none

/-- `if (codemask[j] != 0xFF) codetree[j] += inc;` -/
def updateFix (codemask : List Nat) (inc : Nat) (t : List Nat) (j : Nat) : Option (List Nat) :=
  match rd codemask j, rd t j with
  | some mj, some c => if mj ≠ 0xFF then wr t j (c + inc) else some t
  | _, _ => none

/-- `tmp = *(short *)(t + l1); for (j = l1; j > l0; j -= 2) *(short *)(t + j) =
*(short *)(t + j - 2); *(short *)(t + l0) = tmp;` on one table `t`. -/
def slidePair (t : List Nat) (l0 l1 : Nat) : Option (List Nat) :=
  match rd t l1, rd t (l1 + 1) with
  | some a, some b =>
    match slideLoop l0 (l1 + 1) l1 t with
    | none => none
    | some t =>
      match wr t l0 a with
      | none => none
      | some t => wr t (l0 + 1) b
  | _, _ => none

/-- `codetree[i] -= inc;` -/
def updateDec (t : List Nat) (i inc : Nat) : Option (List Nat) :=
  match rd t i with
  | none => none
  | some c => wr t i (usub c inc)

/-- The adjustments of `HUF_UpdateCodeTree` after the slide, on the table
`codetree` (`t`) with the slid `codemask` (`m`): shorten the offset at `i`,
then the three passes over the offsets that cross the moved pair. -/
def updateAdjust (m t : List Nat) (i inc n0 n1 : Nat) : Option (List Nat) :=
  let l1 := n1 <<< 1
  let l0 := n0 <<< 1
  match updateDec t i inc with
  | none => none
  | some t =>
    -- for (j = i + 1; j < l0; j++) { … }
    match bumpLoop m l0 n0 n1 (l0 + 1) (i + 1) t with
    | none => none
    | some t =>
      -- if (codemask[l0 + 0] != 0xFF) codetree[l0 + 0] += inc; (and l0 + 1)
      match updateFix m inc t l0 with
      | none => none
      | some t =>
        match updateFix m inc t (l0 + 1) with
        | none => none
        | some t =>
          -- for (j = l0 + 2; j < l1 + 2; j++) { … }
          dropLoop m l1 n1 (l1 + 3) (l0 + 2) t

/-- The rest of the `if` body of `HUF_UpdateCodeTree` for the slot `i` and the
increment `inc` chosen: slide the child pairs of both tables, then adjust the
offsets. -/
def updateMove (ct : CodeTree) (i inc : Nat) : Option CodeTree :=
  match rd ct.codetree i with
  | none => none
  | some ci =>
    -- n1 = (i >> 1) + 1 + codetree[i]; n0 = n1 - inc; l1 = n1 << 1; l0 = n0 << 1;
    let n1 := (i >>> 1) + 1 + ci
    let n0 := usub n1 inc
    match slidePair ct.codetree (n0 <<< 1) (n1 <<< 1), slidePair ct.codemask (n0 <<< 1) (n1 <<< 1) with
    | some t, some m =>
      match updateAdjust m t i inc n0 n1 with
      | none => none
      | some t => some { codetree := t, codemask := m }
    | _, _ => none

/-- The body of the `if` of `HUF_UpdateCodeTree` for the slot `i`: the tables
afterwards and the new value of `i` (before the `i++` of the loop), which is
`(i | 1) - 2` for the slot chosen. -/
def updateAt (ct : CodeTree) (i : Nat) : Option (CodeTree × Nat) :=
  match updateSel ct.codetree i with
  | none => none
  | some (i, inc) =>
    match updateMove ct i inc with
    | none => none
    | some ct => some (ct, usub (i ||| 1) 2)

/-- The loop `for (i = 1; i < max; i++)` of `HUF_UpdateCodeTree`; `fuel`
bounds the rounds. -/
def updateLoop (max : Nat) : Nat → Nat → CodeTree → Option CodeTree
  | 0, i, ct => if i < max then none else some ct
  | fuel + 1, i, ct =>
    if i < max then
      match rd ct.codemask i, rd ct.codetree i with
      | some m, some c =>
        if m ≠ 0xFF ∧ c > HUF_NEXT then
          match updateAt ct i with
          | none => none
          | some (ct, i) => updateLoop max fuel (uadd i 1) ct
        else updateLoop max fuel (uadd i 1) ct
      | _, _ => none
    else some ct

/-- `HUF_UpdateCodeTree`. -/
def HUF_UpdateCodeTree (fuel : Nat) (ct : CodeTree) : Option CodeTree :=
  match rd ct.codetree 0 with
  | none => none
  | some c0 => updateLoop ((c0 + 1) <<< 1) fuel 1 ct

/-- The loop `while (--i) if (codemask[i] != 0xFF) codetree[i] |= codemask[i];`
of `HUF_CreateCodeTree` over the slots `i = n, n-1, …, 1`. -/
def maskLoop : Nat → CodeTree → Option CodeTree
  | 0, ct => some ct
  | i + 1, ct =>
    match rd ct.codemask (i + 1), rd ct.codetree (i + 1) with
    | some m, some c =>
      if m ≠ 0xFF then
        match wr ct.codetree (i + 1) (c ||| m) with
        | none => none
        | some t => maskLoop i { ct with codetree := t }
      else maskLoop i ct
    | _, _ => none

/-- The rounds granted to the loop of `HUF_UpdateCodeTree`. -/
def updateFuel : Nat := 2 ^ 24

/-- `HUF_InitCodeTree` and `HUF_CreateCodeTree`: the table `codetree`. -/
def HUF_CreateCodeTree (tree : List HNode) (num_leafs num_nodes : Nat) : Option (List Nat) :=
  let ct := HUF_InitCodeTree num_leafs
  -- codetree[0] = (num_leafs - 1) | 1; codemask[0] = 0;
  match putNode ct 0 (usub num_leafs 1 ||| 1) 0 with
  | none => none
  | some ct =>
    match HUF_CreateCodeBranch tree (tree.length + 1) (usub num_nodes 1) 1 2 ct with
    | none => none
    | some (ct, _) =>
      match HUF_UpdateCodeTree updateFuel ct with
      | none => none
      | some ct =>
        match rd ct.codetree 0 with
        | none => none
        | some c0 =>
          match maskLoop (((c0 + 1) <<< 1) - 1) ct with
          | none => none
          | some ct => some ct.codetree

/-- The walk `while (node->dad != NULL) { scode[nbits++] = …; node = node->dad; }`
of `HUF_CreateCodeWorks`: the list `scode[0 .. nbits)`; `fuel` bounds the
rounds. -/
def climb (tree : List HNode) : Nat → Nat → Option (List Nat)
  | 0, _ => none
  | fuel + 1, ni =>
    match tree.get? ni with
    | none => none
    | some node =>
      match node.dad with
      | none => some []
      | some d =>
        match tree.get? d with
        | none => none
        | some dnode =>
          match climb tree fuel d with
          | none => none
          | some rest => some ((if dnode.lson = some ni then HUF_LNODE else HUF_RNODE) :: rest)

/-- The packing loop of `HUF_CreateCodeWorks`,
`for (nbit = nbits; nbit; nbit--) { if (scode[nbit-1]) codework[j] |= mask; … }`,
over the bits in the order read (`scode` reversed); `cur` is the byte
`codework[j]` being filled, `done` the bytes before it. -/
def packBits : List Nat → Nat → Nat → List Nat → List Nat
  | [], mask, cur, done => if mask = HUF_MASK then done else done ++ [cur]
  | b :: bits, mask, cur, done =>
    let cur := if b ≠ 0 then cur ||| mask else cur
    if mask >>> 1 = 0 then packBits bits HUF_MASK 0 (done ++ [cur])
    else packBits bits (mask >>> 1) cur done

/-- `HUF_InitCodeWorks` and `HUF_CreateCodeWorks`: the table `codes`, with `n`
leaves left to do starting at `tree[i]`. -/
def createCodeWorks (tree : List HNode) :
    Nat → Nat → (Nat → Option HCode) → Option (Nat → Option HCode)
  | 0, _, codes => some codes
  | n + 1, i, codes =>
    match tree.get? i with
    | none => none
    | some node =>
      match climb tree (tree.length + 1) i with
      | none => none
      | some scode =>
        let code : HCode := { nbits := scode.length, codework := packBits scode.reverse HUF_MASK 0 [] }
        createCodeWorks tree n (i + 1) (fun s => if s = node.symbol then some code else codes s)

/-- `HUF_CreateCodeWorks`. -/
def HUF_CreateCodeWorks (tree : List HNode) (num_leafs : Nat) : Option (Nat → Option HCode) :=
  createCodeWorks tree num_leafs 0 (fun _ => none)

/-- Bit writer state of `HUF_Code`: `mask4`, the word `*pk4` being filled
(`none` before the first word is opened) and the words completed before it. -/
structure BitOut where
  mask4 : Nat
  cur : Option Nat
  words : List Nat
deriving Repr, DecidableEq

/-- The loop `while (len--)` of `HUF_Code` emitting one code: bit `k` of the
code is `codework[k / 8] & (0x80 >> (k % 8))`; `n` bits left. -/
def emitCode (codework : List Nat) : Nat → Nat → BitOut → BitOut
  | 0, _, bo => bo
  | n + 1, k, bo =>
    -- if (!(mask4 >>= HUF_SHIFT)) { mask4 = HUF_MASK4; *(pk4 = pak) = 0; pak += 4; }
    let bo : BitOut :=
      if bo.mask4 >>> 1 = 0 then
        { mask4 := HUF_MASK4, cur := some 0,
          words := match bo.cur with
            | some w => bo.words ++ [w]
            | none => bo.words }
      else { bo with mask4 := bo.mask4 >>> 1 }
    -- if (*cwork & mask) *pk4 |= mask4;
    let bit := codework.getD (k / 8) 0 &&& (HUF_MASK >>> (k % 8))
    let bo := if bit ≠ 0 then { bo with cur := bo.cur.map (fun w => w ||| bo.mask4) } else bo
    emitCode codework n (k + 1) bo

/-- The emission loop of `HUF_Code` over the symbols of the input; `none`: a
symbol without a code (`EXIT`). -/
def emitAll (codes : Nat → Option HCode) : List Nat → BitOut → Option BitOut
  | [], bo => some bo
  | sym :: rest, bo =>
    match codes sym with
    | none => none
    | some code => emitAll codes rest (emitCode code.codework code.nbits 0 bo)

/-- `HUF_Code`: the bytes `pak_buffer[0 .. new_len)`. -/
def HUF_Code (num_bits : Nat) (raw_buffer : List Nat) : Option (List Nat) :=
  let raw_len := raw_buffer.length
  let max_symbols := 1 <<< num_bits
  -- *(unsigned int *)pak_buffer = (CMD_CODE_20 + num_bits) | (raw_len << 8);
  let header := ((CMD_CODE_20 + num_bits) ||| (raw_len <<< 8)) % 2 ^ 32
  let fr := HUF_CreateFreqs num_bits raw_buffer
  let freqs := fr.1
  let num_leafs := fr.2.1
  let num_nodes := fr.2.2
  match HUF_CreateTree freqs max_symbols num_leafs num_nodes with
  | none => none
  | some tree =>
    match HUF_CreateCodeTree tree num_leafs num_nodes with
    | none => none
    | some codetree =>
      match HUF_CreateCodeWorks tree num_leafs with
      | none => none
      | some codes =>
        -- cod = codetree; len = (*cod + 1) << 1; while (len--) *pak++ = *cod++;
        let len := (codetree.getD 0 0 + 1) <<< 1
        if codetree.length < len then none
        else
          match emitAll codes (symbolsOf num_bits raw_buffer) { mask4 := 0, cur := none, words := [] } with
          | none => none
          | some bo =>
            let words := match bo.cur with
              | some w => bo.words ++ [w]
              | none => bo.words
            some (write32le header ++ codetree.take len ++ words.flatMap write32le)

/-- `HUF_Encode` for `cmd` one of `CMD_CODE_24`, `CMD_CODE_28` (so that
`num_bits = cmd & 0xF` is not zero): the bytes of `pak_buffer`; `none` when
the function returns `NULL` or does not return. -/
def HUF_Encode (file : List Nat) (cmd : Nat) : Option (List Nat) :=
  let num_bits := cmd &&& 0xF
  let pak_len := HUF_MAXIM + 1
  match HUF_Code num_bits file with
  | none => none
  | some new_buffer => if new_buffer.length < pak_len then some new_buffer else none

/-- `huffman_encode`: `none` when no output record is produced (the width is
neither 4 nor 8, the result is `NULL`, or the call does not return). -/
def huffman_encode (src : List Nat) (data_len : Nat) : Option (List Nat) :=
  if data_len ≠ 4 ∧ data_len ≠ 8 then none
  else HUF_Encode src (if data_len = 8 then CMD_CODE_28 else CMD_CODE_24)

/-- Decoder state of `HUF_Decode`: `pak` (index of the next code word),
`mask4`, `code`, `pos`, `next`, `nbits`, the byte `*raw` under construction and
the bytes completed before it. -/
structure HDec where
  pak : Nat
  mask4 : Nat
  code : Nat
  pos : Nat
  next : Nat
  nbits : Nat
  cur : Nat
  raw : List Nat
deriving Repr, DecidableEq

/-- The loop `while (raw < raw_end)` of `HUF_Decode`.  `buf` is `pak_buffer`
(the file and three zero bytes), `pak_len` the file length, `tree` the index
of the table; `none`: a read outside `pak_buffer`. -/
def hufDecLoop (buf : List Nat) (pak_len num_bits raw_len tree : Nat) :
    Nat → HDec → Option (List Nat)
  | 0, d => if d.raw.length < raw_len then none else some d.raw
  | fuel + 1, d =>
    if d.raw.length < raw_len then
      -- if (!(mask4 >>= HUF_SHIFT)) { if (pak + 3 >= pak_end) break; code = …; pak += 4; mask4 = HUF_MASK4; }
      let m := d.mask4 >>> 1
      if m = 0 ∧ d.pak + 3 ≥ pak_len then some d.raw
      else
        let w : Option (Nat × Nat × Nat) :=
          if m = 0 then
            match buf.get? d.pak, buf.get? (d.pak + 1), buf.get? (d.pak + 2), buf.get? (d.pak + 3) with
            | some b0, some b1, some b2, some b3 =>
              some (HUF_MASK4, read32le b0 b1 b2 b3, d.pak + 4)
            | _, _, _, _ => none
          else some (m, d.code, d.pak)
        match w with
        | none => none
        | some (mask4, code, pak) =>
          -- next += ((pos & HUF_NEXT) + 1) << 1;
          let next := uadd d.next (((d.pos &&& HUF_NEXT) + 1) <<< 1)
          let right := code &&& mask4 ≠ 0
          let ch := if right then d.pos &&& HUF_RCHAR else d.pos &&& HUF_LCHAR
          match buf.get? (tree + next + (if right then 1 else 0)), buf.get? (tree + 1) with
          | some pos, some root =>
            if ch ≠ 0 then
              -- *raw = (*raw << num_bits) | pos; if (!(nbits = (nbits + num_bits) & 7)) raw++;
              let cur := ((d.cur <<< num_bits) ||| pos) % 256
              let nbits := (d.nbits + num_bits) &&& 7
              if nbits = 0 then
                hufDecLoop buf pak_len num_bits raw_len tree fuel
                  { pak := pak, mask4 := mask4, code := code, pos := root, next := 0,
                    nbits := nbits, cur := 0, raw := d.raw ++ [cur] }
              else
                hufDecLoop buf pak_len num_bits raw_len tree fuel
                  { pak := pak, mask4 := mask4, code := code, pos := root, next := 0,
                    nbits := nbits, cur := cur, raw := d.raw }
            else
              hufDecLoop buf pak_len num_bits raw_len tree fuel
                { d with pak := pak, mask4 := mask4, code := code, pos := pos, next := next }
          | _, _ => none
    else some d.raw

/-- `HUF_Decode` / `huffman_decode`: the first `outsize` bytes of the output
block; `some []` is the `NULL` result with `outsize = 0`. -/
def huffman_decode (file : List Nat) : Option (List Nat) :=
  -- pak_buffer = Load(file, filelen);
  let buf := file ++ [0, 0, 0]
  let pak_len := file.length
  match buf with
  | b0 :: b1 :: b2 :: b3 :: rest =>
    let header := b0
    if header ≠ CMD_CODE_24 ∧ header ≠ CMD_CODE_28 then some []
    else
      let num_bits := header &&& 0xF
      let raw_len := read32le b0 b1 b2 b3 >>> 8
      match rest with
      | t0 :: pos :: _ =>
        -- tree = pak; pak += (*pak + 1) << 1; pos = *(tree + 1);
        hufDecLoop buf pak_len num_bits raw_len 4 (8 * pak_len + 1)
          { pak := 4 + ((t0 + 1) <<< 1), mask4 := 0, code := 0, pos := pos, next := 0,
            nbits := 0, cur := 0, raw := [] }
      | _ => none
  | _ =>
    -- the file is empty: the header byte read is the zero of the padding
    some []

/-! ## huffman_decode_vba.c

The input is taken as a little-endian byte buffer (`read32le`); the output
block `out` has `len` bytes, and a `write32le` that does not fit into it is an
access outside the block. -/

/-- Loop state of `huffman_decode_vba`: the locals `src` (as an index into
`in`), `data`, `mask`, `pos`, `currentNode`, `writeValue`, `byteShift`,
`byteCount`, `len`, `halfLen`, `value`, and the bytes written to `out`. -/
structure VbaState where
  src : Nat
  data : Nat
  mask : Nat
  pos : Nat
  currentNode : Nat
  writeValue : Nat
  byteShift : Nat
  byteCount : Nat
  len : Nat
  halfLen : Nat
  value : Nat
  out : List Nat
deriving Repr, DecidableEq

/-- The part common to both loops of `huffman_decode_vba`: move `pos` to the
child pair, follow the bit `data & mask`, and report `writeData`. -/
def vbaWalk (inp : List Nat) (v : VbaState) : Option (VbaState × Bool) :=
  -- if(pos == 0) pos++; else pos += ((currentNode & 0x3f)+1)<<1;
  let pos := if v.pos = 0 then 1 else uadd v.pos (((v.currentNode &&& 0x3f) + 1) <<< 1)
  if v.data &&& v.mask ≠ 0 then
    match inp.get? (5 + pos + 1) with
    | none => none
    | some c => some ({ v with pos := pos, currentNode := c }, v.currentNode &&& 0x40 ≠ 0)
  else
    match inp.get? (5 + pos) with
    | none => none
    | some c => some ({ v with pos := pos, currentNode := c }, v.currentNode &&& 0x80 ≠ 0)

/-- The end of a round of either loop: `mask >>= 1; if(mask == 0) { … }`.
`strict` is the comparison of the 4-bit loop (`src-in > insize`), the 8-bit
loop has `src-in >= insize`.  `none`: a read outside `in`; `some (v, true)`:
the `break`. -/
def vbaRefill (inp : List Nat) (insize : Nat) (strict : Bool) (v : VbaState) :
    Option (VbaState × Bool) :=
  let mask := v.mask >>> 1
  if mask = 0 then
    if (if strict then v.src > insize else v.src ≥ insize) then some ({ v with mask := mask }, true)
    else
      match inp.get? v.src, inp.get? (v.src + 1), inp.get? (v.src + 2), inp.get? (v.src + 3) with
      | some b0, some b1, some b2, some b3 =>
        some ({ v with mask := 0x80000000, data := read32le b0 b1 b2 b3, src := v.src + 4 }, false)
      | _, _, _, _ => none
  else some ({ v with mask := mask }, false)

/-- `write32le(dst, writeValue); dst += 4; len -= 4;` with the counters reset;
`none` when the four bytes do not fit into the block of `cap` bytes. -/
def vbaFlush (cap : Nat) (v : VbaState) : Option VbaState :=
  if v.out.length + 4 ≤ cap then
    some { v with byteCount := 0, byteShift := 0, writeValue := 0,
                  out := v.out ++ write32le v.writeValue, len := usub v.len 4 }
  else none

/-- The loop `while(len > 0)` for `CPRS_HUFF8_TAG`. -/
def vbaLoop8 (inp : List Nat) (insize cap root : Nat) : Nat → VbaState → Option (List Nat)
  | 0, v => if v.len > 0 then none else some v.out
  | fuel + 1, v =>
    if v.len > 0 then
      match vbaWalk inp v with
      | none => none
      | some (v, writeData) =>
        let w : Option VbaState :=
          if writeData then
            let v := { v with writeValue := (v.writeValue ||| (v.currentNode <<< v.byteShift)) % 2 ^ 32,
                              byteCount := v.byteCount + 1, byteShift := v.byteShift + 8,
                              pos := 0, currentNode := root }
            if v.byteCount = 4 then vbaFlush cap v else some v
          else some v
        match w with
        | none => none
        | some v =>
          match vbaRefill inp insize false v with
          | none => none
          | some (v, true) => some v.out
          | some (v, false) => vbaLoop8 inp insize cap root fuel v
    else some v.out

/-- The loop `while(len > 0)` for `CPRS_HUFF4_TAG`. -/
def vbaLoop4 (inp : List Nat) (insize cap root : Nat) : Nat → VbaState → Option (List Nat)
  | 0, v => if v.len > 0 then none else some v.out
  | fuel + 1, v =>
    if v.len > 0 then
      match vbaWalk inp v with
      | none => none
      | some (v, writeData) =>
        let w : Option VbaState :=
          if writeData then
            -- if(halfLen == 0) value |= currentNode; else value |= (currentNode<<4);
            let value := if v.halfLen = 0 then v.value ||| v.currentNode
                         else v.value ||| (v.currentNode <<< 4)
            let halfLen := v.halfLen + 4
            let v := { v with value := value, halfLen := halfLen, pos := 0, currentNode := root }
            if halfLen = 8 then
              let v := { v with writeValue := (v.writeValue ||| (v.value <<< v.byteShift)) % 2 ^ 32,
                                byteCount := v.byteCount + 1, byteShift := v.byteShift + 8,
                                halfLen := 0, value := 0 }
              if v.byteCount = 4 then vbaFlush cap v else some v
            else some v
          else some v
        match w with
        | none => none
        | some v =>
          match vbaRefill inp insize true v with
          | none => none
          | some (v, true) => some v.out
          | some (v, false) => vbaLoop4 inp insize cap root fuel v
    else some v.out

/-- `huffman_decode_vba`: the `dst - out` bytes written; `some []` is the
return value 0 on a tag mismatch. -/
def huffman_decode_vba (data : List Nat) : Option (List Nat) :=
  let insize := data.length
  -- u32 leftover = insize & 3; if (leftover) in = calloc(insize + (4-leftover),1) + memcpy
  let leftover := insize &&& 3
  let inp := if leftover ≠ 0 then data ++ List.replicate (4 - leftover) 0 else data
  match inp with
  | s0 :: s1 :: s2 :: s3 :: treeSize :: rootNode :: _ =>
    if s0 ≠ CPRS_HUFF8_TAG ∧ s0 ≠ CPRS_HUFF4_TAG then some []
    else
      let len := s1 + (s2 <<< 8) + (s3 <<< 16)
      -- src += (treeSize<<1) + 1; data = read32le(src); src += 4;
      let src := 5 + (treeSize <<< 1) + 1
      match inp.get? src, inp.get? (src + 1), inp.get? (src + 2), inp.get? (src + 3) with
      | some b0, some b1, some b2, some b3 =>
        let v : VbaState :=
          { src := src + 4, data := read32le b0 b1 b2 b3, mask := 0x80000000, pos := 0,
            currentNode := rootNode, writeValue := 0, byteShift := 0, byteCount := 0,
            len := len, halfLen := 0, value := 0, out := [] }
        if s0 = CPRS_HUFF8_TAG then vbaLoop8 inp insize len rootNode (8 * inp.length + 1) v
        else vbaLoop4 inp insize len rootNode (8 * inp.length + 64) v
      | _, _, _, _ => none
  | s0 :: _ => if s0 ≠ CPRS_HUFF8_TAG ∧ s0 ≠ CPRS_HUFF4_TAG then some [] else none
  | [] => none

end Gbacomp

namespace Gbacomp

/-! ## Auxiliary notions used in the statements and proofs -/

/-- One stint of an RLE payload: a literal stint carrying its bytes, or a run
stint of `n` copies of `v`. -/
inductive Stint where
  | lit (bytes : List Nat)
  | run (n v : Nat)
deriving Repr, DecidableEq

/-- The bytes a stint occupies in the payload: the control byte and its data. -/
def Stint.encode : Stint → List Nat
  | .lit bytes => (bytes.length - 1) :: bytes
  | .run n v => [128 + (n - 3), v]

/-- The bytes a stint stands for. -/
def Stint.expand : Stint → List Nat
  | .lit bytes => bytes
  | .run n v => List.replicate n v

/-- The length bounds of the format: 1 to 128 literals, runs of 3 to 130. -/
def Stint.ok : Stint → Prop
  | .lit bytes => 1 ≤ bytes.length ∧ bytes.length ≤ 128
  | .run n _ => 3 ≤ n ∧ n ≤ 130

instance (s : Stint) : Decidable s.ok := by
  cases s <;> (unfold Stint.ok; infer_instance)

/-- The payload of a list of stints. -/
def encodeStints (ss : List Stint) : List Nat := ss.flatMap Stint.encode

/-- The bytes a list of stints stands for. -/
def expandStints (ss : List Stint) : List Nat := ss.flatMap Stint.expand

/-- Loop invariant of `rle8gba_compress` at the head of round `ii`: the
payload written so far is a list of well-formed stints standing for the input
up to the pending literal stretch (`non - 1` bytes) and the pending run
(`rle` bytes, all equal), which end at `ii`. -/
def RleInv (srcD : List Nat) (ii : Nat) (st : RleState) : Prop :=
  ∃ ss : List Stint, st.dst = encodeStints ss ∧ (∀ s ∈ ss, s.ok) ∧
    expandStints ss = srcD.take (ii + 1 - st.rle - st.non) ∧
    1 ≤ st.rle ∧ 1 ≤ st.non ∧ st.rle + st.non ≤ ii + 1 ∧ st.rle ≤ 130 ∧
    (3 ≤ st.rle → st.non = 1) ∧ (st.rle < 3 → st.non + st.rle ≤ 129) ∧
    (∀ j, ii - st.rle ≤ j → j < ii → srcD.getD j 0 = srcD.getD (ii - 1) 0) ∧
    (ii ≤ srcD.length → st.prev = srcD.getD (ii - 1) 0) ∧
    (ii = srcD.length + 1 → st.rle = 1 ∧ st.non = 1)

/-- Two tables agree in their length and in the slots 0 and 1. -/
def Agree2 (t t' : List Nat) : Prop :=
  t'.length = t.length ∧ t'.get? 0 = t.get? 0 ∧ t'.get? 1 = t.get? 1

/-- Both tables of a code tree agree in length and in the slots 0 and 1. -/
def AgreeCT (ct ct' : CodeTree) : Prop :=
  Agree2 ct.codetree ct'.codetree ∧ Agree2 ct.codemask ct'.codemask

/-- The entry for the root of the code tree (slot 1) is not one the compacting
pass takes up: it is marked as a symbol or holds an offset of at most 63. -/
def Slot1OK (ct : CodeTree) : Prop :=
  ∃ c m, ct.codetree.get? 1 = some c ∧ ct.codemask.get? 1 = some m ∧ ¬ (m ≠ 0xFF ∧ c > 63)

end Gbacomp

namespace Gbacomp

/-! ## Particular contents of the state outside a call -/

/-- The file-scope variables of `cprs_lz.c` as a process starts: static
storage is zero-initialised. -/
def lzFresh : LzState := { text_buf := fun _ => 0, match_position := 0, match_length := 0, lson := fun _ => 0, rson := fun _ => 0, dad := fun _ => 0 }

/-- The file-scope variables of `cprs_lz.c` as a call of `CompressLZ77` on
`InBuf` leaves them for the next call (the steps of `CompressLZ77`, keeping the
globals instead of the output). -/
def CompressLZ77_statics (statics : LzState) (InBuf : List Nat) : Option LzState :=
  let InSize := InBuf.length
  let g := InitTree { statics with match_position := RING_MAX - FRAME_MAX }
  let s := 0
  let r := RING_MAX - FRAME_MAX
  let tb : Nat → Nat := fun i => if s ≤ i ∧ i < r then 0 else g.text_buf i
  let lt := fillLoop InBuf r FRAME_MAX 0 tb
  let len := lt.1
  if len = 0 then some { g with text_buf := lt.2 }
  else
    match InsertNode r { g with text_buf := lt.2 } with
    | none => none
    | some g =>
      let e : LzEnc := { g := g, InOffset := len, len := len, r := r, s := s, curmatch := RING_MAX - FRAME_MAX, code_buf0 := 0, code_buf := [], mask := 0x80, out := [] }
      match mainLoop InBuf InSize e with
      | none => none
      | some e => some e.g

/-- A block of memory whose bytes are all `0xAA` before it is written. -/
def heapAA : Nat → Nat := fun _ => 0xAA

/-- What one round of the loop of `HUF_Decode` finds: the code-word cursor
after fetching the bit, the entry of the child the bit selects (`pos`) with
its offset `next`, whether that child is a symbol (`leaf`), and the root entry
`tree[1]`. -/
structure HStep where
  pak : Nat
  mask4 : Nat
  code : Nat
  pos : Nat
  next : Nat
  leaf : Bool
  root : Nat
deriving Repr, DecidableEq

/-- The first half of a round of the loop of `HUF_Decode`, up to the test
`if (ch)`: `some none` is the `break` when the code words have run out, `none`
a read outside `pak_buffer`. -/
def hufFetch (buf : List Nat) (pak_len tree : Nat) (d : HDec) : Option (Option HStep) :=
  let m := d.mask4 >>> 1
  if m = 0 ∧ d.pak + 3 ≥ pak_len then some none
  else
    let w : Option (Nat × Nat × Nat) :=
      if m = 0 then
        match buf.get? d.pak, buf.get? (d.pak + 1), buf.get? (d.pak + 2), buf.get? (d.pak + 3) with
        | some b0, some b1, some b2, some b3 =>
          some (HUF_MASK4, read32le b0 b1 b2 b3, d.pak + 4)
        | _, _, _, _ => none
      else some (m, d.code, d.pak)
    match w with
    | none => none
    | some (mask4, code, pak) =>
      let next := uadd d.next (((d.pos &&& HUF_NEXT) + 1) <<< 1)
      let right := code &&& mask4 ≠ 0
      let ch := if right then d.pos &&& HUF_RCHAR else d.pos &&& HUF_LCHAR
      match buf.get? (tree + next + (if right then 1 else 0)), buf.get? (tree + 1) with
      | some pos, some root =>
        some (some { pak := pak, mask4 := mask4, code := code, pos := pos, next := next,
                     leaf := decide (ch ≠ 0), root := root })
      | _, _ => none

/-! ## The 4-bit symbols behind the bytes `HUF_Decode` returns -/

/-- The loop `while (raw < raw_end)` of `HUF_Decode` for a stream of 4-bit
symbols, keeping the decoded symbols in the order they are committed instead
of assembling them into bytes: `d.raw` holds the symbols so far (two of them
make one output byte; `d.cur` and `d.nbits` are not used). -/
def hufSymLoop (buf : List Nat) (pak_len raw_len tree : Nat) : Nat → HDec → Option (List Nat)
  | 0, d => if d.raw.length / 2 < raw_len then none else some d.raw
  | fuel + 1, d =>
    if d.raw.length / 2 < raw_len then
      let m := d.mask4 >>> 1
      if m = 0 ∧ d.pak + 3 ≥ pak_len then some d.raw
      else
        let w : Option (Nat × Nat × Nat) :=
          if m = 0 then
            match buf.get? d.pak, buf.get? (d.pak + 1), buf.get? (d.pak + 2), buf.get? (d.pak + 3) with
            | some b0, some b1, some b2, some b3 =>
              some (HUF_MASK4, read32le b0 b1 b2 b3, d.pak + 4)
            | _, _, _, _ => none
          else some (m, d.code, d.pak)
        match w with
        | none => none
        | some (mask4, code, pak) =>
          let next := uadd d.next (((d.pos &&& HUF_NEXT) + 1) <<< 1)
          let right := code &&& mask4 ≠ 0
          let ch := if right then d.pos &&& HUF_RCHAR else d.pos &&& HUF_LCHAR
          match buf.get? (tree + next + (if right then 1 else 0)), buf.get? (tree + 1) with
          | some pos, some root =>
            if ch ≠ 0 then
              hufSymLoop buf pak_len raw_len tree fuel
                { d with pak := pak, mask4 := mask4, code := code, pos := root, next := 0,
                         raw := d.raw ++ [pos] }
            else
              hufSymLoop buf pak_len raw_len tree fuel
                { d with pak := pak, mask4 := mask4, code := code, pos := pos, next := next }
          | _, _ => none
    else some d.raw

/-- The 4-bit symbols `huffman_decode` decodes from a stream with the tag
`0x24`, in the order they are decoded (the steps of `huffman_decode`, with
`hufSymLoop` for the loop). -/
def hufSymbols4 (file : List Nat) : Option (List Nat) :=
  let buf := file ++ [0, 0, 0]
  let pak_len := file.length
  match buf with
  | b0 :: b1 :: b2 :: b3 :: rest =>
    let raw_len := read32le b0 b1 b2 b3 >>> 8
    match rest with
    | t0 :: pos :: _ =>
      hufSymLoop buf pak_len raw_len 4 (8 * pak_len + 1)
        { pak := 4 + ((t0 + 1) <<< 1), mask4 := 0, code := 0, pos := pos, next := 0,
          nbits := 0, cur := 0, raw := [] }
    | _ => none
  | _ => some []

/-- Bytes made of pairs of 4-bit symbols, the first symbol of a pair in the
high nibble: the assignment `*raw = (*raw << 4) | sym` applied twice to a
zeroed byte; a single symbol left over makes no byte. -/
def packHigh : List Nat → List Nat
  | a :: b :: rest => ((((a % 256) <<< 4) ||| b) % 256) :: packHigh rest
  | _ => []

/-- The decoder state stands for the decoded symbols `syms`: the completed
bytes are the pairs of symbols, a pending symbol is in `cur`. -/
def NibbleRel (d : HDec) (syms : List Nat) : Prop :=
  (syms.length % 2 = 0 ∧ d.nbits = 0 ∧ d.cur = 0 ∧ d.raw = packHigh syms) ∨
  (∃ full a, syms = full ++ [a] ∧ full.length % 2 = 0 ∧ d.nbits = 4 ∧ d.cur = a % 256 ∧
    d.raw = packHigh full)

/-! ## Streams whose table can be walked -/

end Gbacomp

namespace Gbacomp

/-! ## Notions for the Huffman tree -/

/-- The nodes of `tree` without a parent, in the order of the array. -/
def parentless (tree : List HNode) : List HNode := tree.filter (fun nd => nd.dad = none)

/-- The sum of `f` over the nodes without a parent. -/
def sumPar (f : HNode → Nat) (tree : List HNode) : Nat := ((parentless tree).map f).sum

/-- Node `j` exists and has no parent. -/
def Par (tree : List HNode) (j : Nat) : Prop := ∃ nd, tree.get? j = some nd ∧ nd.dad = none

/-- The weight of node `j` (0 when there is no such node). -/
def wt (tree : List HNode) (j : Nat) : Nat := ((tree.get? j).map (fun nd => nd.weight)).getD 0

/-- The leaf count of node `j` (0 when there is no such node). -/
def lf (tree : List HNode) (j : Nat) : Nat := ((tree.get? j).map (fun nd => nd.leafs)).getD 0

/-- Node `a` comes before node `b` in the order of the selection: it is
lighter, or as heavy and not created later. -/
def LexLe (tree : List HNode) (a b : Nat) : Prop :=
  wt tree a < wt tree b ∨ (wt tree a = wt tree b ∧ a ≤ b)

/-- What the selection loop of `HUF_CreateTree` holds after the scan of the
nodes `0 .. i-1`: `lnode` is the first parentless node in the order of the
selection, `rnode` the first among the others, and a weight of 0 says that the
node has not been found yet. -/
def PickInv (tree : List HNode) (i : Nat) (pk : Pick) : Prop :=
  (∀ l, pk.lnode = some l →
    l < i ∧ Par tree l ∧ pk.lweight = wt tree l ∧ ∀ j, j < i → Par tree j → LexLe tree l j) ∧
  (pk.lnode = none → pk.lweight = 0 ∧ pk.rnode = none ∧ ∀ j, j < i → ¬ Par tree j) ∧
  (∀ r, pk.rnode = some r →
    r < i ∧ Par tree r ∧ pk.rweight = wt tree r ∧ pk.lnode ≠ some r ∧
      ∀ j, j < i → Par tree j → pk.lnode ≠ some j → LexLe tree r j) ∧
  (pk.rnode = none → pk.rweight = 0 ∧ ∀ j, j < i → Par tree j → pk.lnode = some j)

/-- The symbols with a non-zero frequency, in ascending order. -/
def usedSymbols (freqs : Nat → Nat) (max_symbols : Nat) : List Nat :=
  (List.range max_symbols).filter (fun i => freqs i ≠ 0)

/-- The sum of all frequencies. -/
def totalFreq (freqs : Nat → Nat) (max_symbols : Nat) : Nat :=
  ((List.range max_symbols).map freqs).sum

/-- Node `i` is a leaf for the `i`-th symbol that occurs. -/
def LeafAt (freqs : Nat → Nat) (max_symbols : Nat) (tree : List HNode) (i : Nat) : Prop :=
  ∃ nd, tree.get? i = some nd ∧ nd.leafs = 1 ∧ nd.lson = none ∧ nd.rson = none ∧
    (usedSymbols freqs max_symbols).get? i = some nd.symbol ∧ nd.weight = freqs nd.symbol

/-- Node `i` is an internal node made by a merge step: its children `l`, `r`
are earlier nodes that point back to it, its weight and leaf count are the sums
over them, and when it was made `l` was the first and `r` the second node in
the order of the selection among the nodes that had no parent then (those whose
parent is `i` or a later node, or that have none). -/
def MergedAt (tree : List HNode) (i : Nat) : Prop :=
  ∃ nd l r ln rn, tree.get? i = some nd ∧ nd.lson = some l ∧ nd.rson = some r ∧
    tree.get? l = some ln ∧ tree.get? r = some rn ∧ l < i ∧ r < i ∧ l ≠ r ∧
    nd.weight = ln.weight + rn.weight ∧ nd.leafs = ln.leafs + rn.leafs ∧
    ln.dad = some i ∧ rn.dad = some i ∧ ln.weight ≤ rn.weight ∧
    ∀ j jn, j < i → tree.get? j = some jn → (jn.dad = none ∨ ∃ p, jn.dad = some p ∧ i ≤ p) →
      LexLe tree l j ∧ (j ≠ l → LexLe tree r j)

/-- Invariant of the merge loop of `HUF_CreateTree` for `k` leaves. -/
def TreeInv (freqs : Nat → Nat) (max_symbols k : Nat) (tree : List HNode) : Prop :=
  k ≤ tree.length ∧ tree.length ≤ 2 * k - 1 ∧
  (parentless tree).length + tree.length = 2 * k ∧
  sumPar (fun nd => nd.weight) tree = totalFreq freqs max_symbols ∧
  sumPar (fun nd => nd.leafs) tree = k ∧
  (∀ j nd, tree.get? j = some nd → 0 < nd.weight ∧ 0 < nd.leafs) ∧
  (∀ i, i < k → LeafAt freqs max_symbols tree i) ∧
  (∀ i, k ≤ i → i < tree.length → MergedAt tree i) ∧
  (∀ j nd p, tree.get? j = some nd → nd.dad = some p → j < p ∧ p < tree.length ∧ k ≤ p)

end Gbacomp

namespace Gbacomp

/-! ## Notions for the LZ encoder -/

/-- The file-scope variables as `CompressLZ77` has set them up before the
first `InsertNode`: the trees initialised, the buffer cleared below
`RING_MAX - FRAME_MAX` and the first bytes of `InBuf` read in behind. -/
def lzWindow (statics : LzState) (InBuf : List Nat) : LzState :=
  let g := InitTree { statics with match_position := RING_MAX - FRAME_MAX }
  let tb : Nat → Nat := fun i => if 0 ≤ i ∧ i < RING_MAX - FRAME_MAX then 0 else g.text_buf i
  { g with text_buf := (fillLoop InBuf (RING_MAX - FRAME_MAX) FRAME_MAX 0 tb).2 }

/-- `InsertNode` for the positions of a list, one after the other. -/
def insertNodes : List Nat → LzState → Option LzState
  | [], st => some st
  | r :: rest, st => (InsertNode r st).bind (insertNodes rest)

end Gbacomp

namespace Gbacomp

/-! ## Notions for the breadth-first placement of the code tree -/

/-- What the placement and the decoder need of the node array: leaf counts are
positive, and a node with a leaf count other than 1 has two children in the
array whose leaf counts add up to its own. -/
def TreeWF (tree : List HNode) : Prop :=
  ∀ i node, tree.get? i = some node → 1 ≤ node.leafs ∧
    (node.leafs ≠ 1 → ∃ l r ln rn, node.lson = some l ∧ node.rson = some r ∧
      tree.get? l = some ln ∧ tree.get? r = some rn ∧ node.leafs = ln.leafs + rn.leafs)

/-- The leaf flags of a node with the children `l` and `r`. -/
def nodeFlags (tree : List HNode) (l r : Nat) : Nat :=
  (if lf tree l = 1 then HUF_LCHAR else 0) ||| (if lf tree r = 1 then HUF_RCHAR else 0)

/-- The number of nodes in the subtrees of the listed nodes: a subtree with
`n` leaves has `2n - 1` nodes. -/
def need (tree : List HNode) (ns : List Nat) : Nat :=
  (ns.map (fun ni => 2 * lf tree ni - 1)).sum

/-- The slot `j + 1` of the tables holds the entry of the node `stack[j]`: the
symbol of a leaf, marked `0xFF`; for an inner node the leaf flags of its
children and the offset to their pair of slots, the children standing at the
places `c`, `c + 1` of the stack. -/
def SlotOK (tree : List HNode) (stack : List Nat) (ct : CodeTree) (j : Nat) : Prop :=
  ∃ ni node, stack.get? j = some ni ∧ tree.get? ni = some node ∧
    (node.leafs = 1 → rd ct.codetree (j + 1) = some (node.symbol % 256) ∧
      rd ct.codemask (j + 1) = some 0xFF) ∧
    (node.leafs ≠ 1 → ∃ c l r, node.lson = some l ∧ node.rson = some r ∧
      stack.get? c = some l ∧ stack.get? (c + 1) = some r ∧ c % 2 = 1 ∧ j < c ∧
      rd ct.codetree (j + 1) = some ((c - (j + 1)) >>> 1) ∧
      rd ct.codemask (j + 1) = some (nodeFlags tree l r))

/-- Every slot not marked as a symbol holds an offset of at most 63. -/
def Small63 (ct : CodeTree) : Prop :=
  ∀ i m c, rd ct.codemask i = some m → rd ct.codetree i = some c → m ≠ 0xFF → c ≤ HUF_NEXT

/-- Invariant of the loop of `HUF_CreateCodeBranch` in its first regime, for a
root with `K` leaves placed at slot 1 and its descendants from slot 2 on. -/
def BfsInv (tree : List HNode) (K : Nat) (stack : List Nat) (s q : Nat) (ct : CodeTree) : Prop :=
  (s ≤ stack.length ∧ stack.length % 2 = 1 ∧ ((s = 0 ∧ q = 2) ∨ (1 ≤ s ∧ q = s + 1))) ∧
  (∀ j ni, stack.get? j = some ni → ni < tree.length) ∧
  s + need tree (stack.drop s) = 2 * K - 1 ∧
  (ct.codetree.length = ct.codemask.length ∧ 2 * K ≤ ct.codetree.length) ∧
  (∀ j, j < s → SlotOK tree stack ct j) ∧
  Small63 ct

end Gbacomp

namespace Gbacomp

/-! ## Notions for the search trees of the LZ encoder -/

/-- The index `q` is one of the 256 tree roots `rson[RING_MAX+1 .. RING_MAX+256]`. -/
def isRoot (q : Nat) : Prop := RING_MAX + 1 ≤ q ∧ q ≤ RING_MAX + 256

/-- Node `p` is in a tree: `dad[p] != NIL`, the test `DeleteNode` itself uses. -/
def Live (st : LzState) (p : Nat) : Prop := p < RING_MAX ∧ st.dad p ≠ NIL

/-- The index `q` can have children: a node in a tree or a root. -/
def Holder (st : LzState) (q : Nat) : Prop := Live st q ∨ isRoot q

/-- The arrays `lson`, `rson`, `dad` form trees below the roots: parent and
child links agree, the two children of a node differ, `rank` grows from parent
to child (so the links have no cycle), and all nodes of a tree start with the
byte of its root. -/
def Forest (st : LzState) (rank : Nat → Nat) : Prop :=
  (∀ p, Live st p → Holder st (st.dad p) ∧
    (st.rson (st.dad p) = p ∨ (Live st (st.dad p) ∧ st.lson (st.dad p) = p))) ∧
  (∀ q, Holder st q → st.rson q ≠ NIL → Live st (st.rson q) ∧ st.dad (st.rson q) = q) ∧
  (∀ q, Live st q → st.lson q ≠ NIL → Live st (st.lson q) ∧ st.dad (st.lson q) = q) ∧
  (∀ q, Live st q → st.lson q ≠ NIL → st.lson q ≠ st.rson q) ∧
  (∀ p, Live st p → Live st (st.dad p) → rank (st.dad p) < rank p) ∧
  (∀ p, Live st p → (isRoot (st.dad p) → st.dad p = RING_MAX + 1 + st.text_buf p) ∧
    (Live st (st.dad p) → st.text_buf (st.dad p) = st.text_buf p))

/-- The state after the child `c` of `p` has been linked to the parent of `p`
in the place of `p`. -/
def spliceState (st : LzState) (p c : Nat) : LzState :=
  { st with
    lson := if st.rson (st.dad p) = p then st.lson else store st.lson (st.dad p) c
    rson := if st.rson (st.dad p) = p then store st.rson (st.dad p) c else st.rson
    dad := store (store st.dad c (st.dad p)) p NIL }

/-- The state after the left child of `p`, which has no right child, has taken
the place of `p` and its right child. -/
def liftState (st : LzState) (p : Nat) : LzState :=
  { st with
    lson := if st.rson (st.dad p) = p then st.lson else store st.lson (st.dad p) (st.lson p)
    rson := if st.rson (st.dad p) = p
            then store (store st.rson (st.lson p) (st.rson p)) (st.dad p) (st.lson p)
            else store st.rson (st.lson p) (st.rson p)
    dad := store (store (store st.dad (st.rson p) (st.lson p)) (st.lson p) (st.dad p)) p NIL }

/-- The nodes in a tree with a rank above that of `q`: their number bounds the
length of a descent from `q`. -/
def above (st : LzState) (rank : Nat → Nat) (q : Nat) : Finset Nat :=
  (Finset.range RING_MAX).filter (fun x => st.dad x ≠ NIL ∧ rank q < rank x)

/-- What `InsertNode(r)` reports: no match, or a node `mp` that was in a tree,
is not the position before `r`, and agrees with the string at `r` in the first
`ml` bytes (`ml ≤ FRAME_MAX`). -/
def MatchOK (tb : Nat → Nat) (live : Nat → Prop) (r ml mp : Nat) : Prop :=
  ml = 0 ∨ (live mp ∧ mp ≠ andNMASK ((r : Int) - 1) ∧ ml ≤ FRAME_MAX ∧
    ∀ t, t < ml → tb (r + t) = tb (mp + t))

end Gbacomp

namespace Gbacomp

/-! ## Notions for the LZ stream -/

/-- A unit of the LZ stream: a literal byte, or a match unit with its two bytes. -/
inductive LzUnit where
  | lit (b : Nat)
  | mat (b0 b1 : Nat)
deriving Repr, DecidableEq

/-- The flag bit of a unit: set for a match. -/
def LzUnit.isMatch : LzUnit → Bool
  | .lit _ => false
  | .mat _ _ => true

/-- The bytes of a unit in the stream. -/
def LzUnit.bytes : LzUnit → List Nat
  | .lit b => [b]
  | .mat b0 b1 => [b0, b1]

/-- The number of output bytes of a unit, as `lz77gba_decompress` computes it:
`(srcL[0]>>4)+THRESHOLD+1` for a match. -/
def LzUnit.count : LzUnit → Nat
  | .lit _ => 1
  | .mat b0 _ => (b0 >>> 4) + THRESHOLD + 1

/-- The distance of a match unit, as `lz77gba_decompress` computes it:
`((srcL[0]&15)<<8 | srcL[1])+1`. -/
def LzUnit.ofs : LzUnit → Nat
  | .lit _ => 0
  | .mat b0 b1 => (((b0 &&& 15) <<< 8) ||| b1) + 1

/-- What the decoder does with one unit when `d` is the output so far: `none`
when the output is complete already or the copy leaves the block. -/
def applyUnit (dstS : Nat) (u : LzUnit) (d : List Nat) : Option (List Nat) :=
  if d.length < dstS then
    match u with
    | .lit b => some (d ++ [b])
    | .mat b0 b1 => lzCopy dstS (LzUnit.mat b0 b1).ofs (LzUnit.mat b0 b1).count d
  else none

/-- The units of a list applied one after the other. -/
def decUnits (dstS : Nat) : List LzUnit → List Nat → Option (List Nat)
  | [], d => some d
  | u :: us, d => (applyUnit dstS u d).bind (decUnits dstS us)

/-- The flag byte of a group of units, the first unit at the bit `mask`. -/
def groupFlags : List LzUnit → Nat → Nat
  | [], _ => 0
  | u :: us, mask => (if u.isMatch then mask else 0) ||| groupFlags us (mask >>> 1)

/-- A group of at most eight units in the stream: the flag byte, then the units. -/
def serGroup (g : List LzUnit) : List Nat :=
  groupFlags g 0x80 :: g.flatMap LzUnit.bytes

/-- The match units of a list as `(ii, count, ofs)`: the output index at which
the copy starts, its length and its distance; `ii` is the output index at
which the list starts. -/
def unitTrace : List LzUnit → Nat → List (Nat × Nat × Nat)
  | [], _ => []
  | .lit _ :: us, ii => unitTrace us (ii + 1)
  | .mat b0 b1 :: us, ii =>
    (ii, (LzUnit.mat b0 b1).count, (LzUnit.mat b0 b1).ofs) ::
      unitTrace us (ii + (LzUnit.mat b0 b1).count)

/-- The loop of `lz77gba_decompress` (`lzDecLoop`), keeping a record of the
match units it meets: for each the output index `ii` at which the copy starts,
its `count` and its `ofs`. -/
def lzDecTrace (dstS : Nat) :
    Nat → List Nat → Nat → Int → List Nat → List (Nat × Nat × Nat) →
      Option (List Nat × List (Nat × Nat × Nat))
  | 0, _, _, _, dstD, tr => if dstD.length < dstS then none else some (dstD, tr)
  | fuel + 1, srcL, flags, jj, dstD, tr =>
    if dstD.length < dstS then
      let fr : Option (Nat × Int × List Nat) :=
        if jj < 0 then
          match srcL with
          | [] => none
          | f :: srcL => some (f, 7, srcL)
        else some (flags, jj, srcL)
      match fr with
      | none => none
      | some (flags, jj, srcL) =>
        if (flags >>> jj.toNat) &&& 1 ≠ 0 then
          match srcL with
          | b0 :: b1 :: srcL =>
            let count := (b0 >>> 4) + THRESHOLD + 1
            let ofs := (((b0 &&& 15) <<< 8) ||| b1) + 1
            match lzCopy dstS ofs count dstD with
            | none => none
            | some dstD2 =>
              lzDecTrace dstS fuel srcL flags (jj - 1) dstD2 (tr ++ [(dstD.length, count, ofs)])
          | _ => none
        else
          match srcL with
          | [] => none
          | b :: srcL => lzDecTrace dstS fuel srcL flags (jj - 1) (dstD ++ [b]) tr
    else some (dstD, tr)

/-- The match units `lz77gba_decompress` meets in a stream, as `(ii, count,
ofs)`; `none` when the decoder does not return or the tag is not that of LZ77. -/
def lzMatchUnits (src : List Nat) : Option (List (Nat × Nat × Nat)) :=
  match src with
  | b0 :: b1 :: b2 :: b3 :: srcL =>
    let header := read32le b0 b1 b2 b3
    if header &&& 255 ≠ CPRS_LZ77_TAG then none
    else
      let dstS := header >>> 8
      (lzDecTrace dstS dstS srcL 0 (-1) [] []).map Prod.snd
  | _ => none

end Gbacomp

namespace Gbacomp

/-! ## Notions for the loop of the LZ encoder -/

/-- The place in the ring buffer of the input byte with index `j`. -/
def ringPos (j : Nat) : Nat := (RING_MAX - FRAME_MAX + j) % RING_MAX

/-- The ring buffer holds the last `RING_MAX` of the `n` input bytes read, and
its tail `text_buf[RING_MAX ..]` repeats the first `FRAME_MAX - 1` places. -/
def TextOK (x : List Nat) (n : Nat) (tb : Nat → Nat) : Prop :=
  ∀ j, j < n → n ≤ j + RING_MAX →
    tb (ringPos j) = x.getD j 0 ∧
    (ringPos j < FRAME_MAX - 1 → tb (ringPos j + RING_MAX) = x.getD j 0)

/-- The nodes in the trees are places of input bytes with an index between
`lo` and `pos`. -/
def WindowFrom (g : LzState) (lo pos : Nat) : Prop :=
  ∀ p, Live g p → ∃ j, j ≤ pos ∧ lo ≤ j + (RING_MAX - FRAME_MAX) ∧ p = ringPos j

/-- What `match_length`, `match_position` say at the input index `pos` when
`n` bytes have been read: no match, or the place of an input index `j` at
least two before `pos` and at most `RING_MAX - FRAME_MAX` before it, from which
the input repeats for `ml` bytes as far as it has been read. -/
def MatchAt (x : List Nat) (n pos ml mp : Nat) : Prop :=
  ml = 0 ∨ ∃ j, j + 2 ≤ pos ∧ pos ≤ j + (RING_MAX - FRAME_MAX) ∧ mp = ringPos j ∧
    ml ≤ FRAME_MAX ∧ ∀ t, t < ml → pos + t < n → x.getD (pos + t) 0 = x.getD (j + t) 0

/-- Invariant of `CompressLZ77` between two positions: `pos` bytes are done,
`r` and `s` are the places that go with it, the look-ahead holds `len` bytes,
the trees are well formed and hold places of the window only. -/
def PosCore (x : List Nat) (pos : Nat) (e : LzEnc) : Prop :=
  (∃ rank, Forest e.g rank) ∧
  e.r = ringPos pos ∧ e.s = pos % RING_MAX ∧
  (e.len + (pos : Int) = (e.InOffset : Int) ∧ pos ≤ e.InOffset ∧ e.InOffset ≤ x.length ∧
    e.InOffset ≤ pos + FRAME_MAX ∧ (e.InOffset = pos + FRAME_MAX ∨ e.InOffset = x.length)) ∧
  TextOK x e.InOffset e.g.text_buf ∧
  WindowFrom e.g pos pos

/-- While input is left at `pos`, the match found is one in the input. -/
def MatchInv (x : List Nat) (pos : Nat) (e : LzEnc) : Prop :=
  pos < e.InOffset → MatchAt x e.InOffset pos e.g.match_length e.g.match_position

/-- The fields of the encoder state that the loops over the positions leave alone. -/
def SameOut (e e' : LzEnc) : Prop :=
  e'.curmatch = e.curmatch ∧ e'.code_buf0 = e.code_buf0 ∧ e'.code_buf = e.code_buf ∧
  e'.mask = e.mask ∧ e'.out = e.out

/-- The output of the encoder is the stream of the units `us`: the groups
written out are full groups, and the code buffer holds the units of the group
under construction. -/
def OutInv (e : LzEnc) (us : List LzUnit) : Prop :=
  ∃ (full : List (List LzUnit)) (cur : List LzUnit),
    us = full.flatMap id ++ cur ∧ (∀ g ∈ full, g.length = 8) ∧ cur.length < 8 ∧
    e.out = full.flatMap serGroup ∧ e.code_buf0 = groupFlags cur 0x80 ∧
    e.code_buf = cur.flatMap LzUnit.bytes ∧ e.mask = 0x80 >>> cur.length

/-- The end of the first half of the loop body of `CompressLZ77`, after the
unit has been put into `code_buf`: advance `curmatch`, shift the mask, and
write the code buffer out when the mask runs empty. -/
def emitTail (e1 : LzEnc) : LzEnc :=
  if e1.mask >>> 1 = 0 then
    { e1 with curmatch := uadd e1.curmatch e1.g.match_length &&& NMASK, out := e1.out ++ (e1.code_buf0 :: e1.code_buf), code_buf0 := 0, code_buf := [], mask := 0x80 }
  else { e1 with curmatch := uadd e1.curmatch e1.g.match_length &&& NMASK, mask := e1.mask >>> 1 }

/-- The length of the match `CompressLZ77` uses: `match_length`, at most `len`. -/
def clampLen (e : LzEnc) : Int :=
  if (e.g.match_length : Int) > e.len then e.len else e.g.match_length

/-- The distance field of a match unit as `CompressLZ77` computes it. -/
def saveMatch (e : LzEnc) : Nat :=
  usub (usub e.curmatch (e.g.match_position % 2 ^ 32) &&& NMASK) 1

/-- The unit that `CompressLZ77` puts into `code_buf` in the state `e`. -/
def unitOf (e : LzEnc) : LzUnit :=
  if clampLen e ≤ THRESHOLD then .lit (e.g.text_buf e.r)
  else .mat ((((saveMatch e >>> 8) &&& 0xf) % 256 ||| (((clampLen e).toNat - (THRESHOLD + 1)) <<< 4)) % 256) (saveMatch e % 256)

/-- What holds of the unit emitted at the input index `pos`: a literal with
the byte at `pos`, or a match with a distance between 2 and `pos` and a count
between 3 and 18 over which the input repeats at that distance. -/
def UnitFacts (x : List Nat) (pos : Nat) (u : LzUnit) : Prop :=
  u = .lit (x.getD pos 0) ∨
  (u.isMatch = true ∧ 2 ≤ u.ofs ∧ u.ofs ≤ pos ∧ THRESHOLD + 1 ≤ u.count ∧ u.count ≤ FRAME_MAX ∧
    ∀ t, t < u.count → x.getD (pos + t) 0 = x.getD (pos + t - u.ofs) 0)

/-- Every match unit of the list starts at an output index `ii` with a
distance between 2 and `ii` and a count between 3 and 18 that stays within `n`
bytes. -/
def UnitsOK (n : Nat) (us : List LzUnit) : Prop :=
  ∀ t ∈ unitTrace us 0, 2 ≤ t.2.2 ∧ t.2.2 ≤ t.1 ∧ THRESHOLD + 1 ≤ t.2.1 ∧ t.2.1 ≤ FRAME_MAX ∧
    t.1 + t.2.1 ≤ n

/-- Invariant of the `do … while` loop of `CompressLZ77` at its head. -/
def LoopInv (x : List Nat) (pos : Nat) (e : LzEnc) (us : List LzUnit) : Prop :=
  PosCore x pos e ∧ MatchInv x pos e ∧ e.curmatch = e.r ∧ OutInv e us ∧
  decUnits x.length us [] = some (x.take pos) ∧ UnitsOK x.length us

end Gbacomp

namespace Gbacomp

/-! ## Notions for the lengths of the Huffman codes -/

/-- Every node with a parent is the left or the right child of that parent. -/
def KidsInv (tree : List HNode) : Prop :=
  ∀ j nd p, tree.get? j = some nd → nd.dad = some p →
    ∃ pn, tree.get? p = some pn ∧ (pn.lson = some j ∨ pn.rson = some j)

/-- The parent of node `j`. -/
def dadOf (tree : List HNode) (j : Nat) : Option Nat := (tree.get? j).bind (fun nd => nd.dad)

/-- The ancestors of node `j`, the nearest first: the nodes the walk of
`HUF_CreateCodeWorks` goes through; `fuel` bounds their number. -/
def chain (tree : List HNode) : Nat → Nat → List Nat
  | 0, _ => []
  | fuel + 1, j =>
    match dadOf tree j with
    | none => []
    | some d => d :: chain tree fuel d

/-- The number of bits of the code of a symbol (0 without a code). -/
def codeLen (codes : Nat → Option HCode) (s : Nat) : Nat :=
  match codes s with
  | some c => c.nbits
  | none => 0

/-- The number of code bits `HUF_Code` emits for a list of symbols. -/
def codeBits (codes : Nat → Option HCode) (syms : List Nat) : Nat :=
  (syms.map (codeLen codes)).sum

/-- Node `j` is node `p` or has it among its ancestors. -/
def under (tree : List HNode) (p j : Nat) : Prop := j = p ∨ p ∈ chain tree tree.length j

instance (tree : List HNode) (p j : Nat) : Decidable (under tree p j) := by
  unfold under; infer_instance

/-- The nodes below index `i` that have no parent below `i`: those without a
parent when node `i` was made. -/
def active (tree : List HNode) (i : Nat) : Finset Nat :=
  (Finset.range i).filter (fun j => ∀ d, dadOf tree j = some d → i ≤ d)

/-- The tree as `HUF_CreateTree` leaves it for `k` used symbols: all merges
done, with the links between parents and children. -/
def FinalTree (freqs : Nat → Nat) (max_symbols k : Nat) (tree : List HNode) : Prop :=
  TreeInv freqs max_symbols k tree ∧ KidsInv tree ∧ tree.length = 2 * k - 1 ∧ 1 ≤ k

/-- The bits of the walk from node `j` through the listed ancestors: 0
(`HUF_LNODE`) where the node is the left child, else 1 (`HUF_RNODE`). -/
def pathBits (tree : List HNode) : Nat → List Nat → List Nat
  | _, [] => []
  | j, d :: rest =>
    (if (tree.get? d).bind (fun dn => dn.lson) = some j then HUF_LNODE else HUF_RNODE) ::
      pathBits tree d rest

/-- The state of the bit writer of `HUF_Code` after `b` bits: nothing is open
before the first bit; afterwards `mask4` is the bit last written, a word is
open and the words before it are complete. -/
def BitInv (b : Nat) (bo : BitOut) : Prop :=
  (b = 0 ∧ bo.mask4 = 0 ∧ bo.cur = none ∧ bo.words = []) ∨
  (0 < b ∧ bo.mask4 = 2 ^ (31 - (b - 1) % 32) ∧ bo.cur.isSome = true ∧
    bo.words.length = (b - 1) / 32)

/-- The symbol of the `j`-th leaf. -/
def symAt (freqs : Nat → Nat) (max_symbols j : Nat) : Nat :=
  (usedSymbols freqs max_symbols).getD j 0

/-- The words of the bit writer when `HUF_Code` is done: the completed ones
and the one still open. -/
def closeWords (bo : BitOut) : List Nat :=
  match bo.cur with
  | some w => bo.words ++ [w]
  | none => bo.words

end Gbacomp

namespace Gbacomp

/-! ## Notions for the Huffman round trip -/

/-- Slot `j + 1` of the emitted table holds the entry of the node `stack[j]`:
the symbol of a leaf; for an inner node the offset to the pair of slots of its
children (at most 63) with the leaf flags of the children in the bits 6 and 7,
the children standing at the places `c`, `c + 1` of the stack. -/
def TableOK (tree : List HNode) (stack : List Nat) (table : List Nat) (j : Nat) : Prop :=
  ∃ ni node, stack.get? j = some ni ∧ tree.get? ni = some node ∧
    (node.leafs = 1 → table.get? (j + 1) = some (node.symbol % 256)) ∧
    (node.leafs ≠ 1 → ∃ c l r, node.lson = some l ∧ node.rson = some r ∧
      stack.get? c = some l ∧ stack.get? (c + 1) = some r ∧ c % 2 = 1 ∧ j < c ∧
      (c - (j + 1)) >>> 1 ≤ HUF_NEXT ∧
      table.get? (j + 1) = some (((c - (j + 1)) >>> 1) ||| nodeFlags tree l r))

/-- The first statement of a round of the bit writer of `HUF_Code`:
`if (!(mask4 >>= 1)) { mask4 = HUF_MASK4; *(pk4 = pak) = 0; pak += 4; }`. -/
def openWord (bo : BitOut) : BitOut :=
  if bo.mask4 >>> 1 = 0 then
    { mask4 := HUF_MASK4, cur := some 0, words := closeWords bo }
  else { bo with mask4 := bo.mask4 >>> 1 }

/-- The second statement of a round of the bit writer:
`if (bit) *pk4 |= mask4;`. -/
def putBit (v : Bool) (bo : BitOut) : BitOut :=
  if v then { bo with cur := bo.cur.map (fun w => w ||| bo.mask4) } else bo

/-- Bit `b` of a stream of 32-bit code words, the most significant bit of a
word first. -/
def bitAt (words : List Nat) (b : Nat) : Bool :=
  (words.getD (b / 32) 0).testBit (31 - b % 32)

/-- Bit `k` of a code as `HUF_Code` reads it from `codework`:
`codework[k / 8] & (0x80 >> (k % 8))`. -/
def bitOfBytes (bs : List Nat) (k : Nat) : Bool :=
  decide (bs.getD (k / 8) 0 &&& (HUF_MASK >>> (k % 8)) ≠ 0)

/-- The bits of a code in the order `HUF_Code` emits them. -/
def codeBools (c : HCode) : List Bool :=
  (List.range' 0 c.nbits).map (bitOfBytes c.codework)

/-- The bit writer of `HUF_Code` after it has written the bits `bits`: before
the first bit nothing is open; afterwards `mask4` is the bit last written, the
open word is clear below it, and the words hold the bits. -/
def BitsInv (bits : List Bool) (bo : BitOut) : Prop :=
  (bits = [] ∧ bo = { mask4 := 0, cur := none, words := [] }) ∨
  (∃ ws w, bits ≠ [] ∧
    bo = { mask4 := 2 ^ (31 - (bits.length - 1) % 32), cur := some w, words := ws } ∧
    ws.length = (bits.length - 1) / 32 ∧ (∀ x ∈ ws, x < 2 ^ 32) ∧ w < 2 ^ 32 ∧
    (∀ e, e < 31 - (bits.length - 1) % 32 → w.testBit e = false) ∧
    ∀ i, i < bits.length → bitAt (ws ++ [w]) i = bits.getD i false)

/-- The bits `HUF_Code` emits for the symbol `s`. -/
def symBools (codes : Nat → Option HCode) (s : Nat) : List Bool :=
  match codes s with
  | some c => codeBools c
  | none => []

/-- The walk in the tree from node `p` down to node `j` along the bits: a
`false` leads to the left child, a `true` to the right one. -/
def Descent (tree : List HNode) : Nat → List Bool → Nat → Prop
  | p, [], j => p = j
  | p, b :: bs, j => ∃ pn c, tree.get? p = some pn ∧
      (if b then pn.rson = some c else pn.lson = some c) ∧ Descent tree c bs j

/-- The code bits of the leaf `j`, from the root down. -/
def leafBools (tree : List HNode) (j : Nat) : List Bool :=
  (pathBits tree j (chain tree tree.length j)).reverse.map (fun b => decide (b ≠ 0))

/-- The cursor of `HUF_Decode` after `b` code bits: before the first bit no
word is loaded; afterwards `mask4` is the bit last read, `code` the word it is
in, and `pak` points behind that word.  `base` is the place of the first code
word in the buffer. -/
def DecCur (words : List Nat) (base b mask4 pak code : Nat) : Prop :=
  (b = 0 ∧ mask4 = 0 ∧ pak = base) ∨
  (0 < b ∧ mask4 = 2 ^ (31 - (b - 1) % 32) ∧ pak = base + 4 * ((b - 1) / 32 + 1) ∧
    code = words.getD ((b - 1) / 32) 0)

/-- The walk of `HUF_Decode` stands at the entry of the node at place `jp` of
the stack: `pos` is the entry and `next` the offset of the pair of slots it is
in. -/
def AtSlot (table : List Nat) (jp pos next : Nat) : Prop :=
  table.get? (jp + 1) = some pos ∧ next = 2 * ((jp + 1) / 2)

/-- The buffer `HUF_Decode` works on: four header bytes, the table, the code
words in little-endian order (and the padding behind the file). -/
def HufStream (buf : List Nat) (pak_len : Nat) (table words : List Nat) : Prop :=
  pak_len = 4 + table.length + 4 * words.length ∧
  (∀ i, i < table.length → buf.get? (4 + i) = table.get? i) ∧
  (∀ q, q < words.length → ∃ b0 b1 b2 b3,
    buf.get? (4 + table.length + 4 * q) = some b0 ∧
    buf.get? (4 + table.length + 4 * q + 1) = some b1 ∧
    buf.get? (4 + table.length + 4 * q + 2) = some b2 ∧
    buf.get? (4 + table.length + 4 * q + 3) = some b3 ∧
    read32le b0 b1 b2 b3 = words.getD q 0)

/-- The state of `HUF_Decode` after the commit of the 4-bit symbol `sym`. -/
def commit4 (d : HDec) (mask4 pak code root sym : Nat) : HDec :=
  if (d.nbits + 4) &&& 7 = 0 then
    { pak := pak, mask4 := mask4, code := code, pos := root, next := 0,
      nbits := (d.nbits + 4) &&& 7, cur := 0,
      raw := d.raw ++ [((d.cur <<< 4) ||| sym) % 256] }
  else
    { pak := pak, mask4 := mask4, code := code, pos := root, next := 0,
      nbits := (d.nbits + 4) &&& 7, cur := ((d.cur <<< 4) ||| sym) % 256, raw := d.raw }

end Gbacomp

namespace Gbacomp

/-! ## How the loop of `HUF_Decode` is left -/

/-- The loop `while (raw < raw_end)` of `HUF_Decode` as in `hufDecLoop`, with
a record of how the loop is left: `true` when by the `break` at the end of the
code words (`pak + 3 >= pak_end`), `false` when `raw` has reached `raw_end`. -/
def hufDecLoopExit (buf : List Nat) (pak_len num_bits raw_len tree : Nat) :
    Nat → HDec → Option (List Nat × Bool)
  | 0, d => if d.raw.length < raw_len then none else some (d.raw, false)
  | fuel + 1, d =>
    if d.raw.length < raw_len then
      -- if (!(mask4 >>= HUF_SHIFT)) { if (pak + 3 >= pak_end) break; code = …; pak += 4; mask4 = HUF_MASK4; }
      let m := d.mask4 >>> 1
      if m = 0 ∧ d.pak + 3 ≥ pak_len then some (d.raw, true)
      else
        let w : Option (Nat × Nat × Nat) :=
          if m = 0 then
            match buf.get? d.pak, buf.get? (d.pak + 1), buf.get? (d.pak + 2), buf.get? (d.pak + 3) with
            | some b0, some b1, some b2, some b3 =>
              some (HUF_MASK4, read32le b0 b1 b2 b3, d.pak + 4)
            | _, _, _, _ => none
          else some (m, d.code, d.pak)
        match w with
        | none => none
        | some (mask4, code, pak) =>
          -- next += ((pos & HUF_NEXT) + 1) << 1;
          let next := uadd d.next (((d.pos &&& HUF_NEXT) + 1) <<< 1)
          let right := code &&& mask4 ≠ 0
          let ch := if right then d.pos &&& HUF_RCHAR else d.pos &&& HUF_LCHAR
          match buf.get? (tree + next + (if right then 1 else 0)), buf.get? (tree + 1) with
          | some pos, some root =>
            if ch ≠ 0 then
              -- *raw = (*raw << num_bits) | pos; if (!(nbits = (nbits + num_bits) & 7)) raw++;
              let cur := ((d.cur <<< num_bits) ||| pos) % 256
              let nbits := (d.nbits + num_bits) &&& 7
              if nbits = 0 then
                hufDecLoopExit buf pak_len num_bits raw_len tree fuel
                  { pak := pak, mask4 := mask4, code := code, pos := root, next := 0,
                    nbits := nbits, cur := 0, raw := d.raw ++ [cur] }
              else
                hufDecLoopExit buf pak_len num_bits raw_len tree fuel
                  { pak := pak, mask4 := mask4, code := code, pos := root, next := 0,
                    nbits := nbits, cur := cur, raw := d.raw }
            else
              hufDecLoopExit buf pak_len num_bits raw_len tree fuel
                { d with pak := pak, mask4 := mask4, code := code, pos := pos, next := next }
          | _, _ => none
    else some (d.raw, false)

/-- `HUF_Decode` / `huffman_decode` as in `huffman_decode`, with the record of
how the loop is left (`hufDecLoopExit`): the bytes returned, and `true` when
the loop met the end of the code words before `raw_len` bytes were complete. -/
def huffman_decode_exit (file : List Nat) : Option (List Nat × Bool) :=
  -- pak_buffer = Load(file, filelen);
  let buf := file ++ [0, 0, 0]
  let pak_len := file.length
  match buf with
  | b0 :: b1 :: b2 :: b3 :: rest =>
    let header := b0
    if header ≠ CMD_CODE_24 ∧ header ≠ CMD_CODE_28 then some ([], false)
    else
      let num_bits := header &&& 0xF
      let raw_len := read32le b0 b1 b2 b3 >>> 8
      match rest with
      | t0 :: pos :: _ =>
        -- tree = pak; pak += (*pak + 1) << 1; pos = *(tree + 1);
        hufDecLoopExit buf pak_len num_bits raw_len 4 (8 * pak_len + 1)
          { pak := 4 + ((t0 + 1) <<< 1), mask4 := 0, code := 0, pos := pos, next := 0,
            nbits := 0, cur := 0, raw := [] }
      | _ => none
  | _ => some ([], false)

end Gbacomp

namespace Gbacomp

/-! ## Arithmetic of bytes and words -/

theorem usub_def (a b : Nat) : usub a b = (a + 2 ^ 32 - b % 2 ^ 32) % 2 ^ 32 := by
  unfold usub; split <;> omega

theorem usub_eq (a b : Nat) (hb : b ≤ a) (ha : a < 2 ^ 32) : usub a b = a - b := by
  rw [usub_def]; omega

theorem uadd_eq (a b : Nat) (h : a + b < 2 ^ 32) : uadd a b = a + b := by
  unfold uadd; omega

theorem read32le_eq (b0 b1 b2 b3 : Nat) (h0 : b0 < 256) (h1 : b1 < 256) (h2 : b2 < 256) :
    read32le b0 b1 b2 b3 = b0 + 2 ^ 8 * b1 + 2 ^ 16 * b2 + 2 ^ 24 * b3 := by
  unfold read32le
  simp only [Nat.shiftLeft_eq]
  have e1 : b0 ||| b1 * 2 ^ 8 = 2 ^ 8 * b1 + b0 := by
    rw [Nat.lor_comm, Nat.mul_comm]
    exact (Nat.mul_add_lt_is_or (by omega) b1).symm
  have e2 : (2 ^ 8 * b1 + b0) ||| b2 * 2 ^ 16 = 2 ^ 16 * b2 + (2 ^ 8 * b1 + b0) := by
    rw [Nat.lor_comm, Nat.mul_comm]
    exact (Nat.mul_add_lt_is_or (by omega) b2).symm
  have e3 : (2 ^ 16 * b2 + (2 ^ 8 * b1 + b0)) ||| b3 * 2 ^ 24
      = 2 ^ 24 * b3 + (2 ^ 16 * b2 + (2 ^ 8 * b1 + b0)) := by
    rw [Nat.lor_comm, Nat.mul_comm]
    exact (Nat.mul_add_lt_is_or (by omega) b3).symm
  rw [e1, e2, e3]; omega

theorem and_255 (x : Nat) : x &&& 255 = x % 256 := by
  have := Nat.and_pow_two_sub_one_eq_mod x 8
  simpa using this

theorem read32le_tag (b0 b1 b2 b3 : Nat) (h0 : b0 < 256) (h1 : b1 < 256) (h2 : b2 < 256) :
    read32le b0 b1 b2 b3 &&& 255 = b0 := by
  rw [and_255, read32le_eq _ _ _ _ h0 h1 h2]; omega

theorem read32le_size (b0 b1 b2 b3 : Nat) (h0 : b0 < 256) (h1 : b1 < 256) (h2 : b2 < 256) :
    read32le b0 b1 b2 b3 >>> 8 = b1 + 2 ^ 8 * b2 + 2 ^ 16 * b3 := by
  rw [Nat.shiftRight_eq_div_pow, read32le_eq _ _ _ _ h0 h1 h2]; omega

set_option maxRecDepth 100000 in
theorem byte_and_80 : ∀ c, c < 256 → (c &&& 0x80 ≠ 0 ↔ 128 ≤ c) := by decide

set_option maxRecDepth 100000 in
theorem byte_and_7f : ∀ c, c < 256 → 128 ≤ c → c &&& 0xFFFFFF7F = c - 128 := by decide

set_option maxRecDepth 100000 in
theorem or_80 : ∀ n, n < 128 → 0x80 ||| n = 128 + n := by decide

theorem ALIGN4_mod (n : Nat) : ALIGN4 n % 4 = 0 := by
  unfold ALIGN4; omega

theorem ALIGN4_ge (n : Nat) : n ≤ ALIGN4 n := by
  unfold ALIGN4; omega

theorem heapBytes_length (heap : Nat → Nat) (a n : Nat) : (heapBytes heap a n).length = n := by
  simp [heapBytes]

/-- The header bytes parse back to the tag and the size. -/
theorem parse_create_header (size tag : Nat) (rest : List Nat) (hs : size < 2 ^ 24)
    (ht : tag < 256) :
    parse_header (cprs_create_header size tag ++ rest) = some (tag, size) := by
  simp only [cprs_create_header, parse_header, List.cons_append, List.nil_append]
  rw [read32le_tag _ _ _ _ (by omega) (by omega) (by omega),
      read32le_size _ _ _ _ (by omega) (by omega) (by omega)]
  congr 2
  · omega
  · omega

end Gbacomp

namespace Gbacomp

/-! ## RLE: the decoder inverts any list of well-formed stints -/

theorem encodeStints_append (a b : List Stint) :
    encodeStints (a ++ b) = encodeStints a ++ encodeStints b := by
  simp [encodeStints]

theorem expandStints_append (a b : List Stint) :
    expandStints (a ++ b) = expandStints a ++ expandStints b := by
  simp [expandStints]

theorem encodeStints_cons (s : Stint) (ss : List Stint) :
    encodeStints (s :: ss) = s.encode ++ encodeStints ss := by
  simp [encodeStints]

theorem expandStints_cons (s : Stint) (ss : List Stint) :
    expandStints (s :: ss) = s.expand ++ expandStints ss := by
  simp [expandStints]

theorem Stint.expand_length_pos (s : Stint) (h : s.ok) : 1 ≤ s.expand.length := by
  cases s with
  | lit bytes => simp only [Stint.ok] at h; simpa [Stint.expand] using h.1
  | run n v => simp only [Stint.ok] at h; simp only [Stint.expand, List.length_replicate]; omega

theorem expandStints_length_ge (ss : List Stint) (h : ∀ s ∈ ss, s.ok) :
    ss.length ≤ (expandStints ss).length := by
  induction ss with
  | nil => simp
  | cons s ss ih =>
    have h1 := Stint.expand_length_pos s (h s (List.mem_cons_self _ _))
    have h2 := ih (fun t ht => h t (List.mem_cons_of_mem _ ht))
    rw [expandStints_cons, List.length_append, List.length_cons]
    omega

/-- Once the output is complete the loop of the decoder returns it, whatever
the fuel. -/
theorem rleDecLoop_done (dstS fuel : Nat) (srcL : List Nat) (ii : Nat) (dstD : List Nat)
    (h : dstS ≤ ii) : rleDecLoop dstS fuel srcL ii dstD = some dstD := by
  cases fuel with
  | zero => simp [rleDecLoop, Nat.not_lt.mpr h]
  | succ n => simp [rleDecLoop, Nat.not_lt.mpr h]

/-- One round of the decoder on a well-formed stint that fits the budget. -/
theorem rleDecLoop_stint (dstS fuel : Nat) (s : Stint) (hs : s.ok) (rest : List Nat)
    (ii : Nat) (dstD : List Nat) (hfit : ii + s.expand.length ≤ dstS) :
    rleDecLoop dstS (fuel + 1) (s.encode ++ rest) ii dstD
      = rleDecLoop dstS fuel rest (ii + s.expand.length) (dstD ++ s.expand) := by
  cases s with
  | lit bytes =>
    simp only [Stint.ok] at hs
    simp only [Stint.expand] at hfit ⊢
    have hlt : ii < dstS := by omega
    have hc : bytes.length - 1 < 256 := by omega
    have h80 : ¬ ((bytes.length - 1) &&& 0x80 ≠ 0) := by
      rw [byte_and_80 _ hc]; omega
    have hmin : min (bytes.length - 1 + 1) (dstS - ii) = bytes.length := by omega
    simp only [Stint.encode, List.cons_append, rleDecLoop, hlt, if_true, h80, if_false, hmin]
    simp
  | run n v =>
    simp only [Stint.ok] at hs
    simp only [Stint.expand, List.length_replicate] at hfit ⊢
    have hlt : ii < dstS := by omega
    have hc : 128 + (n - 3) < 256 := by omega
    have h80 : (128 + (n - 3)) &&& 0x80 ≠ 0 := by
      rw [byte_and_80 _ hc]; omega
    have h7f : (128 + (n - 3)) &&& 0xFFFFFF7F = n - 3 := by
      rw [byte_and_7f _ hc (by omega)]; omega
    have hmin : min (n - 3 + 3) (dstS - ii) = n := by omega
    simp only [Stint.encode, List.cons_append, List.nil_append, rleDecLoop, hlt, if_true]
    rw [if_pos h80, h7f, hmin]

/-- The decoder loop run over a list of well-formed stints that fits the
budget appends what the stints stand for. -/
theorem rleDecLoop_stints (dstS : Nat) (ss : List Stint) (hok : ∀ s ∈ ss, s.ok) :
    ∀ (fuel : Nat) (rest : List Nat) (ii : Nat) (dstD : List Nat),
      ii + (expandStints ss).length ≤ dstS →
      rleDecLoop dstS (fuel + ss.length) (encodeStints ss ++ rest) ii dstD
        = rleDecLoop dstS fuel rest (ii + (expandStints ss).length) (dstD ++ expandStints ss) := by
  induction ss with
  | nil => intro fuel rest ii dstD _; simp [encodeStints, expandStints]
  | cons s ss ih =>
    intro fuel rest ii dstD hfit
    have hs := hok s (List.mem_cons_self _ _)
    have hss : ∀ t ∈ ss, t.ok := fun t ht => hok t (List.mem_cons_of_mem _ ht)
    rw [expandStints_cons, List.length_append] at hfit
    rw [encodeStints_cons, expandStints_cons, List.append_assoc, List.length_cons,
      ← Nat.add_assoc, rleDecLoop_stint dstS _ s hs _ ii dstD (by omega),
      ih hss fuel rest _ _ (by omega), List.length_append, List.append_assoc, Nat.add_assoc]

/-! ## RLE: the compressor writes well-formed stints that stand for the input -/

theorem take_drop_replicate (l : List Nat) (c n v : Nat) (hlen : c + n ≤ l.length)
    (h : ∀ j, c ≤ j → j < c + n → l.getD j 0 = v) :
    (l.drop c).take n = List.replicate n v := by
  rw [List.eq_replicate_iff]
  constructor
  · simp; omega
  · intro b hb
    rw [List.mem_iff_getElem] at hb
    obtain ⟨k, hk, rfl⟩ := hb
    simp only [List.length_take, List.length_drop] at hk
    have := h (c + k) (by omega) (by omega)
    rw [List.getD_eq_getElem _ _ (by omega)] at this
    simpa using this

theorem memcpy_length (l : List Nat) (c n : Nat) (h : c + n ≤ l.length) :
    (memcpy l c n).length = n := by
  simp [memcpy]; omega

theorem take_add_memcpy (l : List Nat) (c n : Nat) :
    l.take (c + n) = l.take c ++ memcpy l c n := by
  rw [memcpy, List.take_add]

/-- The invariant of the compressor loop is kept by one round. -/
theorem rleIter_inv (srcD : List Nat) (ii : Nat) (st : RleState)
    (hS : srcD.length < 2 ^ 32) (h1 : 1 ≤ ii) (h2 : ii ≤ srcD.length)
    (inv : RleInv srcD ii st) : RleInv srcD (ii + 1) (rleIter srcD srcD.length ii st) := by
  obtain ⟨ss, hdst, hok, hexp, hr1, hn1, hsum, hr130, hr3, hlt3, hreg, hprev, _⟩ := inv
  have hprev := hprev h2
  unfold rleIter
  by_cases hA : st.rle < 3 ∧ (st.non + st.rle > 0x80 ∨ ii = srcD.length)
  · -- mini non
    rw [if_pos hA]
    have hle := hlt3 hA.1
    have e1 : usub (st.non + st.rle) 2 % 256 = (st.non + st.rle - 1) - 1 := by
      rw [usub_eq _ _ (by omega) (by omega)]; omega
    have e2 : uadd (usub ii (st.non + st.rle)) 1 = ii + 1 - st.rle - st.non := by
      unfold uadd; simp only [usub_def]; omega
    have e3 : usub (st.non + st.rle) 1 = st.non + st.rle - 1 := usub_eq _ _ (by omega) (by omega)
    have hml : (memcpy srcD (ii + 1 - st.rle - st.non) (st.non + st.rle - 1)).length
        = st.non + st.rle - 1 := memcpy_length _ _ _ (by omega)
    refine ⟨ss ++ [Stint.lit (memcpy srcD (ii + 1 - st.rle - st.non) (st.non + st.rle - 1))],
      ?_, ?_, ?_, ?_⟩
    · simp only [e1, e2, e3, hdst, encodeStints_append]
      simp [encodeStints, Stint.encode, hml]
    · intro s hs
      rcases List.mem_append.mp hs with h | h
      · exact hok s h
      · simp only [List.mem_singleton] at h
        subst h
        simp only [Stint.ok, hml]; omega
    · simp only [expandStints_append, hexp]
      simp only [expandStints, List.flatMap_cons, List.flatMap_nil, List.append_nil, Stint.expand]
      rw [← take_add_memcpy]
      have e : ii + 1 - st.rle - st.non + (st.non + st.rle - 1) = ii := by omega
      rw [e]
      show List.take ii srcD = List.take (ii + 1 + 1 - 1 - 1) srcD
      rw [show ii + 1 + 1 - 1 - 1 = ii by omega]
    · refine ⟨by simp, by simp, by simp, by simp, by simp, by simp, ?_, ?_, by simp⟩
      · intro j hj1 hj2
        simp only at hj1
        have : j = ii := by omega
        subst this; simp
      · intro h
        have hne : ii ≠ srcD.length := by omega
        show (if ii ≠ srcD.length then srcD.getD ii 0 else st.curr) = srcD.getD (ii + 1 - 1) 0
        rw [if_pos hne, Nat.add_sub_cancel]
  · rw [if_neg hA]
    have hA1 : 3 ≤ st.rle ∨ (st.non + st.rle ≤ 128 ∧ ii ≠ srcD.length) := by
      by_cases h3 : st.rle < 3
      · right
        constructor
        · by_contra hc; exact hA ⟨h3, Or.inl (by omega)⟩
        · intro hc; exact hA ⟨h3, Or.inr hc⟩
      · left; omega
    by_cases hB : (if ii ≠ srcD.length then srcD.getD ii 0 else st.curr)
        = (if st.rle = 0x82 ∨ ii = srcD.length then
            255 - (if ii ≠ srcD.length then srcD.getD ii 0 else st.curr) % 256 else st.prev)
    · -- start rle / non on hold
      rw [if_pos hB]
      have hno : ¬ (st.rle = 0x82 ∨ ii = srcD.length) := by
        intro hc
        rw [if_pos hc] at hB
        omega
      rw [if_neg hno] at hB
      have hne : ii ≠ srcD.length := fun hc => hno (Or.inr hc)
      have hr : st.rle ≠ 130 := fun hc => hno (Or.inl hc)
      rw [if_pos hne] at hB
      rw [hprev] at hB
      by_cases hC : st.rle + 1 = 3 ∧ st.non > 1
      · rw [if_pos hC]
        have hnon : st.non + st.rle ≤ 128 := by
          rcases hA1 with h | h
          · omega
          · exact h.1
        have e1 : usub st.non 2 % 256 = (st.non - 1) - 1 := by
          rw [usub_eq _ _ (by omega) (by omega)]; omega
        have e2 : usub (usub ii st.non) 1 = ii + 1 - st.rle - st.non := by
          simp only [usub_def]; omega
        have e3 : usub st.non 1 = st.non - 1 := usub_eq _ _ (by omega) (by omega)
        have hml : (memcpy srcD (ii + 1 - st.rle - st.non) (st.non - 1)).length
            = st.non - 1 := memcpy_length _ _ _ (by omega)
        refine ⟨ss ++ [Stint.lit (memcpy srcD (ii + 1 - st.rle - st.non) (st.non - 1))],
          ?_, ?_, ?_, ?_⟩
        · simp only [e1, e2, e3, hdst, encodeStints_append]
          simp [encodeStints, Stint.encode, hml]
        · intro s hs
          rcases List.mem_append.mp hs with h | h
          · exact hok s h
          · simp only [List.mem_singleton] at h
            subst h
            simp only [Stint.ok, hml]; omega
        · simp only [expandStints_append, hexp]
          simp only [expandStints, List.flatMap_cons, List.flatMap_nil, List.append_nil,
            Stint.expand]
          rw [← take_add_memcpy]
          have e : ii + 1 - st.rle - st.non + (st.non - 1) = ii + 1 + 1 - (st.rle + 1) - 1 := by
            omega
          rw [e]
        · refine ⟨by simp, by simp, ?_, ?_, by simp, ?_, ?_, ?_, ?_⟩
          · show st.rle + 1 + 1 ≤ ii + 1 + 1
            omega
          · show st.rle + 1 ≤ 130
            omega
          · show st.rle + 1 < 3 → 1 + (st.rle + 1) ≤ 129
            omega
          · intro j hj1 hj2
            have hj1 : ii + 1 - (st.rle + 1) ≤ j := hj1
            rw [Nat.add_sub_cancel]
            by_cases hj : j = ii
            · rw [hj]
            · rw [hreg j (by omega) (by omega), ← hB]
          · intro _
            show (if ii ≠ srcD.length then srcD.getD ii 0 else st.curr)
              = srcD.getD (ii + 1 - 1) 0
            rw [if_pos hne, Nat.add_sub_cancel]
          · intro hc; omega
      · rw [if_neg hC]
        refine ⟨ss, hdst, hok, ?_, ?_⟩
        · rw [hexp]
          show List.take (ii + 1 - st.rle - st.non) srcD
            = List.take (ii + 1 + 1 - (st.rle + 1) - st.non) srcD
          rw [show ii + 1 + 1 - (st.rle + 1) - st.non = ii + 1 - st.rle - st.non by omega]
        · refine ⟨by simp, hn1, ?_, ?_, ?_, ?_, ?_, ?_, ?_⟩
          · show st.rle + 1 + st.non ≤ ii + 1 + 1
            omega
          · show st.rle + 1 ≤ 130
            omega
          · show 3 ≤ st.rle + 1 → st.non = 1
            intro h
            by_cases h3 : 3 ≤ st.rle
            · exact hr3 h3
            · have : st.rle + 1 = 3 := by omega
              by_contra hc
              exact hC ⟨this, by omega⟩
          · show st.rle + 1 < 3 → st.non + (st.rle + 1) ≤ 129
            intro h
            rcases hA1 with h' | h'
            · omega
            · omega
          · intro j hj1 hj2
            have hj1 : ii + 1 - (st.rle + 1) ≤ j := hj1
            rw [Nat.add_sub_cancel]
            by_cases hj : j = ii
            · rw [hj]
            · rw [hreg j (by omega) (by omega), ← hB]
          · intro _
            show (if ii ≠ srcD.length then srcD.getD ii 0 else st.curr)
              = srcD.getD (ii + 1 - 1) 0
            rw [if_pos hne, Nat.add_sub_cancel]
          · intro hc; omega
    · -- rle end / non start
      rw [if_neg hB]
      by_cases hD : st.rle ≥ 3
      · rw [if_pos hD]
        have hnon := hr3 hD
        have e1 : (0x80 ||| usub st.rle 3) % 256 = 128 + (st.rle - 3) := by
          rw [usub_eq _ _ (by omega) (by omega), or_80 _ (by omega)]; omega
        have e2 : usub ii 1 = ii - 1 := usub_eq _ _ (by omega) (by omega)
        refine ⟨ss ++ [Stint.run st.rle (srcD.getD (ii - 1) 0)], ?_, ?_, ?_, ?_⟩
        · simp only [e1, e2, hdst, encodeStints_append]
          simp [encodeStints, Stint.encode]
        · intro s hs
          rcases List.mem_append.mp hs with h | h
          · exact hok s h
          · simp only [List.mem_singleton] at h
            subst h
            simp only [Stint.ok]; omega
        · simp only [expandStints_append, hexp]
          simp only [expandStints, List.flatMap_cons, List.flatMap_nil, List.append_nil,
            Stint.expand]
          rw [← take_drop_replicate srcD (ii + 1 - st.rle - st.non) st.rle _ (by omega)
            (fun j hj1 hj2 => hreg j (by omega) (by omega)), ← List.take_add]
          show List.take (ii + 1 - st.rle - st.non + st.rle) srcD
            = List.take (ii + 1 + 1 - 1 - (0 + 1)) srcD
          rw [show ii + 1 - st.rle - st.non + st.rle = ii + 1 + 1 - 1 - (0 + 1) by omega]
        · refine ⟨by simp, by simp, by simp, by simp, by simp, by simp, ?_, ?_, by simp⟩
          · intro j hj1 hj2
            have hj1 : ii + 1 - 1 ≤ j := hj1
            have : j = ii := by omega
            rw [this, Nat.add_sub_cancel]
          · intro h
            have hne : ii ≠ srcD.length := by omega
            show (if ii ≠ srcD.length then srcD.getD ii 0 else st.curr)
              = srcD.getD (ii + 1 - 1) 0
            rw [if_pos hne, Nat.add_sub_cancel]
      · rw [if_neg hD]
        have hA2 : st.non + st.rle ≤ 128 ∧ ii ≠ srcD.length := by
          rcases hA1 with h | h
          · omega
          · exact h
        refine ⟨ss, hdst, hok, ?_, ?_⟩
        · rw [hexp]
          show List.take (ii + 1 - st.rle - st.non) srcD
            = List.take (ii + 1 + 1 - 1 - (st.non + st.rle)) srcD
          rw [show ii + 1 + 1 - 1 - (st.non + st.rle) = ii + 1 - st.rle - st.non by omega]
        · refine ⟨by simp, ?_, ?_, by simp, by simp, ?_, ?_, ?_, ?_⟩
          · show 1 ≤ st.non + st.rle
            omega
          · show 1 + (st.non + st.rle) ≤ ii + 1 + 1
            omega
          · show 1 < 3 → st.non + st.rle + 1 ≤ 129
            omega
          · intro j hj1 hj2
            have hj1 : ii + 1 - 1 ≤ j := hj1
            have : j = ii := by omega
            rw [this, Nat.add_sub_cancel]
          · intro _
            show (if ii ≠ srcD.length then srcD.getD ii 0 else st.curr)
              = srcD.getD (ii + 1 - 1) 0
            rw [if_pos hA2.2, Nat.add_sub_cancel]
          · intro hc; omega


/-- The invariant holds when the loop is entered. -/
theorem rleInv_init (curr0 : Nat) (srcD : List Nat) :
    RleInv srcD 1 { rle := 1, non := 1, curr := curr0 % 256, prev := srcD.getD 0 0, dst := [] } := by
  refine ⟨[], by simp [encodeStints], by simp, by simp [expandStints], by simp, by simp,
    by simp, by simp, by simp, by simp, ?_, by simp, by simp⟩
  intro j hj1 hj2
  have : j = 0 := by omega
  rw [this]

/-- The invariant is kept by the loop. -/
theorem rleLoop_inv (srcD : List Nat) (hS : srcD.length < 2 ^ 32) :
    ∀ (n ii : Nat) (st : RleState), 1 ≤ ii → ii + n = srcD.length + 1 → RleInv srcD ii st →
      RleInv srcD (srcD.length + 1) (rleLoop srcD srcD.length n ii st) := by
  intro n
  induction n with
  | zero =>
    intro ii st _ h2 inv
    have : ii = srcD.length + 1 := by omega
    rw [rleLoop, ← this]; exact inv
  | succ n ih =>
    intro ii st h1 h2 inv
    rw [rleLoop]
    exact ih (ii + 1) _ (by omega) (by omega) (rleIter_inv srcD ii st hS h1 (by omega) inv)

/-- The payload of `rle8gba_compress` is a list of well-formed stints that
stands for the whole input. -/
theorem rlePayload_stints (curr0 : Nat) (srcD : List Nat) (hS : srcD.length < 2 ^ 32) :
    ∃ ss : List Stint, rlePayload curr0 srcD = encodeStints ss ∧ (∀ s ∈ ss, s.ok) ∧
      expandStints ss = srcD := by
  have inv := rleLoop_inv srcD hS srcD.length 1 _ (by omega) (by omega) (rleInv_init curr0 srcD)
  obtain ⟨ss, hdst, hok, hexp, _, _, _, _, _, _, _, _, hfin⟩ := inv
  have hf := hfin rfl
  refine ⟨ss, hdst, hok, ?_⟩
  rw [hexp, hf.1, hf.2]
  simp

/-- The output of `rle8gba_compress` is the header followed by the payload
and the bytes up to the next multiple of four. -/
theorem rle8gba_compress_eq (heap : Nat → Nat) (curr0 : Nat) (srcD : List Nat) :
    rle8gba_compress heap curr0 srcD
      = cprs_create_header srcD.length CPRS_RLE_TAG ++
          (rlePayload curr0 srcD ++ heapBytes heap (rlePayload curr0 srcD).length
            (ALIGN4 (rlePayload curr0 srcD).length - (rlePayload curr0 srcD).length)) := by
  simp [rle8gba_compress]

/-- C2. RLE round trip: for every non-empty byte sequence `x` of at most
`2^24 - 1` bytes, `rle8gba_decompress` applied to the output of
`rle8gba_compress` returns exactly `x` (whatever the scratch block held and
whatever the initial value of the local `curr` was). -/
theorem rle_roundtrip (heap : Nat → Nat) (curr0 : Nat) (x : List Nat) (_hne : x ≠ [])
    (hlen : x.length ≤ 2 ^ 24 - 1) (_hx : Bytes x) :
    rle8gba_decompress (rle8gba_compress heap curr0 x) = some x := by
  obtain ⟨ss, hp, hok, hexp⟩ := rlePayload_stints curr0 x (by omega)
  have hk := expandStints_length_ge ss hok
  rw [hexp] at hk
  rw [rle8gba_compress_eq, hp]
  simp only [cprs_create_header, CPRS_RLE_TAG, List.cons_append, List.nil_append,
    rle8gba_decompress]
  rw [read32le_tag _ _ _ _ (by omega) (by omega) (by omega),
    read32le_size _ _ _ _ (by omega) (by omega) (by omega)]
  have hN : x.length % 256 + 2 ^ 8 * (x.length / 2 ^ 8 % 256)
      + 2 ^ 16 * (x.length / 2 ^ 16 % 256) = x.length := by omega
  rw [hN]
  simp only [Nat.reduceMod, ne_eq, not_true_eq_false, if_false]
  have hfuel : x.length = (x.length - ss.length) + ss.length := by omega
  have key := rleDecLoop_stints x.length ss hok (x.length - ss.length)
    (heapBytes heap (encodeStints ss).length
      (ALIGN4 (encodeStints ss).length - (encodeStints ss).length)) 0 [] (by rw [hexp]; omega)
  rw [← hfuel] at key
  rw [key, hexp, rleDecLoop_done _ _ _ _ _ (by omega)]
  simp

/-- Witness of `rle_roundtrip` on the three bytes 7, 7, 9. -/
theorem rle_roundtrip_witness :
    rle8gba_decompress (rle8gba_compress (fun _ => 0) 0 [7, 7, 9]) = some [7, 7, 9] :=
  rle_roundtrip (fun _ => 0) 0 [7, 7, 9] (by decide) (by decide) (by decide)

/-- C7. RLE header law: for every input of `N ≤ 2^24 - 1` bytes the output of
`rle8gba_compress` starts with the bytes `0x30, N & 0xFF, (N >> 8) & 0xFF,
(N >> 16) & 0xFF`, its header parses to `(0x30, N)`, and its length is a
multiple of 4. -/
theorem rle_header_law (heap : Nat → Nat) (curr0 : Nat) (x : List Nat)
    (hlen : x.length ≤ 2 ^ 24 - 1) :
    (rle8gba_compress heap curr0 x).take 4
        = [0x30, x.length % 256, x.length / 2 ^ 8 % 256, x.length / 2 ^ 16 % 256] ∧
      parse_header (rle8gba_compress heap curr0 x) = some (0x30, x.length) ∧
      (rle8gba_compress heap curr0 x).length % 4 = 0 := by
  rw [rle8gba_compress_eq]
  refine ⟨?_, ?_, ?_⟩
  · simp [cprs_create_header, CPRS_RLE_TAG]
  · exact parse_create_header _ _ _ (by omega) (by decide)
  · have h1 := ALIGN4_mod (rlePayload curr0 x).length
    have h2 := ALIGN4_ge (rlePayload curr0 x).length
    simp only [List.length_append, heapBytes_length, cprs_create_header, List.length_cons,
      List.length_nil]
    omega

/-- Witness of `rle_header_law` on a four-byte input. -/
theorem rle_header_law_witness :
    (rle8gba_compress (fun _ => 0) 0 [65, 66, 67, 68]).take 4
        = [0x30, [65, 66, 67, 68].length % 256, [65, 66, 67, 68].length / 2 ^ 8 % 256,
            [65, 66, 67, 68].length / 2 ^ 16 % 256] ∧
      parse_header (rle8gba_compress (fun _ => 0) 0 [65, 66, 67, 68])
        = some (0x30, [65, 66, 67, 68].length) ∧
      (rle8gba_compress (fun _ => 0) 0 [65, 66, 67, 68]).length % 4 = 0 :=
  rle_header_law (fun _ => 0) 0 [65, 66, 67, 68] (by decide)

end Gbacomp

namespace Gbacomp

/-! ## Tag checks of the decompressors, and two evaluations -/

/-- C9. Tag validation: on every input of at least four bytes,
`lz77gba_decompress` returns a zero-length result when byte 0 is not `0x10`,
`rle8gba_decompress` when byte 0 is not `0x30`, and `huffman_decode` when
byte 0 is neither `0x24` nor `0x28`. -/
theorem tag_validation (src : List Nat) (hlen : 4 ≤ src.length) (hb : Bytes src) :
    (src.getD 0 0 ≠ 0x10 → lz77gba_decompress src = some []) ∧
    (src.getD 0 0 ≠ 0x30 → rle8gba_decompress src = some []) ∧
    (src.getD 0 0 ≠ 0x24 ∧ src.getD 0 0 ≠ 0x28 → huffman_decode src = some []) := by
  match src, hlen, hb with
  | b0 :: b1 :: b2 :: b3 :: rest, _, hb =>
    have h0 : b0 < 256 := hb b0 (by simp)
    have h1 : b1 < 256 := hb b1 (by simp)
    have h2 : b2 < 256 := hb b2 (by simp)
    have ht := read32le_tag b0 b1 b2 b3 h0 h1 h2
    refine ⟨?_, ?_, ?_⟩
    · intro h
      simp only [List.getD_cons_zero] at h
      simp only [lz77gba_decompress, ht, CPRS_LZ77_TAG]
      rw [if_pos h]
    · intro h
      simp only [List.getD_cons_zero] at h
      simp only [rle8gba_decompress, ht, CPRS_RLE_TAG]
      rw [if_pos h]
    · intro h
      simp only [List.getD_cons_zero] at h
      simp only [huffman_decode, List.cons_append, CMD_CODE_24, CMD_CODE_28]
      rw [if_pos h]

/-- Witness of `tag_validation`: four zero bytes carry none of the tags. -/
theorem tag_validation_witness :
    ([0, 0, 0, 0].getD 0 0 ≠ 0x10 → lz77gba_decompress [0, 0, 0, 0] = some []) ∧
    ([0, 0, 0, 0].getD 0 0 ≠ 0x30 → rle8gba_decompress [0, 0, 0, 0] = some []) ∧
    ([0, 0, 0, 0].getD 0 0 ≠ 0x24 ∧ [0, 0, 0, 0].getD 0 0 ≠ 0x28 →
      huffman_decode [0, 0, 0, 0] = some []) :=
  tag_validation [0, 0, 0, 0] (by decide) (by decide)

/-- C6. On the empty input `CompressLZ77` returns at `if(len == 0) return;`
before the header bytes are stored: the four bytes `lz77gba_compress` hands
back are whatever the `malloc`ed block `OutBuf` held, not `0x10, 0, 0, 0`. -/
theorem lz_empty_input_header (heap : Nat → Nat) (statics : LzState) :
    lz77gba_compress heap statics []
      = some [heap 0 % 256, heap 1 % 256, heap 2 % 256, heap 3 % 256] := by
  simp [lz77gba_compress, CompressLZ77, fillLoop, FRAME_MAX, heapBytes, ALIGN4, List.range,
    List.range.loop]

set_option maxRecDepth 100000 in
/-- C10. The two Huffman decoders disagree on the stream `huffman_encode`
produces for the four bytes `0x12` with width 4: `huffman_decode` puts the
first decoded nibble into the high half of the byte (and returns the input),
`huffman_decode_vba` into the low half (and returns `0x21` four times). -/
theorem huffman_decoders_disagree :
    huffman_encode [0x12, 0x12, 0x12, 0x12] 4
        = some [0x24, 4, 0, 0, 1, 0xC0, 1, 2, 0, 0, 0, 0x55] ∧
      huffman_decode [0x24, 4, 0, 0, 1, 0xC0, 1, 2, 0, 0, 0, 0x55]
        = some [0x12, 0x12, 0x12, 0x12] ∧
      huffman_decode_vba [0x24, 4, 0, 0, 1, 0xC0, 1, 2, 0, 0, 0, 0x55]
        = some [0x21, 0x21, 0x21, 0x21] := by
  decide

end Gbacomp

namespace Gbacomp

/-! ## Huffman: what the table passes leave untouched, and the header law -/

theorem Agree2.refl (t : List Nat) : Agree2 t t := ⟨rfl, rfl, rfl⟩

theorem Agree2.trans {a b c : List Nat} (h1 : Agree2 a b) (h2 : Agree2 b c) : Agree2 a c :=
  ⟨h2.1.trans h1.1, h2.2.1.trans h1.2.1, h2.2.2.trans h1.2.2⟩

theorem wr_agree (t t' : List Nat) (i v : Nat) (h : wr t i v = some t') (hi : 2 ≤ i) :
    Agree2 t t' := by
  unfold wr at h
  split at h
  · simp only [Option.some.injEq] at h
    subst h
    refine ⟨by simp, ?_, ?_⟩
    · simp only [List.get?_eq_getElem?]
      rw [List.getElem?_set_ne (by omega)]
    · simp only [List.get?_eq_getElem?]
      rw [List.getElem?_set_ne (by omega)]
  · simp at h

theorem wr_length (t t' : List Nat) (i v : Nat) (h : wr t i v = some t') :
    t'.length = t.length := by
  unfold wr at h
  split at h
  · simp only [Option.some.injEq] at h
    subst h; simp
  · simp at h

theorem rd_lt (t : List Nat) (i c : Nat) (h : rd t i = some c) : i < t.length := by
  unfold rd at h
  rw [List.get?_eq_getElem?] at h
  exact (List.getElem?_eq_some_iff.mp h).1

theorem or_one_odd (a : Nat) : (a ||| 1) % 2 = 1 := by
  have h := Nat.testBit_or a 1 0
  simp only [Nat.testBit_zero, Nat.mod_succ, decide_True, Bool.or_true,
    decide_eq_true_eq] at h
  exact h

theorem slideLoop_agree (l0 : Nat) : ∀ (n j : Nat) (t t' : List Nat),
    j % 2 = 0 → j < 2 ^ 32 → slideLoop l0 n j t = some t' → Agree2 t t' := by
  intro n
  induction n with
  | zero => intro j t t' _ _ h; simp only [slideLoop, Option.some.injEq] at h; subst h; exact Agree2.refl _
  | succ n ih =>
    intro j t t' hj hj32 h
    simp only [slideLoop] at h
    split at h
    · rename_i hgt
      split at h
      · rename_i a b _ _
        split at h
        · simp at h
        · rename_i t1 h1
          split at h
          · simp at h
          · rename_i t2 h2
            have e : usub j 2 = j - 2 := usub_eq _ _ (by omega) hj32
            rw [e] at h
            exact ((wr_agree _ _ _ _ h1 (by omega)).trans (wr_agree _ _ _ _ h2 (by omega))).trans
              (ih (j - 2) t2 t' (by omega) (by omega) h)
      · simp at h
    · simp only [Option.some.injEq] at h; subst h; exact Agree2.refl _

theorem bumpLoop_agree (codemask : List Nat) (l0 n0 n1 : Nat) : ∀ (n j : Nat) (t t' : List Nat),
    2 ≤ j → bumpLoop codemask l0 n0 n1 n j t = some t' → Agree2 t t' := by
  intro n
  induction n with
  | zero => intro j t t' _ h; simp only [bumpLoop, Option.some.injEq] at h; subst h; exact Agree2.refl _
  | succ n ih =>
    intro j t t' hj h
    simp only [bumpLoop] at h
    split at h
    · split at h
      · split at h
        · split at h
          · split at h
            · simp at h
            · rename_i t1 h1
              exact (wr_agree _ _ _ _ h1 hj).trans (ih (j + 1) t1 t' (by omega) h)
          · exact ih (j + 1) t t' (by omega) h
        · exact ih (j + 1) t t' (by omega) h
      · simp at h
    · simp only [Option.some.injEq] at h; subst h; exact Agree2.refl _

theorem dropLoop_agree (codemask : List Nat) (l1 n1 : Nat) : ∀ (n j : Nat) (t t' : List Nat),
    2 ≤ j → dropLoop codemask l1 n1 n j t = some t' → Agree2 t t' := by
  intro n
  induction n with
  | zero => intro j t t' _ h; simp only [dropLoop, Option.some.injEq] at h; subst h; exact Agree2.refl _
  | succ n ih =>
    intro j t t' hj h
    simp only [dropLoop] at h
    split at h
    · split at h
      · split at h
        · split at h
          · split at h
            · simp at h
            · rename_i t1 h1
              exact (wr_agree _ _ _ _ h1 hj).trans (ih (j + 1) t1 t' (by omega) h)
          · exact ih (j + 1) t t' (by omega) h
        · exact ih (j + 1) t t' (by omega) h
      · simp at h
    · simp only [Option.some.injEq] at h; subst h; exact Agree2.refl _


theorem AgreeCT.reflCT (ct : CodeTree) : AgreeCT ct ct := ⟨Agree2.refl _, Agree2.refl _⟩

theorem AgreeCT.transCT {a b c : CodeTree} (h1 : AgreeCT a b) (h2 : AgreeCT b c) : AgreeCT a c :=
  ⟨h1.1.trans h2.1, h1.2.trans h2.2⟩

theorem updateFix_agree (m : List Nat) (inc : Nat) (t : List Nat) (j : Nat) (t' : List Nat)
    (h : updateFix m inc t j = some t') (hj : 2 ≤ j) : Agree2 t t' := by
  unfold updateFix at h
  split at h
  · split at h
    · exact wr_agree _ _ _ _ h hj
    · simp only [Option.some.injEq] at h; subst h; exact Agree2.refl _
  · simp at h

theorem slidePair_agree (t : List Nat) (l0 l1 : Nat) (t' : List Nat)
    (h : slidePair t l0 l1 = some t') (h1 : l1 % 2 = 0) (h2 : 2 ≤ l0) (hlen : t.length < 2 ^ 32) :
    Agree2 t t' := by
  unfold slidePair at h
  split at h
  · rename_i a b ha hb
    have hl1 := rd_lt _ _ _ ha
    split at h
    · simp at h
    · rename_i t1 e1
      split at h
      · simp at h
      · rename_i t2 e2
        exact ((slideLoop_agree l0 _ _ _ _ h1 (by omega) e1).trans
          (wr_agree _ _ _ _ e2 h2)).trans (wr_agree _ _ _ _ h (by omega))
  · simp at h

theorem updateDec_agree (t : List Nat) (i inc : Nat) (t' : List Nat)
    (h : updateDec t i inc = some t') (hi : 2 ≤ i) : Agree2 t t' := by
  unfold updateDec at h
  split at h
  · simp at h
  · exact wr_agree _ _ _ _ h hi

theorem updateAdjust_agree (m t : List Nat) (i inc n0 n1 : Nat) (t' : List Nat)
    (h : updateAdjust m t i inc n0 n1 = some t') (hi : 2 ≤ i) (h0 : 2 ≤ n0 <<< 1) :
    Agree2 t t' := by
  unfold updateAdjust at h
  simp only at h
  split at h
  · simp at h
  · rename_i t1 e1
    split at h
    · simp at h
    · rename_i t2 e2
      split at h
      · simp at h
      · rename_i t3 e3
        split at h
        · simp at h
        · rename_i t4 e4
          exact ((((updateDec_agree _ _ _ _ e1 hi).trans
            (bumpLoop_agree _ _ _ _ _ _ _ _ (by omega) e2)).trans
            (updateFix_agree _ _ _ _ _ e3 h0)).trans
            (updateFix_agree _ _ _ _ _ e4 (by omega))).trans
            (dropLoop_agree _ _ _ _ _ _ _ (by omega) h)

theorem and_one_ne_zero (i : Nat) : (i &&& 1 ≠ 0) ↔ i % 2 = 1 := by
  rw [Nat.and_one_is_mod]; omega

theorem or_one_bounds (a : Nat) : a ≤ a ||| 1 ∧ a ||| 1 ≤ a + 1 := by
  have h1 := or_one_odd a
  have h2 : (a ||| 1) / 2 = a / 2 := by
    rw [Nat.or_div_two]; simp
  omega

/-- What `updateSel` returns for a slot `i ≥ 2` holding an offset above 63:
a slot `i2 ≥ 2` whose offset, shortened by `inc`, is still at least 62. -/
theorem updateSel_spec (t : List Nat) (i i2 inc : Nat) (h : updateSel t i = some (i2, inc))
    (hi : 2 ≤ i) (hlen : t.length < 2 ^ 32) (hc : ∀ c, rd t i = some c → 63 < c) :
    2 ≤ i2 ∧ ∃ c2, rd t i2 = some c2 ∧ inc ≤ c2 ∧ 62 ≤ c2 - inc := by
  unfold updateSel at h
  simp only at h
  split at h
  · rename_i ci c hci hcn
    have hil := rd_lt _ _ _ hci
    have hc' := hc ci hci
    split at h
    · rename_i hnext
      simp only [Option.some.injEq, Prod.mk.injEq] at h
      obtain ⟨e1, e2⟩ := h
      subst e2
      rw [e1] at hcn
      refine ⟨?_, c, hcn, ?_, ?_⟩
      · rw [← e1]
        split
        · rename_i hodd
          rw [and_one_ne_zero] at hodd
          rw [usub_eq _ _ (by omega) (by omega)]; omega
        · omega
      · simp only [HUF_NEXT] at hnext; omega
      · simp only [HUF_NEXT] at hnext; omega
    · simp only [Option.some.injEq, Prod.mk.injEq] at h
      obtain ⟨e1, e2⟩ := h
      subst e1
      refine ⟨hi, ci, hci, ?_, ?_⟩
      · rw [← e2, HUF_NEXT]; simp only [usub_def]; omega
      · rw [← e2, HUF_NEXT]; simp only [usub_def]; omega
  · simp at h

theorem slidePair_length (t : List Nat) (l0 l1 : Nat) (t' : List Nat)
    (h : slidePair t l0 l1 = some t') : l1 + 1 < t.length := by
  unfold slidePair at h
  split at h
  · rename_i a b ha hb
    exact rd_lt _ _ _ hb
  · simp at h

theorem updateMove_agree (ct : CodeTree) (i inc : Nat) (ct' : CodeTree)
    (h : updateMove ct i inc = some ct') (hi : 2 ≤ i)
    (hlen : ct.codetree.length < 2 ^ 32) (hlenm : ct.codemask.length < 2 ^ 32)
    (hc : ∃ c2, rd ct.codetree i = some c2 ∧ inc ≤ c2 ∧ 62 ≤ c2 - inc) : AgreeCT ct ct' := by
  obtain ⟨c2, hc2, hinc, h62⟩ := hc
  unfold updateMove at h
  rw [hc2] at h
  simp only at h
  split at h
  · rename_i t m ht hm
    have hl := slidePair_length _ _ _ _ ht
    rw [Nat.shiftLeft_eq] at hl
    have hn0 : usub (i >>> 1 + 1 + c2) inc = i >>> 1 + 1 + c2 - inc :=
      usub_eq _ _ (by omega) (by omega)
    have hl0 : 2 ≤ usub (i >>> 1 + 1 + c2) inc <<< 1 := by
      rw [hn0, Nat.shiftLeft_eq]; omega
    have hl1 : ((i >>> 1 + 1 + c2) <<< 1) % 2 = 0 := by
      rw [Nat.shiftLeft_eq]; omega
    have a1 := slidePair_agree _ _ _ _ ht hl1 hl0 hlen
    have a2 := slidePair_agree _ _ _ _ hm hl1 hl0 hlenm
    split at h
    · simp at h
    · rename_i t2 e2
      simp only [Option.some.injEq] at h
      subst h
      exact ⟨a1.trans (updateAdjust_agree _ _ _ _ _ _ _ e2 hi hl0), a2⟩
  · simp at h

theorem updateAt_agree (ct : CodeTree) (i : Nat) (ct' : CodeTree) (i' : Nat)
    (h : updateAt ct i = some (ct', i')) (hi : 2 ≤ i)
    (hlen : ct.codetree.length < 2 ^ 32) (hlenm : ct.codemask.length < 2 ^ 32)
    (hc : ∀ c, rd ct.codetree i = some c → 63 < c) :
    AgreeCT ct ct' ∧ 2 ≤ uadd i' 1 := by
  unfold updateAt at h
  split at h
  · simp at h
  · rename_i i2 inc hsel
    have hs := updateSel_spec _ _ _ _ hsel hi hlen hc
    split at h
    · simp at h
    · rename_i ct2 hmv
      simp only [Option.some.injEq, Prod.mk.injEq] at h
      obtain ⟨e1, e2⟩ := h
      subst e1
      refine ⟨updateMove_agree _ _ _ _ hmv hs.1 hlen hlenm hs.2, ?_⟩
      obtain ⟨c2, hc2, _, _⟩ := hs.2
      have hl := rd_lt _ _ _ hc2
      have hb := or_one_bounds i2
      have ho := or_one_odd i2
      rw [← e2, usub_eq _ _ (by omega) (by omega), uadd_eq _ _ (by omega)]
      omega

theorem updateLoop_agree (max : Nat) : ∀ (fuel i : Nat) (ct ct' : CodeTree),
    updateLoop max fuel i ct = some ct' → 2 ≤ i →
    ct.codetree.length < 2 ^ 32 → ct.codemask.length < 2 ^ 32 → AgreeCT ct ct' := by
  intro fuel
  induction fuel with
  | zero =>
    intro i ct ct' h _ _ _
    simp only [updateLoop] at h
    split at h
    · simp at h
    · simp only [Option.some.injEq] at h; subst h; exact AgreeCT.reflCT _
  | succ n ih =>
    intro i ct ct' h hi hlen hlenm
    simp only [updateLoop] at h
    split at h
    · split at h
      · rename_i m c hm hcr
        have hil := rd_lt _ _ _ hcr
        split at h
        · rename_i hcond
          split at h
          · simp at h
          · rename_i ct2 i2 hat
            have hc : ∀ c', rd ct.codetree i = some c' → 63 < c' := by
              intro c' hc'
              rw [hcr] at hc'
              simp only [Option.some.injEq] at hc'
              subst hc'
              simpa [HUF_NEXT] using hcond.2
            have ha := updateAt_agree _ _ _ _ hat hi hlen hlenm hc
            have l1 : ct2.codetree.length < 2 ^ 32 := by rw [ha.1.1.1]; exact hlen
            have l2 : ct2.codemask.length < 2 ^ 32 := by rw [ha.1.2.1]; exact hlenm
            exact ha.1.transCT (ih _ _ _ h ha.2 l1 l2)
        · exact ih _ _ _ h (by rw [uadd_eq _ _ (by omega)]; omega) hlen hlenm
      · simp at h
    · simp only [Option.some.injEq] at h; subst h; exact AgreeCT.reflCT _


end Gbacomp

namespace Gbacomp

theorem putNode_spec (ct : CodeTree) (i v m : Nat) (ct' : CodeTree)
    (h : putNode ct i v m = some ct') :
    ct'.codetree = ct.codetree.set i (v % 256) ∧ ct'.codemask = ct.codemask.set i (m % 256) ∧
      i < ct.codetree.length ∧ i < ct.codemask.length := by
  unfold putNode at h
  split at h
  · rename_i hi
    simp only [Option.some.injEq] at h
    subst h
    exact ⟨rfl, rfl, hi.1, hi.2⟩
  · simp at h

theorem set_agree (t : List Nat) (i v : Nat) (hi : 2 ≤ i) : Agree2 t (t.set i v) := by
  refine ⟨by simp, ?_, ?_⟩
  · simp only [List.get?_eq_getElem?]
    rw [List.getElem?_set_ne (by omega)]
  · simp only [List.get?_eq_getElem?]
    rw [List.getElem?_set_ne (by omega)]

theorem putNode_agree (ct : CodeTree) (i v m : Nat) (ct' : CodeTree)
    (h : putNode ct i v m = some ct') (hi : 2 ≤ i) : AgreeCT ct ct' := by
  obtain ⟨e1, e2, _, _⟩ := putNode_spec _ _ _ _ _ h
  exact ⟨by rw [e1]; exact set_agree _ _ _ hi, by rw [e2]; exact set_agree _ _ _ hi⟩

theorem branchLoop_agree (tree : List HNode) (p : Nat) :
    ∀ (fuel : Nat) (stack : List Nat) (s q : Nat) (ct ct' : CodeTree),
      branchLoop tree p fuel stack s q ct = some ct' → 2 ≤ q → (2 ≤ p ∨ 1 ≤ s) →
      AgreeCT ct ct' := by
  intro fuel
  induction fuel with
  | zero =>
    intro stack s q ct ct' h _ _
    simp only [branchLoop] at h
    split at h
    · simp at h
    · simp only [Option.some.injEq] at h; subst h; exact AgreeCT.reflCT _
  | succ n ih =>
    intro stack s q ct ct' h hq hps
    simp only [branchLoop] at h
    split at h
    · split at h
      · simp at h
      · split at h
        · simp at h
        · have hidx : 2 ≤ (if s + 1 = 1 then p else q) := by
            split
            · omega
            · exact hq
          have hq' : 2 ≤ (if s + 1 = 1 then q else q + 1) := by
            split <;> omega
          split at h
          · split at h
            · simp at h
            · rename_i ct1 e1
              exact (putNode_agree _ _ _ _ _ e1 hidx).transCT
                (ih _ _ _ _ _ h hq' (Or.inr (by omega)))
          · split at h
            · split at h
              · split at h
                · simp at h
                · rename_i ct1 e1
                  exact (putNode_agree _ _ _ _ _ e1 hidx).transCT
                    (ih _ _ _ _ _ h hq' (Or.inr (by omega)))
              · simp at h
            · simp at h
    · simp only [Option.some.injEq] at h; subst h; exact AgreeCT.reflCT _

theorem createCodeBranch_agree (tree : List HNode) :
    ∀ (fuel root p q : Nat) (ct ct' : CodeTree) (n : Nat),
      HUF_CreateCodeBranch tree fuel root p q ct = some (ct', n) → 2 ≤ p → 2 ≤ q →
      AgreeCT ct ct' := by
  intro fuel
  induction fuel with
  | zero => intro root p q ct ct' n h _ _; simp [HUF_CreateCodeBranch] at h
  | succ k ih =>
    intro root p q ct ct' n h hp hq
    simp only [HUF_CreateCodeBranch] at h
    split at h
    · simp at h
    · split at h
      · split at h
        · simp at h
        · rename_i ct1 e1
          simp only [Option.some.injEq, Prod.mk.injEq] at h
          rw [← h.1]
          exact branchLoop_agree _ _ _ _ _ _ _ _ e1 hq (Or.inl hp)
      · split at h
        · split at h
          · split at h
            · simp at h
            · rename_i ct1 e1
              have a1 := putNode_agree _ _ _ _ _ e1 hp
              split at h
              · split at h
                · simp at h
                · rename_i ct2 l_leafs e2
                  have a2 := ih _ _ _ _ _ _ e2 hq (by omega)
                  split at h
                  · simp at h
                  · rename_i ct3 x3 e3
                    have a3 := ih _ _ _ _ _ _ e3 (by omega) (by omega)
                    split at h
                    · simp only [Option.some.injEq, Prod.mk.injEq] at h
                      rw [← h.1]
                      exact ((a1.transCT a2).transCT a3).transCT
                        ⟨set_agree _ _ _ (by omega), Agree2.refl _⟩
                    · simp at h
              · split at h
                · simp at h
                · rename_i ct2 r_leafs e2
                  have a2 := ih _ _ _ _ _ _ e2 (by omega) (by omega)
                  split at h
                  · simp at h
                  · rename_i ct3 x3 e3
                    have a3 := ih _ _ _ _ _ _ e3 hq (by omega)
                    split at h
                    · simp only [Option.some.injEq, Prod.mk.injEq] at h
                      rw [← h.1]
                      exact ((a1.transCT a2).transCT a3).transCT
                        ⟨set_agree _ _ _ (by omega), Agree2.refl _⟩
                    · simp at h
          · simp at h
        · simp at h


/-- What is known of the tables after the root entry has been stored at slot
1 and only slots from 2 on were written afterwards. -/
theorem slot1_after_put (ct ct1 ct' : CodeTree) (v m : Nat) (h1 : putNode ct 1 v m = some ct1)
    (ha : AgreeCT ct1 ct') (hv : ¬ (m % 256 ≠ 0xFF ∧ v % 256 > 63)) :
    ct'.codetree.get? 0 = ct.codetree.get? 0 ∧ ct'.codetree.length = ct.codetree.length ∧
      ct'.codemask.length = ct.codemask.length ∧ Slot1OK ct' := by
  obtain ⟨e1, e2, l1, l2⟩ := putNode_spec _ _ _ _ _ h1
  obtain ⟨⟨a1, a2, a3⟩, ⟨b1, _, b3⟩⟩ := ha
  refine ⟨?_, ?_, ?_, v % 256, m % 256, ?_, ?_, hv⟩
  · rw [a2, e1]
    simp only [List.get?_eq_getElem?]
    rw [List.getElem?_set_ne (by omega)]
  · rw [a1, e1]; simp
  · rw [b1, e2]; simp
  · rw [a3, e1]
    simp only [List.get?_eq_getElem?]
    rw [List.getElem?_set_self l1]
  · rw [b3, e2]
    simp only [List.get?_eq_getElem?]
    rw [List.getElem?_set_self l2]

theorem createCodeBranch_top (tree : List HNode) (fuel root : Nat) (ct ct' : CodeTree) (n : Nat)
    (h : HUF_CreateCodeBranch tree fuel root 1 2 ct = some (ct', n)) :
    ct'.codetree.get? 0 = ct.codetree.get? 0 ∧ ct'.codetree.length = ct.codetree.length ∧
      ct'.codemask.length = ct.codemask.length ∧ Slot1OK ct' := by
  cases fuel with
  | zero => simp [HUF_CreateCodeBranch] at h
  | succ k =>
    simp only [HUF_CreateCodeBranch] at h
    split at h
    · simp at h
    · rename_i node hnode
      split at h
      · -- breadth-first regime: the first round stores the root entry at slot 1
        split at h
        · simp at h
        · rename_i ct1 e1
          simp only [Option.some.injEq, Prod.mk.injEq] at h
          rw [← h.1]
          rw [show 2 * tree.length + 1 = (2 * tree.length) + 1 from rfl] at e1
          simp only [branchLoop, List.length_singleton, Nat.lt_one_iff, if_true,
            List.get?_cons_zero, hnode, Nat.zero_add] at e1
          split at e1
          · split at e1
            · simp at e1
            · rename_i ct2 e2
              exact slot1_after_put _ _ _ _ _ e2
                (branchLoop_agree _ _ _ _ _ _ _ _ e1 (by omega) (Or.inr (by omega)))
                (by simp)
          · split at e1
            · split at e1
              · split at e1
                · simp at e1
                · rename_i ct2 e2
                  exact slot1_after_put _ _ _ _ _ e2
                    (branchLoop_agree _ _ _ _ _ _ _ _ e1 (by omega) (Or.inr (by omega)))
                    (by simp)
              · simp at e1
            · simp at e1
      · split at h
        · split at h
          · split at h
            · simp at h
            · rename_i ct1 e1
              split at h
              · split at h
                · simp at h
                · rename_i ct2 l_leafs e2
                  have a2 := createCodeBranch_agree _ _ _ _ _ _ _ _ e2 (by omega) (by omega)
                  split at h
                  · simp at h
                  · rename_i ct3 x3 e3
                    have a3 := createCodeBranch_agree _ _ _ _ _ _ _ _ e3 (by omega) (by omega)
                    split at h
                    · simp only [Option.some.injEq, Prod.mk.injEq] at h
                      rw [← h.1]
                      exact slot1_after_put _ _ _ _ _ e1
                        ((a2.transCT a3).transCT ⟨set_agree _ _ _ (by omega), Agree2.refl _⟩)
                        (by simp)
                    · simp at h
              · split at h
                · simp at h
                · rename_i ct2 r_leafs e2
                  have a2 := createCodeBranch_agree _ _ _ _ _ _ _ _ e2 (by omega) (by omega)
                  split at h
                  · simp at h
                  · rename_i ct3 x3 e3
                    have a3 := createCodeBranch_agree _ _ _ _ _ _ _ _ e3 (by omega) (by omega)
                    split at h
                    · simp only [Option.some.injEq, Prod.mk.injEq] at h
                      rw [← h.1]
                      exact slot1_after_put _ _ _ _ _ e1
                        ((a2.transCT a3).transCT ⟨set_agree _ _ _ (by omega), Agree2.refl _⟩)
                        (by simp)
                    · simp at h
          · simp at h
        · simp at h

theorem updateCodeTree_agree (fuel : Nat) (ct ct' : CodeTree)
    (h : HUF_UpdateCodeTree fuel ct = some ct') (h1 : Slot1OK ct)
    (hlen : ct.codetree.length < 2 ^ 32) (hlenm : ct.codemask.length < 2 ^ 32) :
    AgreeCT ct ct' := by
  unfold HUF_UpdateCodeTree at h
  split at h
  · simp at h
  · rename_i c0 _
    obtain ⟨c, m, hc, hm, hno⟩ := h1
    cases fuel with
    | zero =>
      simp only [updateLoop] at h
      split at h
      · simp at h
      · simp only [Option.some.injEq] at h; subst h; exact AgreeCT.reflCT _
    | succ k =>
      simp only [updateLoop, rd, hc, hm] at h
      split at h
      · rw [if_neg (by simpa [HUF_NEXT] using hno)] at h
        exact updateLoop_agree _ _ _ _ _ h (by simp [uadd]) hlen hlenm
      · simp only [Option.some.injEq] at h; subst h; exact AgreeCT.reflCT _

theorem maskLoop_slot0 : ∀ (n : Nat) (ct ct' : CodeTree), maskLoop n ct = some ct' →
    ct'.codetree.get? 0 = ct.codetree.get? 0 ∧ ct'.codetree.length = ct.codetree.length := by
  intro n
  induction n with
  | zero => intro ct ct' h; simp only [maskLoop, Option.some.injEq] at h; subst h; exact ⟨rfl, rfl⟩
  | succ k ih =>
    intro ct ct' h
    simp only [maskLoop] at h
    split at h
    · split at h
      · split at h
        · simp at h
        · rename_i t1 e1
          have := ih _ _ h
          simp only at this
          unfold wr at e1
          split at e1
          · simp only [Option.some.injEq] at e1
            subst e1
            refine ⟨?_, ?_⟩
            · rw [this.1]
              simp only [List.get?_eq_getElem?]
              rw [List.getElem?_set_ne (by omega)]
            · rw [this.2]; simp
          · simp at e1
      · exact ih _ _ h
    · simp at h

end Gbacomp

namespace Gbacomp

/-- The first byte of the table `HUF_CreateCodeTree` returns is the size byte
`(num_leafs - 1) | 1` stored at the start. -/
theorem createCodeTree_slot0 (tree : List HNode) (num_leafs num_nodes : Nat) (codetree : List Nat)
    (h : HUF_CreateCodeTree tree num_leafs num_nodes = some codetree) :
    codetree.get? 0 = some ((usub num_leafs 1 ||| 1) % 256) := by
  unfold HUF_CreateCodeTree at h
  generalize updateFuel = fuel at h
  simp only at h
  cases e1 : putNode (HUF_InitCodeTree num_leafs) 0 (usub num_leafs 1 ||| 1) 0 with
  | none => simp only [e1] at h; exact absurd h (by simp)
  | some ct1 =>
    simp only [e1] at h
    obtain ⟨p1, p2, p3, p4⟩ := putNode_spec _ _ _ _ _ e1
    have hl1 : ct1.codetree.length < 2 ^ 32 := by
      rw [p1]; simp only [List.length_set, HUF_InitCodeTree, List.length_replicate]
      exact Nat.mod_lt _ (by decide)
    have hl2 : ct1.codemask.length < 2 ^ 32 := by
      rw [p2]; simp only [List.length_set, HUF_InitCodeTree, List.length_replicate]
      exact Nat.mod_lt _ (by decide)
    have h0 : ct1.codetree.get? 0 = some ((usub num_leafs 1 ||| 1) % 256) := by
      rw [p1]; simp only [List.get?_eq_getElem?]; rw [List.getElem?_set_self p3]
    cases e2 : HUF_CreateCodeBranch tree (tree.length + 1) (usub num_nodes 1) 1 2 ct1 with
    | none => simp only [e2] at h; exact absurd h (by simp)
    | some r2 =>
      obtain ⟨ct2, x2⟩ := r2
      simp only [e2] at h
      obtain ⟨q1, q2, q3, q4⟩ := createCodeBranch_top _ _ _ _ _ _ e2
      cases e3 : HUF_UpdateCodeTree fuel ct2 with
      | none => simp only [e3] at h; exact absurd h (by simp)
      | some ct3 =>
        simp only [e3] at h
        have a3 := updateCodeTree_agree _ _ _ e3 q4 (by rw [q2]; exact hl1) (by rw [q3]; exact hl2)
        cases e0 : rd ct3.codetree 0 with
        | none => simp only [e0] at h; exact absurd h (by simp)
        | some c0 =>
          simp only [e0] at h
          cases e4 : maskLoop (((c0 + 1) <<< 1) - 1) ct3 with
          | none => simp only [e4] at h; exact absurd h (by simp)
          | some ct4 =>
            simp only [e4, Option.some.injEq] at h
            subst h
            rw [(maskLoop_slot0 _ _ _ e4).1, a3.1.2.1, q1, h0]

theorem tag_or_size (a n : Nat) (ha : a < 256) : a ||| (n <<< 8) = a + 256 * n := by
  rw [Nat.shiftLeft_eq, Nat.lor_comm, Nat.mul_comm]
  have := Nat.mul_add_lt_is_or (show a < 2 ^ 8 by omega) n
  omega

theorem write32le_header (tag n : Nat) (ht : tag < 256) (hn : n < 2 ^ 24) :
    write32le ((tag ||| (n <<< 8)) % 2 ^ 32)
      = [tag, n % 256, n / 2 ^ 8 % 256, n / 2 ^ 16 % 256] := by
  rw [tag_or_size _ _ ht]
  simp only [write32le, write16le, List.cons_append, List.nil_append, List.cons.injEq, and_true]
  refine ⟨?_, ?_, ?_, ?_⟩ <;> omega

theorem write32le_length (w : Nat) : (write32le w).length = 4 := by
  simp [write32le, write16le]

theorem flatMap_write32le_length (ws : List Nat) : (ws.flatMap write32le).length = 4 * ws.length := by
  induction ws with
  | nil => simp
  | cons w ws ih => simp [List.flatMap_cons, write32le_length, ih]; omega

/-- The shape of the output of `HUF_Code`: the header word, the table of
`(t + 1) * 2` bytes whose first byte is the size byte `t`, and the code words. -/
theorem HUF_Code_shape (num_bits : Nat) (x y : List Nat) (h : HUF_Code num_bits x = some y) :
    ∃ (table : List Nat) (words : List Nat),
      y = write32le (((CMD_CODE_20 + num_bits) ||| (x.length <<< 8)) % 2 ^ 32) ++ table ++
            words.flatMap write32le ∧
      table.length = 2 * ((usub (HUF_CreateFreqs num_bits x).2.1 1 ||| 1) % 256 + 1) ∧
      table.get? 0 = some ((usub (HUF_CreateFreqs num_bits x).2.1 1 ||| 1) % 256) := by
  unfold HUF_Code at h
  simp only at h
  split at h
  · simp at h
  · rename_i tree _
    split at h
    · simp at h
    · rename_i codetree hct
      have hc0 := createCodeTree_slot0 _ _ _ _ hct
      have hget : codetree.getD 0 0 = (usub (HUF_CreateFreqs num_bits x).2.1 1 ||| 1) % 256 := by
        rw [List.get?_eq_getElem?] at hc0
        simp [List.getD, hc0]
      split at h
      · simp at h
      · split at h
        · simp at h
        · rename_i hlen
          split at h
          · simp at h
          · rename_i bo _
            simp only [Option.some.injEq] at h
            refine ⟨_, _, h.symm, ?_, ?_⟩
            · rw [hget, Nat.shiftLeft_eq] at hlen ⊢
              rw [List.length_take, Nat.min_eq_left (by omega)]
              omega
            · rw [hget, Nat.shiftLeft_eq] at hlen ⊢
              rw [List.get?_eq_getElem?, List.getElem?_take_of_lt (by omega), ← List.get?_eq_getElem?]
              exact hc0

/-- C8. Huffman header law and width selection: whenever `huffman_encode x w`
produces an output `y` for an input of `N ≤ 2^24 - 1` bytes, the width is 8 or
4, byte 0 of `y` is `0x28` for width 8 and `0x24` for width 4, bytes 1..3 are
`N` in little-endian order, and the length of `y` is a multiple of 4. -/
theorem huffman_header_law (x : List Nat) (w : Nat) (y : List Nat)
    (hN : x.length ≤ 2 ^ 24 - 1) (h : huffman_encode x w = some y) :
    (w = 8 ∨ w = 4) ∧
      y.take 4 = [if w = 8 then 0x28 else 0x24, x.length % 256, x.length / 2 ^ 8 % 256,
        x.length / 2 ^ 16 % 256] ∧
      y.length % 4 = 0 := by
  unfold huffman_encode at h
  split at h
  · simp at h
  · rename_i hw
    have hw' : w = 8 ∨ w = 4 := by omega
    unfold HUF_Encode at h
    simp only at h
    split at h
    · simp at h
    · rename_i buf hbuf
      split at h
      · simp only [Option.some.injEq] at h
        subst h
        obtain ⟨table, words, hy, htab, _⟩ := HUF_Code_shape _ _ _ hbuf
        have htag : CMD_CODE_20 + ((if w = 8 then CMD_CODE_28 else CMD_CODE_24) &&& 0xF)
            = (if w = 8 then 0x28 else 0x24) := by
          rcases hw' with h8 | h4
          · subst h8; decide
          · subst h4; decide
        rw [htag] at hy
        have ht : (if w = 8 then 0x28 else 0x24) < 256 := by split <;> omega
        rw [write32le_header _ _ ht (by omega)] at hy
        refine ⟨hw', ?_, ?_⟩
        · rw [hy]; simp
        · rw [hy]
          simp only [List.length_append, List.length_cons, List.length_nil,
            flatMap_write32le_length, htab]
          have := or_one_odd (usub (HUF_CreateFreqs
            ((if w = 8 then CMD_CODE_28 else CMD_CODE_24) &&& 0xF) x).2.1 1)
          omega
      · simp at h


end Gbacomp

namespace Gbacomp

set_option maxRecDepth 100000 in
/-- Witness of `huffman_header_law`: the stream of the two bytes "AB", width 8. -/
theorem huffman_header_law_witness :
    ((8 : Nat) = 8 ∨ (8 : Nat) = 4) ∧
      [0x28, 2, 0, 0, 1, 0xC0, 0x41, 0x42, 0, 0, 0, 0x40].take 4
        = [if (8 : Nat) = 8 then 0x28 else 0x24, [0x41, 0x42].length % 256,
            [0x41, 0x42].length / 2 ^ 8 % 256, [0x41, 0x42].length / 2 ^ 16 % 256] ∧
      [0x28, 2, 0, 0, 1, 0xC0, 0x41, 0x42, 0, 0, 0, 0x40].length % 4 = 0 :=
  huffman_header_law [0x41, 0x42] 8 [0x28, 2, 0, 0, 1, 0xC0, 0x41, 0x42, 0, 0, 0, 0x40]
    (by decide) (by decide)


end Gbacomp

namespace Gbacomp

/-! ## LZ: auxiliary facts for the scenarios -/

theorem fillLoop_len_ge (InBuf : List Nat) (r : Nat) :
    ∀ (n len : Nat) (tb : Nat → Nat), len ≤ (fillLoop InBuf r n len tb).1 := by
  intro n
  induction n with
  | zero => intro len tb; simp [fillLoop]
  | succ n ih =>
    intro len tb
    unfold fillLoop
    split
    · exact Nat.le_trans (Nat.le_succ len) (ih _ _)
    · exact Nat.le_refl _

/-- Only on the empty input does `CompressLZ77` hand back bytes it has not
written: for every other input the prior content of `OutBuf` does not show in
`OutBuf[0 .. OutSize)`. -/
theorem CompressLZ77_heap (heap heap' : Nat → Nat) (statics : LzState) (x : List Nat)
    (hx : x ≠ []) : CompressLZ77 heap statics x = CompressLZ77 heap' statics x := by
  have hpos : 0 < x.length := List.length_pos.mpr hx
  have hne : ∀ tb : Nat → Nat, (fillLoop x (RING_MAX - FRAME_MAX) FRAME_MAX 0 tb).1 ≠ 0 := by
    intro tb
    have h18 : FRAME_MAX = 17 + 1 := rfl
    rw [h18]
    unfold fillLoop
    rw [if_pos hpos]
    exact Nat.pos_iff_ne_zero.mp
      (Nat.lt_of_lt_of_le Nat.zero_lt_one (fillLoop_len_ge _ _ _ _ _))
  unfold CompressLZ77
  simp only
  rw [if_neg (hne _), if_neg (hne _)]

/-- One unit of the decoder loop, with bytes appended to the stream. -/
theorem lzUnit_append (dstS : Nat) (pad : List Nat) (n : Nat)
    (ih : ∀ (srcL : List Nat) (flags : Nat) (jj : Int) (dstD out : List Nat),
      lzDecLoop dstS n srcL flags jj dstD = some out →
      lzDecLoop dstS n (srcL ++ pad) flags jj dstD = some out)
    (fl : Nat) (j : Int) (s dstD out : List Nat)
    (h : (if (fl >>> j.toNat) &&& 1 ≠ 0 then
          match s with
          | b0 :: b1 :: srcL =>
            match lzCopy dstS ((((b0 &&& 15) <<< 8) ||| b1) + 1) ((b0 >>> 4) + THRESHOLD + 1) dstD with
            | none => none
            | some dstD => lzDecLoop dstS n srcL fl (j - 1) dstD
          | _ => none
        else
          match s with
          | [] => none
          | b :: srcL => lzDecLoop dstS n srcL fl (j - 1) (dstD ++ [b])) = some out) :
    (if (fl >>> j.toNat) &&& 1 ≠ 0 then
          match s ++ pad with
          | b0 :: b1 :: srcL =>
            match lzCopy dstS ((((b0 &&& 15) <<< 8) ||| b1) + 1) ((b0 >>> 4) + THRESHOLD + 1) dstD with
            | none => none
            | some dstD => lzDecLoop dstS n srcL fl (j - 1) dstD
          | _ => none
        else
          match s ++ pad with
          | [] => none
          | b :: srcL => lzDecLoop dstS n srcL fl (j - 1) (dstD ++ [b])) = some out := by
  by_cases hb : (fl >>> j.toNat) &&& 1 ≠ 0
  · rw [if_pos hb] at h ⊢
    rcases s with _ | ⟨b0, _ | ⟨b1, rest⟩⟩
    · exact absurd h (by simp)
    · exact absurd h (by simp)
    · simp only [List.cons_append] at h ⊢
      cases hc : lzCopy dstS ((((b0 &&& 15) <<< 8) ||| b1) + 1) ((b0 >>> 4) + THRESHOLD + 1) dstD with
      | none => simp only [hc] at h; exact absurd h (by simp)
      | some d2 =>
        simp only [hc] at h ⊢
        exact ih _ _ _ _ _ h
  · rw [if_neg hb] at h ⊢
    rcases s with _ | ⟨b, rest⟩
    · exact absurd h (by simp)
    · simp only [List.cons_append] at h ⊢
      exact ih _ _ _ _ _ h

/-- Bytes after the part of the stream the decoder reads do not change what
`lzDecLoop` returns. -/
theorem lzDecLoop_append (dstS : Nat) (pad : List Nat) :
    ∀ (fuel : Nat) (srcL : List Nat) (flags : Nat) (jj : Int) (dstD out : List Nat),
      lzDecLoop dstS fuel srcL flags jj dstD = some out →
      lzDecLoop dstS fuel (srcL ++ pad) flags jj dstD = some out := by
  intro fuel
  induction fuel with
  | zero => intro srcL flags jj dstD out h; simpa [lzDecLoop] using h
  | succ n ih =>
    intro srcL flags jj dstD out h
    unfold lzDecLoop at h ⊢
    by_cases hd : dstD.length < dstS
    · rw [if_pos hd] at h ⊢
      by_cases hj : jj < 0
      · rw [if_pos hj] at h ⊢
        rcases srcL with _ | ⟨f, rest⟩
        · exact absurd h (by simp)
        · exact lzUnit_append dstS pad n ih f 7 rest dstD out h
      · rw [if_neg hj] at h ⊢
        exact lzUnit_append dstS pad n ih flags jj srcL dstD out h
    · rw [if_neg hd] at h ⊢
      exact h

/-- Padding after the stream does not change what `lz77gba_decompress` returns. -/
theorem lz77gba_decompress_append (b0 b1 b2 b3 : Nat) (srcL pad out : List Nat)
    (h : lz77gba_decompress (b0 :: b1 :: b2 :: b3 :: srcL) = some out) :
    lz77gba_decompress (b0 :: b1 :: b2 :: b3 :: srcL ++ pad) = some out := by
  simp only [lz77gba_decompress, List.cons_append] at h ⊢
  split at h
  · rename_i ht; rw [if_pos ht]; exact h
  · rename_i ht; rw [if_neg ht]; exact lzDecLoop_append _ _ _ _ _ _ _ _ h

end Gbacomp

namespace Gbacomp

/-! ## The framing helper and the concrete scenarios -/

/-- C15. Header construction: for `size < 2^24` and a tag byte, the four bytes
of `cprs_create_header size tag`, read as a little-endian word, are
`tag | (size << 8)`; `read32le` of them gives `word & 0xFF = tag` and
`word >> 8 = size`, which is what `parse_header` returns. -/
theorem header_construction (size tag : Nat) (hs : size < 2 ^ 24) (ht : tag < 256) :
    ∃ b0 b1 b2 b3, cprs_create_header size tag = [b0, b1, b2, b3] ∧
      read32le b0 b1 b2 b3 = tag ||| (size <<< 8) ∧
      read32le b0 b1 b2 b3 &&& 0xFF = tag ∧
      read32le b0 b1 b2 b3 >>> 8 = size ∧
      parse_header (cprs_create_header size tag) = some (tag, size) := by
  refine ⟨tag % 256, size % 256, size / 2 ^ 8 % 256, size / 2 ^ 16 % 256, rfl, ?_, ?_, ?_, ?_⟩
  · rw [tag_or_size _ _ ht, read32le_eq _ _ _ _ (by omega) (by omega) (by omega)]; omega
  · rw [read32le_tag _ _ _ _ (by omega) (by omega) (by omega)]; omega
  · rw [read32le_size _ _ _ _ (by omega) (by omega) (by omega)]; omega
  · have := parse_create_header size tag [] hs ht
    simpa using this

/-- Witness of `header_construction`: size 10, the RLE tag. -/
theorem header_construction_witness :
    ∃ b0 b1 b2 b3, cprs_create_header 10 0x30 = [b0, b1, b2, b3] ∧
      read32le b0 b1 b2 b3 = 0x30 ||| (10 <<< 8) ∧
      read32le b0 b1 b2 b3 &&& 0xFF = 0x30 ∧
      read32le b0 b1 b2 b3 >>> 8 = 10 ∧
      parse_header (cprs_create_header 10 0x30) = some (0x30, 10) :=
  header_construction 10 0x30 (by decide) (by decide)

/-- C11. RLE ceiling: for every input (of a length an `unsigned int` holds) the
payload `rle8gba_compress` writes after the header is a sequence of stints that
stand for the input, in which every run stint has a length `n` with
`3 ≤ n ≤ 130` and the control byte `0x80 | (n - 3)`, and every literal stint a
count `c` with `1 ≤ c ≤ 128` and the control byte `c - 1 ≤ 0x7F`, whose bit 7
is clear. -/
theorem rle_ceiling (heap : Nat → Nat) (curr0 : Nat) (x : List Nat) (hlen : x.length < 2 ^ 32) :
    ∃ ss : List Stint,
      rle8gba_compress heap curr0 x
        = cprs_create_header x.length CPRS_RLE_TAG ++
            (encodeStints ss ++ heapBytes heap (encodeStints ss).length
              (ALIGN4 (encodeStints ss).length - (encodeStints ss).length)) ∧
      expandStints ss = x ∧
      ∀ s ∈ ss, match s with
        | .run n v => 3 ≤ n ∧ n ≤ 130 ∧ s.encode = [0x80 ||| (n - 3), v]
        | .lit bytes => 1 ≤ bytes.length ∧ bytes.length ≤ 128 ∧
            s.encode = (bytes.length - 1) :: bytes ∧ bytes.length - 1 ≤ 0x7F ∧
            (bytes.length - 1) &&& 0x80 = 0 := by
  obtain ⟨ss, hp, hok, hexp⟩ := rlePayload_stints curr0 x hlen
  refine ⟨ss, ?_, hexp, ?_⟩
  · rw [rle8gba_compress_eq, hp]
  · intro s hs
    have h := hok s hs
    cases s with
    | lit bytes =>
      simp only [Stint.ok] at h
      refine ⟨h.1, h.2, rfl, by omega, ?_⟩
      have hb := byte_and_80 (bytes.length - 1) (by omega)
      by_contra hne
      have := hb.mp hne
      omega
    | run n v =>
      simp only [Stint.ok] at h
      refine ⟨h.1, h.2, ?_⟩
      simp only [Stint.encode]
      rw [or_80 _ (by omega)]

set_option maxRecDepth 100000 in
/-- Witness of `rle_ceiling`: the input `7, 7, 7, 9`. -/
theorem rle_ceiling_witness :
    ∃ ss : List Stint,
      rle8gba_compress (fun _ => 0) 0 [7, 7, 7, 9]
        = cprs_create_header [7, 7, 7, 9].length CPRS_RLE_TAG ++
            (encodeStints ss ++ heapBytes (fun _ => 0) (encodeStints ss).length
              (ALIGN4 (encodeStints ss).length - (encodeStints ss).length)) ∧
      expandStints ss = [7, 7, 7, 9] ∧
      ∀ s ∈ ss, match s with
        | .run n v => 3 ≤ n ∧ n ≤ 130 ∧ s.encode = [0x80 ||| (n - 3), v]
        | .lit bytes => 1 ≤ bytes.length ∧ bytes.length ≤ 128 ∧
            s.encode = (bytes.length - 1) :: bytes ∧ bytes.length - 1 ≤ 0x7F ∧
            (bytes.length - 1) &&& 0x80 = 0 :=
  rle_ceiling (fun _ => 0) 0 [7, 7, 7, 9] (by decide)

end Gbacomp

namespace Gbacomp

/-! ## Concrete scenarios -/

set_option maxRecDepth 100000 in
/-- C16, as the claim states it, fails: already with zero bytes in the output
block the stream for "ABCDEFGH" has 16 bytes (4 header bytes, the flag byte
and 8 literals make 13, aligned up to 16), not 12; and with an output block
that held `0xAA` bytes the three bytes of padding are `AA AA AA`, not zero. -/
theorem lz_trivial_not_12 :
    lz77gba_compress (fun _ => 0) lzFresh [0x41, 0x42, 0x43, 0x44, 0x45, 0x46, 0x47, 0x48]
        = some [0x10, 8, 0, 0, 0, 0x41, 0x42, 0x43, 0x44, 0x45, 0x46, 0x47, 0x48, 0, 0, 0] ∧
      [0x10, 8, 0, 0, 0, 0x41, 0x42, 0x43, 0x44, 0x45, 0x46, 0x47, 0x48, 0, 0, 0].length ≠ 12 ∧
      lz77gba_compress heapAA lzFresh [0x41, 0x42, 0x43, 0x44, 0x45, 0x46, 0x47, 0x48]
        = some [0x10, 8, 0, 0, 0, 0x41, 0x42, 0x43, 0x44, 0x45, 0x46, 0x47, 0x48, 0xAA, 0xAA, 0xAA] := by
  decide

set_option maxRecDepth 100000 in
/-- C17, as the claim states it, fails: in the stream for twenty bytes `0x41`
the flag byte is `0x20`, so the second unit (bit 6) is a literal, not a match. -/
theorem lz_run_second_unit_literal :
    lz77gba_compress (fun _ => 0) lzFresh (List.replicate 20 0x41)
        = some [0x10, 0x14, 0, 0, 0x20, 0x41, 0x41, 0xF0, 0x01, 0, 0, 0] ∧
      (0x20 >>> 6) &&& 1 = 0 := by
  decide

set_option maxRecDepth 100000 in
/-- C18. `rle8gba_compress` of ten bytes `0x55` writes two payload bytes
(`87 55`) into its scratch block and copies four: with a scratch block that
held `0xAA` bytes the output is `30 0A 00 00 87 55 AA AA`, its padding is not
zero.  `rle8gba_decompress` of it returns the ten bytes. -/
theorem rle_run_padding :
    rle8gba_compress heapAA 0 (List.replicate 10 0x55)
        = [0x30, 0x0A, 0, 0, 0x87, 0x55, 0xAA, 0xAA] ∧
      rle8gba_decompress [0x30, 0x0A, 0, 0, 0x87, 0x55, 0xAA, 0xAA]
        = some (List.replicate 10 0x55) := by
  decide

set_option maxRecDepth 100000 in
/-- C19. `rle8gba_compress` of "ABCD" writes five payload bytes
(`03 41 42 43 44`) into its scratch block and copies eight: with a scratch
block that held `0xAA` bytes the output is `30 04 00 00 03 41 42 43 44 AA AA
AA`, its padding is not zero.  `rle8gba_decompress` of it returns "ABCD". -/
theorem rle_literal_padding :
    rle8gba_compress heapAA 0 [0x41, 0x42, 0x43, 0x44]
        = [0x30, 4, 0, 0, 3, 0x41, 0x42, 0x43, 0x44, 0xAA, 0xAA, 0xAA] ∧
      rle8gba_decompress [0x30, 4, 0, 0, 3, 0x41, 0x42, 0x43, 0x44, 0xAA, 0xAA, 0xAA]
        = some [0x41, 0x42, 0x43, 0x44] := by
  decide

/-- C24, as the claim states it, fails: the output for the empty input is not
of zero length. -/
theorem rle_empty_not_zero_length :
    ¬ ((rle8gba_compress (fun _ => 0) 0 []).length = 0) := by
  decide

/-- C24, amended. On an input record of zero length (with non-null data)
`rle8gba_compress` returns the four header bytes `30 00 00 00` (return value
4): the loop does not run and the header is stored as for every other input. -/
theorem rle_empty_input (heap : Nat → Nat) (curr0 : Nat) :
    rle8gba_compress heap curr0 [] = [0x30, 0, 0, 0] ∧
      (rle8gba_compress heap curr0 []).length = 4 := by
  have h : rle8gba_compress heap curr0 [] = [0x30, 0, 0, 0] := by
    simp [rle8gba_compress, rlePayload, rleLoop, cprs_create_header, CPRS_RLE_TAG, ALIGN4,
      heapBytes]
  rw [h]
  exact ⟨rfl, rfl⟩

set_option maxRecDepth 100000 in
/-- C28. The output of `lz77gba_compress` depends on what an earlier call left
in `text_buf`: for the input "ABCDABCEABC" the last match has distance 8 on
the first call of a process (bytes `00 07`), but distance 4 (bytes `00 03`)
when the call follows one on "ABCDABCEABCE", which leaves `E` in
`text_buf[4089]`, the byte after the end of the look-ahead. -/
theorem lz_output_depends_on_statics :
    lz77gba_compress (fun _ => 0) lzFresh
        [0x41, 0x42, 0x43, 0x44, 0x41, 0x42, 0x43, 0x45, 0x41, 0x42, 0x43]
      = some [0x10, 11, 0, 0, 0x0A, 0x41, 0x42, 0x43, 0x44, 0x00, 0x03, 0x45, 0x00, 0x07, 0, 0] ∧
    (CompressLZ77_statics lzFresh
        [0x41, 0x42, 0x43, 0x44, 0x41, 0x42, 0x43, 0x45, 0x41, 0x42, 0x43, 0x45]).bind
      (fun statics => lz77gba_compress (fun _ => 0) statics
        [0x41, 0x42, 0x43, 0x44, 0x41, 0x42, 0x43, 0x45, 0x41, 0x42, 0x43])
      = some [0x10, 11, 0, 0, 0x0A, 0x41, 0x42, 0x43, 0x44, 0x00, 0x03, 0x45, 0x00, 0x03, 0, 0] := by
  decide

set_option maxRecDepth 100000 in
/-- C13. For sixteen bytes `0x41` and width 8 `HUF_CreateFreqs` leaves
`num_leafs = 3` and `num_nodes = 5` with two non-zero frequencies, and the
second merge round of `HUF_CreateTree` finds a single parentless node: `rnode`
is `NULL` when `rnode->weight` is read, and `huffman_encode` produces no
stream. -/
theorem huffman_single_symbol_no_stream :
    huffman_encode (List.replicate 16 0x41) 8 = none ∧
      HUF_CreateTree (HUF_CreateFreqs 8 (List.replicate 16 0x41)).1 256 3 5 = none := by
  decide

set_option maxRecDepth 100000 in
/-- C14. With fewer than two distinct symbols (sixteen bytes `0x41`, or the
empty input) the loop `while (num_leafs++ < 2)` of `HUF_CreateFreqs` is left
with `num_leafs = 3`, hence `num_nodes = 5`, while two symbols have a non-zero
frequency. -/
theorem dummy_leaf_count :
    (HUF_CreateFreqs 8 (List.replicate 16 0x41)).2 = (3, 5) ∧
      countLeafs (HUF_CreateFreqs 8 (List.replicate 16 0x41)).1 256 = 2 ∧
      (HUF_CreateFreqs 8 []).2 = (3, 5) ∧
      countLeafs (HUF_CreateFreqs 8 []).1 256 = 2 := by
  decide

set_option maxRecDepth 100000 in
/-- C20. `huffman_encode` of "ABABABAB" with width 8 gives the header
`28 08 00 00`, the table `01 C0 41 42` (size byte 1; the root entry `C0` marks
both children as symbols, `A` on the left with the one-bit code 0 and `B` on
the right with the one-bit code 1) and the single code word `0x55000000`
stored little-endian, twelve bytes in all; `huffman_decode` returns the
input. -/
theorem huffman_two_symbol_scenario :
    huffman_encode [0x41, 0x42, 0x41, 0x42, 0x41, 0x42, 0x41, 0x42] 8
        = some ([0x28, 8, 0, 0] ++ [1, 0xC0, 0x41, 0x42] ++ write32le 0x55000000) ∧
      ((HUF_CreateTree (HUF_CreateFreqs 8 [0x41, 0x42, 0x41, 0x42, 0x41, 0x42, 0x41, 0x42]).1
          256 2 3).bind (fun tree => HUF_CreateCodeWorks tree 2)).map
          (fun codes => ((List.range 256).filter (fun s => codes s ≠ none), codes 0x41, codes 0x42))
        = some ([0x41, 0x42], some { nbits := 1, codework := [0x00] },
            some { nbits := 1, codework := [0x80] }) ∧
      huffman_decode ([0x28, 8, 0, 0] ++ [1, 0xC0, 0x41, 0x42] ++ write32le 0x55000000)
        = some [0x41, 0x42, 0x41, 0x42, 0x41, 0x42, 0x41, 0x42] := by
  decide

end Gbacomp

namespace Gbacomp

/-! ## LZ: the copy loop of the decoder -/

/-- The copy loop, when it stays inside the block, appends `count` bytes, each
equal to the byte `ofs` places before it. -/
theorem lzCopy_spec (dstS ofs : Nat) (hofs : 1 ≤ ofs) :
    ∀ (count : Nat) (dstD : List Nat), ofs ≤ dstD.length → dstD.length + count ≤ dstS →
      ∃ ext, lzCopy dstS ofs count dstD = some (dstD ++ ext) ∧ ext.length = count ∧
        ∀ k, k < count →
          (dstD ++ ext).getD (dstD.length + k) 0 = (dstD ++ ext).getD (dstD.length + k - ofs) 0 := by
  intro count
  induction count with
  | zero =>
    intro dstD _ _
    exact ⟨[], by simp [lzCopy], rfl, by intro k hk; omega⟩
  | succ n ih =>
    intro dstD h1 h2
    obtain ⟨ext, he, hl, hrec⟩ := ih (dstD ++ [dstD.getD (dstD.length - ofs) 0])
      (by simp; omega) (by simp; omega)
    refine ⟨dstD.getD (dstD.length - ofs) 0 :: ext, ?_, by simp [hl], ?_⟩
    · unfold lzCopy
      rw [if_pos ⟨h1, by omega⟩, he]
      simp
    · intro k hk
      have happ : dstD ++ dstD.getD (dstD.length - ofs) 0 :: ext
          = (dstD ++ [dstD.getD (dstD.length - ofs) 0]) ++ ext := by simp
      cases k with
      | zero =>
        simp only [Nat.add_zero]
        rw [List.getD_append_right _ _ _ _ (Nat.le_refl _), Nat.sub_self,
          List.getD_append _ _ _ _ (by omega)]
        simp
      | succ j =>
        have := hrec j (by omega)
        rw [happ]
        simp only [List.length_append, List.length_singleton] at this
        rw [show dstD.length + (j + 1) = dstD.length + 1 + j by omega]
        exact this

end Gbacomp

namespace Gbacomp

/-! ## Huffman: the layout of the stream -/

theorem countLeafs_le (freqs : Nat → Nat) (m : Nat) : countLeafs freqs m ≤ m := by
  unfold countLeafs
  have := List.length_filter_le (fun i => decide (freqs i ≠ 0)) (List.range m)
  simpa using this

/-- The leaf count `HUF_CreateFreqs` returns: the number of symbols that
occur, or 3 when fewer than two occur. -/
theorem createFreqs_num_leafs (num_bits : Nat) (raw : List Nat) :
    (HUF_CreateFreqs num_bits raw).2.1
      = if countLeafs (countFreqs (fun _ => 0) (symbolsOf num_bits raw)) (1 <<< num_bits) < 2
        then 3
        else countLeafs (countFreqs (fun _ => 0) (symbolsOf num_bits raw)) (1 <<< num_bits) := by
  unfold HUF_CreateFreqs
  simp only
  split
  · rename_i hlt
    generalize countLeafs (countFreqs (fun _ => 0) (symbolsOf num_bits raw)) (1 <<< num_bits) = n
      at hlt ⊢
    interval_cases n <;> simp [dummyLoop]
  · rfl

theorem createFreqs_num_leafs_bounds (num_bits : Nat) (raw : List Nat)
    (hw : num_bits = 8 ∨ num_bits = 4) :
    2 ≤ (HUF_CreateFreqs num_bits raw).2.1 ∧ (HUF_CreateFreqs num_bits raw).2.1 ≤ 256 := by
  rw [createFreqs_num_leafs]
  have := countLeafs_le (countFreqs (fun _ => 0) (symbolsOf num_bits raw)) (1 <<< num_bits)
  have hm : 1 <<< num_bits ≤ 256 := by
    rcases hw with h | h <;> subst h <;> decide
  split <;> omega

set_option maxRecDepth 100000 in
/-- C27, as the claim states it, fails: in the stream for "ABABABAB" the size
byte is `t = 1` and the only code word occupies the bytes 8..11, so it starts
at offset `4 + 2 * (t + 1) = 8`, not at `4 + 1 + 2 * (t + 1) = 9`. -/
theorem huffman_layout_code_word_at_8 :
    ∃ y, huffman_encode [0x41, 0x42, 0x41, 0x42, 0x41, 0x42, 0x41, 0x42] 8 = some y ∧
      y.getD 4 0 = 1 ∧ y.length = 12 ∧ y.drop 8 = write32le 0x55000000 ∧
      ¬ (4 + 1 + 2 * (y.getD 4 0 + 1) + 4 ≤ y.length) :=
  ⟨[0x28, 8, 0, 0, 1, 0xC0, 0x41, 0x42, 0, 0, 0, 0x55], by decide⟩

/-- C27, amended. In every output of `huffman_encode`, byte 4 is the tree-size
byte `t = (leaf_count - 1) | 1`; it is the first of the `2 * (t + 1)` bytes of
the table (so `2 * (t + 1) - 1` tree bytes follow it), and the code words start
right after the table, at byte offset `4 + 2 * (t + 1)`. -/
theorem huffman_stream_layout (x : List Nat) (w : Nat) (y : List Nat)
    (h : huffman_encode x w = some y) :
    ∃ (t : Nat) (table words : List Nat),
      t = ((HUF_CreateFreqs w x).2.1 - 1) ||| 1 ∧
      y = y.take 4 ++ table ++ words.flatMap write32le ∧ (y.take 4).length = 4 ∧
      y.get? 4 = some t ∧ table.get? 0 = some t ∧ table.length = 2 * (t + 1) ∧
      y.drop (4 + 2 * (t + 1)) = words.flatMap write32le := by
  unfold huffman_encode at h
  split at h
  · simp at h
  · rename_i hw
    have hw' : w = 8 ∨ w = 4 := by omega
    have hnb : (if w = 8 then CMD_CODE_28 else CMD_CODE_24) &&& 0xF = w := by
      rcases hw' with h8 | h4
      · subst h8; decide
      · subst h4; decide
    unfold HUF_Encode at h
    simp only [hnb] at h
    split at h
    · simp at h
    · rename_i buf hbuf
      split at h
      · simp only [Option.some.injEq] at h
        subst h
        obtain ⟨table, words, hy, hlen, h0⟩ := HUF_Code_shape _ _ _ hbuf
        obtain ⟨hb1, hb2⟩ := createFreqs_num_leafs_bounds w x hw'
        have ht : (usub (HUF_CreateFreqs w x).2.1 1 ||| 1) % 256
            = ((HUF_CreateFreqs w x).2.1 - 1) ||| 1 := by
          rw [usub_eq _ _ (by omega) (by omega)]
          have h1 := or_one_odd ((HUF_CreateFreqs w x).2.1 - 1)
          have h2 := or_one_bounds ((HUF_CreateFreqs w x).2.1 - 1)
          omega
        rw [ht] at hlen h0
        have h4 : (write32le (((CMD_CODE_20 + w) ||| (x.length <<< 8)) % 2 ^ 32)).length = 4 :=
          write32le_length _
        have htake : buf.take 4 = write32le (((CMD_CODE_20 + w) ||| (x.length <<< 8)) % 2 ^ 32) := by
          rw [hy, List.append_assoc, List.take_left' h4]
        have h0' : 0 < table.length := by omega
        refine ⟨_, table, words, rfl, ?_, ?_, ?_, h0, hlen, ?_⟩
        · rw [htake]; exact hy
        · rw [htake]; exact h4
        · rw [hy, List.append_assoc, List.get?_eq_getElem?, List.getElem?_append_right (by omega),
            h4, Nat.sub_self, List.getElem?_append_left h0', ← List.get?_eq_getElem?]
          exact h0
        · rw [hy, List.append_assoc, ← hlen, ← h4, ← List.length_append, ← List.append_assoc,
            List.drop_left]
      · simp at h

set_option maxRecDepth 100000 in
/-- Witness of `huffman_stream_layout`: the stream of "ABABABAB", width 8. -/
theorem huffman_stream_layout_witness :
    ∃ (t : Nat) (table words : List Nat),
      t = ((HUF_CreateFreqs 8 [0x41, 0x42, 0x41, 0x42, 0x41, 0x42, 0x41, 0x42]).2.1 - 1) ||| 1 ∧
      [0x28, 8, 0, 0, 1, 0xC0, 0x41, 0x42, 0, 0, 0, 0x55]
        = [0x28, 8, 0, 0, 1, 0xC0, 0x41, 0x42, 0, 0, 0, 0x55].take 4 ++ table
            ++ words.flatMap write32le ∧
      ([0x28, 8, 0, 0, 1, 0xC0, 0x41, 0x42, 0, 0, 0, 0x55].take 4).length = 4 ∧
      [0x28, 8, 0, 0, 1, 0xC0, 0x41, 0x42, 0, 0, 0, 0x55].get? 4 = some t ∧
      table.get? 0 = some t ∧ table.length = 2 * (t + 1) ∧
      [0x28, 8, 0, 0, 1, 0xC0, 0x41, 0x42, 0, 0, 0, 0x55].drop (4 + 2 * (t + 1))
        = words.flatMap write32le :=
  huffman_stream_layout [0x41, 0x42, 0x41, 0x42, 0x41, 0x42, 0x41, 0x42] 8
    [0x28, 8, 0, 0, 1, 0xC0, 0x41, 0x42, 0, 0, 0, 0x55] (by decide)

end Gbacomp

namespace Gbacomp

/-! ## RLE: the budget of the decoder -/

/-- One round of the decoder on a well-formed stint that overshoots the
budget: the stint is cut to the bytes still missing and the loop ends. -/
theorem rleDecLoop_stint_trunc (dstS fuel : Nat) (s : Stint) (hs : s.ok) (rest : List Nat)
    (ii : Nat) (dstD : List Nat) (hlt : ii < dstS) (hover : dstS < ii + s.expand.length) :
    rleDecLoop dstS (fuel + 1) (s.encode ++ rest) ii dstD
      = some (dstD ++ s.expand.take (dstS - ii)) := by
  cases s with
  | lit bytes =>
    simp only [Stint.ok] at hs
    simp only [Stint.expand] at hover ⊢
    have hc : bytes.length - 1 < 256 := by omega
    have h80 : ¬ ((bytes.length - 1) &&& 0x80 ≠ 0) := by
      rw [byte_and_80 _ hc]; omega
    have hmin : min (bytes.length - 1 + 1) (dstS - ii) = dstS - ii := by omega
    simp only [Stint.encode, List.cons_append, rleDecLoop, hlt, if_true, h80, if_false, hmin]
    have hlen : ¬ ((bytes ++ rest).length < dstS - ii) := by
      simp only [List.length_append]; omega
    rw [if_neg hlen, rleDecLoop_done _ _ _ _ _ (by omega),
      List.take_append_of_le_length (by omega)]
  | run n v =>
    simp only [Stint.ok] at hs
    simp only [Stint.expand, List.length_replicate] at hover ⊢
    have hc : 128 + (n - 3) < 256 := by omega
    have h80 : (128 + (n - 3)) &&& 0x80 ≠ 0 := by
      rw [byte_and_80 _ hc]; omega
    have h7f : (128 + (n - 3)) &&& 0xFFFFFF7F = n - 3 := by
      rw [byte_and_7f _ hc (by omega)]; omega
    have hmin : min (n - 3 + 3) (dstS - ii) = dstS - ii := by omega
    simp only [Stint.encode, List.cons_append, List.nil_append, rleDecLoop, hlt, if_true]
    rw [if_pos h80, h7f, hmin, rleDecLoop_done _ _ _ _ _ (by omega), List.take_replicate,
      Nat.min_eq_left (by omega)]

/-- The decoder loop over well-formed stints that stand for at least the
bytes still missing: it appends the first `dstS - ii` bytes of what the stints
stand for. -/
theorem rleDecLoop_budget (dstS : Nat) :
    ∀ (ss : List Stint), (∀ s ∈ ss, s.ok) →
      ∀ (fuel : Nat) (rest : List Nat) (ii : Nat) (dstD : List Nat),
        ii ≤ dstS → dstS ≤ ii + (expandStints ss).length → dstS - ii ≤ fuel →
        rleDecLoop dstS fuel (encodeStints ss ++ rest) ii dstD
          = some (dstD ++ (expandStints ss).take (dstS - ii)) := by
  intro ss
  induction ss with
  | nil =>
    intro _ fuel rest ii dstD h1 h2 _
    simp only [expandStints, List.flatMap_nil, List.length_nil, Nat.add_zero] at h2
    rw [rleDecLoop_done _ _ _ _ _ h2]
    simp [expandStints]
  | cons s ss ih =>
    intro hok fuel rest ii dstD h1 h2 h3
    have hs := hok s (List.mem_cons_self _ _)
    have hss : ∀ t ∈ ss, t.ok := fun t ht => hok t (List.mem_cons_of_mem _ ht)
    have hpos := Stint.expand_length_pos s hs
    rw [expandStints_cons, List.length_append] at h2
    by_cases hlt : ii < dstS
    · obtain ⟨f, rfl⟩ : ∃ f, fuel = f + 1 := ⟨fuel - 1, by omega⟩
      rw [encodeStints_cons, expandStints_cons, List.append_assoc]
      by_cases hfit : ii + s.expand.length ≤ dstS
      · rw [rleDecLoop_stint dstS f s hs _ ii dstD hfit,
          ih hss f rest _ _ hfit (by omega) (by omega), List.append_assoc,
          List.take_append_eq_append_take,
          List.take_of_length_le (by omega : s.expand.length ≤ dstS - ii)]
        rw [Nat.sub_add_eq]
      · rw [rleDecLoop_stint_trunc dstS f s hs _ ii dstD hlt (by omega),
          List.take_append_of_le_length (by omega)]
    · have : dstS - ii = 0 := by omega
      rw [rleDecLoop_done _ _ _ _ _ (by omega), this]
      simp

/-- C22. RLE decoder budget: for a stream with the tag `0x30` and the declared
size `S` whose payload starts with well-formed stints (a run control byte `C`
stands for `(C & 0x7F) + 3` copies of the next byte, a literal control byte
`C` for the next `C + 1` bytes) that stand for at least `S` bytes,
`rle8gba_decompress` returns exactly the first `S` bytes of what the stints
stand for: the last stint is cut to the remaining budget. -/
theorem rle_decoder_budget (S : Nat) (ss : List Stint) (rest : List Nat) (hS : S < 2 ^ 24)
    (hok : ∀ s ∈ ss, s.ok) (hlen : S ≤ (expandStints ss).length) :
    rle8gba_decompress (cprs_create_header S CPRS_RLE_TAG ++ (encodeStints ss ++ rest))
        = some ((expandStints ss).take S) ∧
      ((expandStints ss).take S).length = S := by
  refine ⟨?_, by rw [List.length_take]; omega⟩
  simp only [cprs_create_header, rle8gba_decompress, List.cons_append, List.nil_append]
  rw [read32le_tag _ _ _ _ (by omega) (by omega) (by omega),
    read32le_size _ _ _ _ (by omega) (by omega) (by omega)]
  have htag : ¬ (CPRS_RLE_TAG % 256 ≠ CPRS_RLE_TAG) := by decide
  rw [if_neg htag]
  have hsz : S % 256 + 2 ^ 8 * (S / 2 ^ 8 % 256) + 2 ^ 16 * (S / 2 ^ 16 % 256) = S := by omega
  simp only [hsz]
  have := rleDecLoop_budget S ss hok S rest 0 [] (by omega) (by omega) (by omega)
  simpa using this

set_option maxRecDepth 100000 in
/-- Witness of `rle_decoder_budget`: the payload `82 07 01 09 0A` (a run of
five bytes 7, two literals) under the declared size 6: the second literal is
not read. -/
theorem rle_decoder_budget_witness :
    rle8gba_decompress (cprs_create_header 6 CPRS_RLE_TAG ++
        (encodeStints [Stint.run 5 7, Stint.lit [9, 10]] ++ []))
        = some ((expandStints [Stint.run 5 7, Stint.lit [9, 10]]).take 6) ∧
      ((expandStints [Stint.run 5 7, Stint.lit [9, 10]]).take 6).length = 6 :=
  rle_decoder_budget 6 [Stint.run 5 7, Stint.lit [9, 10]] [] (by decide)
    (by decide) (by decide)

end Gbacomp

namespace Gbacomp

/-! ## RLE: the size of the output -/

end Gbacomp

namespace Gbacomp

/-! ## Huffman: one round of the decoder loop -/

/-- One round of the loop of `HUF_Decode` in terms of `hufFetch`. -/
theorem hufDecLoop_succ (buf : List Nat) (pak_len num_bits raw_len tree fuel : Nat) (d : HDec) :
    hufDecLoop buf pak_len num_bits raw_len tree (fuel + 1) d =
      if d.raw.length < raw_len then
        match hufFetch buf pak_len tree d with
        | none => none
        | some none => some d.raw
        | some (some s) =>
          if s.leaf then
            if (d.nbits + num_bits) &&& 7 = 0 then
              hufDecLoop buf pak_len num_bits raw_len tree fuel
                { pak := s.pak, mask4 := s.mask4, code := s.code, pos := s.root, next := 0,
                  nbits := (d.nbits + num_bits) &&& 7, cur := 0,
                  raw := d.raw ++ [((d.cur <<< num_bits) ||| s.pos) % 256] }
            else
              hufDecLoop buf pak_len num_bits raw_len tree fuel
                { pak := s.pak, mask4 := s.mask4, code := s.code, pos := s.root, next := 0,
                  nbits := (d.nbits + num_bits) &&& 7,
                  cur := ((d.cur <<< num_bits) ||| s.pos) % 256, raw := d.raw }
          else
            hufDecLoop buf pak_len num_bits raw_len tree fuel
              { d with pak := s.pak, mask4 := s.mask4, code := s.code, pos := s.pos,
                       next := s.next }
      else some d.raw := by
  conv_lhs => unfold hufDecLoop
  unfold hufFetch
  by_cases hlt : d.raw.length < raw_len
  · rw [if_pos hlt, if_pos hlt]
    by_cases hb : d.mask4 >>> 1 = 0 ∧ d.pak + 3 ≥ pak_len
    · simp only [hb, and_self, if_true]
    · rw [if_neg hb, if_neg hb]
      have half : ∀ (mask4 code pak : Nat) (g1 g2 : Option Nat),
          (match g1, g2 with
            | some pos, some root =>
              if (if code &&& mask4 ≠ 0 then d.pos &&& HUF_RCHAR else d.pos &&& HUF_LCHAR) ≠ 0 then
                if (d.nbits + num_bits) &&& 7 = 0 then
                  hufDecLoop buf pak_len num_bits raw_len tree fuel
                    { pak := pak, mask4 := mask4, code := code, pos := root, next := 0,
                      nbits := (d.nbits + num_bits) &&& 7, cur := 0,
                      raw := d.raw ++ [((d.cur <<< num_bits) ||| pos) % 256] }
                else
                  hufDecLoop buf pak_len num_bits raw_len tree fuel
                    { pak := pak, mask4 := mask4, code := code, pos := root, next := 0,
                      nbits := (d.nbits + num_bits) &&& 7,
                      cur := ((d.cur <<< num_bits) ||| pos) % 256, raw := d.raw }
              else
                hufDecLoop buf pak_len num_bits raw_len tree fuel
                  { d with pak := pak, mask4 := mask4, code := code, pos := pos,
                           next := uadd d.next (((d.pos &&& HUF_NEXT) + 1) <<< 1) }
            | _, _ => none) =
          (match (match g1, g2 with
              | some pos, some root =>
                some (some
                  ({ pak := pak, mask4 := mask4, code := code, pos := pos,
                     next := uadd d.next (((d.pos &&& HUF_NEXT) + 1) <<< 1),
                     leaf := decide ((if code &&& mask4 ≠ 0 then d.pos &&& HUF_RCHAR
                       else d.pos &&& HUF_LCHAR) ≠ 0),
                     root := root } : HStep))
              | _, _ => none) with
            | none => none
            | some none => some d.raw
            | some (some s) =>
              if s.leaf then
                if (d.nbits + num_bits) &&& 7 = 0 then
                  hufDecLoop buf pak_len num_bits raw_len tree fuel
                    { pak := s.pak, mask4 := s.mask4, code := s.code, pos := s.root, next := 0,
                      nbits := (d.nbits + num_bits) &&& 7, cur := 0,
                      raw := d.raw ++ [((d.cur <<< num_bits) ||| s.pos) % 256] }
                else
                  hufDecLoop buf pak_len num_bits raw_len tree fuel
                    { pak := s.pak, mask4 := s.mask4, code := s.code, pos := s.root, next := 0,
                      nbits := (d.nbits + num_bits) &&& 7,
                      cur := ((d.cur <<< num_bits) ||| s.pos) % 256, raw := d.raw }
              else
                hufDecLoop buf pak_len num_bits raw_len tree fuel
                  { d with pak := s.pak, mask4 := s.mask4, code := s.code, pos := s.pos,
                           next := s.next }) := by
        intro mask4 code pak g1 g2
        rcases g1 with _ | pos
        · rfl
        · rcases g2 with _ | root
          · rfl
          · simp only [decide_eq_true_eq]
      by_cases hm : d.mask4 >>> 1 = 0
      · rw [if_pos hm]
        try rw [if_pos hm]
        generalize buf.get? d.pak = g0
        generalize buf.get? (d.pak + 1) = g1
        generalize buf.get? (d.pak + 2) = g2
        generalize buf.get? (d.pak + 3) = g3
        rcases g0 with _ | b0
        · rfl
        · rcases g1 with _ | b1
          · rfl
          · rcases g2 with _ | b2
            · rfl
            · rcases g3 with _ | b3
              · rfl
              · exact half _ _ _ _ _
      · rw [if_neg hm]
        try rw [if_neg hm]
        exact half _ _ _ _ _
  · rw [if_neg hlt, if_neg hlt]

/-- One round of the symbol loop in terms of `hufFetch`. -/
theorem hufSymLoop_succ (buf : List Nat) (pak_len raw_len tree fuel : Nat) (d : HDec) :
    hufSymLoop buf pak_len raw_len tree (fuel + 1) d =
      if d.raw.length / 2 < raw_len then
        match hufFetch buf pak_len tree d with
        | none => none
        | some none => some d.raw
        | some (some s) =>
          if s.leaf then
            hufSymLoop buf pak_len raw_len tree fuel
              { d with pak := s.pak, mask4 := s.mask4, code := s.code, pos := s.root, next := 0,
                       raw := d.raw ++ [s.pos] }
          else
            hufSymLoop buf pak_len raw_len tree fuel
              { d with pak := s.pak, mask4 := s.mask4, code := s.code, pos := s.pos,
                       next := s.next }
      else some d.raw := by
  conv_lhs => unfold hufSymLoop
  unfold hufFetch
  by_cases hlt : d.raw.length / 2 < raw_len
  · rw [if_pos hlt, if_pos hlt]
    by_cases hb : d.mask4 >>> 1 = 0 ∧ d.pak + 3 ≥ pak_len
    · simp only [hb, and_self, if_true]
    · rw [if_neg hb, if_neg hb]
      have half : ∀ (mask4 code pak : Nat) (g1 g2 : Option Nat),
          (match g1, g2 with
            | some pos, some root =>
              if (if code &&& mask4 ≠ 0 then d.pos &&& HUF_RCHAR else d.pos &&& HUF_LCHAR) ≠ 0 then
                hufSymLoop buf pak_len raw_len tree fuel
                  { d with pak := pak, mask4 := mask4, code := code, pos := root, next := 0,
                           raw := d.raw ++ [pos] }
              else
                hufSymLoop buf pak_len raw_len tree fuel
                  { d with pak := pak, mask4 := mask4, code := code, pos := pos,
                           next := uadd d.next (((d.pos &&& HUF_NEXT) + 1) <<< 1) }
            | _, _ => none) =
          (match (match g1, g2 with
              | some pos, some root =>
                some (some
                  ({ pak := pak, mask4 := mask4, code := code, pos := pos,
                     next := uadd d.next (((d.pos &&& HUF_NEXT) + 1) <<< 1),
                     leaf := decide ((if code &&& mask4 ≠ 0 then d.pos &&& HUF_RCHAR
                       else d.pos &&& HUF_LCHAR) ≠ 0),
                     root := root } : HStep))
              | _, _ => none) with
            | none => none
            | some none => some d.raw
            | some (some s) =>
              if s.leaf then
                hufSymLoop buf pak_len raw_len tree fuel
                  { d with pak := s.pak, mask4 := s.mask4, code := s.code, pos := s.root,
                           next := 0, raw := d.raw ++ [s.pos] }
              else
                hufSymLoop buf pak_len raw_len tree fuel
                  { d with pak := s.pak, mask4 := s.mask4, code := s.code, pos := s.pos,
                           next := s.next }) := by
        intro mask4 code pak g1 g2
        rcases g1 with _ | pos
        · rfl
        · rcases g2 with _ | root
          · rfl
          · simp only [decide_eq_true_eq]
      by_cases hm : d.mask4 >>> 1 = 0
      · rw [if_pos hm]
        try rw [if_pos hm]
        generalize buf.get? d.pak = g0
        generalize buf.get? (d.pak + 1) = g1
        generalize buf.get? (d.pak + 2) = g2
        generalize buf.get? (d.pak + 3) = g3
        rcases g0 with _ | b0
        · rfl
        · rcases g1 with _ | b1
          · rfl
          · rcases g2 with _ | b2
            · rfl
            · rcases g3 with _ | b3
              · rfl
              · exact half _ _ _ _ _
      · rw [if_neg hm]
        try rw [if_neg hm]
        exact half _ _ _ _ _
  · rw [if_neg hlt, if_neg hlt]

/-- What a round finds depends on the cursor and the walk only. -/
theorem hufFetch_congr (buf : List Nat) (pak_len tree : Nat) (d e : HDec)
    (h1 : e.pak = d.pak) (h2 : e.mask4 = d.mask4) (h3 : e.code = d.code) (h4 : e.pos = d.pos)
    (h5 : e.next = d.next) : hufFetch buf pak_len tree e = hufFetch buf pak_len tree d := by
  unfold hufFetch
  rw [h1, h2, h3, h4, h5]

end Gbacomp

namespace Gbacomp

/-! ## Huffman: the order of the nibbles in the decoded bytes -/

theorem packHigh_length : ∀ (n : Nat) (s : List Nat), s.length ≤ n →
    (packHigh s).length = s.length / 2 := by
  intro n
  induction n using Nat.strong_induction_on with
  | _ n ih =>
    intro s hs
    match s with
    | [] => simp [packHigh]
    | [a] => simp [packHigh]
    | a :: b :: rest =>
      simp only [packHigh, List.length_cons]
      rw [ih (n - 2) (by simp only [List.length_cons] at hs; omega) rest
        (by simp only [List.length_cons] at hs; omega)]
      omega

theorem packHigh_append : ∀ (n : Nat) (s t : List Nat), s.length ≤ n → s.length % 2 = 0 →
    packHigh (s ++ t) = packHigh s ++ packHigh t := by
  intro n
  induction n using Nat.strong_induction_on with
  | _ n ih =>
    intro s t hs he
    match s with
    | [] => simp [packHigh]
    | [a] => simp at he
    | a :: b :: rest =>
      simp only [List.length_cons] at hs he
      have := ih (n - 2) (by omega) rest t (by omega) (by omega)
      show _ :: packHigh (rest ++ t) = _ :: packHigh rest ++ packHigh t
      rw [this]
      rfl

theorem packHigh_getD : ∀ (n : Nat) (s : List Nat) (j : Nat), s.length ≤ n → j < s.length / 2 →
    (packHigh s).getD j 0 = ((((s.getD (2 * j) 0) % 256) <<< 4) ||| s.getD (2 * j + 1) 0) % 256 := by
  intro n
  induction n using Nat.strong_induction_on with
  | _ n ih =>
    intro s j hs hj
    match s with
    | [] => simp at hj
    | [a] => simp only [List.length_singleton] at hj; omega
    | a :: b :: rest =>
      simp only [List.length_cons] at hs hj
      cases j with
      | zero => simp [packHigh]
      | succ k =>
        simp only [packHigh, List.getD_cons_succ]
        rw [ih (n - 2) (by omega) rest k (by omega) (by omega),
          show 2 * (k + 1) = 2 * k + 1 + 1 by omega]
        simp only [List.getD_cons_succ]

theorem nibbleRel_length (d : HDec) (syms : List Nat) (h : NibbleRel d syms) :
    d.raw.length = syms.length / 2 := by
  rcases h with ⟨_, _, _, hr⟩ | ⟨full, a, hs, he, _, _, hr⟩
  · rw [hr, packHigh_length _ _ (Nat.le_refl _)]
  · rw [hr, packHigh_length _ _ (Nat.le_refl _), hs]
    simp only [List.length_append, List.length_singleton]
    omega

theorem nibbleRel_packHigh (d : HDec) (syms : List Nat) (h : NibbleRel d syms) :
    d.raw = packHigh syms := by
  rcases h with ⟨_, _, _, hr⟩ | ⟨full, a, hs, he, _, _, hr⟩
  · exact hr
  · rw [hr, hs, packHigh_append _ _ _ (Nat.le_refl _) he]
    simp [packHigh]

/-- A commit of the symbol `pos` keeps the relation between the decoder state
and the decoded symbols. -/
theorem nibbleRel_commit (d : HDec) (syms : List Nat) (h : NibbleRel d syms)
    (pak mask4 code root pos : Nat) :
    NibbleRel
      (if (d.nbits + 4) &&& 7 = 0 then
        { pak := pak, mask4 := mask4, code := code, pos := root, next := 0,
          nbits := (d.nbits + 4) &&& 7, cur := 0,
          raw := d.raw ++ [((d.cur <<< 4) ||| pos) % 256] }
      else
        { pak := pak, mask4 := mask4, code := code, pos := root, next := 0,
          nbits := (d.nbits + 4) &&& 7, cur := ((d.cur <<< 4) ||| pos) % 256, raw := d.raw })
      (syms ++ [pos]) := by
  rcases h with ⟨he, hn, hc, hr⟩ | ⟨full, a, hs, he, hn, hc, hr⟩
  · rw [hn, hc]
    have h4 : ¬ ((0 + 4) &&& 7 = 0) := by decide
    rw [if_neg h4]
    refine Or.inr ⟨syms, pos, rfl, he, ?_, ?_, hr⟩
    · show (0 + 4) &&& 7 = 4
      decide
    · show ((0 <<< 4) ||| pos) % 256 = pos % 256
      simp
  · rw [hn, hc]
    have h8 : (4 + 4) &&& 7 = 0 := by decide
    rw [if_pos h8]
    refine Or.inl ⟨?_, h8, rfl, ?_⟩
    · rw [hs]; simp only [List.length_append, List.length_singleton]; omega
    · simp only
      rw [hr, hs, List.append_assoc, packHigh_append _ _ _ (Nat.le_refl _) he]
      simp [packHigh]

/-- The loop of `HUF_Decode` on 4-bit symbols returns the pairs of the symbols
the symbol loop returns. -/
theorem hufDecLoop_syms (buf : List Nat) (pak_len raw_len tree : Nat) :
    ∀ (fuel : Nat) (d e : HDec) (out : List Nat),
      NibbleRel d e.raw → e.pak = d.pak → e.mask4 = d.mask4 → e.code = d.code →
      e.pos = d.pos → e.next = d.next →
      hufDecLoop buf pak_len 4 raw_len tree fuel d = some out →
      ∃ syms, hufSymLoop buf pak_len raw_len tree fuel e = some syms ∧ out = packHigh syms := by
  intro fuel
  induction fuel with
  | zero =>
    intro d e out hrel _ _ _ _ _ h
    have hl := nibbleRel_length d e.raw hrel
    unfold hufDecLoop at h
    unfold hufSymLoop
    rw [← hl]
    split at h
    · simp at h
    · rename_i hlt
      simp only [Option.some.injEq] at h
      rw [if_neg hlt]
      exact ⟨e.raw, rfl, by rw [← h]; exact nibbleRel_packHigh d e.raw hrel⟩
  | succ n ih =>
    intro d e out hrel hpak hmask hcode hpos hnext h
    have hl := nibbleRel_length d e.raw hrel
    rw [hufDecLoop_succ] at h
    rw [hufSymLoop_succ, ← hl, hufFetch_congr buf pak_len tree d e hpak hmask hcode hpos hnext]
    by_cases hlt : d.raw.length < raw_len
    · rw [if_pos hlt] at h ⊢
      rcases hf : hufFetch buf pak_len tree d with _ | _ | s
      · rw [hf] at h; simp at h
      · rw [hf] at h
        simp only [Option.some.injEq] at h
        exact ⟨e.raw, rfl, by rw [← h]; exact nibbleRel_packHigh d e.raw hrel⟩
      · rw [hf] at h
        simp only at h ⊢
        by_cases hleaf : s.leaf = true
        · rw [if_pos hleaf] at h ⊢
          have hc := nibbleRel_commit d e.raw hrel s.pak s.mask4 s.code s.root s.pos
          by_cases h0 : (d.nbits + 4) &&& 7 = 0
          · rw [if_pos h0] at h hc
            exact ih _ _ out hc rfl rfl rfl rfl rfl h
          · rw [if_neg h0] at h hc
            exact ih _ _ out hc rfl rfl rfl rfl rfl h
        · rw [if_neg hleaf] at h ⊢
          refine ih { d with pak := s.pak, mask4 := s.mask4, code := s.code, pos := s.pos,
                             next := s.next } _ out ?_ rfl rfl rfl rfl rfl h
          rcases hrel with ⟨a1, a2, a3, a4⟩ | ⟨full, a, b1, b2, b3, b4, b5⟩
          · exact Or.inl ⟨a1, a2, a3, a4⟩
          · exact Or.inr ⟨full, a, b1, b2, b3, b4, b5⟩
    · rw [if_neg hlt] at h ⊢
      simp only [Option.some.injEq] at h
      exact ⟨e.raw, rfl, by rw [← h]; exact nibbleRel_packHigh d e.raw hrel⟩

set_option maxRecDepth 100000 in
theorem nibble_pair : ∀ a, a < 16 → ∀ b, b < 16 →
    ((((a % 256) <<< 4) ||| b) % 256) / 16 = a ∧ ((((a % 256) <<< 4) ||| b) % 256) % 16 = b := by
  decide

/-- A list followed by three more elements has at least three elements. -/
theorem append_three (f : List Nat) (x y z : Nat) :
    ∃ b1 b2 b3 rest, f ++ [x, y, z] = b1 :: b2 :: b3 :: rest := by
  rcases f with _ | ⟨a, _ | ⟨b, _ | ⟨c, r⟩⟩⟩
  · exact ⟨x, y, z, [], rfl⟩
  · exact ⟨a, x, y, [z], rfl⟩
  · exact ⟨a, b, x, [y, z], rfl⟩
  · exact ⟨a, b, c, r ++ [x, y, z], rfl⟩

set_option maxRecDepth 100000 in
/-- C26. `huffman_decode` departs from the nibble order of the claim: in the
stream `24 01 00 00 01 C0 01 02 00 00 00 40` the code bits `0, 1` decode to the
symbols `1` and then `2`, and the byte returned is `0x12` (the first symbol in
the high nibble), not `0x21`; in the stream of four bytes `0x12` the symbols
are `1, 2` four times, `huffman_decode` returns `0x12` four times, and
`huffman_decode_vba`, which puts the first symbol into the low nibble as the
claim has it, returns `0x21` four times. -/
theorem huffman_first_nibble_high :
    hufSymbols4 [0x24, 1, 0, 0, 1, 0xC0, 1, 2, 0, 0, 0, 0x40] = some [1, 2] ∧
      huffman_decode [0x24, 1, 0, 0, 1, 0xC0, 1, 2, 0, 0, 0, 0x40] = some [0x12] ∧
      huffman_decode [0x24, 1, 0, 0, 1, 0xC0, 1, 2, 0, 0, 0, 0x40] ≠ some [1 + 16 * 2] ∧
      hufSymbols4 [0x24, 4, 0, 0, 1, 0xC0, 1, 2, 0, 0, 0, 0x55] = some [1, 2, 1, 2, 1, 2, 1, 2] ∧
      huffman_decode [0x24, 4, 0, 0, 1, 0xC0, 1, 2, 0, 0, 0, 0x55]
        = some [0x12, 0x12, 0x12, 0x12] ∧
      huffman_decode_vba [0x24, 4, 0, 0, 1, 0xC0, 1, 2, 0, 0, 0, 0x55]
        = some [1 + 16 * 2, 1 + 16 * 2, 1 + 16 * 2, 1 + 16 * 2] := by
  decide

/-- The order in which `HUF_Decode` packs 4-bit symbols (`*raw = (*raw << 4) |
pos`): for a stream with the tag `0x24`, `huffman_decode` builds each output
byte from two consecutive decoded symbols with the first decoded symbol in the
high nibble (bits 4-7) and the second in the low nibble (bits 0-3): byte `j` is
`(syms[2j] << 4) | syms[2j+1]`, where `syms` are the symbols in the order the
loop decodes them. -/
theorem huffman_nibble_order (file out : List Nat) (htag : file.head? = some CMD_CODE_24)
    (h : huffman_decode file = some out) :
    ∃ syms, hufSymbols4 file = some syms ∧ out.length = syms.length / 2 ∧
      ∀ j, j < out.length →
        out.getD j 0 = ((((syms.getD (2 * j) 0) % 256) <<< 4) ||| syms.getD (2 * j + 1) 0) % 256 ∧
        (syms.getD (2 * j) 0 < 16 → syms.getD (2 * j + 1) 0 < 16 →
          out.getD j 0 / 16 = syms.getD (2 * j) 0 ∧ out.getD j 0 % 16 = syms.getD (2 * j + 1) 0) := by
  rcases file with _ | ⟨b0, f⟩
  · simp at htag
  · simp only [List.head?_cons, Option.some.injEq] at htag
    subst htag
    obtain ⟨b1, b2, b3, rest, hbuf⟩ := append_three f 0 0 0
    unfold huffman_decode at h
    unfold hufSymbols4
    simp only [List.cons_append, hbuf] at h ⊢
    have ht : ¬ (CMD_CODE_24 ≠ CMD_CODE_24 ∧ CMD_CODE_24 ≠ CMD_CODE_28) := by decide
    rw [if_neg ht] at h
    have h4 : CMD_CODE_24 &&& 0xF = 4 := by decide
    rw [h4] at h
    rcases rest with _ | ⟨t0, _ | ⟨pos, r⟩⟩
    · simp at h
    · simp at h
    · simp only at h ⊢
      obtain ⟨syms, hs, ho⟩ := hufDecLoop_syms _ _ _ _ _ _
        { pak := 4 + ((t0 + 1) <<< 1), mask4 := 0, code := 0, pos := pos, next := 0,
          nbits := 0, cur := 0, raw := [] } out
        (Or.inl ⟨rfl, rfl, rfl, rfl⟩) rfl rfl rfl rfl rfl h
      have hlen : out.length = syms.length / 2 := by
        rw [ho, packHigh_length _ _ (Nat.le_refl _)]
      refine ⟨syms, hs, hlen, ?_⟩
      intro j hj
      have hb : out.getD j 0
          = ((((syms.getD (2 * j) 0) % 256) <<< 4) ||| syms.getD (2 * j + 1) 0) % 256 := by
        rw [ho, packHigh_getD _ _ _ (Nat.le_refl _) (by omega)]
      refine ⟨hb, ?_⟩
      intro ha hb2
      rw [hb]
      exact nibble_pair _ ha _ hb2

set_option maxRecDepth 100000 in
/-- Witness of `huffman_nibble_order`: a stream of the two symbols `1`, `2`. -/
theorem huffman_nibble_order_witness :
    ∃ syms, hufSymbols4 [0x24, 1, 0, 0, 1, 0xC0, 1, 2, 0, 0, 0, 0x40] = some syms ∧
      [0x12].length = syms.length / 2 ∧
      ∀ j, j < [0x12].length →
        [0x12].getD j 0
            = ((((syms.getD (2 * j) 0) % 256) <<< 4) ||| syms.getD (2 * j + 1) 0) % 256 ∧
        (syms.getD (2 * j) 0 < 16 → syms.getD (2 * j + 1) 0 < 16 →
          [0x12].getD j 0 / 16 = syms.getD (2 * j) 0 ∧
            [0x12].getD j 0 % 16 = syms.getD (2 * j + 1) 0) :=
  huffman_nibble_order [0x24, 1, 0, 0, 1, 0xC0, 1, 2, 0, 0, 0, 0x40] [0x12] (by decide)
    (by decide)

end Gbacomp

namespace Gbacomp

/-! ## Huffman: streams that end early -/

set_option maxRecDepth 100000 in
/-- The table walk of `HUF_Decode` has no bounds check: the stream `28 05 00 00
00 3F 00 00 00 00` has a valid tag, but its root entry `3F` sends the walk to
the offset 128, outside the 13 bytes of `pak_buffer`, and the call reads
beyond the buffer. -/
theorem huffman_walk_outside :
    huffman_decode [0x28, 5, 0, 0, 0, 0x3F, 0, 0, 0, 0] = none := by
  decide

end Gbacomp

namespace Gbacomp

/-! ## HUF_CreateTree: the selection loop and the merge loop -/

theorem setDad_length (t : List HNode) (i v : Nat) : (setDad t i v).length = t.length := by
  unfold setDad
  cases h : t.get? i with
  | none => rfl
  | some nd => simp

theorem setDad_get? (t : List HNode) (i v j : Nat) :
    (setDad t i v).get? j =
      (t.get? j).map (fun nd => if j = i then { nd with dad := some v } else nd) := by
  unfold setDad
  cases h : t.get? i with
  | none =>
    by_cases hj : j = i
    · subst hj; rw [h]; rfl
    · simp [hj]
  | some nd =>
    by_cases hj : j = i
    · subst hj
      simp only [List.get?_eq_getElem?] at h ⊢
      have hlt : j < t.length := by
        by_contra hc
        rw [List.getElem?_eq_none (by omega)] at h
        exact absurd h (by simp)
      rw [List.getElem?_set_self hlt, h]
      simp
    · simp only [List.get?_eq_getElem?] at h ⊢
      rw [List.getElem?_set_ne (Ne.symm hj)]
      simp [hj]

theorem sumPar_nil (f : HNode → Nat) : sumPar f [] = 0 := rfl

theorem sumPar_cons (f : HNode → Nat) (nd : HNode) (t : List HNode) :
    sumPar f (nd :: t) = (if nd.dad = none then f nd else 0) + sumPar f t := by
  unfold sumPar parentless
  by_cases h : nd.dad = none
  · simp [List.filter_cons, h]
  · simp [List.filter_cons, h]

theorem sumPar_append (f : HNode → Nat) (t u : List HNode) :
    sumPar f (t ++ u) = sumPar f t + sumPar f u := by
  unfold sumPar parentless
  simp [List.filter_append]

theorem parentless_length (t : List HNode) : (parentless t).length = sumPar (fun _ => 1) t := by
  unfold sumPar
  simp

theorem setDad_nil (i v : Nat) : setDad [] i v = [] := by
  simp [setDad]

theorem setDad_cons_zero (nd : HNode) (t : List HNode) (v : Nat) :
    setDad (nd :: t) 0 v = { nd with dad := some v } :: t := by
  simp [setDad]

theorem setDad_cons_succ (nd : HNode) (t : List HNode) (i v : Nat) :
    setDad (nd :: t) (i + 1) v = nd :: setDad t i v := by
  unfold setDad
  simp only [List.get?_cons_succ]
  cases h : t.get? i with
  | none => rfl
  | some x => simp

/-- Giving a parentless node a parent takes its share out of the sum. -/
theorem sumPar_setDad (f : HNode → Nat) :
    ∀ (t : List HNode) (i v : Nat) (nd : HNode), t.get? i = some nd → nd.dad = none →
      sumPar f (setDad t i v) + f nd = sumPar f t := by
  intro t
  induction t with
  | nil => intro i v nd h; simp at h
  | cons x t ih =>
    intro i v nd h hd
    cases i with
    | zero =>
      simp only [List.get?_cons_zero, Option.some.injEq] at h
      subst h
      rw [setDad_cons_zero, sumPar_cons, sumPar_cons]
      simp [hd]
      omega
    | succ i =>
      simp only [List.get?_cons_succ] at h
      rw [setDad_cons_succ, sumPar_cons, sumPar_cons]
      have := ih i v nd h hd
      omega

/-- A parentless node has its share in the sum. -/
theorem sumPar_ge (f : HNode → Nat) :
    ∀ (t : List HNode) (i : Nat) (nd : HNode), t.get? i = some nd → nd.dad = none →
      f nd ≤ sumPar f t := by
  intro t i nd h hd
  have := sumPar_setDad f t i 0 nd h hd
  omega

/-- Two different parentless nodes have both their shares in the sum. -/
theorem sumPar_ge_two (f : HNode → Nat) (t : List HNode) (i j : Nat) (a b : HNode)
    (hi : t.get? i = some a) (hj : t.get? j = some b) (ha : a.dad = none) (hb : b.dad = none)
    (hij : i ≠ j) : f a + f b ≤ sumPar f t := by
  have h1 := sumPar_setDad f t i 0 a hi ha
  have hj2 : (setDad t i 0).get? j = some b := by
    rw [setDad_get?, hj]; simp [Ne.symm hij]
  have h2 := sumPar_ge f (setDad t i 0) j b hj2 hb
  omega

theorem wt_eq (tree : List HNode) (i : Nat) (nd : HNode) (h : tree.get? i = some nd) :
    wt tree i = nd.weight := by
  unfold wt; rw [h]; rfl

theorem lf_eq (tree : List HNode) (i : Nat) (nd : HNode) (h : tree.get? i = some nd) :
    lf tree i = nd.leafs := by
  unfold lf; rw [h]; rfl

theorem par_iff (tree : List HNode) (i : Nat) (nd : HNode) (h : tree.get? i = some nd) :
    Par tree i ↔ nd.dad = none := by
  unfold Par
  constructor
  · rintro ⟨nd', h', hd⟩
    rw [h] at h'
    cases h'
    exact hd
  · intro hd
    exact ⟨nd, h, hd⟩

theorem lexLe_refl (tree : List HNode) (i : Nat) : LexLe tree i i := Or.inr ⟨rfl, Nat.le_refl _⟩

theorem pickInv_init (tree : List HNode) :
    PickInv tree 0 { lnode := none, rnode := none, lweight := 0, rweight := 0 } := by
  refine ⟨?_, ?_, ?_, ?_⟩
  · intro l h; simp at h
  · intro _; exact ⟨rfl, rfl, fun j hj => absurd hj (Nat.not_lt_zero _)⟩
  · intro r h; simp at h
  · intro _; exact ⟨rfl, fun j hj => absurd hj (Nat.not_lt_zero _)⟩

/-- One round of the selection loop keeps `PickInv`. -/
theorem pickStep_inv (tree : List HNode) (hpos : ∀ j, Par tree j → 0 < wt tree j)
    (i : Nat) (nd : HNode) (hi : tree.get? i = some nd) (pk : Pick) (hinv : PickInv tree i pk) :
    PickInv tree (i + 1) (pickStep pk i nd) := by
  obtain ⟨h1, h2, h3, h4⟩ := hinv
  have hwi := wt_eq tree i nd hi
  have hpi := par_iff tree i nd hi
  unfold pickStep
  by_cases hd : nd.dad = none
  · rw [if_pos hd]
    have hPi : Par tree i := hpi.mpr hd
    by_cases hA : pk.lweight = 0 ∨ nd.weight < pk.lweight
    · rw [if_pos hA]
      refine ⟨?_, ?_, ?_, ?_⟩
      · intro l hl
        simp only [Option.some.injEq] at hl
        subst hl
        refine ⟨Nat.lt_succ_self _, hPi, hwi.symm, ?_⟩
        intro j hj hPj
        by_cases hji : j = i
        · subst hji; exact lexLe_refl _ _
        · have hjlt : j < i := by omega
          cases hl0 : pk.lnode with
          | none => exact absurd hPj ((h2 hl0).2.2 j hjlt)
          | some l0 =>
            obtain ⟨_, hPl0, hw0, hmin⟩ := h1 l0 hl0
            have hp0 := hpos l0 hPl0
            have hlt : nd.weight < pk.lweight := by
              rcases hA with hA | hA
              · omega
              · exact hA
            left
            rcases hmin j hjlt hPj with hc | ⟨hc, _⟩ <;> omega
      · intro h; simp at h
      · intro r hr
        simp only at hr
        obtain ⟨hri, hPr, hwr, hmin⟩ := h1 r hr
        refine ⟨by omega, hPr, hwr, ?_, ?_⟩
        · simp only [ne_eq, Option.some.injEq]; omega
        · intro j hj hPj hne
          simp only [ne_eq, Option.some.injEq] at hne
          exact hmin j (by omega) hPj
      · intro hr
        simp only at hr
        obtain ⟨hw0, _, hno⟩ := h2 hr
        refine ⟨hw0, ?_⟩
        intro j hj hPj
        by_cases hji : j = i
        · subst hji; rfl
        · exact absurd hPj (hno j (by omega))
    · rw [if_neg hA]
      have hA1 : pk.lweight ≠ 0 := fun h => hA (Or.inl h)
      have hA2 : pk.lweight ≤ nd.weight := by
        by_contra hc; exact hA (Or.inr (by omega))
      have hl0 : ∃ l0, pk.lnode = some l0 := by
        cases h : pk.lnode with
        | none => exact absurd (h2 h).1 hA1
        | some l0 => exact ⟨l0, rfl⟩
      obtain ⟨l0, hl0⟩ := hl0
      obtain ⟨hl0i, hPl0, hw0, hmin0⟩ := h1 l0 hl0
      by_cases hB : pk.rweight = 0 ∨ nd.weight < pk.rweight
      · rw [if_pos hB]
        refine ⟨?_, ?_, ?_, ?_⟩
        · intro l hl
          simp only at hl
          rw [hl0] at hl
          cases hl
          refine ⟨by omega, hPl0, hw0, ?_⟩
          intro j hj hPj
          by_cases hji : j = i
          · subst hji
            unfold LexLe
            omega
          · exact hmin0 j (by omega) hPj
        · intro h; simp only at h; rw [hl0] at h; cases h
        · intro r hr
          simp only [Option.some.injEq] at hr
          subst hr
          refine ⟨Nat.lt_succ_self _, hPi, hwi.symm, ?_, ?_⟩
          · simp only [hl0, ne_eq, Option.some.injEq]; omega
          · intro j hj hPj hne
            simp only [hl0, ne_eq, Option.some.injEq] at hne
            by_cases hji : j = i
            · subst hji; exact lexLe_refl _ _
            · have hjlt : j < i := by omega
              cases hr0 : pk.rnode with
              | none =>
                have := (h4 hr0).2 j hjlt hPj
                rw [hl0] at this
                cases this
                exact absurd rfl hne
              | some r0 =>
                obtain ⟨_, hPr0, hwr0, _, hminr⟩ := h3 r0 hr0
                have hp0 := hpos r0 hPr0
                have hlt : nd.weight < pk.rweight := by
                  rcases hB with hB | hB
                  · omega
                  · exact hB
                left
                have hne2 : pk.lnode ≠ some j := by
                  rw [hl0]; simp only [ne_eq, Option.some.injEq]; exact hne
                rcases hminr j hjlt hPj hne2 with hc | ⟨hc, _⟩ <;> omega
        · intro h; simp at h
      · rw [if_neg hB]
        have hB1 : pk.rweight ≠ 0 := fun h => hB (Or.inl h)
        have hB2 : pk.rweight ≤ nd.weight := by
          by_contra hc; exact hB (Or.inr (by omega))
        have hr0 : ∃ r0, pk.rnode = some r0 := by
          cases h : pk.rnode with
          | none => exact absurd (h4 h).1 hB1
          | some r0 => exact ⟨r0, rfl⟩
        obtain ⟨r0, hr0⟩ := hr0
        obtain ⟨hr0i, hPr0, hwr0, hner, hminr⟩ := h3 r0 hr0
        refine ⟨?_, ?_, ?_, ?_⟩
        · intro l hl
          rw [hl0] at hl
          cases hl
          refine ⟨by omega, hPl0, hw0, ?_⟩
          intro j hj hPj
          by_cases hji : j = i
          · subst hji
            unfold LexLe
            omega
          · exact hmin0 j (by omega) hPj
        · intro h; rw [hl0] at h; cases h
        · intro r hr
          rw [hr0] at hr
          cases hr
          refine ⟨by omega, hPr0, hwr0, hner, ?_⟩
          intro j hj hPj hne
          by_cases hji : j = i
          · subst hji
            unfold LexLe
            omega
          · exact hminr j (by omega) hPj hne
        · intro h; rw [hr0] at h; cases h
  · rw [if_neg hd]
    have hnP : ¬ Par tree i := fun h => hd (hpi.mp h)
    have hlt : ∀ j, j < i + 1 → Par tree j → j < i := by
      intro j hj hPj
      by_cases hji : j = i
      · subst hji; exact absurd hPj hnP
      · omega
    refine ⟨?_, ?_, ?_, ?_⟩
    · intro l hl
      obtain ⟨a, b, c, d⟩ := h1 l hl
      exact ⟨by omega, b, c, fun j hj hPj => d j (hlt j hj hPj) hPj⟩
    · intro hl
      obtain ⟨a, b, c⟩ := h2 hl
      exact ⟨a, b, fun j hj hPj => c j (hlt j hj hPj) hPj⟩
    · intro r hr
      obtain ⟨a, b, c, d, e⟩ := h3 r hr
      exact ⟨by omega, b, c, d, fun j hj hPj => e j (hlt j hj hPj) hPj⟩
    · intro hr
      obtain ⟨a, b⟩ := h4 hr
      exact ⟨a, fun j hj hPj => b j (hlt j hj hPj) hPj⟩

/-- The selection loop over the rest of the array keeps `PickInv`. -/
theorem pickLoop_inv (tree : List HNode) (hpos : ∀ j, Par tree j → 0 < wt tree j) :
    ∀ (suf pre : List HNode) (pk : Pick), tree = pre ++ suf → PickInv tree pre.length pk →
      PickInv tree tree.length (pickLoop suf pre.length pk) := by
  intro suf
  induction suf with
  | nil =>
    intro pre pk ht hinv
    simp only [List.append_nil] at ht
    subst ht
    exact hinv
  | cons nd suf ih =>
    intro pre pk ht hinv
    unfold pickLoop
    have hi : tree.get? pre.length = some nd := by
      rw [ht, List.get?_eq_getElem?, List.getElem?_append_right (Nat.le_refl _)]
      simp
    have := ih (pre ++ [nd]) (pickStep pk pre.length nd) (by rw [ht]; simp)
    simp only [List.length_append, List.length_singleton] at this
    exact this (pickStep_inv tree hpos pre.length nd hi pk hinv)

/-- The selection loop of `HUF_CreateTree` over the whole array. -/
theorem pickLoop_spec (tree : List HNode) (hpos : ∀ j, Par tree j → 0 < wt tree j) :
    PickInv tree tree.length
      (pickLoop tree 0 { lnode := none, rnode := none, lweight := 0, rweight := 0 }) :=
  pickLoop_inv tree hpos tree [] _ rfl (pickInv_init tree)


/-- Some node without a parent exists when the count is positive. -/
theorem one_par_of_count (t : List HNode) (h : 1 ≤ (parentless t).length) :
    ∃ i a, t.get? i = some a ∧ a.dad = none := by
  have hne : parentless t ≠ [] := by
    intro hc; rw [hc] at h; simp at h
  obtain ⟨a, ha⟩ := List.exists_mem_of_ne_nil _ hne
  unfold parentless at ha
  rw [List.mem_filter] at ha
  obtain ⟨i, hi⟩ := List.mem_iff_get?.mp ha.1
  exact ⟨i, a, hi, by simpa using ha.2⟩

/-- Two different nodes without a parent exist when the count is at least 2. -/
theorem two_par_of_count :
    ∀ (t : List HNode), 2 ≤ (parentless t).length →
      ∃ i j a b, i ≠ j ∧ t.get? i = some a ∧ t.get? j = some b ∧ a.dad = none ∧ b.dad = none := by
  intro t
  induction t with
  | nil => intro h; simp [parentless] at h
  | cons x t ih =>
    intro h
    by_cases hx : x.dad = none
    · have h1 : 1 ≤ (parentless t).length := by
        unfold parentless at h ⊢
        simp only [List.filter_cons, hx, decide_True, if_true, List.length_cons] at h
        omega
      obtain ⟨j, b, hj, hb⟩ := one_par_of_count t h1
      exact ⟨0, j + 1, x, b, by omega, rfl, hj, hx, hb⟩
    · have h2 : 2 ≤ (parentless t).length := by
        unfold parentless at h ⊢
        simpa only [List.filter_cons, hx, decide_False, Bool.false_eq_true, if_false] using h
      obtain ⟨i, j, a, b, hij, hi, hj, ha, hb⟩ := ih h2
      exact ⟨i + 1, j + 1, a, b, by omega, hi, hj, ha, hb⟩

/-- The nodes of the array after a merge step. -/
theorem merge_get (tree : List HNode) (node : HNode) (l r j : Nat) :
    (setDad (setDad (tree ++ [node]) r tree.length) l tree.length).get? j =
      ((if j < tree.length then tree.get? j else if j = tree.length then some node else none).map
        (fun nd => if j = r then { nd with dad := some tree.length } else nd)).map
        (fun nd => if j = l then { nd with dad := some tree.length } else nd) := by
  rw [setDad_get?, setDad_get?]
  congr 2
  simp only [List.get?_eq_getElem?]
  by_cases h1 : j < tree.length
  · rw [if_pos h1, List.getElem?_append_left h1]
  · rw [if_neg h1]
    by_cases h2 : j = tree.length
    · rw [if_pos h2, h2, List.getElem?_append_right (Nat.le_refl _)]
      simp
    · rw [if_neg h2, List.getElem?_eq_none]
      simp only [List.length_append, List.length_singleton]
      omega

/-- An old node after a merge step: only its `dad` can have changed, and it
has if and only if it is one of the two nodes merged. -/
theorem merge_get_old (tree : List HNode) (node : HNode) (l r j : Nat) (nd : HNode)
    (h : tree.get? j = some nd) :
    ∃ nd', (setDad (setDad (tree ++ [node]) r tree.length) l tree.length).get? j = some nd' ∧
      nd'.symbol = nd.symbol ∧ nd'.weight = nd.weight ∧ nd'.leafs = nd.leafs ∧
      nd'.lson = nd.lson ∧ nd'.rson = nd.rson ∧
      ((j = l ∨ j = r) → nd'.dad = some tree.length) ∧ (j ≠ l → j ≠ r → nd'.dad = nd.dad) := by
  have hj : j < tree.length := by
    by_contra hc
    rw [List.get?_eq_getElem?, List.getElem?_eq_none (by omega)] at h
    cases h
  rw [merge_get, if_pos hj, h]
  simp only [Option.map_some']
  refine ⟨_, rfl, ?_⟩
  by_cases h1 : j = r <;> by_cases h2 : j = l
  · rw [if_pos h1, if_pos h2]
    exact ⟨rfl, rfl, rfl, rfl, rfl, fun _ => rfl, fun h => absurd h2 h⟩
  · rw [if_pos h1, if_neg h2]
    exact ⟨rfl, rfl, rfl, rfl, rfl, fun _ => rfl, fun _ h => absurd h1 h⟩
  · rw [if_neg h1, if_pos h2]
    exact ⟨rfl, rfl, rfl, rfl, rfl, fun _ => rfl, fun h => absurd h2 h⟩
  · rw [if_neg h1, if_neg h2]
    exact ⟨rfl, rfl, rfl, rfl, rfl, fun h => absurd h (by omega), fun _ _ => rfl⟩

theorem merge_get_new (tree : List HNode) (node : HNode) (l r : Nat)
    (hl : l < tree.length) (hr : r < tree.length) :
    (setDad (setDad (tree ++ [node]) r tree.length) l tree.length).get? tree.length = some node := by
  rw [merge_get, if_neg (Nat.lt_irrefl _), if_pos rfl]
  have h1 : tree.length ≠ r := by omega
  have h2 : tree.length ≠ l := by omega
  simp [h1, h2]

/-- Every node after a merge step is the new one or an old one. -/
theorem merge_get_inv (tree : List HNode) (node : HNode) (l r j : Nat) (nd' : HNode)
    (hl : l < tree.length) (hr : r < tree.length)
    (h : (setDad (setDad (tree ++ [node]) r tree.length) l tree.length).get? j = some nd') :
    (j = tree.length ∧ nd' = node) ∨ (j < tree.length ∧ ∃ nd, tree.get? j = some nd) := by
  by_cases hj : j < tree.length
  · right
    refine ⟨hj, ?_⟩
    rw [List.get?_eq_getElem?, List.getElem?_eq_getElem hj]
    exact ⟨_, rfl⟩
  · left
    have hlen : j < (setDad (setDad (tree ++ [node]) r tree.length) l tree.length).length := by
      by_contra hc
      rw [List.get?_eq_getElem?, List.getElem?_eq_none (by omega)] at h
      cases h
    rw [setDad_length, setDad_length] at hlen
    simp only [List.length_append, List.length_singleton] at hlen
    have hjm : j = tree.length := by omega
    subst hjm
    rw [merge_get_new tree node l r hl hr] at h
    cases h
    exact ⟨rfl, rfl⟩

/-- The sum over the parentless nodes after a merge step. -/
theorem merge_sumPar (f : HNode → Nat) (tree : List HNode) (node lnode rnode : HNode) (l r : Nat)
    (hl : tree.get? l = some lnode) (hr : tree.get? r = some rnode)
    (hld : lnode.dad = none) (hrd : rnode.dad = none) (hne : l ≠ r) (hnd : node.dad = none) :
    sumPar f (setDad (setDad (tree ++ [node]) r tree.length) l tree.length) + f lnode + f rnode
      = sumPar f tree + f node := by
  have hrlt : r < tree.length := by
    by_contra hc
    rw [List.get?_eq_getElem?, List.getElem?_eq_none (by omega)] at hr
    cases hr
  have hllt : l < tree.length := by
    by_contra hc
    rw [List.get?_eq_getElem?, List.getElem?_eq_none (by omega)] at hl
    cases hl
  have hr1 : (tree ++ [node]).get? r = some rnode := by
    rw [List.get?_eq_getElem?, List.getElem?_append_left hrlt, ← List.get?_eq_getElem?, hr]
  have hl1 : (setDad (tree ++ [node]) r tree.length).get? l = some lnode := by
    rw [setDad_get?, List.get?_eq_getElem?, List.getElem?_append_left hllt,
      ← List.get?_eq_getElem?, hl]
    simp [hne]
  have e1 := sumPar_setDad f _ l tree.length lnode hl1 hld
  have e2 := sumPar_setDad f _ r tree.length rnode hr1 hrd
  have e3 : sumPar f (tree ++ [node]) = sumPar f tree + f node := by
    rw [sumPar_append, sumPar_cons, sumPar_nil, if_pos hnd]
    rfl
  omega

end Gbacomp

namespace Gbacomp

/-! ## HUF_CreateTree: one merge step -/

theorem get?_lt {α : Type} (t : List α) (j : Nat) (a : α) (h : t.get? j = some a) : j < t.length := by
  by_contra hc
  rw [List.get?_eq_getElem?, List.getElem?_eq_none (by omega)] at h
  cases h

theorem get?_of_lt {α : Type} (t : List α) (j : Nat) (h : j < t.length) : ∃ a, t.get? j = some a := by
  rw [List.get?_eq_getElem?, List.getElem?_eq_getElem h]
  exact ⟨_, rfl⟩

theorem merge_wt (tree : List HNode) (node : HNode) (l r j : Nat) (hj : j < tree.length) :
    wt (setDad (setDad (tree ++ [node]) r tree.length) l tree.length) j = wt tree j := by
  obtain ⟨nd, hnd⟩ := get?_of_lt tree j hj
  obtain ⟨nd', h', _, hw, _⟩ := merge_get_old tree node l r j nd hnd
  rw [wt_eq _ _ _ h', wt_eq _ _ _ hnd, hw]

theorem lexLe_merge (tree : List HNode) (node : HNode) (l r a b : Nat)
    (ha : a < tree.length) (hb : b < tree.length) (h : LexLe tree a b) :
    LexLe (setDad (setDad (tree ++ [node]) r tree.length) l tree.length) a b := by
  unfold LexLe at *
  rw [merge_wt tree node l r a ha, merge_wt tree node l r b hb]
  exact h

/-- One round of the merge loop: the selection finds two nodes, and the array
with the new node keeps `TreeInv`. -/
theorem mergeStep_inv (freqs : Nat → Nat) (max_symbols k s : Nat)
    (htot : totalFreq freqs max_symbols < 2 ^ 32) (hk32 : k < 2 ^ 32)
    (tree : List HNode) (hinv : TreeInv freqs max_symbols k tree)
    (hlt : tree.length + 1 ≤ 2 * k - 1) :
    ∃ l r lnode rnode,
      (pickLoop tree 0 { lnode := none, rnode := none, lweight := 0, rweight := 0 }).lnode = some l ∧
      (pickLoop tree 0 { lnode := none, rnode := none, lweight := 0, rweight := 0 }).rnode = some r ∧
      tree.get? l = some lnode ∧ tree.get? r = some rnode ∧
      TreeInv freqs max_symbols k
        (setDad (setDad (tree ++ [({ symbol := s, weight := uadd lnode.weight rnode.weight,
                                     leafs := uadd lnode.leafs rnode.leafs,
                                     dad := none, lson := some l, rson := some r } : HNode)])
          r tree.length) l tree.length) := by
  obtain ⟨i1, i2, i3, i4, i5, i6, i7, i8, i9⟩ := hinv
  have hpos : ∀ j, Par tree j → 0 < wt tree j := by
    rintro j ⟨nd, hnd, _⟩
    rw [wt_eq _ _ _ hnd]
    exact (i6 j nd hnd).1
  have hpk := pickLoop_spec tree hpos
  generalize pickLoop tree 0 { lnode := none, rnode := none, lweight := 0, rweight := 0 } = pk at hpk
  obtain ⟨h1, h2, h3, h4⟩ := hpk
  have hcount : 2 ≤ (parentless tree).length := by omega
  obtain ⟨a, b, na, nb, hab, hna, hnb, hnad, hnbd⟩ := two_par_of_count tree hcount
  have hPa : Par tree a := ⟨na, hna, hnad⟩
  have hPb : Par tree b := ⟨nb, hnb, hnbd⟩
  have halt := get?_lt _ _ _ hna
  have hblt := get?_lt _ _ _ hnb
  -- both nodes are found
  have hl : ∃ l, pk.lnode = some l := by
    cases h : pk.lnode with
    | none => exact absurd hPa ((h2 h).2.2 a halt)
    | some l => exact ⟨l, rfl⟩
  obtain ⟨l, hl⟩ := hl
  have hr : ∃ r, pk.rnode = some r := by
    cases h : pk.rnode with
    | none =>
      have e1 := (h4 h).2 a halt hPa
      have e2 := (h4 h).2 b hblt hPb
      rw [e1] at e2
      cases e2
      exact absurd rfl hab
    | some r => exact ⟨r, rfl⟩
  obtain ⟨r, hr⟩ := hr
  obtain ⟨hllt, ⟨lnode, hln, hld⟩, _, hlmin⟩ := h1 l hl
  obtain ⟨hrlt, ⟨rnode, hrn, hrd⟩, _, hlr, hrmin⟩ := h3 r hr
  have hne : l ≠ r := by
    intro hc; rw [hl, hc] at hlr; exact hlr rfl
  refine ⟨l, r, lnode, rnode, hl, hr, hln, hrn, ?_⟩
  -- no wrap-around in the sums
  have hw2 := sumPar_ge_two (fun nd => nd.weight) tree l r lnode rnode hln hrn hld hrd hne
  have hl2 := sumPar_ge_two (fun nd => nd.leafs) tree l r lnode rnode hln hrn hld hrd hne
  simp only at hw2 hl2
  have hwadd : uadd lnode.weight rnode.weight = lnode.weight + rnode.weight := by
    unfold uadd; exact Nat.mod_eq_of_lt (by omega)
  have hladd : uadd lnode.leafs rnode.leafs = lnode.leafs + rnode.leafs := by
    unfold uadd; exact Nat.mod_eq_of_lt (by omega)
  rw [hwadd, hladd]
  generalize hnode : ({ symbol := s, weight := lnode.weight + rnode.weight, leafs := lnode.leafs + rnode.leafs, dad := none, lson := some l, rson := some r } : HNode) = node
  have hnd : node.dad = none := by rw [← hnode]
  have hnw : node.weight = lnode.weight + rnode.weight := by rw [← hnode]
  have hnl : node.leafs = lnode.leafs + rnode.leafs := by rw [← hnode]
  have hnls : node.lson = some l := by rw [← hnode]
  have hnrs : node.rson = some r := by rw [← hnode]
  have hlen : (setDad (setDad (tree ++ [node]) r tree.length) l tree.length).length
      = tree.length + 1 := by
    rw [setDad_length, setDad_length]; simp
  have s1 := merge_sumPar (fun _ => 1) tree node lnode rnode l r hln hrn hld hrd hne hnd
  have s2 := merge_sumPar (fun nd => nd.weight) tree node lnode rnode l r hln hrn hld hrd hne hnd
  have s3 := merge_sumPar (fun nd => nd.leafs) tree node lnode rnode l r hln hrn hld hrd hne hnd
  simp only at s2 s3
  rw [← parentless_length, ← parentless_length] at s1
  simp only at s1
  have hwl := (i6 l lnode hln)
  have hwr := (i6 r rnode hrn)
  obtain ⟨ln', hln', _, hlw', hll', _, _, hld', _⟩ := merge_get_old tree node l r l lnode hln
  obtain ⟨rn', hrn', _, hrw', hrl', _, _, hrd', _⟩ := merge_get_old tree node l r r rnode hrn
  have hnew := merge_get_new tree node l r hllt hrlt
  refine ⟨by rw [hlen]; omega, by rw [hlen]; omega, by rw [hlen]; omega, by omega, by omega, ?_, ?_, ?_, ?_⟩
  · -- positive weights and leaf counts
    intro j nd' hj
    rcases merge_get_inv tree node l r j nd' hllt hrlt hj with ⟨_, hn⟩ | ⟨_, nd, hnd0⟩
    · subst hn; omega
    · obtain ⟨nd2, h2', _, hw, hlf, _⟩ := merge_get_old tree node l r j nd hnd0
      rw [hj] at h2'
      cases h2'
      have := i6 j nd hnd0
      omega
  · -- the leaves
    intro i hi
    obtain ⟨nd, hnd0, c1, c2, c3, c4, c5⟩ := i7 i hi
    obtain ⟨nd2, h2', e1, e2, e3, e4, e5, _⟩ := merge_get_old tree node l r i nd hnd0
    exact ⟨nd2, h2', by rw [e3, c1], by rw [e4, c2], by rw [e5, c3], by rw [e1]; exact c4,
      by rw [e2, e1]; exact c5⟩
  · -- the internal nodes
    intro i hki hi
    rw [hlen] at hi
    by_cases him : i = tree.length
    · subst him
      refine ⟨node, l, r, ln', rn', hnew, hnls, hnrs, hln', hrn', hllt, hrlt, hne,
        by rw [hnw, hlw', hrw'], by rw [hnl, hll', hrl'], hld' (Or.inl rfl), hrd' (Or.inr rfl), ?_, ?_⟩
      · rw [hlw', hrw']
        have := hlmin r hrlt ⟨rnode, hrn, hrd⟩
        unfold LexLe at this
        rw [wt_eq _ _ _ hln, wt_eq _ _ _ hrn] at this
        omega
      · intro j jn' hj hjn' hdad
        obtain ⟨jn, hjn⟩ := get?_of_lt tree j hj
        obtain ⟨jn2, hjn2, _, _, _, _, _, hd1, hd2⟩ := merge_get_old tree node l r j jn hjn
        rw [hjn'] at hjn2
        cases hjn2
        by_cases hjl : j = l
        · subst hjl
          exact ⟨lexLe_refl _ _, fun h => absurd rfl h⟩
        · by_cases hjr : j = r
          · subst hjr
            refine ⟨?_, fun _ => lexLe_refl _ _⟩
            exact lexLe_merge tree node l j l j hllt hj (hlmin j hj ⟨rnode, hrn, hrd⟩)
          · have hdj := hd2 hjl hjr
            have hPj : Par tree j := by
              refine ⟨jn, hjn, ?_⟩
              rcases hdad with hdad | ⟨p, hp, hpm⟩
              · rw [← hdj]; exact hdad
              · rw [hdj] at hp
                have := (i9 j jn p hjn hp).2.1
                omega
            refine ⟨lexLe_merge tree node l r l j hllt hj (hlmin j hj hPj), fun _ => ?_⟩
            refine lexLe_merge tree node l r r j hrlt hj (hrmin j hj hPj ?_)
            rw [hl]; simp only [ne_eq, Option.some.injEq]; exact fun h => hjl h.symm
    · have hi' : i < tree.length := by omega
      obtain ⟨nd, cl, cr, cln, crn, g1, g2, g3, g4, g5, g6, g7, g8, g9, g10, g11, g12, g13, g14⟩ :=
        i8 i hki hi'
      obtain ⟨nd2, hnd2, _, e2, e3, e4, e5, _⟩ := merge_get_old tree node l r i nd g1
      have hcl_ne_l : cl ≠ l := by
        intro hc; subst hc; rw [hln] at g4; cases g4; rw [hld] at g11; cases g11
      have hcl_ne_r : cl ≠ r := by
        intro hc; subst hc; rw [hrn] at g4; cases g4; rw [hrd] at g11; cases g11
      have hcr_ne_l : cr ≠ l := by
        intro hc; subst hc; rw [hln] at g5; cases g5; rw [hld] at g12; cases g12
      have hcr_ne_r : cr ≠ r := by
        intro hc; subst hc; rw [hrn] at g5; cases g5; rw [hrd] at g12; cases g12
      obtain ⟨cln2, hcln2, _, f2, f3, _, _, _, f8⟩ := merge_get_old tree node l r cl cln g4
      obtain ⟨crn2, hcrn2, _, k2, k3, _, _, _, k8⟩ := merge_get_old tree node l r cr crn g5
      refine ⟨nd2, cl, cr, cln2, crn2, hnd2, by rw [e4, g2], by rw [e5, g3], hcln2, hcrn2,
        g6, g7, g8, by rw [e2, f2, k2, g9], by rw [e3, f3, k3, g10],
        by rw [f8 hcl_ne_l hcl_ne_r, g11], by rw [k8 hcr_ne_l hcr_ne_r, g12],
        by rw [f2, k2]; exact g13, ?_⟩
      intro j jn' hj hjn' hdad
      have hjm : j < tree.length := by omega
      obtain ⟨jn, hjn⟩ := get?_of_lt tree j hjm
      obtain ⟨jn2, hjn2, _, _, _, _, _, hd1, hd2⟩ := merge_get_old tree node l r j jn hjn
      rw [hjn'] at hjn2
      cases hjn2
      have hold : jn.dad = none ∨ ∃ p, jn.dad = some p ∧ i ≤ p := by
        by_cases hjl : j = l
        · subst hjl; rw [hln] at hjn; cases hjn; exact Or.inl hld
        · by_cases hjr : j = r
          · subst hjr; rw [hrn] at hjn; cases hjn; exact Or.inl hrd
          · rw [← hd2 hjl hjr]; exact hdad
      obtain ⟨q1, q2⟩ := g14 j jn hj hjn hold
      exact ⟨lexLe_merge tree node l r cl j (by omega) hjm q1,
        fun h => lexLe_merge tree node l r cr j (by omega) hjm (q2 h)⟩
  · -- the parent links
    intro j nd' p hj hp
    rw [hlen]
    rcases merge_get_inv tree node l r j nd' hllt hrlt hj with ⟨_, hn⟩ | ⟨hjm, nd, hnd0⟩
    · subst hn; rw [hnd] at hp; cases hp
    · obtain ⟨nd2, h2', _, _, _, _, _, hd1, hd2⟩ := merge_get_old tree node l r j nd hnd0
      rw [hj] at h2'
      cases h2'
      by_cases hjl : j = l ∨ j = r
      · rw [hd1 hjl] at hp
        cases hp
        omega
      · have hjl1 : j ≠ l := fun h => hjl (Or.inl h)
        have hjr1 : j ≠ r := fun h => hjl (Or.inr h)
        rw [hd2 hjl1 hjr1] at hp
        have := i9 j nd p hnd0 hp
        omega

end Gbacomp

namespace Gbacomp

/-! ## HUF_CreateTree: the tree -/

theorem sum_filter_ne_zero (f : Nat → Nat) :
    ∀ L : List Nat, ((L.filter (fun i => f i ≠ 0)).map f).sum = (L.map f).sum := by
  intro L
  induction L with
  | nil => rfl
  | cons x L ih =>
    by_cases hx : f x = 0
    · simp only [List.filter_cons, hx, ne_eq, not_true_eq_false, decide_False,
        Bool.false_eq_true, if_false, List.map_cons, List.sum_cons, Nat.zero_add]
      exact ih
    · simp only [List.filter_cons, hx, ne_eq, not_false_eq_true, decide_True, if_true,
        List.map_cons, List.sum_cons]
      rw [← ih]

theorem createLeaves_length (freqs : Nat → Nat) (max_symbols : Nat) :
    (createLeaves freqs max_symbols).length = countLeafs freqs max_symbols := by
  simp [createLeaves, countLeafs]

theorem createLeaves_get? (freqs : Nat → Nat) (max_symbols i : Nat) :
    (createLeaves freqs max_symbols).get? i =
      ((usedSymbols freqs max_symbols).get? i).map
        (fun i => ({ symbol := i, weight := freqs i, leafs := 1,
                     dad := none, lson := none, rson := none } : HNode)) := by
  simp [createLeaves, usedSymbols]

theorem createLeaves_parentless (freqs : Nat → Nat) (max_symbols : Nat) :
    parentless (createLeaves freqs max_symbols) = createLeaves freqs max_symbols := by
  unfold parentless
  rw [List.filter_eq_self]
  intro a ha
  simp only [createLeaves, List.mem_map] at ha
  obtain ⟨i, _, rfl⟩ := ha
  simp

theorem usedSymbols_mem (freqs : Nat → Nat) (max_symbols i s : Nat)
    (h : (usedSymbols freqs max_symbols).get? i = some s) : freqs s ≠ 0 := by
  have hm := List.get?_mem h
  simp only [usedSymbols, List.mem_filter] at hm
  simpa using hm.2

/-- The array of leaves satisfies `TreeInv`. -/
theorem createLeaves_inv (freqs : Nat → Nat) (max_symbols : Nat)
    (hk : 1 ≤ countLeafs freqs max_symbols) :
    TreeInv freqs max_symbols (countLeafs freqs max_symbols) (createLeaves freqs max_symbols) := by
  have hlen := createLeaves_length freqs max_symbols
  have hpl := createLeaves_parentless freqs max_symbols
  refine ⟨by omega, by omega, by rw [hpl]; omega, ?_, ?_, ?_, ?_, ?_, ?_⟩
  · unfold sumPar
    rw [hpl]
    unfold createLeaves totalFreq
    rw [List.map_map]
    exact sum_filter_ne_zero freqs _
  · unfold sumPar
    rw [hpl]
    unfold createLeaves countLeafs
    rw [List.map_map]
    have hc : ((fun nd : HNode => nd.leafs) ∘ fun i => ({ symbol := i, weight := freqs i, leafs := 1, dad := none, lson := none, rson := none } : HNode)) = fun _ => 1 := rfl
    rw [hc]
    simp
  · intro j nd h
    rw [createLeaves_get?] at h
    cases hs : (usedSymbols freqs max_symbols).get? j with
    | none => rw [hs] at h; cases h
    | some s =>
      rw [hs] at h
      cases h
      exact ⟨Nat.pos_of_ne_zero (usedSymbols_mem _ _ _ _ hs), Nat.one_pos⟩
  · intro i hi
    have hi' : i < (usedSymbols freqs max_symbols).length := by
      simpa [usedSymbols, countLeafs] using hi
    obtain ⟨s, hs⟩ := get?_of_lt _ i hi'
    refine ⟨({ symbol := s, weight := freqs s, leafs := 1, dad := none, lson := none, rson := none } : HNode), ?_, rfl, rfl, rfl, hs, rfl⟩
    rw [createLeaves_get?, hs]
    rfl
  · intro i h1 h2
    omega
  · intro j nd p h hp
    rw [createLeaves_get?] at h
    cases hs : (usedSymbols freqs max_symbols).get? j with
    | none => rw [hs] at h; cases h
    | some s =>
      rw [hs] at h
      cases h
      cases hp

/-- The merge loop runs to its end and keeps `TreeInv`. -/
theorem mergeLoop_inv (freqs : Nat → Nat) (max_symbols k : Nat)
    (htot : totalFreq freqs max_symbols < 2 ^ 32) (hk32 : k < 2 ^ 32) :
    ∀ (n : Nat) (tree : List HNode), TreeInv freqs max_symbols k tree →
      tree.length + n = 2 * k - 1 →
      ∃ t, mergeLoop k max_symbols n tree = some t ∧ TreeInv freqs max_symbols k t ∧
        t.length = 2 * k - 1 := by
  intro n
  induction n with
  | zero =>
    intro tree hinv hlen
    exact ⟨tree, rfl, hinv, by omega⟩
  | succ n ih =>
    intro tree hinv hlen
    obtain ⟨l, r, lnode, rnode, hl, hr, hln, hrn, hnew⟩ :=
      mergeStep_inv freqs max_symbols k (uadd (usub (tree.length + 1) k) max_symbols)
        htot hk32 tree hinv (by omega)
    unfold mergeLoop
    simp only [hl, hr, hln, hrn]
    apply ih _ hnew
    rw [setDad_length, setDad_length]
    simp only [List.length_append, List.length_singleton]
    omega

theorem countLeafs_le_total (f : Nat → Nat) :
    ∀ L : List Nat, (L.filter (fun i => f i ≠ 0)).length ≤ (L.map f).sum := by
  intro L
  induction L with
  | nil => simp
  | cons x L ih =>
    by_cases hx : f x = 0
    · simp only [List.filter_cons, hx, ne_eq, not_true_eq_false, decide_False,
        Bool.false_eq_true, if_false, List.map_cons, List.sum_cons, Nat.zero_add]
      exact ih
    · simp only [List.filter_cons, hx, ne_eq, not_false_eq_true, decide_True, if_true,
        List.length_cons, List.map_cons, List.sum_cons]
      simp only [ne_eq] at ih
      omega

/-- The tree `HUF_CreateTree` builds for `k ≥ 2` used symbols, when the sum of
the frequencies fits into 32 bits. -/
theorem createTree_inv (freqs : Nat → Nat) (max_symbols : Nat)
    (hk : 2 ≤ countLeafs freqs max_symbols) (htot : totalFreq freqs max_symbols < 2 ^ 32) :
    ∃ tree, HUF_CreateTree freqs max_symbols (countLeafs freqs max_symbols)
        (2 * countLeafs freqs max_symbols - 1) = some tree ∧
      TreeInv freqs max_symbols (countLeafs freqs max_symbols) tree ∧
      tree.length = 2 * countLeafs freqs max_symbols - 1 := by
  have hk32 : countLeafs freqs max_symbols < 2 ^ 32 :=
    Nat.lt_of_le_of_lt (countLeafs_le_total freqs _) htot
  have h1 : 1 ≤ countLeafs freqs max_symbols := by omega
  unfold HUF_CreateTree
  simp only
  apply mergeLoop_inv freqs max_symbols _ htot hk32 _ _ (createLeaves_inv freqs max_symbols h1)
  rw [createLeaves_length]
  omega

/-- With a single parentless node, the sum over the parentless nodes is its share. -/
theorem sumPar_single (f : HNode → Nat) (t : List HNode) (i : Nat) (nd : HNode)
    (h : t.get? i = some nd) (hd : nd.dad = none) (hc : (parentless t).length = 1) :
    sumPar f t = f nd := by
  have e1 := sumPar_setDad (fun _ => 1) t i 0 nd h hd
  rw [← parentless_length, ← parentless_length, hc] at e1
  simp only at e1
  have e0 : (parentless (setDad t i 0)).length = 0 := by omega
  have e2 : parentless (setDad t i 0) = [] := List.length_eq_zero.mp e0
  have e3 := sumPar_setDad f t i 0 nd h hd
  have e4 : sumPar f (setDad t i 0) = 0 := by
    unfold sumPar; rw [e2]; rfl
  omega

/-- C29. For a frequency table with `k ≥ 2` non-zero entries whose sum fits
into 32 bits (as it does for every table counted from an input),
`HUF_CreateTree` returns an array of `2k - 1` nodes: the first `k` are the
leaves of the used symbols in ascending order, each later node `i` was made by
merging the first and the second node in the order "lighter first, at equal
weight the one created earlier" among the nodes without a parent at that time,
the first one as left child, and carries the sums of their weights and leaf
counts; the last node is the only one without a parent, with leaf count `k`
and the sum of all frequencies as weight. -/
theorem huffman_tree_construction (freqs : Nat → Nat) (max_symbols : Nat)
    (hk : 2 ≤ countLeafs freqs max_symbols) (htot : totalFreq freqs max_symbols < 2 ^ 32) :
    ∃ tree, HUF_CreateTree freqs max_symbols (countLeafs freqs max_symbols)
        (2 * countLeafs freqs max_symbols - 1) = some tree ∧
      tree.length = 2 * countLeafs freqs max_symbols - 1 ∧
      (∀ i, i < countLeafs freqs max_symbols → LeafAt freqs max_symbols tree i) ∧
      (∀ i, countLeafs freqs max_symbols ≤ i → i < 2 * countLeafs freqs max_symbols - 1 →
        MergedAt tree i) ∧
      (∀ j nd, tree.get? j = some nd →
        (nd.dad = none ↔ j = 2 * countLeafs freqs max_symbols - 2)) ∧
      lf tree (2 * countLeafs freqs max_symbols - 2) = countLeafs freqs max_symbols ∧
      wt tree (2 * countLeafs freqs max_symbols - 2) = totalFreq freqs max_symbols := by
  obtain ⟨tree, hrun, ⟨i1, i2, i3, i4, i5, i6, i7, i8, i9⟩, hlen⟩ :=
    createTree_inv freqs max_symbols hk htot
  obtain ⟨last, hlast⟩ := get?_of_lt tree (2 * countLeafs freqs max_symbols - 2) (by omega)
  have hld : last.dad = none := by
    cases hd : last.dad with
    | none => rfl
    | some p =>
      have := i9 _ _ p hlast hd
      omega
  have hcount : (parentless tree).length = 1 := by omega
  refine ⟨tree, hrun, hlen, i7, fun i h1 h2 => i8 i h1 (by omega), ?_, ?_, ?_⟩
  · intro j nd hj
    constructor
    · intro hd
      by_contra hne
      have := sumPar_ge_two (fun _ => 1) tree j _ nd last hj hlast hd hld hne
      rw [← parentless_length] at this
      simp only at this
      omega
    · intro hjl
      subst hjl
      rw [hlast] at hj
      cases hj
      exact hld
  · rw [lf_eq _ _ _ hlast, ← sumPar_single (fun nd => nd.leafs) tree _ last hlast hld hcount]
    exact i5
  · rw [wt_eq _ _ _ hlast, ← sumPar_single (fun nd => nd.weight) tree _ last hlast hld hcount]
    exact i4

set_option maxRecDepth 100000 in
/-- C29 at a concrete table: three symbols of the byte alphabet with the
frequencies 3, 1 and 2. -/
theorem huffman_tree_construction_witness :
    2 ≤ countLeafs (fun i => if i = 0x41 then 3 else if i = 0x42 then 1 else if i = 0x50 then 2 else 0) 256 ∧
    ∃ tree, HUF_CreateTree (fun i => if i = 0x41 then 3 else if i = 0x42 then 1 else if i = 0x50 then 2 else 0) 256
        (countLeafs (fun i => if i = 0x41 then 3 else if i = 0x42 then 1 else if i = 0x50 then 2 else 0) 256)
        (2 * countLeafs (fun i => if i = 0x41 then 3 else if i = 0x42 then 1 else if i = 0x50 then 2 else 0) 256 - 1)
          = some tree ∧
      wt tree (2 * countLeafs (fun i => if i = 0x41 then 3 else if i = 0x42 then 1 else if i = 0x50 then 2 else 0) 256 - 2)
        = totalFreq (fun i => if i = 0x41 then 3 else if i = 0x42 then 1 else if i = 0x50 then 2 else 0) 256 := by
  refine ⟨by decide, ?_⟩
  obtain ⟨tree, h1, _, _, _, _, _, h7⟩ :=
    huffman_tree_construction
      (fun i => if i = 0x41 then 3 else if i = 0x42 then 1 else if i = 0x50 then 2 else 0) 256
      (by decide) (by decide)
  exact ⟨tree, h1, h7⟩

end Gbacomp

namespace Gbacomp

/-! ## LZ: matches of equal length -/

set_option maxRecDepth 100000 in
/-- C32. `InsertNode` keeps the first node of maximal length it meets on its
way down the tree, which need not be the nearest. For the input
"abcXabcYabcZ" on the first call of a process, with the positions of the
first eight bytes inserted, the nodes 4078 (first "abc") and 4082 (second
"abc") are both in the tree and both agree with the string at 4086 (third
"abc") in exactly 3 bytes; `InsertNode(4086)` returns `match_length = 3` with
`match_position = 4078`, the farther one, and the stream carries the match
unit `00 07` (distance 8) where distance 4 was possible. -/
theorem lz_tied_match_keeps_first_found :
    (insertNodes [4078, 4079, 4080, 4081, 4082, 4083, 4084, 4085]
        (lzWindow lzFresh [0x61, 0x62, 0x63, 0x58, 0x61, 0x62, 0x63, 0x59, 0x61, 0x62, 0x63, 0x5A])).bind
      (fun st => (InsertNode 4086 st).map (fun st' =>
        (decide (st.dad 4078 ≠ NIL), decide (st.dad 4082 ≠ NIL),
         (cmpLoop st.text_buf 4086 4078 (FRAME_MAX - 1) 1 0).1,
         (cmpLoop st.text_buf 4086 4082 (FRAME_MAX - 1) 1 0).1,
         st'.match_length, st'.match_position)))
      = some (true, true, 3, 3, 3, 4078) ∧
    lz77gba_compress (fun _ => 0) lzFresh
        [0x61, 0x62, 0x63, 0x58, 0x61, 0x62, 0x63, 0x59, 0x61, 0x62, 0x63, 0x5A]
      = some [0x10, 12, 0, 0, 0x0A, 0x61, 0x62, 0x63, 0x58, 0x00, 0x03, 0x59, 0x00, 0x07, 0x5A, 0] := by
  decide

end Gbacomp

namespace Gbacomp

/-! ## HUF_CreateCodeBranch: the breadth-first regime -/

theorem rd_set_ne (t : List Nat) (i j v : Nat) (h : j ≠ i) : rd (t.set i v) j = rd t j := by
  unfold rd
  simp only [List.get?_eq_getElem?]
  rw [List.getElem?_set_ne (Ne.symm h)]

theorem rd_set_eq (t : List Nat) (i v : Nat) (h : i < t.length) : rd (t.set i v) i = some v := by
  unfold rd
  simp only [List.get?_eq_getElem?]
  rw [List.getElem?_set_self h]

theorem need_cons (tree : List HNode) (ni : Nat) (ns : List Nat) :
    need tree (ni :: ns) = (2 * lf tree ni - 1) + need tree ns := by
  simp [need]

theorem need_append (tree : List HNode) (ns ms : List Nat) :
    need tree (ns ++ ms) = need tree ns + need tree ms := by
  simp [need]

theorem drop_get_cons {α : Type} (l : List α) (s : Nat) (a : α) (h : l.get? s = some a) :
    l.drop s = a :: l.drop (s + 1) := by
  have hlt := get?_lt l s a h
  rw [List.drop_eq_getElem_cons hlt]
  rw [List.get?_eq_getElem?, List.getElem?_eq_getElem hlt] at h
  cases h
  rfl

theorem nodeFlags_ne_ff (tree : List HNode) (l r : Nat) : nodeFlags tree l r ≠ 0xFF := by
  unfold nodeFlags HUF_LCHAR HUF_RCHAR
  split <;> split <;> decide

theorem nodeFlags_lt (tree : List HNode) (l r : Nat) : nodeFlags tree l r < 256 := by
  unfold nodeFlags HUF_LCHAR HUF_RCHAR
  split <;> split <;> decide

/-- A slot keeps its entry when another slot is written and the stack grows. -/
theorem slotOK_frame (tree : List HNode) (stack ext : List Nat) (ct ct' : CodeTree) (j i v m : Nat)
    (h : SlotOK tree stack ct j) (hne : j + 1 ≠ i)
    (e1 : ct'.codetree = ct.codetree.set i v) (e2 : ct'.codemask = ct.codemask.set i m) :
    SlotOK tree (stack ++ ext) ct' j := by
  obtain ⟨ni, node, h1, h2, h3, h4⟩ := h
  have hget : ∀ c x, stack.get? c = some x → (stack ++ ext).get? c = some x := by
    intro c x hc
    have := get?_lt _ _ _ hc
    rw [List.get?_eq_getElem?, List.getElem?_append_left this, ← List.get?_eq_getElem?, hc]
  refine ⟨ni, node, hget _ _ h1, h2, ?_, ?_⟩
  · intro hl
    obtain ⟨a, b⟩ := h3 hl
    rw [e1, e2, rd_set_ne _ _ _ _ hne, rd_set_ne _ _ _ _ hne]
    exact ⟨a, b⟩
  · intro hl
    obtain ⟨c, l, r, a1, a2, a3, a4, a5, a6, a7, a8⟩ := h4 hl
    refine ⟨c, l, r, a1, a2, hget _ _ a3, hget _ _ a4, a5, a6, ?_, ?_⟩
    · rw [e1, rd_set_ne _ _ _ _ hne]; exact a7
    · rw [e2, rd_set_ne _ _ _ _ hne]; exact a8

/-- Writing a slot keeps `Small63` when the slot is marked as a symbol or
receives an offset of at most 63. -/
theorem small63_set (ct ct' : CodeTree) (i v m : Nat) (h : Small63 ct)
    (e1 : ct'.codetree = ct.codetree.set i v) (e2 : ct'.codemask = ct.codemask.set i m)
    (hlen : ct.codetree.length = ct.codemask.length)
    (hv : m = 0xFF ∨ v ≤ HUF_NEXT) : Small63 ct' := by
  intro k mk ck h1 h2 h3
  by_cases hk : k = i
  · subst hk
    rw [e2] at h1
    rw [e1] at h2
    have hlt : k < ct.codemask.length := by
      have := rd_lt _ _ _ h1
      simpa using this
    rw [rd_set_eq _ _ _ hlt] at h1
    rw [rd_set_eq _ _ _ (by omega)] at h2
    cases h1
    cases h2
    rcases hv with hv | hv
    · exact absurd hv h3
    · exact hv
  · rw [e2, rd_set_ne _ _ _ _ hk] at h1
    rw [e1, rd_set_ne _ _ _ _ hk] at h2
    exact h _ _ _ h1 h2 h3

theorem putNode_some (ct : CodeTree) (i v m : Nat) (h1 : i < ct.codetree.length)
    (h2 : i < ct.codemask.length) :
    putNode ct i v m = some { codetree := ct.codetree.set i (v % 256), codemask := ct.codemask.set i (m % 256) } := by
  unfold putNode
  rw [if_pos ⟨h1, h2⟩]

theorem need_term_pos (tree : List HNode) (hwf : TreeWF tree) (ni : Nat) (node : HNode)
    (h : tree.get? ni = some node) : 1 ≤ 2 * lf tree ni - 1 := by
  rw [lf_eq _ _ _ h]
  have := (hwf ni node h).1
  omega

theorem need_le_length (tree : List HNode) (hwf : TreeWF tree) :
    ∀ ns : List Nat, (∀ ni ∈ ns, ni < tree.length) → ns.length ≤ need tree ns := by
  intro ns
  induction ns with
  | nil => intro _; simp [need]
  | cons x ns ih =>
    intro h
    rw [need_cons, List.length_cons]
    obtain ⟨node, hnode⟩ := get?_of_lt tree x (h x (List.mem_cons_self _ _))
    have := need_term_pos tree hwf x node hnode
    have := ih (fun ni hni => h ni (List.mem_cons_of_mem _ hni))
    omega

/-- The loop of the first regime of `HUF_CreateCodeBranch` runs to its end and
keeps `BfsInv`; it leaves slot 0 and the lengths of the tables as they are. -/
theorem branchLoop_bfs (tree : List HNode) (K : Nat) (hwf : TreeWF tree) (hK : K ≤ 64) :
    ∀ (fuel : Nat) (stack : List Nat) (s q : Nat) (ct : CodeTree),
      BfsInv tree K stack s q ct → need tree (stack.drop s) ≤ fuel →
      ∃ ext ct', branchLoop tree 1 fuel stack s q ct = some ct' ∧
        BfsInv tree K (stack ++ ext) (stack ++ ext).length ((stack ++ ext).length + 1) ct' ∧
        rd ct'.codetree 0 = rd ct.codetree 0 ∧ rd ct'.codemask 0 = rd ct.codemask 0 ∧
        ct'.codetree.length = ct.codetree.length := by
  intro fuel
  induction fuel with
  | zero =>
    intro stack s q ct hinv hfuel
    obtain ⟨⟨b1, b1', b1''⟩, b2, b3, b4, b5, b6⟩ := hinv
    have hs : s = stack.length := by
      by_contra hne
      have hlt : s < stack.length := by omega
      obtain ⟨ni, hni⟩ := get?_of_lt stack s hlt
      rw [drop_get_cons _ _ _ hni, need_cons] at hfuel
      obtain ⟨node, hnode⟩ := get?_of_lt tree ni (b2 _ _ hni)
      have := need_term_pos tree hwf ni node hnode
      omega
    refine ⟨[], ct, ?_, ?_, rfl, rfl, rfl⟩
    · unfold branchLoop
      rw [if_neg (by omega)]
    · rw [List.append_nil]
      subst hs
      have hq : q = stack.length + 1 := by
        rcases b1'' with ⟨h0, _⟩ | ⟨_, hq⟩
        · omega
        · exact hq
      subst hq
      exact ⟨⟨b1, b1', b1''⟩, b2, b3, b4, b5, b6⟩
  | succ fuel ih =>
    intro stack s q ct hinv hfuel
    obtain ⟨⟨b1, b1', b1''⟩, b2, b3, ⟨b4, b4'⟩, b5, b6⟩ := hinv
    by_cases hlt : s < stack.length
    · obtain ⟨ni, hni⟩ := get?_of_lt stack s hlt
      obtain ⟨node, hnode⟩ := get?_of_lt tree ni (b2 _ _ hni)
      have hdrop := drop_get_cons _ _ _ hni
      rw [hdrop, need_cons] at hfuel b3
      have hpos := need_term_pos tree hwf ni node hnode
      have hlfn := lf_eq _ _ _ hnode
      have hslot : (if s + 1 = 1 then 1 else q) = s + 1 := by
        rcases b1'' with ⟨h0, _⟩ | ⟨h1, hq⟩
        · subst h0; rfl
        · rw [if_neg (by omega), hq]
      have hq' : (if s + 1 = 1 then q else q + 1) = s + 1 + 1 := by
        rcases b1'' with ⟨h0, hq⟩ | ⟨h1, hq⟩
        · subst h0; rw [if_pos rfl, hq]
        · rw [if_neg (by omega), hq]
      have hin1 : s + 1 < ct.codetree.length := by omega
      have hin2 : s + 1 < ct.codemask.length := by omega
      have hmem : ∀ x ∈ stack.drop (s + 1), x < tree.length := by
        intro x hx
        have hx' := List.mem_of_mem_drop hx
        obtain ⟨j, hj⟩ := List.mem_iff_get?.mp hx'
        exact b2 _ _ hj
      have hlenle := need_le_length tree hwf _ hmem
      rw [List.length_drop] at hlenle
      unfold branchLoop
      rw [if_pos hlt]
      simp only [hni, hnode]
      by_cases hleaf : node.leafs = 1
      · rw [if_pos hleaf, hslot, hq', putNode_some _ _ _ _ hin1 hin2]
        simp only
        have hinv' : BfsInv tree K stack (s + 1) (s + 1 + 1)
            { codetree := ct.codetree.set (s + 1) (node.symbol % 256),
              codemask := ct.codemask.set (s + 1) (0xFF % 256) } := by
          refine ⟨⟨by omega, b1', Or.inr ⟨by omega, rfl⟩⟩, b2, ?_, ?_, ?_, ?_⟩
          · rw [hlfn, hleaf] at b3; omega
          · simp only [List.length_set]; exact ⟨b4, b4'⟩
          · intro j hj
            by_cases hjs : j = s
            · subst hjs
              refine ⟨ni, node, hni, hnode, ?_, fun h => absurd hleaf h⟩
              intro _
              exact ⟨rd_set_eq _ _ _ hin1, rd_set_eq _ _ _ hin2⟩
            · have hjlt : j < s := by omega
              have := slotOK_frame tree stack [] ct
                { codetree := ct.codetree.set (s + 1) (node.symbol % 256),
                  codemask := ct.codemask.set (s + 1) (0xFF % 256) } j (s + 1) _ _ (b5 j hjlt)
                (by omega) rfl rfl
              rw [List.append_nil] at this
              exact this
          · exact small63_set ct _ (s + 1) _ _ b6 rfl rfl b4 (Or.inl rfl)
        obtain ⟨ext, ct', r1, r2, r3, r4, r5⟩ := ih stack (s + 1) (s + 1 + 1) _ hinv' (by
          rw [hlfn, hleaf] at hfuel; omega)
        refine ⟨ext, ct', r1, r2, ?_, ?_, ?_⟩
        · rw [r3]; exact rd_set_ne _ _ _ _ (by omega)
        · rw [r4]; exact rd_set_ne _ _ _ _ (by omega)
        · rw [r5]; simp
      · rw [if_neg hleaf]
        obtain ⟨_, hkids⟩ := hwf ni node hnode
        obtain ⟨l, r, ln, rn, hl, hr, hln, hrn, hsum⟩ := hkids hleaf
        simp only [hl, hr, hln, hrn]
        rw [hslot, hq', putNode_some _ _ _ _ hin1 hin2]
        simp only
        have hfl : ((if ln.leafs = 1 then HUF_LCHAR else 0) ||| (if rn.leafs = 1 then HUF_RCHAR else 0))
            = nodeFlags tree l r := by
          unfold nodeFlags
          rw [lf_eq _ _ _ hln, lf_eq _ _ _ hrn]
        rw [hfl]
        have hll := get?_lt _ _ _ hln
        have hrl := get?_lt _ _ _ hrn
        have hposl := need_term_pos tree hwf l ln hln
        have hposr := need_term_pos tree hwf r rn hrn
        have hlfl := lf_eq _ _ _ hln
        have hlfr := lf_eq _ _ _ hrn
        have hdrop2 : (stack ++ [l, r]).drop (s + 1) = stack.drop (s + 1) ++ [l, r] := by
          rw [List.drop_append_of_le_length (by omega)]
        have hneed2 : need tree ((stack ++ [l, r]).drop (s + 1))
            = need tree (stack.drop (s + 1)) + (2 * lf tree l - 1) + (2 * lf tree r - 1) := by
          rw [hdrop2, need_append, need_cons, need_cons]
          simp [need]
          omega
        have hoff : (stack.length - (s + 1)) >>> 1 ≤ 63 := by
          rw [Nat.shiftRight_eq_div_pow]
          omega
        have hinv' : BfsInv tree K (stack ++ [l, r]) (s + 1) (s + 1 + 1)
            { codetree := ct.codetree.set (s + 1) (((stack.length - (s + 1)) >>> 1) % 256),
              codemask := ct.codemask.set (s + 1) (nodeFlags tree l r % 256) } := by
          refine ⟨⟨?_, ?_, Or.inr ⟨by omega, rfl⟩⟩, ?_, ?_, ?_, ?_, ?_⟩
          · simp only [List.length_append, List.length_cons, List.length_nil]; omega
          · simp only [List.length_append, List.length_cons, List.length_nil]; omega
          · intro j x hj
            have hm := List.get?_mem hj
            rcases List.mem_append.mp hm with h | h
            · obtain ⟨j', hj'⟩ := List.mem_iff_get?.mp h
              exact b2 _ _ hj'
            · simp only [List.mem_cons, List.mem_singleton, List.not_mem_nil, or_false] at h
              rcases h with h | h <;> subst h <;> assumption
          · rw [hneed2, hlfl, hlfr]
            rw [hlfn, hsum] at b3
            omega
          · simp only [List.length_set]; exact ⟨b4, b4'⟩
          · intro j hj
            by_cases hjs : j = s
            · subst hjs
              refine ⟨ni, node, ?_, hnode, fun h => absurd h hleaf, ?_⟩
              · rw [List.get?_eq_getElem?, List.getElem?_append_left hlt, ← List.get?_eq_getElem?]
                exact hni
              · intro _
                refine ⟨stack.length, l, r, hl, hr, ?_, ?_, b1', hlt, ?_, ?_⟩
                · rw [List.get?_eq_getElem?, List.getElem?_append_right (Nat.le_refl _)]
                  simp
                · rw [List.get?_eq_getElem?, List.getElem?_append_right (Nat.le_succ _)]
                  simp
                · rw [rd_set_eq _ _ _ hin1, Nat.mod_eq_of_lt (by omega)]
                · rw [rd_set_eq _ _ _ hin2, Nat.mod_eq_of_lt (nodeFlags_lt _ _ _)]
            · have hjlt : j < s := by omega
              exact slotOK_frame tree stack [l, r] ct
                { codetree := ct.codetree.set (s + 1) (((stack.length - (s + 1)) >>> 1) % 256),
                  codemask := ct.codemask.set (s + 1) (nodeFlags tree l r % 256) } j (s + 1) _ _
                (b5 j hjlt) (by omega) rfl rfl
          · refine small63_set ct _ (s + 1) _ _ b6 rfl rfl b4 (Or.inr ?_)
            rw [Nat.mod_eq_of_lt (by omega)]
            exact hoff
        obtain ⟨ext, ct', r1, r2, r3, r4, r5⟩ := ih (stack ++ [l, r]) (s + 1) (s + 1 + 1) _ hinv' (by
          rw [hneed2, hlfl, hlfr]
          rw [hlfn, hsum] at hfuel
          omega)
        refine ⟨[l, r] ++ ext, ct', ?_, ?_, ?_, ?_, ?_⟩
        · exact r1
        · rw [← List.append_assoc]; exact r2
        · rw [r3]; exact rd_set_ne _ _ _ _ (by omega)
        · rw [r4]; exact rd_set_ne _ _ _ _ (by omega)
        · rw [r5]; simp
    · have hs : s = stack.length := by omega
      refine ⟨[], ct, ?_, ?_, rfl, rfl, rfl⟩
      · unfold branchLoop
        rw [if_neg hlt]
      · rw [List.append_nil]
        subst hs
        have hq : q = stack.length + 1 := by
          rcases b1'' with ⟨h0, _⟩ | ⟨_, hq⟩
          · omega
          · exact hq
        subst hq
        exact ⟨⟨b1, b1', b1''⟩, b2, b3, ⟨b4, b4'⟩, b5, b6⟩

/-- The tree of `HUF_CreateTree` has the shape the placement relies on. -/
theorem treeInv_wf (freqs : Nat → Nat) (max_symbols k : Nat) (tree : List HNode)
    (h : TreeInv freqs max_symbols k tree) : TreeWF tree := by
  obtain ⟨i1, i2, i3, i4, i5, i6, i7, i8, i9⟩ := h
  intro i node hi
  refine ⟨(i6 i node hi).2, ?_⟩
  intro hne
  have hlt := get?_lt _ _ _ hi
  by_cases hik : i < k
  · obtain ⟨nd, hnd, hl, _⟩ := i7 i hik
    rw [hi] at hnd
    cases hnd
    exact absurd hl hne
  · obtain ⟨nd, l, r, ln, rn, g1, g2, g3, g4, g5, _, _, _, _, g10, _⟩ := i8 i (by omega) hlt
    rw [hi] at g1
    cases g1
    exact ⟨l, r, ln, rn, g2, g3, g4, g5, g10⟩

theorem initCodeTree_length (k : Nat) (hk1 : 1 ≤ k) (hk : k ≤ 256) :
    (HUF_InitCodeTree k).codetree.length = 2 * ((usub k 1 ||| 1) + 1) ∧
    (HUF_InitCodeTree k).codemask.length = 2 * ((usub k 1 ||| 1) + 1) ∧
    2 * k ≤ 2 * ((usub k 1 ||| 1) + 1) ∧ (usub k 1 ||| 1) ≤ k := by
  have hu : usub k 1 = k - 1 := usub_eq k 1 hk1 (by omega)
  have hb := or_one_bounds (k - 1)
  have hm : (uadd (usub k 1 ||| 1) 1 <<< 1) % 2 ^ 32 = 2 * ((usub k 1 ||| 1) + 1) := by
    have h1 : uadd (k - 1 ||| 1) 1 = (k - 1 ||| 1) + 1 := uadd_eq _ _ (by omega)
    have h2 : ((k - 1 ||| 1) + 1) * 2 ^ 1 < 2 ^ 32 := by omega
    rw [hu, h1, Nat.shiftLeft_eq, Nat.mod_eq_of_lt h2]
    omega
  refine ⟨?_, ?_, ?_, ?_⟩
  · unfold HUF_InitCodeTree
    simp only [List.length_replicate]
    exact hm
  · unfold HUF_InitCodeTree
    simp only [List.length_replicate]
    exact hm
  · rw [hu]; omega
  · rw [hu]; omega

theorem rd_replicate (n i c : Nat) (h : rd (List.replicate n 0) i = some c) : c = 0 := by
  unfold rd at h
  have := List.get?_mem h
  exact (List.mem_replicate.mp this).2

/-- The tables after `codetree[0] = (num_leafs - 1) | 1; codemask[0] = 0;`. -/
theorem initCodeTree_small (k : Nat) (hk1 : 1 ≤ k) (hk : k ≤ 64) :
    ∃ ct0, putNode (HUF_InitCodeTree k) 0 (usub k 1 ||| 1) 0 = some ct0 ∧ Small63 ct0 ∧
      ct0.codetree.length = ct0.codemask.length ∧
      ct0.codetree.length = 2 * ((usub k 1 ||| 1) + 1) ∧ 2 * k ≤ ct0.codetree.length ∧
      rd ct0.codetree 0 = some (usub k 1 ||| 1) := by
  obtain ⟨e1, e2, e3, e4⟩ := initCodeTree_length k hk1 (by omega)
  have hu : usub k 1 = k - 1 := usub_eq k 1 hk1 (by omega)
  have hb := or_one_bounds (k - 1)
  have hv : (usub k 1 ||| 1) ≤ 63 := by
    rw [hu]
    have h2 := or_one_odd (k - 1)
    omega
  rw [putNode_some _ _ _ _ (by omega) (by omega)]
  refine ⟨_, rfl, ?_, ?_, ?_, ?_, ?_⟩
  · intro i m c h1 h2 h3
    simp only at h1 h2
    by_cases hi : i = 0
    · subst hi
      rw [rd_set_eq _ _ _ (by omega)] at h2
      cases h2
      rw [Nat.mod_eq_of_lt (by omega)]
      exact hv
    · rw [rd_set_ne _ _ _ _ hi] at h2
      unfold HUF_InitCodeTree at h2
      simp only at h2
      rw [rd_replicate _ _ _ h2]
      decide
  · simp only [List.length_set]; omega
  · simp only [List.length_set]; exact e1
  · simp only [List.length_set]; omega
  · simp only
    rw [rd_set_eq _ _ _ (by omega), Nat.mod_eq_of_lt (by omega)]

/-- Without an offset above 63 the loop of `HUF_UpdateCodeTree` changes nothing. -/
theorem updateLoop_noop (max : Nat) (ct : CodeTree) (h : Small63 ct)
    (hlen : ct.codetree.length = ct.codemask.length) (hmax : max ≤ ct.codetree.length)
    (h32 : max < 2 ^ 32) :
    ∀ (fuel i : Nat), max - i ≤ fuel → updateLoop max fuel i ct = some ct := by
  intro fuel
  induction fuel with
  | zero =>
    intro i hi
    unfold updateLoop
    rw [if_neg (by omega)]
  | succ fuel ih =>
    intro i hi
    unfold updateLoop
    by_cases hlt : i < max
    · rw [if_pos hlt]
      obtain ⟨m, hm⟩ := get?_of_lt ct.codemask i (by omega)
      obtain ⟨c, hc⟩ := get?_of_lt ct.codetree i (by omega)
      have hm' : rd ct.codemask i = some m := hm
      have hc' : rd ct.codetree i = some c := hc
      simp only [hm', hc']
      have hno : ¬ (m ≠ 0xFF ∧ c > HUF_NEXT) := by
        rintro ⟨a, b⟩
        have := h i m c hm' hc' a
        omega
      rw [if_neg hno, uadd_eq _ _ (by omega)]
      exact ih (i + 1) (by omega)
    · rw [if_neg hlt]

/-- `HUF_CreateCodeBranch` for a root with at most 64 leaves, placed at slot 1
with its descendants from slot 2 on. -/
theorem createCodeBranch_bfs (tree : List HNode) (hwf : TreeWF tree) (root : Nat) (node : HNode)
    (hroot : tree.get? root = some node) (hK : node.leafs ≤ 64)
    (ct0 : CodeTree) (hsmall : Small63 ct0) (hlen : ct0.codetree.length = ct0.codemask.length)
    (hcap : 2 * node.leafs ≤ ct0.codetree.length)
    (hfuel : 2 * node.leafs - 1 ≤ 2 * tree.length + 1) (fuel : Nat) :
    ∃ stack ct, HUF_CreateCodeBranch tree (fuel + 1) root 1 2 ct0 = some (ct, node.leafs) ∧
      BfsInv tree node.leafs stack stack.length (stack.length + 1) ct ∧
      stack.get? 0 = some root ∧
      rd ct.codetree 0 = rd ct0.codetree 0 ∧ rd ct.codemask 0 = rd ct0.codemask 0 ∧
      ct.codetree.length = ct0.codetree.length := by
  have hlfr := lf_eq _ _ _ hroot
  have hinv0 : BfsInv tree node.leafs [root] 0 2 ct0 := by
    refine ⟨⟨Nat.zero_le _, rfl, Or.inl ⟨rfl, rfl⟩⟩, ?_, ?_, ⟨hlen, hcap⟩, ?_, hsmall⟩
    · intro j ni hj
      cases j with
      | zero =>
        simp only [List.get?_cons_zero, Option.some.injEq] at hj
        subst hj
        exact get?_lt _ _ _ hroot
      | succ j => simp at hj
    · rw [List.drop_zero, need_cons, hlfr]
      simp [need]
    · intro j hj
      exact absurd hj (Nat.not_lt_zero _)
  have hneed : need tree (List.drop 0 [root]) ≤ 2 * tree.length + 1 := by
    rw [List.drop_zero, need_cons, hlfr]
    simp only [need, List.map_nil, List.sum_nil, Nat.add_zero]
    exact hfuel
  obtain ⟨ext, ct, r1, r2, r3, r4, r5⟩ :=
    branchLoop_bfs tree node.leafs hwf hK (2 * tree.length + 1) [root] 0 2 ct0 hinv0 hneed
  refine ⟨[root] ++ ext, ct, ?_, r2, rfl, r3, r4, r5⟩
  unfold HUF_CreateCodeBranch
  simp only [hroot]
  rw [if_pos (by unfold HUF_NEXT; omega)]
  simp only [r1]

/-- C30. For a frequency table with between 2 and 64 used symbols (whose sum
fits into 32 bits), `HUF_CreateCodeBranch`, called as `HUF_CreateCodeTree`
calls it on the tree of `HUF_CreateTree`, returns with an offset of at most 63
in every slot not marked as a symbol, and `HUF_UpdateCodeTree` then returns
both tables unchanged. -/
theorem huffman_bfs_regime (freqs : Nat → Nat) (max_symbols : Nat)
    (hk : 2 ≤ countLeafs freqs max_symbols) (hk64 : countLeafs freqs max_symbols ≤ 64)
    (htot : totalFreq freqs max_symbols < 2 ^ 32) :
    ∃ tree ct0 ct,
      HUF_CreateTree freqs max_symbols (countLeafs freqs max_symbols)
        (2 * countLeafs freqs max_symbols - 1) = some tree ∧
      putNode (HUF_InitCodeTree (countLeafs freqs max_symbols)) 0
        (usub (countLeafs freqs max_symbols) 1 ||| 1) 0 = some ct0 ∧
      HUF_CreateCodeBranch tree (tree.length + 1)
        (usub (2 * countLeafs freqs max_symbols - 1) 1) 1 2 ct0
          = some (ct, countLeafs freqs max_symbols) ∧
      Small63 ct ∧
      HUF_UpdateCodeTree updateFuel ct = some ct := by
  obtain ⟨tree, hrun, hinv, hlen⟩ := createTree_inv freqs max_symbols hk htot
  have hwf := treeInv_wf _ _ _ _ hinv
  obtain ⟨i1, i2, i3, i4, i5, i6, i7, i8, i9⟩ := hinv
  obtain ⟨ct0, hput, hsmall, hl1, hl2, hl3, hslot0⟩ :=
    initCodeTree_small (countLeafs freqs max_symbols) (by omega) hk64
  have hroot_idx : usub (2 * countLeafs freqs max_symbols - 1) 1
      = 2 * countLeafs freqs max_symbols - 2 := by
    rw [usub_eq _ _ (by omega) (by omega)]
    omega
  obtain ⟨last, hlast⟩ := get?_of_lt tree (2 * countLeafs freqs max_symbols - 2) (by omega)
  have hld : last.dad = none := by
    cases hd : last.dad with
    | none => rfl
    | some p =>
      have := i9 _ _ p hlast hd
      omega
  have hcount : (parentless tree).length = 1 := by omega
  have hleafs : last.leafs = countLeafs freqs max_symbols := by
    rw [← sumPar_single (fun nd => nd.leafs) tree _ last hlast hld hcount]
    exact i5
  obtain ⟨stack, ct, r1, r2, r3, r4, r5, r6⟩ :=
    createCodeBranch_bfs tree hwf _ last hlast (by omega) ct0 hsmall hl1 (by omega) (by omega)
      tree.length
  obtain ⟨_, _, _, ⟨b4, b4'⟩, _, b6⟩ := r2
  refine ⟨tree, ct0, ct, hrun, hput, ?_, b6, ?_⟩
  · rw [hroot_idx, r1, hleafs]
  · unfold HUF_UpdateCodeTree
    rw [r4, hslot0]
    simp only
    have hb := or_one_bounds (countLeafs freqs max_symbols - 1)
    have hu : usub (countLeafs freqs max_symbols) 1 = countLeafs freqs max_symbols - 1 :=
      usub_eq _ _ (by omega) (by omega)
    rw [hu] at hl2 ⊢
    have hmax : ((countLeafs freqs max_symbols - 1 ||| 1) + 1) <<< 1
        = 2 * ((countLeafs freqs max_symbols - 1 ||| 1) + 1) := by
      rw [Nat.shiftLeft_eq]; omega
    rw [hmax]
    exact updateLoop_noop _ ct b6 b4 (by omega) (by omega) updateFuel 1 (by
      unfold updateFuel; omega)

set_option maxRecDepth 100000 in
/-- C30 at a concrete table: three symbols of the byte alphabet with the
frequencies 3, 1 and 2. -/
theorem huffman_bfs_regime_witness :
    countLeafs (fun i => if i = 0x41 then 3 else if i = 0x42 then 1 else if i = 0x50 then 2 else 0) 256 ≤ 64 ∧
    ∃ tree ct0 ct,
      HUF_CreateTree (fun i => if i = 0x41 then 3 else if i = 0x42 then 1 else if i = 0x50 then 2 else 0) 256
        (countLeafs (fun i => if i = 0x41 then 3 else if i = 0x42 then 1 else if i = 0x50 then 2 else 0) 256)
        (2 * countLeafs (fun i => if i = 0x41 then 3 else if i = 0x42 then 1 else if i = 0x50 then 2 else 0) 256 - 1)
          = some tree ∧
      putNode (HUF_InitCodeTree (countLeafs (fun i => if i = 0x41 then 3 else if i = 0x42 then 1 else if i = 0x50 then 2 else 0) 256)) 0
        (usub (countLeafs (fun i => if i = 0x41 then 3 else if i = 0x42 then 1 else if i = 0x50 then 2 else 0) 256) 1 ||| 1) 0 = some ct0 ∧
      HUF_CreateCodeBranch tree (tree.length + 1)
        (usub (2 * countLeafs (fun i => if i = 0x41 then 3 else if i = 0x42 then 1 else if i = 0x50 then 2 else 0) 256 - 1) 1) 1 2 ct0
          = some (ct, countLeafs (fun i => if i = 0x41 then 3 else if i = 0x42 then 1 else if i = 0x50 then 2 else 0) 256) ∧
      Small63 ct ∧
      HUF_UpdateCodeTree updateFuel ct = some ct :=
  ⟨by decide, huffman_bfs_regime
      (fun i => if i = 0x41 then 3 else if i = 0x42 then 1 else if i = 0x50 then 2 else 0) 256
      (by decide) (by decide) (by decide)⟩

end Gbacomp

namespace Gbacomp

/-! ## LZ: the search trees stay well formed -/

theorem store_eq (a : Nat → Nat) (i v : Nat) : store a i v i = v := by simp [store]

theorem store_ne (a : Nat → Nat) (i v j : Nat) (h : j ≠ i) : store a i v j = a j := by
  simp [store, h]

theorem holder_ne_nil (st : LzState) (q : Nat) (h : Holder st q) : q ≠ NIL := by
  rcases h with h | h
  · have := h.1; unfold RING_MAX at this; unfold NIL RING_MAX; omega
  · have := h.1; unfold RING_MAX at this; unfold NIL RING_MAX; omega

theorem live_lt (st : LzState) (p : Nat) (h : Live st p) : p < 4096 := h.1

theorem live_not_root (st : LzState) (p : Nat) (h : Live st p) : ¬ isRoot p := by
  intro hr
  have := h.1
  have := hr.1
  unfold RING_MAX at *
  omega

/-- Hanging the node `r`, not in a tree and without children, below `p` as
right child keeps the trees well formed. -/
theorem insertRight_forest (st : LzState) (rank : Nat → Nat) (r p : Nat)
    (hF : Forest st rank) (hr : r < RING_MAX) (hdead : st.dad r = NIL)
    (hlr : st.lson r = NIL) (hrr : st.rson r = NIL)
    (hp : Holder st p) (hnil : st.rson p = NIL)
    (hroot : isRoot p → p = RING_MAX + 1 + st.text_buf r)
    (hbyte : Live st p → st.text_buf p = st.text_buf r) :
    Forest { st with rson := store st.rson p r, dad := store st.dad r p }
      (fun x => if x = r then rank p + 1 else rank x) ∧
    (∀ x, Live { st with rson := store st.rson p r, dad := store st.dad r p } x ↔
      (x = r ∨ Live st x)) := by
  obtain ⟨f1, f2, f3, f4, f5, f6⟩ := hF
  have hnr : ¬ Live st r := fun h => h.2 hdead
  have hpr : p ≠ r := by
    rintro rfl
    rcases hp with h | h
    · exact hnr h
    · exact absurd hr (by have := h.1; omega)
  have hpn := holder_ne_nil st p hp
  have hrn : r ≠ NIL := by unfold NIL; omega
  have hlive : ∀ x, Live { st with rson := store st.rson p r, dad := store st.dad r p } x ↔
      (x = r ∨ Live st x) := by
    intro x
    unfold Live
    simp only
    by_cases hx : x = r
    · subst hx
      rw [store_eq]
      exact ⟨fun _ => Or.inl rfl, fun _ => ⟨hr, hpn⟩⟩
    · rw [store_ne _ _ _ _ hx]
      exact ⟨fun h => Or.inr h, fun h => h.resolve_left hx⟩
  have hholder : ∀ x, Holder { st with rson := store st.rson p r, dad := store st.dad r p } x ↔
      (x = r ∨ Holder st x) := by
    intro x
    unfold Holder
    rw [hlive]
    tauto
  refine ⟨⟨?_, ?_, ?_, ?_, ?_, ?_⟩, hlive⟩
  · intro x hx
    rw [hlive] at hx
    simp only
    by_cases hxr : x = r
    · subst hxr
      rw [store_eq, store_eq]
      exact ⟨(hholder p).mpr (Or.inr hp), Or.inl rfl⟩
    · have hlx := hx.resolve_left hxr
      rw [store_ne _ _ _ _ hxr]
      obtain ⟨a, b⟩ := f1 x hlx
      refine ⟨(hholder _).mpr (Or.inr a), ?_⟩
      rcases b with b | ⟨b1, b2⟩
      · left
        by_cases hd : st.dad x = p
        · rw [hd, hnil] at b
          exact absurd b.symm (by have := hlx.1; unfold NIL; omega)
        · rw [store_ne _ _ _ _ hd]; exact b
      · right
        exact ⟨(hlive _).mpr (Or.inr b1), b2⟩
  · intro q hq hne
    simp only at hne ⊢
    by_cases hqp : q = p
    · subst hqp
      rw [store_eq] at hne ⊢
      rw [store_eq]
      exact ⟨(hlive r).mpr (Or.inl rfl), rfl⟩
    · rw [store_ne _ _ _ _ hqp] at hne ⊢
      have hq' : Holder st q := by
        rcases (hholder q).mp hq with h | h
        · subst h; exact absurd hrr hne
        · exact h
      obtain ⟨a, b⟩ := f2 q hq' hne
      have hne2 : st.rson q ≠ r := fun h => hnr (h ▸ a)
      rw [store_ne _ _ _ _ hne2]
      exact ⟨(hlive _).mpr (Or.inr a), b⟩
  · intro q hq hne
    simp only at hne ⊢
    have hq' : Live st q := by
      rcases (hlive q).mp hq with h | h
      · subst h; exact absurd hlr hne
      · exact h
    obtain ⟨a, b⟩ := f3 q hq' hne
    have hne2 : st.lson q ≠ r := fun h => hnr (h ▸ a)
    rw [store_ne _ _ _ _ hne2]
    exact ⟨(hlive _).mpr (Or.inr a), b⟩
  · intro q hq hne
    simp only at hne ⊢
    have hq' : Live st q := by
      rcases (hlive q).mp hq with h | h
      · subst h; exact absurd hlr hne
      · exact h
    by_cases hqp : q = p
    · subst hqp
      rw [store_eq]
      exact fun h => hnr (h ▸ (f3 q hq' hne).1)
    · rw [store_ne _ _ _ _ hqp]
      exact f4 q hq' hne
  · intro x hx hdx
    simp only at hdx ⊢
    by_cases hxr : x = r
    · subst hxr
      rw [store_eq] at hdx ⊢
      rw [if_neg hpr, if_pos rfl]
      omega
    · rw [store_ne _ _ _ _ hxr] at hdx ⊢
      have hlx := ((hlive x).mp hx).resolve_left hxr
      rcases (hlive _).mp hdx with h | h
      · have := (f1 x hlx).1
        rw [h] at this
        rcases this with h' | h'
        · exact absurd h' hnr
        · exact absurd hr (by have := h'.1; omega)
      · have hdr : st.dad x ≠ r := fun e => hnr (e ▸ h)
        rw [if_neg hdr, if_neg hxr]
        exact f5 x hlx h
  · intro x hx
    simp only
    by_cases hxr : x = r
    · subst hxr
      rw [store_eq]
      exact ⟨hroot, fun h => hbyte (((hlive p).mp h).resolve_left hpr)⟩
    · rw [store_ne _ _ _ _ hxr]
      have hlx := ((hlive x).mp hx).resolve_left hxr
      obtain ⟨a, b⟩ := f6 x hlx
      refine ⟨a, fun h => b ?_⟩
      rcases (hlive _).mp h with h' | h'
      · have := (f1 x hlx).1
        rw [h'] at this
        rcases this with h'' | h''
        · exact absurd h'' hnr
        · exact absurd hr (by have := h''.1; omega)
      · exact h'

/-- Hanging the node `r`, not in a tree and without children, below the node
`p` as left child keeps the trees well formed. -/
theorem insertLeft_forest (st : LzState) (rank : Nat → Nat) (r p : Nat)
    (hF : Forest st rank) (hr : r < RING_MAX) (hdead : st.dad r = NIL)
    (hlr : st.lson r = NIL) (hrr : st.rson r = NIL)
    (hp : Live st p) (hnil : st.lson p = NIL)
    (hbyte : st.text_buf p = st.text_buf r) :
    Forest { st with lson := store st.lson p r, dad := store st.dad r p }
      (fun x => if x = r then rank p + 1 else rank x) ∧
    (∀ x, Live { st with lson := store st.lson p r, dad := store st.dad r p } x ↔
      (x = r ∨ Live st x)) := by
  obtain ⟨f1, f2, f3, f4, f5, f6⟩ := hF
  have hnr : ¬ Live st r := fun h => h.2 hdead
  have hpr : p ≠ r := by
    rintro rfl
    exact hnr hp
  have hpn := holder_ne_nil st p (Or.inl hp)
  have hrn : r ≠ NIL := by unfold NIL; omega
  have hlive : ∀ x, Live { st with lson := store st.lson p r, dad := store st.dad r p } x ↔
      (x = r ∨ Live st x) := by
    intro x
    unfold Live
    simp only
    by_cases hx : x = r
    · subst hx
      rw [store_eq]
      exact ⟨fun _ => Or.inl rfl, fun _ => ⟨hr, hpn⟩⟩
    · rw [store_ne _ _ _ _ hx]
      exact ⟨fun h => Or.inr h, fun h => h.resolve_left hx⟩
  have hholder : ∀ x, Holder { st with lson := store st.lson p r, dad := store st.dad r p } x ↔
      (x = r ∨ Holder st x) := by
    intro x
    unfold Holder
    rw [hlive]
    tauto
  have hdadne : ∀ x, Live st x → st.dad x ≠ r := by
    intro x hlx e
    have := (f1 x hlx).1
    rw [e] at this
    rcases this with h' | h'
    · exact hnr h'
    · exact absurd hr (by have := h'.1; omega)
  refine ⟨⟨?_, ?_, ?_, ?_, ?_, ?_⟩, hlive⟩
  · intro x hx
    rw [hlive] at hx
    simp only
    by_cases hxr : x = r
    · subst hxr
      rw [store_eq, store_eq]
      exact ⟨(hholder p).mpr (Or.inr (Or.inl hp)), Or.inr ⟨(hlive p).mpr (Or.inr hp), rfl⟩⟩
    · have hlx := hx.resolve_left hxr
      rw [store_ne _ _ _ _ hxr]
      obtain ⟨a, b⟩ := f1 x hlx
      refine ⟨(hholder _).mpr (Or.inr a), ?_⟩
      rcases b with b | ⟨b1, b2⟩
      · left; exact b
      · right
        refine ⟨(hlive _).mpr (Or.inr b1), ?_⟩
        by_cases hd : st.dad x = p
        · rw [hd, hnil] at b2
          exact absurd b2.symm (by have := hlx.1; unfold NIL; omega)
        · rw [store_ne _ _ _ _ hd]; exact b2
  · intro q hq hne
    simp only at hne ⊢
    have hq' : Holder st q := by
      rcases (hholder q).mp hq with h | h
      · subst h; exact absurd hrr hne
      · exact h
    obtain ⟨a, b⟩ := f2 q hq' hne
    have hne2 : st.rson q ≠ r := fun h => hnr (h ▸ a)
    rw [store_ne _ _ _ _ hne2]
    exact ⟨(hlive _).mpr (Or.inr a), b⟩
  · intro q hq hne
    simp only at hne ⊢
    by_cases hqp : q = p
    · subst hqp
      rw [store_eq] at hne ⊢
      rw [store_eq]
      exact ⟨(hlive r).mpr (Or.inl rfl), rfl⟩
    · rw [store_ne _ _ _ _ hqp] at hne ⊢
      have hq' : Live st q := by
        rcases (hlive q).mp hq with h | h
        · subst h; exact absurd hlr hne
        · exact h
      obtain ⟨a, b⟩ := f3 q hq' hne
      have hne2 : st.lson q ≠ r := fun h => hnr (h ▸ a)
      rw [store_ne _ _ _ _ hne2]
      exact ⟨(hlive _).mpr (Or.inr a), b⟩
  · intro q hq hne
    simp only at hne ⊢
    by_cases hqp : q = p
    · subst hqp
      rw [store_eq]
      intro e
      by_cases hrn2 : st.rson q = NIL
      · rw [hrn2] at e; exact hrn e
      · exact hnr (e ▸ (f2 q (Or.inl hp) hrn2).1)
    · rw [store_ne _ _ _ _ hqp] at hne ⊢
      have hq' : Live st q := by
        rcases (hlive q).mp hq with h | h
        · subst h; exact absurd hlr hne
        · exact h
      exact f4 q hq' hne
  · intro x hx hdx
    simp only at hdx ⊢
    by_cases hxr : x = r
    · subst hxr
      rw [store_eq] at hdx ⊢
      rw [if_neg hpr, if_pos rfl]
      omega
    · rw [store_ne _ _ _ _ hxr] at hdx ⊢
      have hlx := ((hlive x).mp hx).resolve_left hxr
      have hdl := ((hlive _).mp hdx).resolve_left (hdadne x hlx)
      rw [if_neg (hdadne x hlx), if_neg hxr]
      exact f5 x hlx hdl
  · intro x hx
    simp only
    by_cases hxr : x = r
    · subst hxr
      rw [store_eq]
      exact ⟨fun h => absurd h (live_not_root st p hp), fun _ => hbyte⟩
    · rw [store_ne _ _ _ _ hxr]
      have hlx := ((hlive x).mp hx).resolve_left hxr
      obtain ⟨a, b⟩ := f6 x hlx
      exact ⟨a, fun h => b (((hlive _).mp h).resolve_left (hdadne x hlx))⟩

theorem live_ne_nil (st : LzState) (p : Nat) (h : Live st p) : p ≠ NIL := by
  have := h.1; unfold RING_MAX at this; unfold NIL RING_MAX; omega

/-- The parent of a node in a tree is not a node outside the trees. -/
theorem dad_ne_dead (st : LzState) (rank : Nat → Nat) (hF : Forest st rank) (x r : Nat)
    (hx : Live st x) (hr : r < RING_MAX) (hnr : ¬ Live st r) : st.dad x ≠ r := by
  intro e
  have := (hF.1 x hx).1
  rw [e] at this
  rcases this with h' | h'
  · exact hnr h'
  · exact absurd hr (by have := h'.1; omega)

/-- A node in a tree is not its own parent, and its children differ from it. -/
theorem dad_ne_self (st : LzState) (rank : Nat → Nat) (hF : Forest st rank) (x : Nat)
    (hx : Live st x) : st.dad x ≠ x := by
  intro e
  have h5 := hF.2.2.2.2.1 x hx (by rw [e]; exact hx)
  rw [e] at h5
  exact Nat.lt_irrefl _ h5

theorem rson_ne_self (st : LzState) (rank : Nat → Nat) (hF : Forest st rank) (x : Nat)
    (hx : Live st x) : st.rson x ≠ x := by
  intro e
  have h2 := hF.2.1 x (Or.inl hx) (by rw [e]; exact live_ne_nil st x hx)
  rw [e] at h2
  exact dad_ne_self st rank hF x hx h2.2

theorem lson_ne_self (st : LzState) (rank : Nat → Nat) (hF : Forest st rank) (x : Nat)
    (hx : Live st x) : st.lson x ≠ x := by
  intro e
  have h3 := hF.2.2.1 x hx (by rw [e]; exact live_ne_nil st x hx)
  rw [e] at h3
  exact dad_ne_self st rank hF x hx h3.2

/-- A node is the left or the right child of its parent, so a node whose
parent is `p` is `lson[p]` or `rson[p]`. -/
theorem child_cases (st : LzState) (rank : Nat → Nat) (hF : Forest st rank) (x p : Nat)
    (hx : Live st x) (hd : st.dad x = p) : x = st.rson p ∨ x = st.lson p := by
  rcases (hF.1 x hx).2 with h | ⟨_, h⟩
  · left; rw [← hd, h]
  · right; rw [← hd, h]

/-- `replaceNode` with the reads of the arrays under change resolved. -/
theorem replaceNode_eq (st : LzState) (r p : Nat) (hpr : p ≠ r) (hdr : st.dad p ≠ r)
    (hap : st.lson p ≠ p) (hbp : st.rson p ≠ p) :
    replaceNode st r p =
      { st with
        lson := if st.rson (st.dad p) = p then store st.lson r (st.lson p)
                else store (store st.lson r (st.lson p)) (st.dad p) r
        rson := if st.rson (st.dad p) = p then store (store st.rson r (st.rson p)) (st.dad p) r
                else store st.rson r (st.rson p)
        dad := store (store (store (store st.dad r (st.dad p)) (st.lson p) r) (st.rson p) r) p NIL } := by
  unfold replaceNode
  have e1 : store st.lson r (st.lson p) p = st.lson p := store_ne _ _ _ _ hpr
  have e2 : store st.rson r (st.rson p) p = st.rson p := store_ne _ _ _ _ hpr
  simp only [e1, e2]
  have e3 : store (store (store st.dad r (st.dad p)) (st.lson p) r) (st.rson p) r p = st.dad p := by
    rw [store_ne _ _ _ _ (Ne.symm hbp), store_ne _ _ _ _ (Ne.symm hap), store_ne _ _ _ _ hpr]
  simp only [e3]
  have e4 : store st.rson r (st.rson p) (st.dad p) = st.rson (st.dad p) := store_ne _ _ _ _ hdr
  simp only [e4]

/-- The node `r`, not in a tree, takes the place of the node `p`: the trees
stay well formed, with `r` in and `p` out. -/
theorem replaceNode_forest (st : LzState) (rank : Nat → Nat) (r p : Nat)
    (hF : Forest st rank) (hr : r < RING_MAX) (hdead : st.dad r = NIL)
    (hp : Live st p) (hbyte : st.text_buf r = st.text_buf p) :
    Forest (replaceNode st r p) (fun x => if x = r then rank p else rank x) ∧
    (∀ x, Live (replaceNode st r p) x ↔ ((x = r ∨ Live st x) ∧ x ≠ p)) := by
  have hF' := hF
  obtain ⟨f1, f2, f3, f4, f5, f6⟩ := hF
  have hnr : ¬ Live st r := fun h => h.2 hdead
  have hpr : p ≠ r := by rintro rfl; exact hnr hp
  have hrn : r ≠ NIL := by unfold NIL; omega
  have hpn := live_ne_nil st p hp
  have hdr := dad_ne_dead st rank hF' p r hp hr hnr
  have hdp := dad_ne_self st rank hF' p hp
  have hap := lson_ne_self st rank hF' p hp
  have hbp := rson_ne_self st rank hF' p hp
  have hdH := (f1 p hp).1
  have hdn := holder_ne_nil st _ hdH
  have hslot := (f1 p hp).2
  have ha : st.lson p ≠ NIL → Live st (st.lson p) ∧ st.dad (st.lson p) = p := f3 p hp
  have hb : st.rson p ≠ NIL → Live st (st.rson p) ∧ st.dad (st.rson p) = p := f2 p (Or.inl hp)
  have har : st.lson p ≠ r := by
    intro e
    by_cases h : st.lson p = NIL
    · rw [h] at e; exact hrn e.symm
    · exact hnr (e ▸ (ha h).1)
  have hbr : st.rson p ≠ r := by
    intro e
    by_cases h : st.rson p = NIL
    · rw [h] at e; exact hrn e.symm
    · exact hnr (e ▸ (hb h).1)
  rw [replaceNode_eq st r p hpr hdr hap hbp]
  obtain ⟨st', hst'⟩ : ∃ st' : LzState, st' = { st with
        lson := if st.rson (st.dad p) = p then store st.lson r (st.lson p)
                else store (store st.lson r (st.lson p)) (st.dad p) r
        rson := if st.rson (st.dad p) = p then store (store st.rson r (st.rson p)) (st.dad p) r
                else store st.rson r (st.rson p)
        dad := store (store (store (store st.dad r (st.dad p)) (st.lson p) r) (st.rson p) r) p NIL } :=
    ⟨_, rfl⟩
  rw [← hst']
  have etb : st'.text_buf = st.text_buf := by rw [hst']
  -- the arrays after the step
  have hD : ∀ x, x < RING_MAX → st'.dad x =
        if x = p then NIL else if st.dad x = p then r else if x = r then st.dad p else st.dad x := by
    intro x hxn
    rw [hst']
    simp only
    have hxnil : x ≠ NIL := by unfold NIL; omega
    by_cases h1 : x = p
    · subst h1; rw [store_eq, if_pos rfl]
    · rw [store_ne _ _ _ _ h1, if_neg h1]
      by_cases h2 : x = st.rson p
      · rw [h2, store_eq, if_pos (hb (h2 ▸ hxnil)).2]
      · rw [store_ne _ _ _ _ h2]
        by_cases h3 : x = st.lson p
        · rw [h3, store_eq, if_pos (ha (h3 ▸ hxnil)).2]
        · rw [store_ne _ _ _ _ h3]
          by_cases h4 : x = r
          · subst h4
            rw [store_eq, if_neg (by rw [hdead]; exact Ne.symm hpn), if_pos rfl]
          · rw [store_ne _ _ _ _ h4, if_neg h4]
            by_cases h5 : st.dad x = p
            · exfalso
              have hlx : Live st x := ⟨hxn, by rw [h5]; exact hpn⟩
              rcases child_cases st rank hF' x p hlx h5 with h | h
              · exact h2 h
              · exact h3 h
            · rw [if_neg h5]
  have hR : ∀ x, st'.rson x =
        if st.rson (st.dad p) = p ∧ x = st.dad p then r else if x = r then st.rson p
        else st.rson x := by
    intro x
    rw [hst']
    simp only
    by_cases hc : st.rson (st.dad p) = p
    · rw [if_pos hc]
      by_cases hx : x = st.dad p
      · rw [hx, store_eq, if_pos ⟨hc, rfl⟩]
      · rw [store_ne _ _ _ _ hx, if_neg (fun h => hx h.2)]
        rfl
    · rw [if_neg hc, if_neg (fun h => hc h.1)]
      rfl
  have hL : ∀ x, st'.lson x =
        if ¬ st.rson (st.dad p) = p ∧ x = st.dad p then r else if x = r then st.lson p
        else st.lson x := by
    intro x
    rw [hst']
    simp only
    by_cases hc : st.rson (st.dad p) = p
    · rw [if_pos hc, if_neg (fun h => h.1 hc)]
      rfl
    · rw [if_neg hc]
      by_cases hx : x = st.dad p
      · rw [hx, store_eq, if_pos ⟨hc, rfl⟩]
      · rw [store_ne _ _ _ _ hx, if_neg (fun h => hx h.2)]
        rfl
  have hlive : ∀ x, Live st' x ↔ ((x = r ∨ Live st x) ∧ x ≠ p) := by
    intro x
    constructor
    · rintro ⟨hx, hdx⟩
      rw [hD x hx] at hdx
      by_cases h1 : x = p
      · rw [if_pos h1] at hdx; exact absurd rfl hdx
      · refine ⟨?_, h1⟩
        by_cases h4 : x = r
        · exact Or.inl h4
        · right
          refine ⟨hx, ?_⟩
          rw [if_neg h1] at hdx
          by_cases h5 : st.dad x = p
          · rw [h5]; exact hpn
          · rw [if_neg h5, if_neg h4] at hdx; exact hdx
    · rintro ⟨hx, h1⟩
      have hx4 : x < RING_MAX := by
        rcases hx with h | h
        · rw [h]; exact hr
        · exact h.1
      refine ⟨hx4, ?_⟩
      rw [hD x hx4, if_neg h1]
      by_cases h5 : st.dad x = p
      · rw [if_pos h5]; exact hrn
      · rw [if_neg h5]
        by_cases h4 : x = r
        · rw [if_pos h4]; exact hdn
        · rw [if_neg h4]; exact (hx.resolve_left h4).2
  have hlr : Live st' r := (hlive r).mpr ⟨Or.inl rfl, Ne.symm hpr⟩
  have hnp : ¬ Holder st' p := by
    rintro (h | h)
    · exact ((hlive p).mp h).2 rfl
    · exact live_not_root st p hp h
  have hholder : ∀ q, Holder st' q → q ≠ r → Holder st q := by
    rintro q (h | h) hq
    · exact Or.inl (((hlive q).mp h).1.resolve_left hq)
    · exact Or.inr h
  have hholder2 : ∀ q, Holder st q → q ≠ p → Holder st' q := by
    rintro q (h | h) hq
    · exact Or.inl ((hlive q).mpr ⟨Or.inr h, hq⟩)
    · exact Or.inr h
  have hDr : st'.dad r = st.dad p := by
    rw [hD r hr, if_neg (Ne.symm hpr), if_neg (by rw [hdead]; exact Ne.symm hpn), if_pos rfl]
  have hRr : st'.rson r = st.rson p := by
    rw [hR r, if_neg (fun h => hdr h.2.symm), if_pos rfl]
  have hLr : st'.lson r = st.lson p := by
    rw [hL r, if_neg (fun h => hdr h.2.symm), if_pos rfl]
  refine ⟨⟨?_, ?_, ?_, ?_, ?_, ?_⟩, hlive⟩
  · -- F1
    intro x hx
    have hx0 := (hlive x).mp hx
    have hxp := hx0.2
    rw [hD x hx.1, if_neg hxp]
    by_cases h5 : st.dad x = p
    · rw [if_pos h5]
      have hxr : x ≠ r := by intro e; rw [e, hdead] at h5; exact hpn h5.symm
      have hlx := hx0.1.resolve_left hxr
      refine ⟨Or.inl hlr, ?_⟩
      rcases child_cases st rank hF' x p hlx h5 with h | h
      · left; rw [hRr, h]
      · right; exact ⟨hlr, by rw [hLr, h]⟩
    · rw [if_neg h5]
      by_cases h4 : x = r
      · rw [if_pos h4]
        refine ⟨hholder2 _ hdH hdp, ?_⟩
        by_cases hc : st.rson (st.dad p) = p
        · left; rw [hR, if_pos ⟨hc, rfl⟩, h4]
        · right
          rcases hslot with h | ⟨h1, h2⟩
          · exact absurd h hc
          · exact ⟨(hlive _).mpr ⟨Or.inr h1, hdp⟩, by rw [hL, if_pos ⟨hc, rfl⟩, h4]⟩
      · rw [if_neg h4]
        have hlx := hx0.1.resolve_left h4
        obtain ⟨a1, b1⟩ := f1 x hlx
        have hdxr := dad_ne_dead st rank hF' x r hlx hr hnr
        refine ⟨hholder2 _ a1 h5, ?_⟩
        rcases b1 with b1 | ⟨b1, b2⟩
        · left
          rw [hR, if_neg, if_neg hdxr]
          · exact b1
          · rintro ⟨hc, hd⟩
            rw [hd, hc] at b1
            exact hxp b1.symm
        · right
          refine ⟨(hlive _).mpr ⟨Or.inr b1, h5⟩, ?_⟩
          rw [hL, if_neg, if_neg hdxr]
          · exact b2
          · rintro ⟨hc, hd⟩
            rcases hslot with h | ⟨_, h⟩
            · exact hc h
            · rw [hd, h] at b2
              exact hxp b2.symm
  · -- F2
    intro q hq hne
    rw [hR] at hne ⊢
    by_cases h1 : st.rson (st.dad p) = p ∧ q = st.dad p
    · rw [if_pos h1]
      exact ⟨hlr, by rw [hDr, h1.2]⟩
    · rw [if_neg h1] at hne ⊢
      by_cases h4 : q = r
      · rw [if_pos h4] at hne ⊢
        obtain ⟨b1, b2⟩ := hb hne
        refine ⟨(hlive _).mpr ⟨Or.inr b1, hbp⟩, ?_⟩
        rw [hD _ b1.1, if_neg hbp, if_pos b2, h4]
      · rw [if_neg h4] at hne ⊢
        have hq' := hholder q hq h4
        obtain ⟨c1, c2⟩ := f2 q hq' hne
        have hqp : q ≠ p := fun e => hnp (e ▸ hq)
        have hcp : st.rson q ≠ p := by
          intro e
          rw [e] at c2
          exact h1 ⟨by rw [c2]; exact e, c2.symm⟩
        have hcr : st.rson q ≠ r := fun e => hnr (e ▸ c1)
        refine ⟨(hlive _).mpr ⟨Or.inr c1, hcp⟩, ?_⟩
        rw [hD _ c1.1, if_neg hcp, if_neg (by rw [c2]; exact hqp), if_neg hcr]
        exact c2
  · -- F3
    intro q hq hne
    rw [hL] at hne ⊢
    by_cases h1 : ¬ st.rson (st.dad p) = p ∧ q = st.dad p
    · rw [if_pos h1]
      exact ⟨hlr, by rw [hDr, h1.2]⟩
    · rw [if_neg h1] at hne ⊢
      by_cases h4 : q = r
      · rw [if_pos h4] at hne ⊢
        obtain ⟨b1, b2⟩ := ha hne
        refine ⟨(hlive _).mpr ⟨Or.inr b1, hap⟩, ?_⟩
        rw [hD _ b1.1, if_neg hap, if_pos b2, h4]
      · rw [if_neg h4] at hne ⊢
        have hq' := ((hlive q).mp hq).1.resolve_left h4
        obtain ⟨c1, c2⟩ := f3 q hq' hne
        have hqp : q ≠ p := ((hlive q).mp hq).2
        have hcp : st.lson q ≠ p := by
          intro e
          rw [e] at c2
          apply h1
          refine ⟨?_, c2.symm⟩
          intro hc
          have := f4 q hq' hne
          rw [e, c2.symm, hc] at this
          exact this rfl
        have hcr : st.lson q ≠ r := fun e => hnr (e ▸ c1)
        refine ⟨(hlive _).mpr ⟨Or.inr c1, hcp⟩, ?_⟩
        rw [hD _ c1.1, if_neg hcp, if_neg (by rw [c2]; exact hqp), if_neg hcr]
        exact c2
  · -- F4
    intro q hq hne
    have hqp : q ≠ p := ((hlive q).mp hq).2
    by_cases h4 : q = r
    · subst h4
      rw [hLr] at hne ⊢
      rw [hRr]
      exact f4 p hp hne
    · have hq' := ((hlive q).mp hq).1.resolve_left h4
      rw [hL] at hne ⊢
      rw [hR]
      by_cases hd : q = st.dad p
      · by_cases hc : st.rson (st.dad p) = p
        · rw [if_neg (fun h => h.1 hc), if_neg h4] at hne ⊢
          rw [if_pos ⟨hc, hd⟩]
          exact fun e => hnr (e ▸ (f3 q hq' hne).1)
        · rw [if_pos ⟨hc, hd⟩, if_neg (fun h => hc h.1), if_neg h4]
          intro e
          by_cases hrn2 : st.rson q = NIL
          · rw [hrn2] at e; exact hrn e
          · exact hnr (e ▸ (f2 q (Or.inl hq') hrn2).1)
      · rw [if_neg (fun h => hd h.2), if_neg h4] at hne ⊢
        rw [if_neg (fun h => hd h.2), if_neg h4]
        exact f4 q hq' hne
  · -- F5
    intro x hx hdx
    have hx0 := (hlive x).mp hx
    have hxp := hx0.2
    rw [hD x hx.1, if_neg hxp] at hdx ⊢
    simp only
    by_cases h5 : st.dad x = p
    · rw [if_pos h5]
      have hxr : x ≠ r := by intro e; rw [e, hdead] at h5; exact hpn h5.symm
      have hlx := hx0.1.resolve_left hxr
      rw [if_pos rfl, if_neg hxr]
      have := f5 x hlx (by rw [h5]; exact hp)
      rw [h5] at this
      exact this
    · rw [if_neg h5] at hdx ⊢
      by_cases h4 : x = r
      · rw [if_pos h4] at hdx ⊢
        rw [if_neg hdr, if_pos h4]
        exact f5 p hp (((hlive _).mp hdx).1.resolve_left hdr)
      · rw [if_neg h4] at hdx ⊢
        have hlx := hx0.1.resolve_left h4
        have hdxr := dad_ne_dead st rank hF' x r hlx hr hnr
        rw [if_neg hdxr, if_neg h4]
        exact f5 x hlx (((hlive _).mp hdx).1.resolve_left hdxr)
  · -- F6
    intro x hx
    have hx0 := (hlive x).mp hx
    have hxp := hx0.2
    rw [hD x hx.1, if_neg hxp, etb]
    by_cases h5 : st.dad x = p
    · rw [if_pos h5]
      have hxr : x ≠ r := by intro e; rw [e, hdead] at h5; exact hpn h5.symm
      have hlx := hx0.1.resolve_left hxr
      refine ⟨fun h => absurd h (live_not_root st' r hlr), fun _ => ?_⟩
      rw [hbyte]
      have := (f6 x hlx).2 (by rw [h5]; exact hp)
      rw [h5] at this
      exact this
    · rw [if_neg h5]
      by_cases h4 : x = r
      · rw [if_pos h4, h4, hbyte]
        obtain ⟨a1, b1⟩ := f6 p hp
        exact ⟨a1, fun h => b1 (((hlive _).mp h).1.resolve_left hdr)⟩
      · rw [if_neg h4]
        have hlx := hx0.1.resolve_left h4
        have hdxr := dad_ne_dead st rank hF' x r hlx hr hnr
        obtain ⟨a1, b1⟩ := f6 x hlx
        exact ⟨a1, fun h => b1 (((hlive _).mp h).1.resolve_left hdxr)⟩

/-- A node with at most one child leaves its tree: the child, if any, takes its
place. -/
theorem splice_forest (st : LzState) (rank : Nat → Nat) (p c : Nat)
    (hF : Forest st rank) (hp : Live st p)
    (hc : (c = st.lson p ∧ st.rson p = NIL) ∨ (c = st.rson p ∧ st.lson p = NIL)) :
    Forest (spliceState st p c) rank ∧
    (∀ x, Live (spliceState st p c) x ↔ (Live st x ∧ x ≠ p)) := by
  have hF' := hF
  obtain ⟨f1, f2, f3, f4, f5, f6⟩ := hF
  have hpn := live_ne_nil st p hp
  have hdp := dad_ne_self st rank hF' p hp
  have hdH := (f1 p hp).1
  have hdn := holder_ne_nil st _ hdH
  have hslot := (f1 p hp).2
  have hcl : c ≠ NIL → Live st c ∧ st.dad c = p := by
    intro hcn
    rcases hc with ⟨h, _⟩ | ⟨h, _⟩
    · rw [h] at hcn ⊢; exact f3 p hp hcn
    · rw [h] at hcn ⊢; exact f2 p (Or.inl hp) hcn
  have hcp : c ≠ p := by
    rcases hc with ⟨h, _⟩ | ⟨h, _⟩
    · rw [h]; exact lson_ne_self st rank hF' p hp
    · rw [h]; exact rson_ne_self st rank hF' p hp
  have honly : ∀ x, Live st x → st.dad x = p → x = c := by
    intro x hx hd
    have hxn := live_ne_nil st x hx
    rcases child_cases st rank hF' x p hx hd with h | h
    · rcases hc with ⟨_, h2⟩ | ⟨h1, _⟩
      · rw [h2] at h; exact absurd h hxn
      · rw [h1]; exact h
    · rcases hc with ⟨h1, _⟩ | ⟨_, h2⟩
      · rw [h1]; exact h
      · rw [h2] at h; exact absurd h hxn
  obtain ⟨st', hst'⟩ : ∃ st' : LzState, st' = spliceState st p c := ⟨_, rfl⟩
  rw [← hst']
  have etb : st'.text_buf = st.text_buf := by rw [hst']; rfl
  have hD : ∀ x, x < RING_MAX → st'.dad x =
        if x = p then NIL else if x = c then st.dad p else st.dad x := by
    intro x _
    rw [hst']
    simp only [spliceState]
    by_cases h1 : x = p
    · subst h1; rw [store_eq, if_pos rfl]
    · rw [store_ne _ _ _ _ h1, if_neg h1]
      by_cases h2 : x = c
      · subst h2; rw [store_eq, if_pos rfl]
      · rw [store_ne _ _ _ _ h2, if_neg h2]
  have hR : ∀ x, st'.rson x =
        if st.rson (st.dad p) = p ∧ x = st.dad p then c else st.rson x := by
    intro x
    rw [hst']
    simp only [spliceState]
    by_cases hcnd : st.rson (st.dad p) = p
    · rw [if_pos hcnd]
      by_cases hx : x = st.dad p
      · rw [hx, store_eq, if_pos ⟨hcnd, rfl⟩]
      · rw [store_ne _ _ _ _ hx, if_neg (fun h => hx h.2)]
    · rw [if_neg hcnd, if_neg (fun h => hcnd h.1)]
  have hL : ∀ x, st'.lson x =
        if ¬ st.rson (st.dad p) = p ∧ x = st.dad p then c else st.lson x := by
    intro x
    rw [hst']
    simp only [spliceState]
    by_cases hcnd : st.rson (st.dad p) = p
    · rw [if_pos hcnd, if_neg (fun h => h.1 hcnd)]
    · rw [if_neg hcnd]
      by_cases hx : x = st.dad p
      · rw [hx, store_eq, if_pos ⟨hcnd, rfl⟩]
      · rw [store_ne _ _ _ _ hx, if_neg (fun h => hx h.2)]
  have hlive : ∀ x, Live st' x ↔ (Live st x ∧ x ≠ p) := by
    intro x
    constructor
    · rintro ⟨hx, hdx⟩
      rw [hD x hx] at hdx
      by_cases h1 : x = p
      · rw [if_pos h1] at hdx; exact absurd rfl hdx
      · refine ⟨⟨hx, ?_⟩, h1⟩
        rw [if_neg h1] at hdx
        by_cases h2 : x = c
        · have hcn : c ≠ NIL := by rw [← h2]; unfold NIL; omega
          rw [h2, (hcl hcn).2]; exact hpn
        · rw [if_neg h2] at hdx; exact hdx
    · rintro ⟨hx, h1⟩
      refine ⟨hx.1, ?_⟩
      rw [hD x hx.1, if_neg h1]
      by_cases h2 : x = c
      · rw [if_pos h2]; exact hdn
      · rw [if_neg h2]; exact hx.2
  have hnp : ¬ Holder st' p := by
    rintro (h | h)
    · exact ((hlive p).mp h).2 rfl
    · exact live_not_root st p hp h
  have hholder : ∀ q, Holder st' q → Holder st q := by
    rintro q (h | h)
    · exact Or.inl ((hlive q).mp h).1
    · exact Or.inr h
  have hholder2 : ∀ q, Holder st q → q ≠ p → Holder st' q := by
    rintro q (h | h) hq
    · exact Or.inl ((hlive q).mpr ⟨h, hq⟩)
    · exact Or.inr h
  refine ⟨⟨?_, ?_, ?_, ?_, ?_, ?_⟩, hlive⟩
  · -- F1
    intro x hx
    obtain ⟨hlx, hxp⟩ := (hlive x).mp hx
    rw [hD x hx.1, if_neg hxp]
    by_cases h2 : x = c
    · rw [if_pos h2]
      refine ⟨hholder2 _ hdH hdp, ?_⟩
      by_cases hcnd : st.rson (st.dad p) = p
      · left; rw [hR, if_pos ⟨hcnd, rfl⟩, h2]
      · right
        rcases hslot with h | ⟨h1, _⟩
        · exact absurd h hcnd
        · exact ⟨(hlive _).mpr ⟨h1, hdp⟩, by rw [hL, if_pos ⟨hcnd, rfl⟩, h2]⟩
    · rw [if_neg h2]
      obtain ⟨a1, b1⟩ := f1 x hlx
      have h5 : st.dad x ≠ p := fun e => h2 (honly x hlx e)
      refine ⟨hholder2 _ a1 h5, ?_⟩
      rcases b1 with b1 | ⟨b1, b2⟩
      · left
        rw [hR, if_neg]
        · exact b1
        · rintro ⟨hcnd, hd⟩
          rw [hd, hcnd] at b1
          exact hxp b1.symm
      · right
        refine ⟨(hlive _).mpr ⟨b1, h5⟩, ?_⟩
        rw [hL, if_neg]
        · exact b2
        · rintro ⟨hcnd, hd⟩
          rcases hslot with h | ⟨_, h⟩
          · exact hcnd h
          · rw [hd, h] at b2
            exact hxp b2.symm
  · -- F2
    intro q hq hne
    have hqp : q ≠ p := fun e => hnp (e ▸ hq)
    rw [hR] at hne ⊢
    by_cases h1 : st.rson (st.dad p) = p ∧ q = st.dad p
    · rw [if_pos h1] at hne ⊢
      obtain ⟨c1, c2⟩ := hcl hne
      refine ⟨(hlive _).mpr ⟨c1, hcp⟩, ?_⟩
      rw [hD _ c1.1, if_neg hcp, if_pos rfl, h1.2]
    · rw [if_neg h1] at hne ⊢
      obtain ⟨c1, c2⟩ := f2 q (hholder q hq) hne
      have hyp : st.rson q ≠ p := by
        intro e
        rw [e] at c2
        exact h1 ⟨by rw [c2]; exact e, c2.symm⟩
      have hyc : st.rson q ≠ c := by
        intro e
        have := (hcl (e ▸ live_ne_nil st _ c1)).2
        rw [← e, c2] at this
        exact hqp this
      refine ⟨(hlive _).mpr ⟨c1, hyp⟩, ?_⟩
      rw [hD _ c1.1, if_neg hyp, if_neg hyc]
      exact c2
  · -- F3
    intro q hq hne
    obtain ⟨hlq, hqp⟩ := (hlive q).mp hq
    rw [hL] at hne ⊢
    by_cases h1 : ¬ st.rson (st.dad p) = p ∧ q = st.dad p
    · rw [if_pos h1] at hne ⊢
      obtain ⟨c1, c2⟩ := hcl hne
      refine ⟨(hlive _).mpr ⟨c1, hcp⟩, ?_⟩
      rw [hD _ c1.1, if_neg hcp, if_pos rfl, h1.2]
    · rw [if_neg h1] at hne ⊢
      obtain ⟨c1, c2⟩ := f3 q hlq hne
      have hyp : st.lson q ≠ p := by
        intro e
        rw [e] at c2
        apply h1
        refine ⟨?_, c2.symm⟩
        intro hcnd
        have := f4 q hlq hne
        rw [e, c2.symm, hcnd] at this
        exact this rfl
      have hyc : st.lson q ≠ c := by
        intro e
        have := (hcl (e ▸ live_ne_nil st _ c1)).2
        rw [← e, c2] at this
        exact hqp this
      refine ⟨(hlive _).mpr ⟨c1, hyp⟩, ?_⟩
      rw [hD _ c1.1, if_neg hyp, if_neg hyc]
      exact c2
  · -- F4
    intro q hq hne
    obtain ⟨hlq, hqp⟩ := (hlive q).mp hq
    rw [hL] at hne ⊢
    rw [hR]
    by_cases hd : q = st.dad p
    · by_cases hcnd : st.rson (st.dad p) = p
      · rw [if_neg (fun h => h.1 hcnd)] at hne ⊢
        rw [if_pos ⟨hcnd, hd⟩]
        intro e
        have a1 := (f3 q hlq hne)
        have := (hcl (e ▸ live_ne_nil st _ a1.1)).2
        rw [← e, a1.2] at this
        exact hqp this
      · rw [if_pos ⟨hcnd, hd⟩] at hne ⊢
        rw [if_neg (fun h => hcnd h.1)]
        intro e
        have a1 := f2 q (Or.inl hlq) (e ▸ hne)
        have := (hcl hne).2
        rw [e, a1.2] at this
        exact hqp this
    · rw [if_neg (fun h => hd h.2)] at hne ⊢
      rw [if_neg (fun h => hd h.2)]
      exact f4 q hlq hne
  · -- F5
    intro x hx hdx
    obtain ⟨hlx, hxp⟩ := (hlive x).mp hx
    rw [hD x hx.1, if_neg hxp] at hdx ⊢
    by_cases h2 : x = c
    · rw [if_pos h2] at hdx ⊢
      have hcn : c ≠ NIL := h2 ▸ live_ne_nil st x hlx
      have e1 := f5 p hp ((hlive _).mp hdx).1
      have e2 := f5 c (hcl hcn).1 (by rw [(hcl hcn).2]; exact hp)
      rw [(hcl hcn).2] at e2
      rw [h2]
      omega
    · rw [if_neg h2] at hdx ⊢
      exact f5 x hlx ((hlive _).mp hdx).1
  · -- F6
    intro x hx
    obtain ⟨hlx, hxp⟩ := (hlive x).mp hx
    rw [hD x hx.1, if_neg hxp, etb]
    by_cases h2 : x = c
    · rw [if_pos h2]
      have hcn : c ≠ NIL := h2 ▸ live_ne_nil st x hlx
      have e1 := f6 p hp
      have e2 := (f6 c (hcl hcn).1).2 (by rw [(hcl hcn).2]; exact hp)
      rw [(hcl hcn).2] at e2
      rw [h2, ← e2]
      exact ⟨e1.1, fun h => e1.2 ((hlive _).mp h).1⟩
    · rw [if_neg h2]
      obtain ⟨a1, b1⟩ := f6 x hlx
      exact ⟨a1, fun h => b1 ((hlive _).mp h).1⟩

/-- A node with two children whose left child has no right child leaves its
tree: the left child takes its place. -/
theorem lift_forest (st : LzState) (rank : Nat → Nat) (p : Nat)
    (hF : Forest st rank) (hp : Live st p)
    (hq0 : st.lson p ≠ NIL) (hrp : st.rson p ≠ NIL) (hrq0 : st.rson (st.lson p) = NIL) :
    Forest (liftState st p) (fun x => if x = st.lson p then rank p else rank x) ∧
    (∀ x, Live (liftState st p) x ↔ (Live st x ∧ x ≠ p)) := by
  have hF' := hF
  obtain ⟨f1, f2, f3, f4, f5, f6⟩ := hF
  have hpn := live_ne_nil st p hp
  have hdp := dad_ne_self st rank hF' p hp
  have hdH := (f1 p hp).1
  have hdn := holder_ne_nil st _ hdH
  have hslot := (f1 p hp).2
  obtain ⟨hql, hqd⟩ := f3 p hp hq0
  obtain ⟨hrl, hrd⟩ := f2 p (Or.inl hp) hrp
  have hqp := lson_ne_self st rank hF' p hp
  have hrpp := rson_ne_self st rank hF' p hp
  have hqr : st.lson p ≠ st.rson p := f4 p hp hq0
  have hqdd : st.lson p ≠ st.dad p := by
    intro e
    rcases hdH with h | h
    · have e1 := f5 p hp h
      have e2 := f5 _ hql (by rw [hqd]; exact hp)
      rw [hqd] at e2
      rw [← e] at e1
      omega
    · rw [← e] at h
      exact live_not_root st _ hql h
  have hrdd : st.rson p ≠ st.dad p := by
    intro e
    rcases hdH with h | h
    · have e1 := f5 p hp h
      have e2 := f5 _ hrl (by rw [hrd]; exact hp)
      rw [hrd] at e2
      rw [← e] at e1
      omega
    · rw [← e] at h
      exact live_not_root st _ hrl h
  have honly : ∀ x, Live st x → st.dad x = p → x = st.lson p ∨ x = st.rson p := by
    intro x hx hd
    rcases child_cases st rank hF' x p hx hd with h | h
    · exact Or.inr h
    · exact Or.inl h
  obtain ⟨st', hst'⟩ : ∃ st' : LzState, st' = liftState st p := ⟨_, rfl⟩
  rw [← hst']
  have etb : st'.text_buf = st.text_buf := by rw [hst']; rfl
  have hD : ∀ x, st'.dad x =
        if x = p then NIL else if x = st.lson p then st.dad p
        else if x = st.rson p then st.lson p else st.dad x := by
    intro x
    rw [hst']
    simp only [liftState]
    by_cases h1 : x = p
    · subst h1; rw [store_eq, if_pos rfl]
    · rw [store_ne _ _ _ _ h1, if_neg h1]
      by_cases h2 : x = st.lson p
      · rw [h2, store_eq, if_pos rfl]
      · rw [store_ne _ _ _ _ h2, if_neg h2]
        by_cases h3 : x = st.rson p
        · rw [h3, store_eq, if_pos rfl]
        · rw [store_ne _ _ _ _ h3, if_neg h3]
  have hR : ∀ x, st'.rson x =
        if st.rson (st.dad p) = p ∧ x = st.dad p then st.lson p
        else if x = st.lson p then st.rson p else st.rson x := by
    intro x
    rw [hst']
    simp only [liftState]
    by_cases hcnd : st.rson (st.dad p) = p
    · rw [if_pos hcnd]
      by_cases hx : x = st.dad p
      · rw [hx, store_eq, if_pos ⟨hcnd, rfl⟩]
      · rw [store_ne _ _ _ _ hx, if_neg (fun h => hx h.2)]
        rfl
    · rw [if_neg hcnd, if_neg (fun h => hcnd h.1)]
      rfl
  have hL : ∀ x, st'.lson x =
        if ¬ st.rson (st.dad p) = p ∧ x = st.dad p then st.lson p else st.lson x := by
    intro x
    rw [hst']
    simp only [liftState]
    by_cases hcnd : st.rson (st.dad p) = p
    · rw [if_pos hcnd, if_neg (fun h => h.1 hcnd)]
    · rw [if_neg hcnd]
      by_cases hx : x = st.dad p
      · rw [hx, store_eq, if_pos ⟨hcnd, rfl⟩]
      · rw [store_ne _ _ _ _ hx, if_neg (fun h => hx h.2)]
  have hlive : ∀ x, Live st' x ↔ (Live st x ∧ x ≠ p) := by
    intro x
    constructor
    · rintro ⟨hx, hdx⟩
      rw [hD x] at hdx
      by_cases h1 : x = p
      · rw [if_pos h1] at hdx; exact absurd rfl hdx
      · refine ⟨⟨hx, ?_⟩, h1⟩
        rw [if_neg h1] at hdx
        by_cases h2 : x = st.lson p
        · rw [h2, hqd]; exact hpn
        · rw [if_neg h2] at hdx
          by_cases h3 : x = st.rson p
          · rw [h3, hrd]; exact hpn
          · rw [if_neg h3] at hdx; exact hdx
    · rintro ⟨hx, h1⟩
      refine ⟨hx.1, ?_⟩
      rw [hD x, if_neg h1]
      by_cases h2 : x = st.lson p
      · rw [if_pos h2]; exact hdn
      · rw [if_neg h2]
        by_cases h3 : x = st.rson p
        · rw [if_pos h3]; exact hq0
        · rw [if_neg h3]; exact hx.2
  have hlq : Live st' (st.lson p) := (hlive _).mpr ⟨hql, hqp⟩
  have hlrp : Live st' (st.rson p) := (hlive _).mpr ⟨hrl, hrpp⟩
  have hnp : ¬ Holder st' p := by
    rintro (h | h)
    · exact ((hlive p).mp h).2 rfl
    · exact live_not_root st p hp h
  have hholder : ∀ q, Holder st' q → Holder st q := by
    rintro q (h | h)
    · exact Or.inl ((hlive q).mp h).1
    · exact Or.inr h
  have hholder2 : ∀ q, Holder st q → q ≠ p → Holder st' q := by
    rintro q (h | h) hq
    · exact Or.inl ((hlive q).mpr ⟨h, hq⟩)
    · exact Or.inr h
  have hDq : st'.dad (st.lson p) = st.dad p := by
    rw [hD, if_neg hqp, if_pos rfl]
  have hDr : st'.dad (st.rson p) = st.lson p := by
    rw [hD, if_neg hrpp, if_neg (Ne.symm hqr), if_pos rfl]
  have hDo : ∀ x, x ≠ p → st.dad x ≠ p → Live st x → st'.dad x = st.dad x := by
    intro x h1 h5 hlx
    rw [hD, if_neg h1, if_neg, if_neg]
    · intro e; rw [e, hrd] at h5; exact h5 rfl
    · intro e; rw [e, hqd] at h5; exact h5 rfl
  have hRq : st'.rson (st.lson p) = st.rson p := by
    rw [hR, if_neg (fun h => hqdd h.2), if_pos rfl]
  refine ⟨⟨?_, ?_, ?_, ?_, ?_, ?_⟩, hlive⟩
  · -- F1
    intro x hx
    obtain ⟨hlx, hxp⟩ := (hlive x).mp hx
    by_cases h2 : x = st.lson p
    · rw [h2, hDq]
      refine ⟨hholder2 _ hdH hdp, ?_⟩
      by_cases hcnd : st.rson (st.dad p) = p
      · left; rw [hR, if_pos ⟨hcnd, rfl⟩]
      · right
        rcases hslot with h | ⟨h1, _⟩
        · exact absurd h hcnd
        · exact ⟨(hlive _).mpr ⟨h1, hdp⟩, by rw [hL, if_pos ⟨hcnd, rfl⟩]⟩
    · by_cases h3 : x = st.rson p
      · rw [h3, hDr]
        exact ⟨Or.inl hlq, Or.inl hRq⟩
      · have h5 : st.dad x ≠ p := by
          intro e
          rcases honly x hlx e with h | h
          · exact h2 h
          · exact h3 h
        rw [hDo x hxp h5 hlx]
        obtain ⟨a1, b1⟩ := f1 x hlx
        refine ⟨hholder2 _ a1 h5, ?_⟩
        rcases b1 with b1 | ⟨b1, b2⟩
        · left
          rw [hR, if_neg, if_neg]
          · exact b1
          · intro e
            rw [e, hrq0] at b1
            exact live_ne_nil st x hlx b1.symm
          · rintro ⟨hcnd, hd⟩
            rw [hd, hcnd] at b1
            exact hxp b1.symm
        · right
          refine ⟨(hlive _).mpr ⟨b1, h5⟩, ?_⟩
          rw [hL, if_neg]
          · exact b2
          · rintro ⟨hcnd, hd⟩
            rcases hslot with h | ⟨_, h⟩
            · exact hcnd h
            · rw [hd, h] at b2
              exact hxp b2.symm
  · -- F2
    intro q hq hne
    have hqpp : q ≠ p := fun e => hnp (e ▸ hq)
    rw [hR] at hne ⊢
    by_cases h1 : st.rson (st.dad p) = p ∧ q = st.dad p
    · rw [if_pos h1]
      exact ⟨hlq, by rw [hDq, h1.2]⟩
    · rw [if_neg h1] at hne ⊢
      by_cases h2 : q = st.lson p
      · rw [if_pos h2]
        exact ⟨hlrp, by rw [hDr, h2]⟩
      · rw [if_neg h2] at hne ⊢
        obtain ⟨c1, c2⟩ := f2 q (hholder q hq) hne
        have hyp : st.rson q ≠ p := by
          intro e
          rw [e] at c2
          exact h1 ⟨by rw [c2]; exact e, c2.symm⟩
        refine ⟨(hlive _).mpr ⟨c1, hyp⟩, ?_⟩
        rw [hDo _ hyp (by rw [c2]; exact hqpp) c1]
        exact c2
  · -- F3
    intro q hq hne
    obtain ⟨hlq', hqpp⟩ := (hlive q).mp hq
    rw [hL] at hne ⊢
    by_cases h1 : ¬ st.rson (st.dad p) = p ∧ q = st.dad p
    · rw [if_pos h1]
      exact ⟨hlq, by rw [hDq, h1.2]⟩
    · rw [if_neg h1] at hne ⊢
      obtain ⟨c1, c2⟩ := f3 q hlq' hne
      have hyp : st.lson q ≠ p := by
        intro e
        rw [e] at c2
        apply h1
        refine ⟨?_, c2.symm⟩
        intro hcnd
        have := f4 q hlq' hne
        rw [e, c2.symm, hcnd] at this
        exact this rfl
      refine ⟨(hlive _).mpr ⟨c1, hyp⟩, ?_⟩
      rw [hDo _ hyp (by rw [c2]; exact hqpp) c1]
      exact c2
  · -- F4
    intro q hq hne
    obtain ⟨hlq', hqpp⟩ := (hlive q).mp hq
    rw [hL] at hne ⊢
    rw [hR]
    by_cases hd : q = st.dad p
    · by_cases hcnd : st.rson (st.dad p) = p
      · rw [if_neg (fun h => h.1 hcnd)] at hne ⊢
        rw [if_pos ⟨hcnd, hd⟩]
        intro e
        have a1 := (f3 q hlq' hne)
        rw [e, hqd] at a1
        exact hqpp a1.2.symm
      · rw [if_pos ⟨hcnd, hd⟩]
        rw [if_neg (fun h => hcnd h.1), if_neg (by rw [hd]; exact Ne.symm hqdd)]
        intro e
        have a1 := f2 q (Or.inl hlq') (by rw [← e]; exact hq0)
        rw [← e, hqd] at a1
        exact hqpp a1.2.symm
    · rw [if_neg (fun h => hd h.2)] at hne ⊢
      rw [if_neg (fun h => hd h.2)]
      by_cases h2 : q = st.lson p
      · rw [if_pos h2]
        intro e
        have a1 := f3 q hlq' hne
        rw [e, hrd] at a1
        exact hqpp a1.2.symm
      · rw [if_neg h2]
        exact f4 q hlq' hne
  · -- F5
    intro x hx hdx
    obtain ⟨hlx, hxp⟩ := (hlive x).mp hx
    simp only
    by_cases h2 : x = st.lson p
    · rw [h2, hDq] at hdx ⊢
      rw [if_neg (Ne.symm hqdd), if_pos rfl]
      exact f5 p hp ((hlive _).mp hdx).1
    · by_cases h3 : x = st.rson p
      · rw [h3, hDr, if_pos rfl, if_neg (Ne.symm hqr)]
        have := f5 _ hrl (by rw [hrd]; exact hp)
        rw [hrd] at this
        exact this
      · have h5 : st.dad x ≠ p := by
          intro e
          rcases honly x hlx e with h | h
          · exact h2 h
          · exact h3 h
        rw [hDo x hxp h5 hlx] at hdx ⊢
        rw [if_neg h2]
        have e1 := f5 x hlx ((hlive _).mp hdx).1
        by_cases h6 : st.dad x = st.lson p
        · rw [if_pos h6]
          have e2 := f5 _ hql (by rw [hqd]; exact hp)
          rw [hqd] at e2
          rw [h6] at e1
          omega
        · rw [if_neg h6]
          exact e1
  · -- F6
    intro x hx
    obtain ⟨hlx, hxp⟩ := (hlive x).mp hx
    rw [etb]
    have eq1 := (f6 _ hql).2 (by rw [hqd]; exact hp)
    rw [hqd] at eq1
    have er1 := (f6 _ hrl).2 (by rw [hrd]; exact hp)
    rw [hrd] at er1
    by_cases h2 : x = st.lson p
    · rw [h2, hDq, ← eq1]
      have e1 := f6 p hp
      exact ⟨e1.1, fun h => e1.2 ((hlive _).mp h).1⟩
    · by_cases h3 : x = st.rson p
      · rw [h3, hDr]
        refine ⟨fun h => absurd h (live_not_root st _ hql), fun _ => ?_⟩
        rw [← eq1, ← er1]
      · have h5 : st.dad x ≠ p := by
          intro e
          rcases honly x hlx e with h | h
          · exact h2 h
          · exact h3 h
        rw [hDo x hxp h5 hlx]
        obtain ⟨a1, b1⟩ := f6 x hlx
        exact ⟨a1, fun h => b1 ((hlive _).mp h).1⟩

theorem above_card_le (st : LzState) (rank : Nat → Nat) (q : Nat) :
    (above st rank q).card ≤ RING_MAX := by
  unfold above
  exact Nat.le_trans (Finset.card_filter_le _ _) (by simp)

/-- Going down to a node of higher rank shrinks the set of nodes above. -/
theorem above_card_lt (st : LzState) (rank : Nat → Nat) (q c : Nat) (hc : Live st c)
    (hr : rank q < rank c) : (above st rank c).card < (above st rank q).card := by
  apply Finset.card_lt_card
  rw [Finset.ssubset_iff_of_subset]
  · refine ⟨c, ?_, ?_⟩
    · unfold above
      rw [Finset.mem_filter, Finset.mem_range]
      exact ⟨hc.1, hc.2, hr⟩
    · unfold above
      rw [Finset.mem_filter]
      intro h
      exact Nat.lt_irrefl _ h.2.2
  · intro x hx
    unfold above at hx ⊢
    rw [Finset.mem_filter] at hx ⊢
    exact ⟨hx.1, hx.2.1, Nat.lt_trans hr hx.2.2⟩

/-- A node in a tree has fewer than `RING_MAX` nodes above it. -/
theorem above_card_lt_max (st : LzState) (rank : Nat → Nat) (c : Nat) (hc : Live st c) :
    (above st rank c).card < RING_MAX := by
  have h1 : above st rank c ⊂ Finset.range RING_MAX := by
    rw [Finset.ssubset_iff_of_subset]
    · refine ⟨c, Finset.mem_range.mpr hc.1, ?_⟩
      unfold above
      rw [Finset.mem_filter]
      intro h
      exact Nat.lt_irrefl _ h.2.2
    · unfold above
      exact Finset.filter_subset _ _
  have := Finset.card_lt_card h1
  simpa using this

/-- The loop of `DeleteNode` that runs down the right children ends at a node
without a right child. -/
theorem rightmost_spec (st : LzState) (rank : Nat → Nat) (hF : Forest st rank) :
    ∀ (fuel q : Nat), Live st q → st.rson q ≠ NIL → (above st rank q).card ≤ fuel →
      ∃ z, rightmost st.rson fuel q = some z ∧ Live st z ∧ st.rson z = NIL ∧
        rank q < rank z ∧ Live st (st.dad z) ∧ st.rson (st.dad z) = z ∧
        rank q ≤ rank (st.dad z) ∧ st.text_buf z = st.text_buf q := by
  obtain ⟨f1, f2, f3, f4, f5, f6⟩ := hF
  intro fuel
  induction fuel with
  | zero =>
    intro q hq hne hfuel
    obtain ⟨c1, c2⟩ := f2 q (Or.inl hq) hne
    have hr : rank q < rank (st.rson q) := by
      have := f5 _ c1 (by rw [c2]; exact hq)
      rw [c2] at this
      exact this
    have := above_card_lt st rank q _ c1 hr
    omega
  | succ fuel ih =>
    intro q hq hne hfuel
    obtain ⟨c1, c2⟩ := f2 q (Or.inl hq) hne
    have hr : rank q < rank (st.rson q) := by
      have := f5 _ c1 (by rw [c2]; exact hq)
      rw [c2] at this
      exact this
    have htb : st.text_buf (st.rson q) = st.text_buf q := by
      have := (f6 _ c1).2 (by rw [c2]; exact hq)
      rw [c2] at this
      exact this.symm
    have hcard := above_card_lt st rank q _ c1 hr
    unfold rightmost
    simp only
    by_cases hn : st.rson (st.rson q) ≠ NIL
    · rw [if_pos hn]
      obtain ⟨z, z1, z2, z3, z4, z5, z6, z7, z8⟩ := ih (st.rson q) c1 hn (by omega)
      exact ⟨z, z1, z2, z3, by omega, z5, z6, by omega, by rw [z8, htb]⟩
    · rw [if_neg hn]
      refine ⟨st.rson q, rfl, c1, ?_, hr, by rw [c2]; exact hq, by rw [c2], by rw [c2], htb⟩
      by_contra h
      exact hn h

theorem DeleteNode_dead (st : LzState) (p : Nat) (hd : st.dad p = NIL) :
    DeleteNode p st = some st := by
  unfold DeleteNode
  rw [if_pos hd]

/-- `DeleteNode(p)` for a node without a right child. -/
theorem DeleteNode_eq_A (st : LzState) (p : Nat) (hd : st.dad p ≠ NIL) (hr : st.rson p = NIL)
    (hlp : st.lson p ≠ p) :
    DeleteNode p st = some (spliceState st p (st.lson p)) := by
  unfold DeleteNode spliceState
  rw [if_neg hd]
  simp only [if_pos hr]
  have e : store st.dad (st.lson p) (st.dad p) p = st.dad p := store_ne _ _ _ _ (Ne.symm hlp)
  simp only [e]

/-- `DeleteNode(p)` for a node with a right child and no left child. -/
theorem DeleteNode_eq_B (st : LzState) (p : Nat) (hd : st.dad p ≠ NIL) (hr : st.rson p ≠ NIL)
    (hl : st.lson p = NIL) (hrp : st.rson p ≠ p) :
    DeleteNode p st = some (spliceState st p (st.rson p)) := by
  unfold DeleteNode spliceState
  rw [if_neg hd]
  simp only [if_neg hr, if_pos hl]
  have e : store st.dad (st.rson p) (st.dad p) p = st.dad p := store_ne _ _ _ _ (Ne.symm hrp)
  simp only [e]

/-- `DeleteNode(p)` for a node with two children whose left child has no right
child. -/
theorem DeleteNode_eq_C1 (st : LzState) (p : Nat) (hd : st.dad p ≠ NIL) (hr : st.rson p ≠ NIL)
    (hl : st.lson p ≠ NIL) (hrq0 : st.rson (st.lson p) = NIL)
    (hlp : st.lson p ≠ p) (hrp : st.rson p ≠ p) (hdl : st.dad p ≠ st.lson p) :
    DeleteNode p st = some (liftState st p) := by
  unfold DeleteNode liftState
  rw [if_neg hd]
  have hc : ¬ (st.rson (st.lson p) ≠ NIL) := fun h => h hrq0
  simp only [if_neg hr, if_neg hl, if_neg hc]
  have e1 : store st.rson (st.lson p) (st.rson p) p = st.rson p := store_ne _ _ _ _ (Ne.symm hlp)
  have e3 : store st.dad (st.rson p) (st.lson p) p = st.dad p := store_ne _ _ _ _ (Ne.symm hrp)
  have e2 : store (store st.dad (st.rson p) (st.lson p)) (st.lson p) (st.dad p) p = st.dad p := by
    rw [store_ne _ _ _ _ (Ne.symm hlp), e3]
  have e4 : store st.rson (st.lson p) (st.rson p) (st.dad p) = st.rson (st.dad p) :=
    store_ne _ _ _ _ hdl
  simp only [e1, e3, e2, e4]

/-- `DeleteNode(p)` for a node with two children whose left child has a right
child: the last node `q` on the way down the right children leaves its place
(as a node without a right child does) and then takes the place of `p`. -/
theorem DeleteNode_eq_C2 (st : LzState) (p q : Nat) (hd : st.dad p ≠ NIL) (hr : st.rson p ≠ NIL)
    (hl : st.lson p ≠ NIL) (hrq0 : st.rson (st.lson p) ≠ NIL)
    (hz : rightmost st.rson RING_MAX (st.lson p) = some q)
    (hpq : p ≠ q) (hpdq : p ≠ st.dad q) (hq0q : st.lson p ≠ q) (hrpq : st.rson p ≠ q)
    (hdq : st.dad p ≠ q) (hlp : st.lson p ≠ p) (hrp : st.rson p ≠ p) (hlq : st.lson q ≠ p)
    (hslot : st.rson (st.dad q) = q) :
    DeleteNode p st = some (replaceNode (spliceState st q (st.lson q)) q p) := by
  have eTl : (spliceState st q (st.lson q)).lson = st.lson := by
    unfold spliceState; simp only [if_pos hslot]
  have eTr : (spliceState st q (st.lson q)).rson = store st.rson (st.dad q) (st.lson q) := by
    unfold spliceState; simp only [if_pos hslot]
  have eTd : (spliceState st q (st.lson q)).dad
      = store (store st.dad (st.lson q) (st.dad q)) q NIL := rfl
  have eTdp : (spliceState st q (st.lson q)).dad p = st.dad p := by
    rw [eTd, store_ne _ _ _ _ hpq, store_ne _ _ _ _ (Ne.symm hlq)]
  have eTrp : (spliceState st q (st.lson q)).rson p = st.rson p := by
    rw [eTr, store_ne _ _ _ _ hpdq]
  rw [replaceNode_eq _ q p hpq (by rw [eTdp]; exact hdq) (by rw [eTl]; exact hlp)
    (by rw [eTrp]; exact hrp)]
  rw [eTdp, eTrp, eTl, eTr, eTd]
  unfold DeleteNode
  rw [if_neg hd]
  simp only [if_neg hr, if_neg hl, if_pos hrq0, hz]
  have e1 : store st.lson q (st.lson p) p = st.lson p := store_ne _ _ _ _ hpq
  have e2 : store st.rson (st.dad q) (st.lson q) p = st.rson p := store_ne _ _ _ _ hpdq
  simp only [e1, e2]
  have e3 : store (store st.rson (st.dad q) (st.lson q)) q (st.rson p) p = st.rson p := by
    rw [store_ne _ _ _ _ hpq, e2]
  simp only [e3]
  have e4 : store (store (store st.dad (st.lson q) (st.dad q)) (st.lson p) q) (st.rson p) q p
      = st.dad p := by
    rw [store_ne _ _ _ _ (Ne.symm hrp), store_ne _ _ _ _ (Ne.symm hlp),
      store_ne _ _ _ _ (Ne.symm hlq)]
  simp only [e4]
  have e5 : store (store (store (store st.dad (st.lson q) (st.dad q)) (st.lson p) q) (st.rson p) q)
      q (st.dad p) p = st.dad p := by
    rw [store_ne _ _ _ _ hpq, e4]
  simp only [e5]
  have e6 : store (store st.rson (st.dad q) (st.lson q)) q (st.rson p) (st.dad p)
      = store st.rson (st.dad q) (st.lson q) (st.dad p) := store_ne _ _ _ _ hdq
  simp only [e6]
  have e7 : store (store (store (store (store st.dad (st.lson q) (st.dad q)) (st.lson p) q)
      (st.rson p) q) q (st.dad p)) p NIL
      = store (store (store (store (store (store st.dad (st.lson q) (st.dad q)) q NIL) q (st.dad p))
          (st.lson p) q) (st.rson p) q) p NIL := by
    funext x
    simp only [store]
    by_cases h1 : x = p
    · simp only [h1, if_true]
    · simp only [h1, if_false]
      by_cases h2 : x = q
      · subst h2
        simp only [if_true, if_neg (Ne.symm hrpq), if_neg (Ne.symm hq0q)]
      · simp only [h2, if_false]
  rw [e7]
  rfl

theorem spliceState_frame (st : LzState) (p c : Nat) :
    (spliceState st p c).text_buf = st.text_buf ∧
    (spliceState st p c).match_length = st.match_length ∧
    (spliceState st p c).match_position = st.match_position := ⟨rfl, rfl, rfl⟩

theorem liftState_frame (st : LzState) (p : Nat) :
    (liftState st p).text_buf = st.text_buf ∧
    (liftState st p).match_length = st.match_length ∧
    (liftState st p).match_position = st.match_position := ⟨rfl, rfl, rfl⟩

theorem replaceNode_frame (st : LzState) (r p : Nat) :
    (replaceNode st r p).text_buf = st.text_buf ∧
    (replaceNode st r p).match_length = st.match_length ∧
    (replaceNode st r p).match_position = st.match_position := ⟨rfl, rfl, rfl⟩

/-- `DeleteNode(p)` returns, keeps the trees well formed, and takes exactly the
node `p` out of them. -/
theorem DeleteNode_forest (st : LzState) (rank : Nat → Nat) (p : Nat)
    (hF : Forest st rank) (hp : p < RING_MAX) :
    ∃ st' rank', DeleteNode p st = some st' ∧ Forest st' rank' ∧
      (∀ x, Live st' x ↔ (Live st x ∧ x ≠ p)) ∧
      st'.text_buf = st.text_buf ∧ st'.match_length = st.match_length ∧
      st'.match_position = st.match_position := by
  by_cases hd : st.dad p = NIL
  · refine ⟨st, rank, DeleteNode_dead st p hd, hF, ?_, rfl, rfl, rfl⟩
    intro x
    constructor
    · intro hx
      refine ⟨hx, ?_⟩
      rintro rfl
      exact hx.2 hd
    · exact fun h => h.1
  · have hlp : Live st p := ⟨hp, hd⟩
    have hF' := hF
    obtain ⟨f1, f2, f3, f4, f5, f6⟩ := hF
    have hlsp := lson_ne_self st rank hF' p hlp
    have hrsp := rson_ne_self st rank hF' p hlp
    by_cases hr : st.rson p = NIL
    · obtain ⟨g1, g2⟩ := splice_forest st rank p (st.lson p) hF' hlp (Or.inl ⟨rfl, hr⟩)
      exact ⟨_, rank, DeleteNode_eq_A st p hd hr hlsp, g1, g2, rfl, rfl, rfl⟩
    · by_cases hl : st.lson p = NIL
      · obtain ⟨g1, g2⟩ := splice_forest st rank p (st.rson p) hF' hlp (Or.inr ⟨rfl, hl⟩)
        exact ⟨_, rank, DeleteNode_eq_B st p hd hr hl hrsp, g1, g2, rfl, rfl, rfl⟩
      · obtain ⟨hql, hqd⟩ := f3 p hlp hl
        obtain ⟨hrl, hrd⟩ := f2 p (Or.inl hlp) hr
        have hrk0 : rank p < rank (st.lson p) := by
          have := f5 _ hql (by rw [hqd]; exact hlp)
          rw [hqd] at this
          exact this
        have hdH := (f1 p hlp).1
        by_cases hrq0 : st.rson (st.lson p) = NIL
        · obtain ⟨g1, g2⟩ := lift_forest st rank p hF' hlp hl hr hrq0
          have hdl : st.dad p ≠ st.lson p := by
            intro e
            rcases hdH with h | h
            · have e1 := f5 p hlp h
              rw [e] at e1
              omega
            · rw [e] at h
              exact live_not_root st _ hql h
          exact ⟨_, _, DeleteNode_eq_C1 st p hd hr hl hrq0 hlsp hrsp hdl, g1, g2, rfl, rfl, rfl⟩
        · obtain ⟨z, z1, z2, z3, z4, z5, z6, z7, z8⟩ :=
            rightmost_spec st rank hF' RING_MAX (st.lson p) hql hrq0 (above_card_le _ _ _)
          have hpz : p ≠ z := by intro e; rw [← e] at z4; omega
          have hpdz : p ≠ st.dad z := by intro e; rw [← e] at z7; omega
          have hq0z : st.lson p ≠ z := by intro e; rw [← e] at z4; omega
          have hrpz : st.rson p ≠ z := by
            intro e
            rw [e] at hrd
            exact hpdz hrd.symm
          have hdz : st.dad p ≠ z := by
            intro e
            rcases hdH with h | h
            · have e1 := f5 p hlp h
              rw [e] at e1
              omega
            · rw [e] at h
              exact live_not_root st _ z2 h
          have hlz : st.lson z ≠ p := by
            intro e
            have hne : st.lson z ≠ NIL := by rw [e]; exact live_ne_nil st p hlp
            obtain ⟨_, c2⟩ := f3 z z2 hne
            rw [e] at c2
            have e1 := f5 p hlp (by rw [c2]; exact z2)
            rw [c2] at e1
            omega
          obtain ⟨g1, g2⟩ := splice_forest st rank z (st.lson z) hF' z2 (Or.inl ⟨rfl, z3⟩)
          have hTdead : (spliceState st z (st.lson z)).dad z = NIL := by
            unfold spliceState
            simp only [store_eq]
          have hTp : Live (spliceState st z (st.lson z)) p := (g2 p).mpr ⟨hlp, hpz⟩
          have htbq0 : st.text_buf (st.lson p) = st.text_buf p := by
            have := (f6 _ hql).2 (by rw [hqd]; exact hlp)
            rw [hqd] at this
            exact this.symm
          obtain ⟨k1, k2⟩ := replaceNode_forest (spliceState st z (st.lson z)) rank z p g1 z2.1
            hTdead hTp (by
              show st.text_buf z = st.text_buf p
              rw [z8, htbq0])
          refine ⟨_, _, DeleteNode_eq_C2 st p z hd hr hl hrq0 z1 hpz hpdz hq0z hrpz hdz hlsp hrsp
            hlz z6, k1, ?_, rfl, rfl, rfl⟩
          intro x
          rw [k2, g2]
          constructor
          · rintro ⟨h | h, hx⟩
            · subst h; exact ⟨z2, hx⟩
            · exact ⟨h.1, hx⟩
          · rintro ⟨h, hx⟩
            refine ⟨?_, hx⟩
            by_cases hxz : x = z
            · exact Or.inl hxz
            · exact Or.inr ⟨h, hxz⟩

/-- The comparison loop of `InsertNode` stops at the first index at which the
two strings differ, or at `FRAME_MAX`. -/
theorem cmpLoop_spec (tb : Nat → Nat) (r p : Nat) :
    ∀ (n i : Nat) (cmp : Int),
      i ≤ (cmpLoop tb r p n i cmp).1 ∧ (cmpLoop tb r p n i cmp).1 ≤ i + n ∧
      ∀ t, i ≤ t → t < (cmpLoop tb r p n i cmp).1 → tb (r + t) = tb (p + t) := by
  intro n
  induction n with
  | zero =>
    intro i cmp
    simp only [cmpLoop]
    exact ⟨Nat.le_refl _, Nat.le_refl _, fun t h1 h2 => absurd h2 (by omega)⟩
  | succ n ih =>
    intro i cmp
    unfold cmpLoop
    simp only
    by_cases hc : ((tb (r + i) : Int) - (tb (p + i) : Int)) ≠ 0
    · rw [if_pos hc]
      exact ⟨Nat.le_refl _, by omega, fun t h1 h2 => absurd h2 (by simp only; omega)⟩
    · rw [if_neg hc]
      obtain ⟨a, b, c⟩ := ih (i + 1) ((tb (r + i) : Int) - (tb (p + i) : Int))
      refine ⟨by omega, by omega, ?_⟩
      intro t h1 h2
      by_cases ht : t = i
      · subst ht
        have : (tb (r + t) : Int) - (tb (p + t) : Int) = 0 := by
          by_contra h; exact hc h
        omega
      · exact c t (by omega) h2

/-- Clearing the child links of a node outside the trees changes nothing for
the trees. -/
theorem clearKids_forest (st : LzState) (rank : Nat → Nat) (r ml : Nat) (hF : Forest st rank)
    (hr : r < RING_MAX) (hdead : st.dad r = NIL) :
    Forest { st with lson := store st.lson r NIL, rson := store st.rson r NIL,
                     match_length := ml } rank := by
  have hF' := hF
  obtain ⟨f1, f2, f3, f4, f5, f6⟩ := hF
  have hnr : ¬ Live st r := fun h => h.2 hdead
  have hhr : ∀ q, Holder st q → q ≠ r := by
    rintro q (h | h) rfl
    · exact hnr h
    · exact absurd hr (by have := h.1; omega)
  refine ⟨?_, ?_, ?_, ?_, ?_, ?_⟩
  · intro x hx
    have hx' : Live st x := hx
    obtain ⟨a, b⟩ := f1 x hx'
    refine ⟨a, ?_⟩
    have hne := hhr _ a
    show store st.rson r NIL (st.dad x) = x ∨ (Live st (st.dad x) ∧ store st.lson r NIL (st.dad x) = x)
    rw [store_ne _ _ _ _ hne, store_ne _ _ _ _ hne]
    exact b
  · intro q hq hne
    have hq' : Holder st q := hq
    have hqr := hhr q hq'
    show Live st (store st.rson r NIL q) ∧ st.dad (store st.rson r NIL q) = q
    have hne' : store st.rson r NIL q ≠ NIL := hne
    rw [store_ne _ _ _ _ hqr] at hne' ⊢
    exact f2 q hq' hne'
  · intro q hq hne
    have hq' : Live st q := hq
    have hqr := hhr q (Or.inl hq')
    show Live st (store st.lson r NIL q) ∧ st.dad (store st.lson r NIL q) = q
    have hne' : store st.lson r NIL q ≠ NIL := hne
    rw [store_ne _ _ _ _ hqr] at hne' ⊢
    exact f3 q hq' hne'
  · intro q hq hne
    have hq' : Live st q := hq
    have hqr := hhr q (Or.inl hq')
    show store st.lson r NIL q ≠ store st.rson r NIL q
    have hne' : store st.lson r NIL q ≠ NIL := hne
    rw [store_ne _ _ _ _ hqr] at hne' ⊢
    rw [store_ne _ _ _ _ hqr]
    exact f4 q hq' hne'
  · exact f5
  · exact f6

/-- The descent of `InsertNode(r)` from the node `p` ends: `r` is hung into the
tree or takes the place of a node that matches in full length; the trees stay
well formed and the match reported is one of a node that was in a tree. -/
theorem insertLoop_spec (r : Nat) (hr : r < RING_MAX) :
    ∀ (fuel : Nat) (st : LzState) (p : Nat) (cmp : Int) (rank : Nat → Nat),
      Forest st rank → st.dad r = NIL → st.lson r = NIL → st.rson r = NIL →
      Holder st p →
      (isRoot p → 0 ≤ cmp ∧ p = RING_MAX + 1 + st.text_buf r) →
      (Live st p → st.text_buf p = st.text_buf r) →
      (Live st p → (above st rank p).card + 1 ≤ fuel) →
      (isRoot p → RING_MAX + 1 ≤ fuel) →
      MatchOK st.text_buf (Live st) r st.match_length st.match_position →
      ∃ st' rank', insertLoop r fuel st p cmp = some st' ∧ Forest st' rank' ∧
        (∀ x, Live st' x → x = r ∨ Live st x) ∧ Live st' r ∧ st'.text_buf = st.text_buf ∧
        MatchOK st.text_buf (Live st) r st'.match_length st'.match_position := by
  intro fuel
  induction fuel with
  | zero =>
    intro st p cmp rank hF hdead hlr hrr hp hroot hbyte hfl hfr hm
    rcases hp with h | h
    · have := hfl h; omega
    · have := hfr h; unfold RING_MAX at this; omega
  | succ fuel ih =>
    intro st p cmp rank hF hdead hlr hrr hp hroot hbyte hfl hfr hm
    have hF' := hF
    obtain ⟨f1, f2, f3, f4, f5, f6⟩ := hF
    unfold insertLoop
    by_cases h1 : cmp ≥ 0 ∧ st.rson p = NIL
    · rw [if_pos h1]
      obtain ⟨g1, g2⟩ := insertRight_forest st rank r p hF' hr hdead hlr hrr hp h1.2
        (fun h => (hroot h).2) hbyte
      exact ⟨_, _, rfl, g1, fun x hx => (g2 x).mp hx, (g2 r).mpr (Or.inl rfl), rfl, hm⟩
    · rw [if_neg h1]
      by_cases h2 : ¬ cmp ≥ 0 ∧ st.lson p = NIL
      · rw [if_pos h2]
        have hlp : Live st p := by
          rcases hp with h | h
          · exact h
          · exact absurd (hroot h).1 h2.1
        obtain ⟨g1, g2⟩ := insertLeft_forest st rank r p hF' hr hdead hlr hrr hlp h2.2 (hbyte hlp)
        exact ⟨_, _, rfl, g1, fun x hx => (g2 x).mp hx, (g2 r).mpr (Or.inl rfl), rfl, hm⟩
      · rw [if_neg h2]
        simp only
        -- the child the descent moves to
        have hchild : Live st (if cmp ≥ 0 then st.rson p else st.lson p) ∧
            st.dad (if cmp ≥ 0 then st.rson p else st.lson p) = p := by
          by_cases hc : cmp ≥ 0
          · rw [if_pos hc]
            exact f2 p hp (fun h => h1 ⟨hc, h⟩)
          · rw [if_neg hc]
            have hlp : Live st p := by
              rcases hp with h | h
              · exact h
              · exact absurd (hroot h).1 hc
            exact f3 p hlp (fun h => h2 ⟨hc, h⟩)
        generalize (if cmp ≥ 0 then st.rson p else st.lson p) = c at hchild ⊢
        obtain ⟨hcl, hcd⟩ := hchild
        have hcb : st.text_buf c = st.text_buf r := by
          obtain ⟨a, b⟩ := f6 c hcl
          rw [hcd] at a b
          rcases hp with h | h
          · rw [← b h]; exact hbyte h
          · have e1 := a h
            have e2 := (hroot h).2
            omega
        have hfuel : (above st rank c).card + 1 ≤ fuel := by
          rcases hp with h | h
          · have e1 := f5 c hcl (by rw [hcd]; exact h)
            rw [hcd] at e1
            have e2 := above_card_lt st rank p c hcl e1
            have e3 := hfl h
            omega
          · have e2 := above_card_lt_max st rank c hcl
            have e3 := hfr h
            omega
        have hnroot : ¬ isRoot c := live_not_root st c hcl
        obtain ⟨s1, s2, s3⟩ := cmpLoop_spec st.text_buf r c (FRAME_MAX - 1) 1 cmp
        generalize cmpLoop st.text_buf r c (FRAME_MAX - 1) 1 cmp = ic at s1 s2 s3 ⊢
        have heq : ∀ t, t < ic.1 → st.text_buf (r + t) = st.text_buf (c + t) := by
          intro t ht
          by_cases h0 : t = 0
          · subst h0; rw [Nat.add_zero, Nat.add_zero, hcb]
          · exact s3 t (by omega) ht
        have hi18 : ic.1 ≤ FRAME_MAX := by unfold FRAME_MAX at s2 ⊢; omega
        by_cases hgt : ic.1 > st.match_length
        · rw [if_pos hgt]
          by_cases hv : c ≠ andNMASK ((r : Int) - 1)
          · rw [if_pos hv]
            simp only
            have hm2 : MatchOK st.text_buf (Live st) r ic.1 c :=
              Or.inr ⟨hcl, hv, hi18, heq⟩
            by_cases hfull : ic.1 ≥ FRAME_MAX
            · rw [if_pos hfull]
              obtain ⟨g1, g2⟩ := replaceNode_forest
                { st with match_length := ic.1, match_position := c } rank r c hF' hr hdead hcl
                hcb.symm
              refine ⟨_, _, rfl, g1, ?_, ?_, rfl, hm2⟩
              · intro x hx
                exact ((g2 x).mp hx).1
              · refine (g2 r).mpr ⟨Or.inl rfl, ?_⟩
                rintro rfl
                exact hcl.2 hdead
            · rw [if_neg hfull]
              exact ih { st with match_length := ic.1, match_position := c } c ic.2 rank hF'
                hdead hlr hrr (Or.inl hcl) (fun h => absurd h hnroot) (fun _ => hcb)
                (fun _ => hfuel) (fun h => absurd h hnroot) hm2
          · rw [if_neg hv]
            by_cases hfull : st.match_length ≥ FRAME_MAX
            · rw [if_pos hfull]
              omega
            · rw [if_neg hfull]
              exact ih st c ic.2 rank hF' hdead hlr hrr (Or.inl hcl) (fun h => absurd h hnroot)
                (fun _ => hcb) (fun _ => hfuel) (fun h => absurd h hnroot) hm
        · rw [if_neg hgt]
          exact ih st c ic.2 rank hF' hdead hlr hrr (Or.inl hcl) (fun h => absurd h hnroot)
            (fun _ => hcb) (fun _ => hfuel) (fun h => absurd h hnroot) hm

/-- `InsertNode(r)` for a node `r` outside the trees whose first byte is a
byte: it returns, the trees stay well formed with `r` in them, no other node
comes in, and the match reported is one of a node that was in a tree. -/
theorem InsertNode_forest (st : LzState) (rank : Nat → Nat) (r : Nat)
    (hF : Forest st rank) (hr : r < RING_MAX) (hdead : st.dad r = NIL)
    (hbyte : st.text_buf r < 256) :
    ∃ st' rank', InsertNode r st = some st' ∧ Forest st' rank' ∧
      (∀ x, Live st' x → x = r ∨ Live st x) ∧ Live st' r ∧ st'.text_buf = st.text_buf ∧
      MatchOK st.text_buf (Live st) r st'.match_length st'.match_position := by
  unfold InsertNode
  simp only
  have hF0 := clearKids_forest st rank r 0 hF hr hdead
  have hroot : isRoot (RING_MAX + 1 + st.text_buf r) := by
    unfold isRoot; omega
  exact insertLoop_spec r hr (RING_MAX + 1)
    { st with lson := store st.lson r NIL, rson := store st.rson r NIL, match_length := 0 }
    (RING_MAX + 1 + st.text_buf r) 1 rank hF0 hdead (store_eq _ _ _) (store_eq _ _ _)
    (Or.inr hroot) (fun _ => ⟨by decide, rfl⟩)
    (fun h => absurd hroot (live_not_root _ _ h))
    (fun h => absurd hroot (live_not_root _ _ h))
    (fun _ => Nat.le_refl _) (Or.inl rfl)

end Gbacomp

namespace Gbacomp

/-! ## LZ: the decoder on a stream of units -/

/-- The record of match units does not change what the decoder loop returns. -/
theorem lzDecTrace_fst (dstS : Nat) :
    ∀ (fuel : Nat) (srcL : List Nat) (flags : Nat) (jj : Int) (dstD : List Nat)
      (tr : List (Nat × Nat × Nat)),
      (lzDecTrace dstS fuel srcL flags jj dstD tr).map Prod.fst
        = lzDecLoop dstS fuel srcL flags jj dstD := by
  intro fuel
  induction fuel with
  | zero =>
    intro srcL flags jj dstD tr
    unfold lzDecTrace lzDecLoop
    split <;> rfl
  | succ n ih =>
    intro srcL flags jj dstD tr
    unfold lzDecTrace lzDecLoop
    by_cases hd : dstD.length < dstS
    · rw [if_pos hd, if_pos hd]
      have key : ∀ (fl : Nat) (j : Int) (s : List Nat),
          Option.map Prod.fst
            (if (fl >>> j.toNat) &&& 1 ≠ 0 then
              match s with
              | b0 :: b1 :: srcL =>
                match lzCopy dstS ((((b0 &&& 15) <<< 8) ||| b1) + 1) ((b0 >>> 4) + THRESHOLD + 1) dstD with
                | none => none
                | some dstD2 =>
                  lzDecTrace dstS n srcL fl (j - 1) dstD2
                    (tr ++ [(dstD.length, (b0 >>> 4) + THRESHOLD + 1, (((b0 &&& 15) <<< 8) ||| b1) + 1)])
              | _ => none
            else
              match s with
              | [] => none
              | b :: srcL => lzDecTrace dstS n srcL fl (j - 1) (dstD ++ [b]) tr)
          = (if (fl >>> j.toNat) &&& 1 ≠ 0 then
              match s with
              | b0 :: b1 :: srcL =>
                match lzCopy dstS ((((b0 &&& 15) <<< 8) ||| b1) + 1) ((b0 >>> 4) + THRESHOLD + 1) dstD with
                | none => none
                | some dstD => lzDecLoop dstS n srcL fl (j - 1) dstD
              | _ => none
            else
              match s with
              | [] => none
              | b :: srcL => lzDecLoop dstS n srcL fl (j - 1) (dstD ++ [b])) := by
        intro fl j s
        by_cases hb : (fl >>> j.toNat) &&& 1 ≠ 0
        · rw [if_pos hb, if_pos hb]
          rcases s with _ | ⟨b0, _ | ⟨b1, rest⟩⟩
          · rfl
          · rfl
          · simp only
            cases hc : lzCopy dstS ((((b0 &&& 15) <<< 8) ||| b1) + 1) ((b0 >>> 4) + THRESHOLD + 1) dstD with
            | none => rfl
            | some d2 => exact ih _ _ _ _ _
        · rw [if_neg hb, if_neg hb]
          rcases s with _ | ⟨b, rest⟩
          · rfl
          · exact ih _ _ _ _ _
      by_cases hj : jj < 0
      · rw [if_pos hj]
        try rw [if_pos hj]
        rcases srcL with _ | ⟨f, rest⟩
        · rfl
        · exact key f 7 rest
      · rw [if_neg hj]
        try rw [if_neg hj]
        exact key flags jj srcL
    · rw [if_neg hd, if_neg hd]
      rfl

theorem lzCopy_length (dstS ofs : Nat) :
    ∀ (count : Nat) (d d2 : List Nat), lzCopy dstS ofs count d = some d2 →
      d2.length = d.length + count := by
  intro count
  induction count with
  | zero =>
    intro d d2 h
    simp only [lzCopy, Option.some.injEq] at h
    subst h
    rfl
  | succ n ih =>
    intro d d2 h
    unfold lzCopy at h
    split at h
    · have := ih _ _ h
      simp only [List.length_append, List.length_singleton] at this
      omega
    · cases h

theorem applyUnit_length (dstS : Nat) (u : LzUnit) (d d2 : List Nat)
    (h : applyUnit dstS u d = some d2) : d2.length = d.length + u.count ∧ d.length < dstS := by
  unfold applyUnit at h
  split at h
  · rename_i hlt
    refine ⟨?_, hlt⟩
    cases u with
    | lit b =>
      simp only [Option.some.injEq] at h
      subst h
      simp [LzUnit.count]
    | mat b0 b1 => exact lzCopy_length _ _ _ _ _ h
  · cases h

theorem get?_lt_aux {α : Type} (t : List α) (j : Nat) (a : α) (h : t.get? j = some a) : j < t.length := by
  by_contra hc
  rw [List.get?_eq_getElem?, List.getElem?_eq_none (by omega)] at h
  cases h

theorem bit_iff (f j : Nat) : ((f >>> j) &&& 1 ≠ 0) ↔ f.testBit j = true := by
  unfold Nat.testBit
  rw [Nat.and_comm]
  simp

theorem groupFlags_zero : ∀ us : List LzUnit, groupFlags us 0 = 0 := by
  intro us
  induction us with
  | nil => rfl
  | cons u us ih =>
    unfold groupFlags
    have h0 : (0 : Nat) >>> 1 = 0 := rfl
    rw [h0, ih]
    cases u.isMatch <;> rfl

theorem two_pow_shift (m : Nat) (hm : 1 ≤ m) : (2 ^ m) >>> 1 = 2 ^ (m - 1) := by
  rw [Nat.shiftRight_eq_div_pow]
  obtain ⟨k, rfl⟩ : ∃ k, m = k + 1 := ⟨m - 1, by omega⟩
  rw [Nat.pow_succ]
  simp

theorem groupFlags_lt : ∀ (us : List LzUnit) (m : Nat), groupFlags us (2 ^ m) < 2 ^ (m + 1) := by
  intro us
  induction us with
  | nil => intro m; exact Nat.two_pow_pos _
  | cons u us ih =>
    intro m
    unfold groupFlags
    apply Nat.or_lt_two_pow
    · split
      · exact Nat.pow_lt_pow_right (by decide) (Nat.lt_succ_self _)
      · exact Nat.two_pow_pos _
    · by_cases hm : m = 0
      · subst hm
        have h0 : (2 ^ 0 : Nat) >>> 1 = 0 := rfl
        rw [h0, groupFlags_zero]
        decide
      · rw [two_pow_shift m (by omega)]
        have := ih (m - 1)
        have e : m - 1 + 1 = m := by omega
        rw [e] at this
        exact Nat.lt_trans this (Nat.pow_lt_pow_right (by decide) (Nat.lt_succ_self _))

/-- Bit `m - k` of the flag byte of a group is the flag of its unit `k`. -/
theorem groupFlags_bit : ∀ (us : List LzUnit) (m k : Nat) (u : LzUnit), us.length ≤ m + 1 →
    us.get? k = some u → (groupFlags us (2 ^ m)).testBit (m - k) = u.isMatch := by
  intro us
  induction us with
  | nil => intro m k u _ h; simp at h
  | cons v us ih =>
    intro m k u hlen hk
    unfold groupFlags
    rw [Nat.testBit_or]
    cases k with
    | zero =>
      simp only [List.get?_cons_zero, Option.some.injEq] at hk
      subst hk
      have h2 : (groupFlags us (2 ^ m >>> 1)).testBit (m - 0) = false := by
        apply Nat.testBit_lt_two_pow
        by_cases hm : m = 0
        · subst hm
          have h0 : (2 ^ 0 : Nat) >>> 1 = 0 := rfl
          rw [h0, groupFlags_zero]
          decide
        · rw [two_pow_shift m (by omega)]
          have := groupFlags_lt us (m - 1)
          have e : m - 1 + 1 = m := by omega
          rw [e] at this
          exact this
      rw [h2, Bool.or_false]
      cases hv : v.isMatch
      · simp
      · simp [Nat.testBit_two_pow]
    | succ k =>
      simp only [List.get?_cons_succ] at hk
      have hklt := get?_lt_aux us k u hk
      simp only [List.length_cons] at hlen
      have hm : 1 ≤ m := by omega
      rw [two_pow_shift m hm]
      have e : m - (k + 1) = (m - 1) - k := by omega
      rw [e, ih (m - 1) k u (by omega) hk]
      have h1 : (if v.isMatch = true then 2 ^ m else 0).testBit (m - 1 - k) = false := by
        split
        · rw [Nat.testBit_two_pow]
          simp
          omega
        · simp
      rw [h1, Bool.false_or]

/-- The sum of the output bytes of the units of a list. -/
theorem decUnits_append (dstS : Nat) : ∀ (a b : List LzUnit) (d : List Nat),
    decUnits dstS (a ++ b) d = (decUnits dstS a d).bind (decUnits dstS b) := by
  intro a
  induction a with
  | nil => intro b d; rfl
  | cons u a ih =>
    intro b d
    simp only [List.cons_append, decUnits]
    cases h : applyUnit dstS u d with
    | none => rfl
    | some d1 => exact ih b d1

theorem unitTrace_append : ∀ (a b : List LzUnit) (ii : Nat),
    unitTrace (a ++ b) ii = unitTrace a ii ++ unitTrace b (ii + (a.map LzUnit.count).sum) := by
  intro a
  induction a with
  | nil => intro b ii; simp [unitTrace]
  | cons u a ih =>
    intro b ii
    cases u with
    | lit c =>
      show unitTrace (a ++ b) (ii + 1)
        = unitTrace a (ii + 1) ++ unitTrace b (ii + (1 + (a.map LzUnit.count).sum))
      rw [ih b (ii + 1), Nat.add_assoc]
    | mat b0 b1 =>
      show (ii, (LzUnit.mat b0 b1).count, (LzUnit.mat b0 b1).ofs) ::
          unitTrace (a ++ b) (ii + (LzUnit.mat b0 b1).count)
        = (ii, (LzUnit.mat b0 b1).count, (LzUnit.mat b0 b1).ofs) ::
          (unitTrace a (ii + (LzUnit.mat b0 b1).count) ++
            unitTrace b (ii + ((LzUnit.mat b0 b1).count + (a.map LzUnit.count).sum)))
      rw [ih b _, Nat.add_assoc]

theorem decUnits_length (dstS : Nat) : ∀ (us : List LzUnit) (d d2 : List Nat),
    decUnits dstS us d = some d2 → d2.length = d.length + (us.map LzUnit.count).sum := by
  intro us
  induction us with
  | nil =>
    intro d d2 h
    simp only [decUnits, Option.some.injEq] at h
    subst h
    simp
  | cons u us ih =>
    intro d d2 h
    simp only [decUnits] at h
    cases h1 : applyUnit dstS u d with
    | none => rw [h1] at h; cases h
    | some d1 =>
      rw [h1] at h
      simp only [Option.some_bind] at h
      have e1 := (applyUnit_length dstS u d d1 h1).1
      have e2 := ih d1 d2 h
      simp only [List.map_cons, List.sum_cons]
      omega

/-- Reading the flag byte and handling a unit happen in the same round. -/
theorem lzDecTrace_flag (dstS fuel f f0 : Nat) (s d : List Nat) (tr : List (Nat × Nat × Nat)) :
    lzDecTrace dstS fuel (f :: s) f0 (-1) d tr = lzDecTrace dstS fuel s f 7 d tr := by
  cases fuel with
  | zero => unfold lzDecTrace; rfl
  | succ n =>
    unfold lzDecTrace
    by_cases hd : d.length < dstS
    · rw [if_pos hd, if_pos hd]
      rfl
    · rw [if_neg hd, if_neg hd]

/-- The decoder loop on the units of (the rest of) a group. -/
theorem decUnits_run (dstS f : Nat) (rest : List Nat) :
    ∀ (us : List LzUnit) (fuel : Nat) (jj : Int) (d d2 : List Nat) (tr : List (Nat × Nat × Nat)),
      (us.length : Int) ≤ jj + 1 →
      (∀ k u, us.get? k = some u → (f.testBit (jj - k).toNat = u.isMatch)) →
      decUnits dstS us d = some d2 → us.length ≤ fuel →
      lzDecTrace dstS fuel (us.flatMap LzUnit.bytes ++ rest) f jj d tr
        = lzDecTrace dstS (fuel - us.length) rest f (jj - us.length) d2
            (tr ++ unitTrace us d.length) := by
  intro us
  induction us with
  | nil =>
    intro fuel jj d d2 tr _ _ h _
    simp only [decUnits, Option.some.injEq] at h
    subst h
    simp [unitTrace]
  | cons u us ih =>
    intro fuel jj d d2 tr hlen hbits h hfuel
    simp only [decUnits] at h
    cases h1 : applyUnit dstS u d with
    | none => rw [h1] at h; cases h
    | some d1 =>
      rw [h1] at h
      simp only [Option.some_bind] at h
      obtain ⟨el, hdl⟩ := applyUnit_length dstS u d d1 h1
      simp only [List.length_cons] at hlen hfuel
      obtain ⟨n, rfl⟩ : ∃ n, fuel = n + 1 := ⟨fuel - 1, by omega⟩
      have hj0 : ¬ jj < 0 := by omega
      have hbit0 : f.testBit jj.toNat = u.isMatch := by
        have := hbits 0 u rfl
        simpa using this
      have hbits' : ∀ k v, us.get? k = some v → (f.testBit (jj - 1 - k).toNat = v.isMatch) := by
        intro k v hk
        have := hbits (k + 1) v hk
        have e : jj - ((k + 1 : Nat) : Int) = jj - 1 - (k : Int) := by push_cast; omega
        rw [e] at this
        exact this
      have hrec := ih n (jj - 1) d1 d2 (tr ++ unitTrace [u] d.length) (by push_cast at hlen ⊢; omega)
        hbits' h (by omega)
      have e2 : n + 1 - (us.length + 1) = n - us.length := by omega
      have e3 : jj - ((us.length + 1 : Nat) : Int) = jj - 1 - (us.length : Int) := by
        push_cast; omega
      simp only [List.length_cons]
      rw [e2, e3]
      have e4 : unitTrace (u :: us) d.length
          = unitTrace [u] d.length ++ unitTrace us d1.length := by
        have := unitTrace_append [u] us d.length
        simp only [List.singleton_append, List.map_cons, List.map_nil, List.sum_cons,
          List.sum_nil, Nat.add_zero] at this
        rw [this, el]
      rw [e4, ← List.append_assoc, ← hrec]
      conv_lhs => unfold lzDecTrace
      rw [if_pos hdl, if_neg hj0]
      cases u with
      | lit b =>
        have hb : ¬ ((f >>> jj.toNat) &&& 1 ≠ 0) := by
          rw [bit_iff, hbit0]; simp [LzUnit.isMatch]
        simp only [List.flatMap_cons, LzUnit.bytes, List.cons_append, List.nil_append]
        rw [if_neg hb]
        simp only [applyUnit, if_pos hdl, Option.some.injEq] at h1
        subst h1
        simp [unitTrace]
      | mat b0 b1 =>
        have hb : ((f >>> jj.toNat) &&& 1 ≠ 0) := by
          rw [bit_iff, hbit0]; simp [LzUnit.isMatch]
        simp only [List.flatMap_cons, LzUnit.bytes, List.cons_append, List.nil_append]
        rw [if_pos hb]
        simp only [applyUnit, if_pos hdl, LzUnit.ofs, LzUnit.count] at h1
        simp only [h1]
        simp [unitTrace, LzUnit.count, LzUnit.ofs]

theorem lzDecTrace_done (dstS fuel f : Nat) (jj : Int) (s d : List Nat)
    (tr : List (Nat × Nat × Nat)) (h : dstS ≤ d.length) :
    lzDecTrace dstS fuel s f jj d tr = some (d, tr) := by
  cases fuel with
  | zero => unfold lzDecTrace; rw [if_neg (by omega)]
  | succ n => unfold lzDecTrace; rw [if_neg (by omega)]

/-- The decoder loop on one group of the stream. -/
theorem decGroup (dstS : Nat) (g : List LzUnit) (hg : g.length ≤ 8) (fuel : Nat)
    (rest : List Nat) (f0 : Nat) (d d2 : List Nat) (tr : List (Nat × Nat × Nat))
    (h : decUnits dstS g d = some d2) (hfuel : g.length ≤ fuel) :
    lzDecTrace dstS fuel (serGroup g ++ rest) f0 (-1) d tr
      = lzDecTrace dstS (fuel - g.length) rest (groupFlags g 0x80) (7 - g.length) d2
          (tr ++ unitTrace g d.length) := by
  unfold serGroup
  rw [List.cons_append, lzDecTrace_flag]
  apply decUnits_run dstS _ rest g fuel 7 d d2 tr (by omega) _ h hfuel
  intro k u hk
  have hklt := get?_lt_aux g k u hk
  have e : ((7 : Int) - (k : Int)).toNat = 7 - k := by omega
  rw [e]
  exact groupFlags_bit g 7 k u (by omega) hk

/-- The decoder loop on a stream of full groups and a last group. -/
theorem decStream (dstS : Nat) :
    ∀ (full : List (List LzUnit)) (last : List LzUnit) (fuel : Nat) (pad : List Nat) (f0 : Nat)
      (d y : List Nat) (tr : List (Nat × Nat × Nat)),
      (∀ g ∈ full, g.length = 8) → last.length ≤ 8 →
      decUnits dstS (full.flatMap id ++ last) d = some y → dstS ≤ y.length →
      (full.flatMap id ++ last).length ≤ fuel →
      lzDecTrace dstS fuel
          (full.flatMap serGroup ++ ((if last = [] then [] else serGroup last) ++ pad)) f0 (-1) d tr
        = some (y, tr ++ unitTrace (full.flatMap id ++ last) d.length) := by
  intro full
  induction full with
  | nil =>
    intro last fuel pad f0 d y tr _ hlast h hy hfuel
    simp only [List.flatMap_nil, List.nil_append] at h hfuel ⊢
    by_cases hl : last = []
    · subst hl
      simp only [decUnits, Option.some.injEq] at h
      subst h
      simp only [if_true, List.nil_append, unitTrace, List.append_nil]
      exact lzDecTrace_done _ _ _ _ _ _ _ hy
    · rw [if_neg hl, decGroup dstS last hlast fuel pad f0 d y tr h hfuel]
      exact lzDecTrace_done _ _ _ _ _ _ _ hy
  | cons g full ih =>
    intro last fuel pad f0 d y tr hfull hlast h hy hfuel
    have hg8 : g.length = 8 := hfull g (List.mem_cons_self _ _)
    simp only [List.flatMap_cons, id, List.append_assoc] at h hfuel ⊢
    rw [decUnits_append] at h
    cases h1 : decUnits dstS g d with
    | none => rw [h1] at h; cases h
    | some d1 =>
      rw [h1] at h
      simp only [Option.some_bind] at h
      simp only [List.length_append] at hfuel
      rw [decGroup dstS g (by omega) fuel _ f0 d d1 tr h1 (by omega)]
      have e7 : (7 : Int) - (g.length : Int) = -1 := by rw [hg8]; rfl
      rw [e7]
      have hrec := ih last (fuel - g.length) pad (groupFlags g 0x80) d1 y
        (tr ++ unitTrace g d.length) (fun g' hg' => hfull g' (List.mem_cons_of_mem _ hg')) hlast h hy
        (by simp only [List.length_append]; omega)
      rw [hrec, unitTrace_append g (full.flatMap id ++ last) d.length,
        ← decUnits_length dstS g d d1 h1, List.append_assoc]

end Gbacomp

namespace Gbacomp

/-! ## LZ: the loop of the encoder -/

theorem ringPos_eq (j : Nat) : ringPos j = (4078 + j) % 4096 := rfl

theorem ringPos_lt (j : Nat) : ringPos j < 4096 := by rw [ringPos_eq]; omega

theorem ringPos_succ (j : Nat) : (ringPos j + 1) % RING_MAX = ringPos (j + 1) := by
  show (ringPos j + 1) % 4096 = _
  rw [ringPos_eq, ringPos_eq]; omega

theorem andNMASK_pred (q : Nat) (hq : 1 ≤ q) :
    andNMASK ((ringPos q : Int) - 1) = ringPos (q - 1) := by
  unfold andNMASK
  rw [ringPos_eq, ringPos_eq]
  omega

theorem getD_lt_256 (x : List Nat) (hx : Bytes x) (j : Nat) (hj : j < x.length) :
    x.getD j 0 < 256 := by
  rw [List.getD_eq_getElem _ _ hj]
  exact hx _ (List.getElem_mem _)

theorem text_read (x : List Nat) (n : Nat) (tb : Nat → Nat) (h : TextOK x n tb) (j t : Nat)
    (h1 : j + t < n) (h2 : n ≤ j + t + 4096) (ht : t < 18) :
    tb (ringPos j + t) = x.getD (j + t) 0 := by
  have h3 := h (j + t) h1 h2
  by_cases hw : ringPos j + t < 4096
  · have e : ringPos (j + t) = ringPos j + t := by
      rw [ringPos_eq] at hw ⊢; rw [ringPos_eq]; omega
    rw [← e]; exact h3.1
  · have e : ringPos (j + t) + 4096 = ringPos j + t := by
      rw [ringPos_eq] at hw ⊢; rw [ringPos_eq]; omega
    have l : ringPos (j + t) < 17 := by
      rw [ringPos_eq] at hw ⊢; omega
    rw [← e]; exact h3.2 l

theorem forest_text (st : LzState) (rank : Nat → Nat) (tb : Nat → Nat) (hF : Forest st rank)
    (h : ∀ p, Live st p → tb p = st.text_buf p) : Forest { st with text_buf := tb } rank := by
  obtain ⟨f1, f2, f3, f4, f5, f6⟩ := hF
  refine ⟨f1, f2, f3, f4, f5, ?_⟩
  intro p hp
  have hp' : Live st p := hp
  refine ⟨?_, ?_⟩
  · intro hr
    show st.dad p = RING_MAX + 1 + tb p
    rw [h p hp']; exact (f6 p hp').1 hr
  · intro hl
    have hl' : Live st (st.dad p) := hl
    show tb (st.dad p) = tb p
    rw [h p hp', h _ hl']; exact (f6 p hp').2 hl'

theorem deleteStep (g : LzState) (rank : Nat → Nat) (pos : Nat) (hF : Forest g rank)
    (hW : WindowFrom g pos pos) :
    ∃ g1 rank1, DeleteNode (pos % RING_MAX) g = some g1 ∧ Forest g1 rank1 ∧
      WindowFrom g1 (pos + 1) pos ∧ g1.text_buf = g.text_buf := by
  have hs : pos % RING_MAX < RING_MAX := Nat.mod_lt _ (by decide)
  obtain ⟨g1, rank1, hD, hF1, hL, htb, _, _⟩ := DeleteNode_forest g rank _ hF hs
  refine ⟨g1, rank1, hD, hF1, ?_, htb⟩
  intro p hp
  obtain ⟨hp1, hp2⟩ := (hL p).1 hp
  obtain ⟨j, hj1, hj2, hj3⟩ := hW p hp1
  refine ⟨j, hj1, ?_, hj3⟩
  have hne : ringPos j ≠ pos % 4096 := by rw [← hj3]; exact hp2
  rw [ringPos_eq] at hne
  have hj2' : pos ≤ j + 4078 := hj2
  show pos + 1 ≤ j + 4078
  omega

theorem textStep (x : List Nat) (g : LzState) (rank : Nat → Nat) (pos c : Nat)
    (hc : c = x.getD (pos + 18) 0)
    (hF : Forest g rank) (hW : WindowFrom g (pos + 1) pos) (hT : TextOK x (pos + 18) g.text_buf) :
    Forest { g with text_buf := (if pos % RING_MAX < FRAME_MAX - 1 then store (store g.text_buf (pos % RING_MAX) c) (pos % RING_MAX + RING_MAX) c else store g.text_buf (pos % RING_MAX) c) } rank ∧
    TextOK x (pos + 19) (if pos % RING_MAX < FRAME_MAX - 1 then store (store g.text_buf (pos % RING_MAX) c) (pos % RING_MAX + RING_MAX) c else store g.text_buf (pos % RING_MAX) c) := by
  obtain ⟨tb2, htb2⟩ : ∃ tb2, tb2 = (if pos % RING_MAX < FRAME_MAX - 1 then store (store g.text_buf (pos % RING_MAX) c) (pos % RING_MAX + RING_MAX) c else store g.text_buf (pos % RING_MAX) c) := ⟨_, rfl⟩
  rw [← htb2]
  have hv : ∀ y, tb2 y = if y = pos % 4096 ∨ (pos % 4096 < 17 ∧ y = pos % 4096 + 4096) then c else g.text_buf y := by
    intro y
    rw [htb2]
    show (if pos % 4096 < 17 then store (store g.text_buf (pos % 4096) c) (pos % 4096 + 4096) c else store g.text_buf (pos % 4096) c) y = _
    by_cases h17 : pos % 4096 < 17
    · rw [if_pos h17]
      unfold store
      by_cases h1 : y = pos % 4096 + 4096
      · rw [if_pos h1, if_pos (Or.inr ⟨h17, h1⟩)]
      · rw [if_neg h1]
        by_cases h2 : y = pos % 4096
        · rw [if_pos h2, if_pos (Or.inl h2)]
        · rw [if_neg h2, if_neg (by intro h; rcases h with h | h; exact h2 h; exact h1 h.2)]
    · rw [if_neg h17]
      unfold store
      by_cases h2 : y = pos % 4096
      · rw [if_pos h2, if_pos (Or.inl h2)]
      · rw [if_neg h2, if_neg (by intro h; rcases h with h | h; exact h2 h; exact h17 h.1)]
  constructor
  · apply forest_text _ _ _ hF
    intro p hp
    obtain ⟨j, hj1, hj2, hj3⟩ := hW p hp
    have hj2' : pos + 1 ≤ j + 4078 := hj2
    rw [hv, if_neg]
    rw [hj3, ringPos_eq]
    omega
  · intro j hj1 hj2
    have hj2' : pos + 19 ≤ j + 4096 := hj2
    by_cases hj : j = pos + 18
    · have e : ringPos j = pos % 4096 := by rw [ringPos_eq, hj]; omega
      constructor
      · rw [hv, if_pos (Or.inl e), hc, hj]
      · intro h17
        have h17' : ringPos j < 17 := h17
        show tb2 (ringPos j + 4096) = _
        rw [hv, if_pos (Or.inr ⟨by omega, by omega⟩), hc, hj]
    · have hlt : j < pos + 18 := by omega
      have hne : ringPos j ≠ pos % 4096 := by rw [ringPos_eq]; omega
      have hlt2 := ringPos_lt j
      have h0 := hT j hlt (by show pos + 18 ≤ j + 4096; omega)
      constructor
      · rw [hv, if_neg (by omega)]; exact h0.1
      · intro h17
        show tb2 (ringPos j + 4096) = _
        rw [hv, if_neg (by omega)]; exact h0.2 h17

theorem insertStep (x : List Nat) (hx : Bytes x) (g : LzState) (rank : Nat → Nat) (q n : Nat)
    (hF : Forest g rank)
    (hW : ∀ p, Live g p → ∃ j, j < q ∧ q ≤ j + 4078 ∧ p = ringPos j)
    (hT : TextOK x n g.text_buf) (hq : q < n) (hn : n ≤ x.length) (hn2 : n ≤ q + 18) :
    ∃ g2 rank2, InsertNode (ringPos q) g = some g2 ∧ Forest g2 rank2 ∧ WindowFrom g2 q q ∧
      g2.text_buf = g.text_buf ∧ MatchAt x n q g2.match_length g2.match_position := by
  have hr : ringPos q < RING_MAX := ringPos_lt q
  have hdead : g.dad (ringPos q) = NIL := by
    by_contra h
    obtain ⟨j, hj1, hj2, hj3⟩ := hW _ ⟨hr, h⟩
    rw [ringPos_eq, ringPos_eq] at hj3
    omega
  have hbyte : g.text_buf (ringPos q) < 256 := by
    rw [(hT q hq (by show n ≤ q + 4096; omega)).1]
    exact getD_lt_256 x hx q (by omega)
  obtain ⟨g2, rank2, hI, hF2, hL, hLr, htb, hM⟩ := InsertNode_forest g rank _ hF hr hdead hbyte
  refine ⟨g2, rank2, hI, hF2, ?_, htb, ?_⟩
  · intro p hp
    rcases hL p hp with h | h
    · exact ⟨q, Nat.le_refl _, Nat.le_add_right _ _, h⟩
    · obtain ⟨j, hj1, hj2, hj3⟩ := hW p h
      exact ⟨j, by omega, hj2, hj3⟩
  · rcases hM with h0 | ⟨hlive, hne, hle, heq⟩
    · exact Or.inl h0
    · right
      obtain ⟨j, hj1, hj2, hj3⟩ := hW _ hlive
      refine ⟨j, ?_, hj2, hj3, hle, ?_⟩
      · by_contra hc
        have hj : j = q - 1 := by omega
        apply hne
        rw [andNMASK_pred q (by omega), hj3, hj]
      · intro t ht htn
        have hle' : g2.match_length ≤ 18 := hle
        have e1 := text_read x n g.text_buf hT q t htn (by omega) (by omega)
        have e2 := text_read x n g.text_buf hT j t (by omega) (by omega) (by omega)
        have e3 := heq t ht
        rw [hj3] at e3
        rw [← e1, ← e2]; exact e3

theorem readLoop_step (x : List Nat) (hx : Bytes x) (e : LzEnc) (pos : Nat)
    (hP : PosCore x pos e) (hlt : e.InOffset < x.length) :
    ∃ e1, (∀ n, readLoop x (n + 1) e = readLoop x n e1) ∧ PosCore x (pos + 1) e1 ∧
      MatchInv x (pos + 1) e1 ∧ SameOut e e1 := by
  obtain ⟨⟨rank, hF⟩, hr, hs, ⟨hl1, hl2, hl3, hl4, hl5⟩, hT, hW⟩ := hP
  have hoff : e.InOffset = pos + 18 := by
    rcases hl5 with h | h
    · exact h
    · omega
  obtain ⟨g1, rank1, hD, hF1, hW1, htb1⟩ := deleteStep e.g rank pos hF hW
  have hT1 : TextOK x (pos + 18) g1.text_buf := by rw [htb1, ← hoff]; exact hT
  obtain ⟨hF1', hT'⟩ := textStep x g1 rank1 pos (x.getD e.InOffset 0) (by rw [hoff]) hF1 hW1 hT1
  have hW1' : ∀ p, Live { g1 with text_buf := (if pos % RING_MAX < FRAME_MAX - 1 then store (store g1.text_buf (pos % RING_MAX) (x.getD e.InOffset 0)) (pos % RING_MAX + RING_MAX) (x.getD e.InOffset 0) else store g1.text_buf (pos % RING_MAX) (x.getD e.InOffset 0)) } p → ∃ j, j < pos + 1 ∧ pos + 1 ≤ j + 4078 ∧ p = ringPos j := by
    intro p hp
    obtain ⟨j, hj1, hj2, hj3⟩ := hW1 p hp
    exact ⟨j, by omega, hj2, hj3⟩
  obtain ⟨g2, rank2, hI, hF2, hW2, htb2, hM⟩ :=
    insertStep x hx _ rank1 (pos + 1) (pos + 19) hF1' hW1' hT' (by omega) (by omega) (by omega)
  rw [← ringPos_succ, ← hr] at hI
  refine ⟨{ e with g := g2, s := (pos % RING_MAX + 1) % RING_MAX, r := (e.r + 1) % RING_MAX, InOffset := e.InOffset + 1 }, ?_, ?_, ?_, ?_⟩
  · intro n
    conv_lhs => unfold readLoop
    rw [if_pos hlt]
    simp only [hs, hD, hI]
  · refine ⟨⟨rank2, hF2⟩, ?_, ?_, ⟨?_, ?_, ?_, ?_, ?_⟩, ?_, hW2⟩
    · show (e.r + 1) % RING_MAX = ringPos (pos + 1)
      rw [hr]; exact ringPos_succ pos
    · show (pos % 4096 + 1) % 4096 = (pos + 1) % 4096
      omega
    · show e.len + ((pos + 1 : Nat) : Int) = ((e.InOffset + 1 : Nat) : Int)
      push_cast; omega
    · show pos + 1 ≤ e.InOffset + 1
      omega
    · show e.InOffset + 1 ≤ x.length
      omega
    · show e.InOffset + 1 ≤ pos + 1 + 18
      omega
    · left
      show e.InOffset + 1 = pos + 1 + 18
      omega
    · show TextOK x (e.InOffset + 1) g2.text_buf
      rw [htb2]
      have : e.InOffset + 1 = pos + 19 := by omega
      rw [this]; exact hT'
  · intro _
    show MatchAt x (e.InOffset + 1) (pos + 1) g2.match_length g2.match_position
    rw [hoff]; exact hM
  · exact ⟨rfl, rfl, rfl, rfl, rfl⟩

theorem tailLoop_step (x : List Nat) (hx : Bytes x) (e : LzEnc) (pos : Nat)
    (hP : PosCore x pos e) (hN : e.InOffset = x.length) (hpos : pos < e.InOffset) :
    ∃ e1, (∀ n, tailLoop (n + 1) e = tailLoop n e1) ∧ PosCore x (pos + 1) e1 ∧
      MatchInv x (pos + 1) e1 ∧ SameOut e e1 ∧ e1.InOffset = x.length := by
  obtain ⟨⟨rank, hF⟩, hr, hs, ⟨hl1, hl2, hl3, hl4, hl5⟩, hT, hW⟩ := hP
  have hl4' : e.InOffset ≤ pos + 18 := hl4
  obtain ⟨g1, rank1, hD, hF1, hW1, htb1⟩ := deleteStep e.g rank pos hF hW
  rw [← hs] at hD
  by_cases hl : e.len - 1 ≠ 0
  · have hT1 : TextOK x e.InOffset g1.text_buf := by rw [htb1]; exact hT
    have hW1' : ∀ p, Live g1 p → ∃ j, j < pos + 1 ∧ pos + 1 ≤ j + 4078 ∧ p = ringPos j := by
      intro p hp
      obtain ⟨j, hj1, hj2, hj3⟩ := hW1 p hp
      exact ⟨j, by omega, hj2, hj3⟩
    obtain ⟨g2, rank2, hI, hF2, hW2, htb2, hM⟩ :=
      insertStep x hx g1 rank1 (pos + 1) e.InOffset hF1 hW1' hT1 (by omega) (by omega) (by omega)
    rw [← ringPos_succ, ← hr] at hI
    refine ⟨{ e with g := g2, s := (e.s + 1) % RING_MAX, r := (e.r + 1) % RING_MAX, len := e.len - 1 }, ?_, ?_, ?_, ?_, hN⟩
    · intro n
      conv_lhs => unfold tailLoop
      simp only [hD, hI, if_pos hl]
    · refine ⟨⟨rank2, hF2⟩, ?_, ?_, ⟨?_, ?_, hl3, ?_, Or.inr hN⟩, ?_, hW2⟩
      · show (e.r + 1) % RING_MAX = ringPos (pos + 1)
        rw [hr]; exact ringPos_succ pos
      · show (e.s + 1) % 4096 = (pos + 1) % 4096
        rw [hs]; show (pos % 4096 + 1) % 4096 = _; omega
      · show e.len - 1 + ((pos + 1 : Nat) : Int) = (e.InOffset : Int)
        push_cast; omega
      · show pos + 1 ≤ e.InOffset
        omega
      · show e.InOffset ≤ pos + 1 + 18
        omega
      · show TextOK x e.InOffset g2.text_buf
        rw [htb2]; exact hT1
    · intro _
      exact hM
    · exact ⟨rfl, rfl, rfl, rfl, rfl⟩
  · have hlen : e.len - 1 = 0 := by
      by_contra h; exact hl h
    refine ⟨{ e with g := g1, s := (e.s + 1) % RING_MAX, r := (e.r + 1) % RING_MAX, len := e.len - 1 }, ?_, ?_, ?_, ?_, hN⟩
    · intro n
      conv_lhs => unfold tailLoop
      simp only [hD, if_neg hl]
    · refine ⟨⟨rank1, hF1⟩, ?_, ?_, ⟨?_, ?_, hl3, ?_, Or.inr hN⟩, ?_, ?_⟩
      · show (e.r + 1) % RING_MAX = ringPos (pos + 1)
        rw [hr]; exact ringPos_succ pos
      · show (e.s + 1) % 4096 = (pos + 1) % 4096
        rw [hs]; show (pos % 4096 + 1) % 4096 = _; omega
      · show e.len - 1 + ((pos + 1 : Nat) : Int) = (e.InOffset : Int)
        push_cast; omega
      · show pos + 1 ≤ e.InOffset
        omega
      · show e.InOffset ≤ pos + 1 + 18
        omega
      · show TextOK x e.InOffset g1.text_buf
        rw [htb1]; exact hT
      · intro p hp
        obtain ⟨j, hj1, hj2, hj3⟩ := hW1 p hp
        exact ⟨j, by omega, hj2, hj3⟩
    · intro h
      have h' : pos + 1 < e.InOffset := h
      omega
    · exact ⟨rfl, rfl, rfl, rfl, rfl⟩

theorem sameOut_trans (a b c : LzEnc) (h1 : SameOut a b) (h2 : SameOut b c) : SameOut a c := by
  obtain ⟨a1, a2, a3, a4, a5⟩ := h1
  obtain ⟨b1, b2, b3, b4, b5⟩ := h2
  exact ⟨b1.trans a1, b2.trans a2, b3.trans a3, b4.trans a4, b5.trans a5⟩

theorem readLoop_inv (x : List Nat) (hx : Bytes x) :
    ∀ (n : Nat) (e : LzEnc) (pos : Nat), PosCore x pos e →
      ∃ e1 k, readLoop x n e = some (e1, k) ∧ k ≤ n ∧ PosCore x (pos + (n - k)) e1 ∧
        ((MatchInv x pos e ∨ 0 < n - k) → MatchInv x (pos + (n - k)) e1) ∧
        (0 < k → e1.InOffset = x.length) ∧ SameOut e e1 := by
  intro n
  induction n with
  | zero =>
    intro e pos hP
    refine ⟨e, 0, rfl, Nat.le_refl _, hP, ?_, ?_, ⟨rfl, rfl, rfl, rfl, rfl⟩⟩
    · intro h
      rcases h with h | h
      · exact h
      · omega
    · intro h; omega
  | succ n ih =>
    intro e pos hP
    by_cases hlt : e.InOffset < x.length
    · obtain ⟨e1, hstep, hP1, hM1, hS1⟩ := readLoop_step x hx e pos hP hlt
      obtain ⟨e2, k, hrun, hk, hP2, hM2, hN2, hS2⟩ := ih e1 (pos + 1) hP1
      have hidx : pos + (n + 1 - k) = pos + 1 + (n - k) := by omega
      refine ⟨e2, k, ?_, by omega, ?_, ?_, hN2, sameOut_trans _ _ _ hS1 hS2⟩
      · rw [hstep]; exact hrun
      · rw [hidx]; exact hP2
      · intro _
        rw [hidx]; exact hM2 (Or.inl hM1)
    · refine ⟨e, n + 1, ?_, Nat.le_refl _, ?_, ?_, ?_, ⟨rfl, rfl, rfl, rfl, rfl⟩⟩
      · unfold readLoop
        rw [if_neg hlt]
      · rw [Nat.sub_self]; exact hP
      · intro h
        rw [Nat.sub_self]
        rcases h with h | h
        · exact h
        · omega
      · intro _
        have := hP.2.2.2.1.2.2.1
        omega

theorem tailLoop_inv (x : List Nat) (hx : Bytes x) :
    ∀ (n : Nat) (e : LzEnc) (pos : Nat), PosCore x pos e → e.InOffset = x.length →
      pos + n ≤ x.length →
      ∃ e1, tailLoop n e = some e1 ∧ PosCore x (pos + n) e1 ∧
        ((MatchInv x pos e ∨ 0 < n) → MatchInv x (pos + n) e1) ∧
        e1.InOffset = x.length ∧ SameOut e e1 := by
  intro n
  induction n with
  | zero =>
    intro e pos hP hN _
    refine ⟨e, rfl, hP, ?_, hN, ⟨rfl, rfl, rfl, rfl, rfl⟩⟩
    intro h
    rcases h with h | h
    · exact h
    · omega
  | succ n ih =>
    intro e pos hP hN hle
    obtain ⟨e1, hstep, hP1, hM1, hS1, hN1⟩ := tailLoop_step x hx e pos hP hN (by omega)
    obtain ⟨e2, hrun, hP2, hM2, hN2, hS2⟩ := ih e1 (pos + 1) hP1 hN1 (by omega)
    have hidx : pos + (n + 1) = pos + 1 + n := by omega
    refine ⟨e2, ?_, ?_, ?_, hN2, sameOut_trans _ _ _ hS1 hS2⟩
    · rw [hstep]; exact hrun
    · rw [hidx]; exact hP2
    · intro _
      rw [hidx]; exact hM2 (Or.inl hM1)

theorem fillLoop_spec (x : List Nat) (r : Nat) :
    ∀ (n len : Nat) (tb : Nat → Nat), len ≤ x.length →
      (∀ j, j < len → tb (r + j) = x.getD j 0) →
      (fillLoop x r n len tb).1 = min (len + n) x.length ∧
      ∀ j, j < (fillLoop x r n len tb).1 → (fillLoop x r n len tb).2 (r + j) = x.getD j 0 := by
  intro n
  induction n with
  | zero =>
    intro len tb hl h
    refine ⟨?_, ?_⟩
    · show len = min (len + 0) x.length
      omega
    · exact h
  | succ n ih =>
    intro len tb hl h
    unfold fillLoop
    by_cases hlt : len < x.length
    · rw [if_pos hlt]
      have := ih (len + 1) (store tb (r + len) (x.getD len 0)) (by omega) (by
        intro j hj
        unfold store
        by_cases hjl : j = len
        · rw [if_pos (by omega), hjl]
        · rw [if_neg (by omega)]; exact h j (by omega))
      refine ⟨?_, this.2⟩
      rw [this.1]; omega
    · rw [if_neg hlt]
      refine ⟨?_, h⟩
      show len = _
      omega

theorem initTree_forest (st : LzState) (tb : Nat → Nat) :
    Forest { InitTree st with text_buf := tb } (fun _ => 0) ∧
    ∀ p, ¬ Live { InitTree st with text_buf := tb } p := by
  have hdead : ∀ p, ¬ Live { InitTree st with text_buf := tb } p := by
    intro p hp
    obtain ⟨h1, h2⟩ := hp
    apply h2
    show (if p < RING_MAX then NIL else st.dad p) = NIL
    rw [if_pos h1]
  refine ⟨⟨?_, ?_, ?_, ?_, ?_, ?_⟩, hdead⟩
  · intro p hp; exact absurd hp (hdead p)
  · intro q hq hne
    rcases hq with hq | hq
    · exact absurd hq (hdead q)
    · exfalso; apply hne
      show (if RING_MAX + 1 ≤ q ∧ q ≤ RING_MAX + 256 then NIL else st.rson q) = NIL
      exact if_pos hq
  · intro p hp; exact absurd hp (hdead p)
  · intro p hp; exact absurd hp (hdead p)
  · intro p hp; exact absurd hp (hdead p)
  · intro p hp; exact absurd hp (hdead p)

theorem emitUnit_lit (e : LzEnc) (h : clampLen e ≤ THRESHOLD) :
    emitUnit e = emitTail { e with g := { e.g with match_length := 1 }, code_buf := e.code_buf ++ [e.g.text_buf e.r] } := by
  unfold clampLen at h
  unfold emitUnit emitTail
  simp only [if_pos h]

theorem emitUnit_mat (e : LzEnc) (h : ¬ clampLen e ≤ THRESHOLD) :
    emitUnit e = emitTail { e with g := { e.g with match_length := (clampLen e).toNat }, code_buf0 := (e.code_buf0 ||| e.mask) % 256, code_buf := e.code_buf ++ [(((saveMatch e >>> 8) &&& 0xf) % 256 ||| (((clampLen e).toNat - (THRESHOLD + 1)) <<< 4)) % 256, saveMatch e % 256] } := by
  unfold clampLen at h
  unfold emitUnit emitTail saveMatch clampLen
  simp only [if_neg h]

theorem and_4095 (x : Nat) : x &&& 4095 = x % 4096 := by
  have := Nat.and_pow_two_sub_one_eq_mod x 12
  simpa using this

theorem and_15 (x : Nat) : x &&& 15 = x % 16 := by
  have := Nat.and_pow_two_sub_one_eq_mod x 4
  simpa using this

theorem nib_pack : ∀ h, h < 16 → ∀ l, l < 16 →
    (((h % 256) ||| (l <<< 4)) % 256) >>> 4 = l ∧ (((h % 256) ||| (l <<< 4)) % 256) &&& 15 = h := by
  decide

theorem mat_fields (s l : Nat) (hs : s < 4096) (hl : l < 16) :
    (LzUnit.mat ((((s >>> 8) &&& 0xf) % 256 ||| (l <<< 4)) % 256) (s % 256)).count = l + 3 ∧
    (LzUnit.mat ((((s >>> 8) &&& 0xf) % 256 ||| (l <<< 4)) % 256) (s % 256)).ofs = s + 1 := by
  have hh : (s >>> 8) &&& 0xf = s / 256 := by
    rw [and_15, Nat.shiftRight_eq_div_pow]
    have : s / 2 ^ 8 < 16 := by
      rw [Nat.div_lt_iff_lt_mul (by norm_num)]; omega
    omega
  have hlt : s / 256 < 16 := by
    rw [Nat.div_lt_iff_lt_mul (by norm_num)]; omega
  obtain ⟨p1, p2⟩ := nib_pack (s / 256) hlt l hl
  rw [hh]
  show ((s / 256 % 256 ||| l <<< 4) % 256) >>> 4 + THRESHOLD + 1 = l + 3 ∧
    (((s / 256 % 256 ||| l <<< 4) % 256 &&& 15) <<< 8 ||| s % 256) + 1 = s + 1
  rw [p1, p2]
  refine ⟨rfl, ?_⟩
  have e1 : (s / 256) <<< 8 ||| s % 256 = 2 ^ 8 * (s / 256) + s % 256 := by
    rw [Nat.shiftLeft_eq, Nat.mul_comm]
    exact (Nat.mul_add_lt_is_or (by omega) _).symm
  rw [e1]; omega

theorem groupFlags_snoc (u : LzUnit) : ∀ (cur : List LzUnit) (m : Nat),
    groupFlags (cur ++ [u]) m = groupFlags cur m ||| (if u.isMatch then m >>> cur.length else 0) := by
  intro cur
  induction cur with
  | nil =>
    intro m
    show ((if u.isMatch then m else 0) ||| 0) = (0 ||| (if u.isMatch then m >>> 0 else 0))
    simp
  | cons a cur ih =>
    intro m
    show ((if a.isMatch then m else 0) ||| groupFlags (cur ++ [u]) (m >>> 1))
      = ((if a.isMatch then m else 0) ||| groupFlags cur (m >>> 1)) ||| (if u.isMatch then m >>> (cur.length + 1) else 0)
    rw [ih, Nat.lor_assoc, Nat.add_comm cur.length 1, Nat.shiftRight_add]

theorem mask_zero : ∀ k, k < 8 → ((0x80 >>> k) >>> 1 = 0 ↔ k + 1 = 8) := by decide

theorem groupFlags_byte (g : List LzUnit) : groupFlags g 0x80 < 256 :=
  groupFlags_lt g 7

theorem emitTail_fields (e1 : LzEnc) :
    (emitTail e1).g = e1.g ∧ (emitTail e1).InOffset = e1.InOffset ∧ (emitTail e1).len = e1.len ∧
    (emitTail e1).r = e1.r ∧ (emitTail e1).s = e1.s ∧
    (emitTail e1).curmatch = uadd e1.curmatch e1.g.match_length &&& NMASK := by
  unfold emitTail
  by_cases h : e1.mask >>> 1 = 0
  · rw [if_pos h]; exact ⟨rfl, rfl, rfl, rfl, rfl, rfl⟩
  · rw [if_neg h]; exact ⟨rfl, rfl, rfl, rfl, rfl, rfl⟩

theorem flatMap_snoc {α β : Type} (l : List α) (a : α) (f : α → List β) :
    (l ++ [a]).flatMap f = l.flatMap f ++ f a := by
  simp [List.flatMap_append]

theorem emitTail_out (e1 : LzEnc) (full : List (List LzUnit)) (cur : List LzUnit) (u : LzUnit)
    (hfull : ∀ g ∈ full, g.length = 8) (hcur : cur.length < 8)
    (hout : e1.out = full.flatMap serGroup) (h0 : e1.code_buf0 = groupFlags (cur ++ [u]) 0x80)
    (hbuf : e1.code_buf = (cur ++ [u]).flatMap LzUnit.bytes) (hmask : e1.mask = 0x80 >>> cur.length) :
    OutInv (emitTail e1) (full.flatMap id ++ cur ++ [u]) := by
  unfold emitTail
  by_cases h : e1.mask >>> 1 = 0
  · rw [if_pos h]
    rw [hmask, mask_zero _ hcur] at h
    refine ⟨full ++ [cur ++ [u]], [], ?_, ?_, by simp, ?_, rfl, rfl, rfl⟩
    · rw [flatMap_snoc]; simp
    · intro g hg
      rcases List.mem_append.1 hg with hg | hg
      · exact hfull g hg
      · rw [List.mem_singleton.1 hg, List.length_append]; exact h
    · show e1.out ++ (e1.code_buf0 :: e1.code_buf) = _
      rw [flatMap_snoc, hout, h0, hbuf]; rfl
  · rw [if_neg h]
    rw [hmask, mask_zero _ hcur] at h
    refine ⟨full, cur ++ [u], by simp, hfull, ?_, hout, h0, hbuf, ?_⟩
    · rw [List.length_append]; show cur.length + 1 < 8; omega
    · show e1.mask >>> 1 = _
      rw [hmask, List.length_append, Nat.shiftRight_add]; rfl

theorem forest_congr (st st2 : LzState) (rank : Nat → Nat) (h1 : st2.text_buf = st.text_buf)
    (h2 : st2.lson = st.lson) (h3 : st2.rson = st.rson) (h4 : st2.dad = st.dad)
    (hF : Forest st rank) : Forest st2 rank := by
  cases st; cases st2
  simp only at h1 h2 h3 h4
  subst h1 h2 h3 h4
  exact hF

theorem posCore_congr (x : List Nat) (pos : Nat) (e e2 : LzEnc)
    (h1 : e2.g.text_buf = e.g.text_buf) (h2 : e2.g.lson = e.g.lson) (h3 : e2.g.rson = e.g.rson)
    (h4 : e2.g.dad = e.g.dad) (h5 : e2.r = e.r) (h6 : e2.s = e.s) (h7 : e2.len = e.len)
    (h8 : e2.InOffset = e.InOffset) (hP : PosCore x pos e) : PosCore x pos e2 := by
  obtain ⟨⟨rank, hF⟩, hr, hs, hl, hT, hW⟩ := hP
  refine ⟨⟨rank, forest_congr _ _ _ h1 h2 h3 h4 hF⟩, h5.trans hr, h6.trans hs, ?_, ?_, ?_⟩
  · rw [h7, h8]; exact hl
  · rw [h8, h1]; exact hT
  · intro p hp
    apply hW p
    obtain ⟨a, b⟩ := hp
    exact ⟨a, by rw [← h4]; exact b⟩

theorem save_calc (pos j : Nat) (h1 : j + 2 ≤ pos) (h2 : pos ≤ j + 4078) :
    usub (usub (ringPos pos) (ringPos j % 2 ^ 32) &&& NMASK) 1 = pos - j - 1 := by
  show usub (usub (ringPos pos) (ringPos j % 2 ^ 32) &&& 4095) 1 = pos - j - 1
  rw [and_4095, usub_def, usub_def, ringPos_eq, ringPos_eq]
  omega

theorem cur_calc (pos L : Nat) (hL : L ≤ 18) :
    uadd (ringPos pos) L &&& NMASK = ringPos (pos + L) := by
  show uadd (ringPos pos) L &&& 4095 = ringPos (pos + L)
  have := ringPos_lt pos
  rw [and_4095, uadd_eq _ _ (by omega), ringPos_eq, ringPos_eq]
  omega

theorem emitUnit_spec (x : List Nat) (e : LzEnc) (pos : Nat) (us : List LzUnit)
    (hP : PosCore x pos e) (hM : MatchInv x pos e) (hc : e.curmatch = e.r) (hO : OutInv e us)
    (hpos : pos < e.InOffset) :
    PosCore x pos (emitUnit e) ∧ 1 ≤ (emitUnit e).g.match_length ∧
    pos + (emitUnit e).g.match_length ≤ e.InOffset ∧
    (emitUnit e).curmatch = ringPos (pos + (emitUnit e).g.match_length) ∧
    OutInv (emitUnit e) (us ++ [unitOf e]) ∧ (unitOf e).count = (emitUnit e).g.match_length ∧
    UnitFacts x pos (unitOf e) := by
  have hP0 := hP
  obtain ⟨⟨rank, hF⟩, hr, hs, ⟨hl1, hl2, hl3, hl4, hl5⟩, hT, hW⟩ := hP
  obtain ⟨full, cur, hus, hfull, hcur, hout, h0, hbuf, hmask⟩ := hO
  have hl4' : e.InOffset ≤ pos + 18 := hl4
  by_cases h : clampLen e ≤ THRESHOLD
  · rw [emitUnit_lit e h]
    have hu : unitOf e = .lit (e.g.text_buf e.r) := by unfold unitOf; rw [if_pos h]
    obtain ⟨e1, he1⟩ : ∃ e1 : LzEnc, e1 = { e with g := { e.g with match_length := 1 }, code_buf := e.code_buf ++ [e.g.text_buf e.r] } := ⟨_, rfl⟩
    rw [← he1]
    have hg : e1.g = { e.g with match_length := 1 } := by rw [he1]
    have hml : e1.g.match_length = 1 := by rw [he1]
    obtain ⟨f1, f2, f3, f4, f5, f6⟩ := emitTail_fields e1
    rw [f1, hml]
    refine ⟨?_, Nat.le_refl 1, by omega, ?_, ?_, ?_, ?_⟩
    · apply posCore_congr x pos e _ _ _ _ _ _ _ _ _ hP0
      · rw [f1, hg]
      · rw [f1, hg]
      · rw [f1, hg]
      · rw [f1, hg]
      · rw [f4, he1]
      · rw [f5, he1]
      · rw [f3, he1]
      · rw [f2, he1]
    · rw [f6, hml]
      have : e1.curmatch = e.curmatch := by rw [he1]
      rw [this, hc, hr]; exact cur_calc pos 1 (by omega)
    · rw [hus, hu]
      refine emitTail_out e1 full cur _ hfull hcur ?_ ?_ ?_ ?_
      · rw [he1]; exact hout
      · rw [he1]
        show e.code_buf0 = _
        rw [groupFlags_snoc, h0]
        show _ = groupFlags cur 128 ||| 0
        rw [Nat.or_zero]
      · rw [he1]
        show e.code_buf ++ [e.g.text_buf e.r] = _
        rw [flatMap_snoc, hbuf]; rfl
      · rw [he1]; exact hmask
    · rw [hu]; rfl
    · left
      rw [hu, hr, (hT pos hpos (by show e.InOffset ≤ pos + 4096; omega)).1]
  · rw [emitUnit_mat e h]
    have hcl : (2 : Int) < clampLen e := by
      have : ¬ clampLen e ≤ 2 := h
      omega
    have hclv : clampLen e = if (e.g.match_length : Int) > e.len then e.len else e.g.match_length := rfl
    have hraw : 3 ≤ e.g.match_length := by
      by_cases hgt : (e.g.match_length : Int) > e.len
      · rw [if_pos hgt] at hclv; omega
      · rw [if_neg hgt] at hclv; omega
    obtain ⟨L, hLdef⟩ : ∃ L, L = (clampLen e).toNat := ⟨_, rfl⟩
    have hL1 : 3 ≤ L := by omega
    have hL2 : L ≤ e.g.match_length := by
      by_cases hgt : (e.g.match_length : Int) > e.len
      · rw [if_pos hgt] at hclv; omega
      · rw [if_neg hgt] at hclv; omega
    have hL3 : pos + L ≤ e.InOffset := by
      by_cases hgt : (e.g.match_length : Int) > e.len
      · rw [if_pos hgt] at hclv; omega
      · rw [if_neg hgt] at hclv; omega
    rcases hM hpos with hz | ⟨j, hj1, hj2, hj3, hj4, hj5⟩
    · omega
    have hj2' : pos ≤ j + 4078 := hj2
    have hj4' : e.g.match_length ≤ 18 := hj4
    have hsv : saveMatch e = pos - j - 1 := by
      unfold saveMatch
      rw [hc, hr, hj3]; exact save_calc pos j hj1 hj2'
    obtain ⟨m1, m2⟩ := mat_fields (saveMatch e) (L - 3) (by omega) (by omega)
    have hu : unitOf e = .mat ((((saveMatch e >>> 8) &&& 0xf) % 256 ||| ((L - 3) <<< 4)) % 256) (saveMatch e % 256) := by
      unfold unitOf; rw [if_neg h, hLdef]; rfl
    rw [← hLdef]
    obtain ⟨e1, he1⟩ : ∃ e1 : LzEnc, e1 = { e with g := { e.g with match_length := L }, code_buf0 := (e.code_buf0 ||| e.mask) % 256, code_buf := e.code_buf ++ [(((saveMatch e >>> 8) &&& 0xf) % 256 ||| ((L - (THRESHOLD + 1)) <<< 4)) % 256, saveMatch e % 256] } := ⟨_, rfl⟩
    rw [← he1]
    have hg : e1.g = { e.g with match_length := L } := by rw [he1]
    have hml : e1.g.match_length = L := by rw [he1]
    obtain ⟨f1, f2, f3, f4, f5, f6⟩ := emitTail_fields e1
    rw [f1, hml]
    refine ⟨?_, by omega, hL3, ?_, ?_, ?_, ?_⟩
    · apply posCore_congr x pos e _ _ _ _ _ _ _ _ _ hP0
      · rw [f1, hg]
      · rw [f1, hg]
      · rw [f1, hg]
      · rw [f1, hg]
      · rw [f4, he1]
      · rw [f5, he1]
      · rw [f3, he1]
      · rw [f2, he1]
    · rw [f6, hml]
      have : e1.curmatch = e.curmatch := by rw [he1]
      rw [this, hc, hr]; exact cur_calc pos L (by omega)
    · rw [hus, hu]
      refine emitTail_out e1 full cur _ hfull hcur ?_ ?_ ?_ ?_
      · rw [he1]; exact hout
      · rw [he1]
        show (e.code_buf0 ||| e.mask) % 256 = _
        have hb := groupFlags_byte (cur ++ [LzUnit.mat ((((saveMatch e >>> 8) &&& 0xf) % 256 ||| ((L - 3) <<< 4)) % 256) (saveMatch e % 256)])
        rw [groupFlags_snoc] at hb ⊢
        rw [h0, hmask]
        exact Nat.mod_eq_of_lt hb
      · rw [he1]
        show e.code_buf ++ [_, _] = _
        rw [flatMap_snoc, hbuf]; rfl
      · rw [he1]; exact hmask
    · rw [hu, m1]; omega
    · right
      rw [hu, m1, m2, hsv]
      refine ⟨rfl, by omega, by omega, ?_, ?_, ?_⟩
      · show 3 ≤ L - 3 + 3; omega
      · show L - 3 + 3 ≤ 18; omega
      · intro t ht
        have := hj5 t (by omega) (by omega)
        rw [this]
        congr 1
        omega

theorem list_ext_getD (a b : List Nat) (hl : a.length = b.length)
    (h : ∀ i, i < a.length → a.getD i 0 = b.getD i 0) : a = b := by
  apply List.ext_getElem hl
  intro i h1 h2
  have := h i h1
  rw [List.getD_eq_getElem _ _ h1, List.getD_eq_getElem _ _ h2] at this
  exact this

theorem take_getD (x : List Nat) (n i : Nat) (h : i < n) : (x.take n).getD i 0 = x.getD i 0 := by
  simp only [List.getD_eq_getElem?_getD]
  rw [List.getElem?_take_of_lt h]

theorem applyUnit_take (x : List Nat) (pos : Nat) (u : LzUnit) (hu : UnitFacts x pos u)
    (hL : pos + u.count ≤ x.length) :
    applyUnit x.length u (x.take pos) = some (x.take (pos + u.count)) := by
  have h1 : 1 ≤ u.count := by
    cases u with
    | lit b => exact Nat.le_refl 1
    | mat b0 b1 => show 1 ≤ b0 >>> 4 + THRESHOLD + 1; omega
  have hlen : (x.take pos).length = pos := by
    rw [List.length_take]; omega
  unfold applyUnit
  rw [hlen, if_pos (by omega)]
  rcases hu with hu | ⟨hm, ho1, ho2, hc1, hc2, hper⟩
  · rw [hu]
    show some (x.take pos ++ [x.getD pos 0]) = some (x.take (pos + 1))
    congr 1
    apply list_ext_getD
    · rw [List.length_append, hlen, List.length_take]
      show pos + 1 = _
      rw [hu] at h1 hL
      have : pos + 1 ≤ x.length := hL
      omega
    · intro i hi
      rw [List.length_append, hlen] at hi
      have hi' : i < pos + 1 := hi
      rw [take_getD x (pos + 1) i hi']
      by_cases hip : i < pos
      · rw [List.getD_append _ _ _ _ (by rw [hlen]; exact hip), take_getD x pos i hip]
      · have : i = pos := by omega
        rw [this, List.getD_append_right _ _ _ _ (by rw [hlen]), hlen, Nat.sub_self]
        rfl
  · cases u with
    | lit b => cases hm
    | mat b0 b1 =>
      show lzCopy x.length (LzUnit.mat b0 b1).ofs (LzUnit.mat b0 b1).count (x.take pos) = _
      obtain ⟨ext, he, hel, hrec⟩ := lzCopy_spec x.length (LzUnit.mat b0 b1).ofs (by omega)
        (LzUnit.mat b0 b1).count (x.take pos) (by rw [hlen]; exact ho2) (by rw [hlen]; exact hL)
      rw [he]
      congr 1
      have key : ∀ i, i < pos + (LzUnit.mat b0 b1).count →
          (x.take pos ++ ext).getD i 0 = x.getD i 0 := by
        intro i
        induction i using Nat.strong_induction_on with
        | _ i ih =>
          intro hi
          by_cases hip : i < pos
          · rw [List.getD_append _ _ _ _ (by rw [hlen]; exact hip), take_getD x pos i hip]
          · have hk := hrec (i - pos) (by omega)
            rw [hlen, show pos + (i - pos) = i by omega] at hk
            rw [hk, ih (i - (LzUnit.mat b0 b1).ofs) (by omega) (by omega)]
            have := hper (i - pos) (by omega)
            rw [show pos + (i - pos) = i by omega] at this
            exact this.symm
      apply list_ext_getD
      · rw [List.length_append, hlen, hel, List.length_take]; omega
      · intro i hi
        rw [List.length_append, hlen, hel] at hi
        rw [key i hi, take_getD x _ i hi]

theorem outInv_same (e e2 : LzEnc) (us : List LzUnit) (h : SameOut e e2) (hO : OutInv e us) :
    OutInv e2 us := by
  obtain ⟨a1, a2, a3, a4, a5⟩ := h
  obtain ⟨full, cur, hus, hfull, hcur, hout, h0, hbuf, hmask⟩ := hO
  exact ⟨full, cur, hus, hfull, hcur, a5.trans hout, a2.trans h0, a3.trans hbuf, a4.trans hmask⟩

theorem unitTrace_single (x : List Nat) (pos ii : Nat) (u : LzUnit) (hu : UnitFacts x pos u) :
    ∀ t ∈ unitTrace [u] ii, t.1 = ii ∧ t.2.1 = u.count ∧ t.2.2 = u.ofs ∧ 2 ≤ u.ofs ∧ u.ofs ≤ pos ∧
      THRESHOLD + 1 ≤ u.count ∧ u.count ≤ FRAME_MAX := by
  intro t ht
  cases u with
  | lit b => cases ht
  | mat b0 b1 =>
    have ht' : t ∈ [(ii, (LzUnit.mat b0 b1).count, (LzUnit.mat b0 b1).ofs)] := ht
    rw [List.mem_singleton] at ht'
    rcases hu with hu | ⟨_, h1, h2, h3, h4, _⟩
    · cases hu
    · rw [ht']; exact ⟨rfl, rfl, rfl, h1, h2, h3, h4⟩

theorem loop_step (x : List Nat) (hx : Bytes x) (e : LzEnc) (pos : Nat) (us : List LzUnit)
    (hI : LoopInv x pos e us) (hpos : pos < e.InOffset) :
    ∃ e3 L us3, (∀ fuel, mainLoop x (fuel + 1) e =
        if e3.len > 0 then mainLoop x fuel e3 else some e3) ∧ 1 ≤ L ∧
      LoopInv x (pos + L) e3 us3 ∧ pos + L ≤ e3.InOffset ∧ pos + L ≤ x.length := by
  obtain ⟨hP, hM, hc, hO, hdec, hU⟩ := hI
  obtain ⟨hP1, hL1, hL2, hc1, hO1, hcnt, hu⟩ := emitUnit_spec x e pos us hP hM hc hO hpos
  obtain ⟨L, hL⟩ : ∃ L, L = (emitUnit e).g.match_length := ⟨_, rfl⟩
  rw [← hL] at hL1 hL2 hc1 hcnt
  have hle : e.InOffset ≤ x.length := hP.2.2.2.1.2.2.1
  obtain ⟨e2, k, hrd, hk, hP2, hM2, hN2, hS2⟩ := readLoop_inv x hx L (emitUnit e) pos hP1
  have htail : ∃ e3, tailLoop k e2 = some e3 ∧ PosCore x (pos + L) e3 ∧ MatchInv x (pos + L) e3 ∧
      SameOut e2 e3 := by
    by_cases hk0 : k = 0
    · subst hk0
      refine ⟨e2, rfl, hP2, hM2 (Or.inr (by omega)), ⟨rfl, rfl, rfl, rfl, rfl⟩⟩
    · obtain ⟨e3, ht, hP3, hM3, _, hS3⟩ :=
        tailLoop_inv x hx k e2 (pos + (L - k)) hP2 (hN2 (by omega)) (by omega)
      have hidx : pos + (L - k) + k = pos + L := by omega
      rw [hidx] at hP3 hM3
      exact ⟨e3, ht, hP3, hM3 (Or.inr (by omega)), hS3⟩
  obtain ⟨e3, ht, hP3, hM3, hS3⟩ := htail
  have hS := sameOut_trans _ _ _ hS2 hS3
  have hlen : (x.take pos).length = pos := by
    rw [List.length_take]; omega
  have hsum : (us.map LzUnit.count).sum = pos := by
    have := decUnits_length x.length us [] _ hdec
    rw [hlen] at this
    simpa using this.symm
  refine ⟨e3, L, us ++ [unitOf e], ?_, hL1, ⟨hP3, hM3, ?_, outInv_same _ _ _ hS hO1, ?_, ?_⟩, ?_, by omega⟩
  · intro fuel
    conv_lhs => unfold mainLoop
    simp only [← hL, hrd, ht]
  · rw [hS.1, hc1]; exact hP3.2.1.symm
  · rw [decUnits_append, hdec]
    show (applyUnit x.length (unitOf e) (x.take pos)).bind (decUnits x.length []) = _
    rw [applyUnit_take x pos _ hu (by omega), hcnt]
    rfl
  · intro t ht
    rw [unitTrace_append, List.mem_append] at ht
    rcases ht with ht | ht
    · exact hU t ht
    · rw [hsum, Nat.zero_add] at ht
      obtain ⟨a1, a2, a3, a4, a5, a6, a7⟩ := unitTrace_single x pos pos _ hu t ht
      rw [a1, a2, a3]
      exact ⟨a4, a5, a6, a7, by omega⟩
  · exact hP3.2.2.2.1.2.1

theorem mainLoop_inv (x : List Nat) (hx : Bytes x) :
    ∀ (fuel : Nat) (e : LzEnc) (pos : Nat) (us : List LzUnit), LoopInv x pos e us →
      pos < e.InOffset → x.length - pos ≤ fuel →
      ∃ e2 us2, mainLoop x fuel e = some e2 ∧ OutInv e2 us2 ∧
        decUnits x.length us2 [] = some x ∧ UnitsOK x.length us2 := by
  intro fuel
  induction fuel with
  | zero =>
    intro e pos us hI hpos hf
    have := hI.1.2.2.2.1.2.2.1
    omega
  | succ fuel ih =>
    intro e pos us hI hpos hf
    obtain ⟨e3, L, us3, hstep, hL, hI3, hle, hle2⟩ := loop_step x hx e pos us hI hpos
    rw [hstep]
    obtain ⟨h1, h2, h3, h4, h5⟩ := hI3.1.2.2.2.1
    by_cases hlen : e3.len > 0
    · rw [if_pos hlen]
      exact ih e3 (pos + L) us3 hI3 (by omega) (by omega)
    · rw [if_neg hlen]
      have hN : pos + L = x.length := by
        have h4' : e3.InOffset ≤ pos + L + 18 := h4
        rcases h5 with h5 | h5
        · have : e3.InOffset = pos + L + 18 := h5
          omega
        · omega
      refine ⟨e3, us3, rfl, hI3.2.2.2.1, ?_, hI3.2.2.2.2.2⟩
      rw [hI3.2.2.2.2.1, hN, List.take_length]

theorem comp_core (x : List Nat) (hx : Bytes x) (st : LzState) (tb : Nat → Nat) (L : Nat)
    (hT : ∀ j, j < L → tb (RING_MAX - FRAME_MAX + j) = x.getD j 0)
    (hL1 : 0 < L) (hL2 : L = min 18 x.length) :
    ∃ g e2 us, InsertNode (RING_MAX - FRAME_MAX) { InitTree st with text_buf := tb } = some g ∧
      mainLoop x x.length { g := g, InOffset := L, len := L, r := RING_MAX - FRAME_MAX, s := 0, curmatch := RING_MAX - FRAME_MAX, code_buf0 := 0, code_buf := [], mask := 0x80, out := [] } = some e2 ∧
      OutInv e2 us ∧ decUnits x.length us [] = some x ∧ UnitsOK x.length us := by
  obtain ⟨hF0, hdead⟩ := initTree_forest st tb
  have hT0 : TextOK x L tb := by
    intro j hj1 hj2
    have e : ringPos j = 4078 + j := by rw [ringPos_eq]; omega
    constructor
    · rw [e]; exact hT j hj1
    · intro h17
      have : ringPos j < 17 := h17
      omega
  obtain ⟨g, rank, hI, hF, hW, htb, hM⟩ := insertStep x hx { InitTree st with text_buf := tb } _ 0 L hF0
    (fun p hp => absurd hp (hdead p)) hT0 hL1 (by omega) (by omega)
  have hI' : InsertNode (RING_MAX - FRAME_MAX) { InitTree st with text_buf := tb } = some g := hI
  have hLoop : LoopInv x 0 { g := g, InOffset := L, len := L, r := RING_MAX - FRAME_MAX, s := 0, curmatch := RING_MAX - FRAME_MAX, code_buf0 := 0, code_buf := [], mask := 0x80, out := [] } [] := by
    refine ⟨⟨⟨rank, hF⟩, rfl, rfl, ⟨?_, ?_, ?_, ?_, ?_⟩, ?_, hW⟩, ?_, rfl, ?_, rfl, ?_⟩
    · show (L : Int) + ((0 : Nat) : Int) = (L : Int)
      simp
    · exact Nat.zero_le _
    · show L ≤ x.length
      omega
    · show L ≤ 0 + 18
      omega
    · show L = 0 + 18 ∨ L = x.length
      omega
    · show TextOK x L g.text_buf
      rw [htb]; exact hT0
    · intro _
      exact hM
    · exact ⟨[], [], rfl, by simp, by simp, rfl, rfl, rfl, rfl⟩
    · intro t ht
      cases ht
  obtain ⟨e2, us, hmain, hO, hdec, hU⟩ := mainLoop_inv x hx x.length _ 0 [] hLoop hL1 (by omega)
  exact ⟨g, e2, us, hI', hmain, hO, hdec, hU⟩

theorem bytes_ne_nil (u : LzUnit) : u.bytes ≠ [] := by
  cases u <;> simp [LzUnit.bytes]

theorem CompressLZ77_spec (heap : Nat → Nat) (statics : LzState) (x : List Nat) (hx : Bytes x)
    (hne : x ≠ []) :
    ∃ (full : List (List LzUnit)) (last : List LzUnit),
      (∀ g ∈ full, g.length = 8) ∧ last.length < 8 ∧
      CompressLZ77 heap statics x = some ([CPRS_LZ77_TAG, (x.length >>> 0) &&& 0xFF,
        (x.length >>> 8) &&& 0xFF, (x.length >>> 16) &&& 0xFF] ++
          (full.flatMap serGroup ++ (if last = [] then [] else serGroup last))) ∧
      decUnits x.length (full.flatMap id ++ last) [] = some x ∧
      UnitsOK x.length (full.flatMap id ++ last) := by
  have hpos : 0 < x.length := List.length_pos.mpr hne
  unfold CompressLZ77
  simp only []
  generalize hlt : fillLoop x (RING_MAX - FRAME_MAX) FRAME_MAX 0 _ = lt
  obtain ⟨hf1, hf2⟩ := fillLoop_spec x (RING_MAX - FRAME_MAX) FRAME_MAX 0 _ (Nat.zero_le _)
    (fun j hj => absurd hj (Nat.not_lt_zero j))
  rw [hlt] at hf1 hf2
  have hf1' : lt.1 = min 18 x.length := by
    rw [hf1]; show min (0 + 18) x.length = _; rw [Nat.zero_add]
  have hL1 : 0 < lt.1 := by omega
  rw [if_neg (by omega)]
  obtain ⟨g, e2, us, hI, hmain, hO, hdec, hU⟩ := comp_core x hx { statics with match_position := RING_MAX - FRAME_MAX } lt.2 lt.1 hf2 hL1 hf1'
  simp only [] at hI
  simp only [hI, hmain]
  obtain ⟨full, cur, hus, hfull, hcur, hout, h0, hbuf, hmask⟩ := hO
  refine ⟨full, cur, hfull, hcur, ?_, by rw [← hus]; exact hdec, by rw [← hus]; exact hU⟩
  congr 2
  by_cases hc : cur = []
  · rw [if_pos hc, hbuf, hc]
    simp [hout]
  · rw [if_neg hc]
    obtain ⟨u, rest, hur⟩ := List.exists_cons_of_ne_nil hc
    have hlen : 1 ≤ e2.code_buf.length := by
      rw [hbuf, hur, List.flatMap_cons, List.length_append]
      have := List.length_pos.mpr (bytes_ne_nil u)
      omega
    rw [if_pos (by omega), hout, h0, hbuf]
    rfl

theorem count_pos (u : LzUnit) : 1 ≤ u.count := by
  cases u with
  | lit b => exact Nat.le_refl 1
  | mat b0 b1 => show 1 ≤ b0 >>> 4 + THRESHOLD + 1; omega

theorem length_le_count : ∀ us : List LzUnit, us.length ≤ (us.map LzUnit.count).sum := by
  intro us
  induction us with
  | nil => exact Nat.le_refl 0
  | cons u us ih =>
    simp only [List.length_cons, List.map_cons, List.sum_cons]
    have := count_pos u
    omega

theorem header_size (n : Nat) (hn : n < 2 ^ 24) :
    read32le CPRS_LZ77_TAG ((n >>> 0) &&& 0xFF) ((n >>> 8) &&& 0xFF) ((n >>> 16) &&& 0xFF) &&& 255
      = CPRS_LZ77_TAG ∧
    read32le CPRS_LZ77_TAG ((n >>> 0) &&& 0xFF) ((n >>> 8) &&& 0xFF) ((n >>> 16) &&& 0xFF) >>> 8
      = n := by
  have e0 : (n >>> 0) &&& 0xFF = n % 256 := by rw [and_255]; rfl
  have e1 : (n >>> 8) &&& 0xFF = n / 256 % 256 := by rw [and_255, Nat.shiftRight_eq_div_pow]
  have e2 : (n >>> 16) &&& 0xFF = n / 65536 % 256 := by rw [and_255, Nat.shiftRight_eq_div_pow]
  rw [e0, e1, e2]
  have t : CPRS_LZ77_TAG < 256 := by decide
  rw [read32le_tag _ _ _ _ t (by omega) (by omega), read32le_size _ _ _ _ t (by omega) (by omega)]
  refine ⟨rfl, ?_⟩
  omega

theorem lz_stream (heap : Nat → Nat) (statics : LzState) (x : List Nat) (hx : Bytes x)
    (hne : x ≠ []) (hlen : x.length < 2 ^ 24) :
    ∃ out us, lz77gba_compress heap statics x = some out ∧
      lzMatchUnits out = some (unitTrace us 0) ∧ lz77gba_decompress out = some x ∧
      UnitsOK x.length us := by
  obtain ⟨full, last, hfull, hlast, hC, hdec, hU⟩ := CompressLZ77_spec heap statics x hx hne
  obtain ⟨pad, hpad⟩ : ∃ pad, lz77gba_compress heap statics x = some
      (CPRS_LZ77_TAG :: ((x.length >>> 0) &&& 0xFF) :: ((x.length >>> 8) &&& 0xFF) ::
        ((x.length >>> 16) &&& 0xFF) ::
          (full.flatMap serGroup ++ ((if last = [] then [] else serGroup last) ++ pad))) := by
    unfold lz77gba_compress
    rw [hC]
    simp only [List.cons_append, List.nil_append, List.append_assoc]
    exact ⟨_, rfl⟩
  obtain ⟨ht, hs⟩ := header_size x.length hlen
  have hsum := decUnits_length x.length _ [] x hdec
  have hfuel : (full.flatMap id ++ last).length ≤ x.length := by
    have := length_le_count (full.flatMap id ++ last)
    simp only [List.length_nil, Nat.zero_add] at hsum
    omega
  have htr := decStream x.length full last x.length pad 0 [] x [] hfull (by omega) hdec
    (Nat.le_refl _) hfuel
  simp only [List.nil_append, List.length_nil] at htr
  refine ⟨_, full.flatMap id ++ last, hpad, ?_, ?_, hU⟩
  · unfold lzMatchUnits
    simp only
    rw [if_neg (by rw [ht]; exact fun h => h rfl), hs, htr]
    rfl
  · unfold lz77gba_decompress
    simp only
    rw [if_neg (by rw [ht]; exact fun h => h rfl), hs, ← lzDecTrace_fst x.length x.length _ 0 (-1) [] [],
      htr]
    rfl

theorem lz_empty (heap : Nat → Nat) (statics : LzState) :
    lz77gba_compress heap statics []
      = some [heap 0 % 256, heap 1 % 256, heap 2 % 256, heap 3 % 256] := by
  simp [lz77gba_compress, CompressLZ77, fillLoop, FRAME_MAX, heapBytes, ALIGN4, List.range,
    List.range.loop]

theorem lzMatchUnits_header (a b c d : Nat) (tr : List (Nat × Nat × Nat))
    (h : lzMatchUnits [a, b, c, d] = some tr) : tr = [] := by
  unfold lzMatchUnits at h
  simp only at h
  split at h
  · cases h
  · generalize read32le a b c d >>> 8 = n at h
    cases n with
    | zero =>
      unfold lzDecTrace at h
      simp at h
      exact h
    | succ n =>
      unfold lzDecTrace at h
      simp at h

end Gbacomp

namespace Gbacomp

/-! ## LZ: round trip, distances and sizes -/

/-- C1. LZ round trip: for every non-empty byte sequence `x` of at most
`2^24 - 1` bytes, whatever the `malloc`ed blocks held and whatever an earlier
call left in the file-scope arrays, `lz77gba_compress` returns a record, and
`lz77gba_decompress` applied to it returns exactly `x`. -/
theorem lz_round_trip (heap : Nat → Nat) (statics : LzState) (x : List Nat) (hx : Bytes x)
    (hne : x ≠ []) (hlen : x.length ≤ 2 ^ 24 - 1) :
    ∃ out, lz77gba_compress heap statics x = some out ∧ lz77gba_decompress out = some x := by
  obtain ⟨out, us, h1, _, h3, _⟩ := lz_stream heap statics x hx hne (by omega)
  exact ⟨out, h1, h3⟩

/-- Witness of `lz_round_trip`: the twenty bytes `0x41` on the first call of a
process. -/
theorem lz_round_trip_witness :
    Bytes (List.replicate 20 0x41) ∧ List.replicate 20 0x41 ≠ [] ∧
    ∃ out, lz77gba_compress (fun _ => 0) lzFresh (List.replicate 20 0x41) = some out ∧
      lz77gba_decompress out = some (List.replicate 20 0x41) :=
  ⟨by decide, by decide,
   lz_round_trip (fun _ => 0) lzFresh (List.replicate 20 0x41) (by decide) (by decide)
     (by decide)⟩

/-- C5. LZ distance invariant: for every input `x` (of at most `2^24 - 1`
bytes, the sizes the header can hold) `lz77gba_compress` returns a record, and
every match unit that `lz77gba_decompress` meets in it (flag bit 1, bytes
`B0, B1`) has the distance `(((B0 & 0x0F) << 8) | B1) + 1 ≥ 2`; for a
non-empty input the decoder does read the record to its end. -/
theorem lz_distance_at_least_two (heap : Nat → Nat) (statics : LzState) (x : List Nat)
    (hx : Bytes x) (hlen : x.length ≤ 2 ^ 24 - 1) :
    ∃ out, lz77gba_compress heap statics x = some out ∧
      (x ≠ [] → ∃ tr, lzMatchUnits out = some tr) ∧
      ∀ tr, lzMatchUnits out = some tr → ∀ t ∈ tr, 2 ≤ t.2.2 := by
  by_cases hne : x = []
  · subst hne
    refine ⟨_, lz_empty heap statics, fun h => absurd rfl h, ?_⟩
    intro tr htr t ht
    rw [lzMatchUnits_header _ _ _ _ tr htr] at ht
    cases ht
  · obtain ⟨out, us, h1, h2, _, hU⟩ := lz_stream heap statics x hx hne (by omega)
    refine ⟨out, h1, fun _ => ⟨_, h2⟩, ?_⟩
    intro tr htr t ht
    rw [h2] at htr
    cases htr
    exact (hU t ht).1

/-- Witness of `lz_distance_at_least_two`: the twenty bytes `0x41`, where the
nearest earlier copy is one byte back. -/
theorem lz_distance_at_least_two_witness :
    Bytes (List.replicate 20 0x41) ∧
    ∃ out, lz77gba_compress (fun _ => 0) lzFresh (List.replicate 20 0x41) = some out ∧
      (List.replicate 20 0x41 ≠ [] → ∃ tr, lzMatchUnits out = some tr) ∧
      ∀ tr, lzMatchUnits out = some tr → ∀ t ∈ tr, 2 ≤ t.2.2 :=
  ⟨by decide,
   lz_distance_at_least_two (fun _ => 0) lzFresh (List.replicate 20 0x41) (by decide)
     (by decide)⟩

/-- C33. LZ matches never reach before the data: for every input `x` (of at
most `2^24 - 1` bytes) every match unit in the record `lz77gba_compress`
returns, met by the decoder when `i` bytes are out, has a distance `d ≤ i` and
a length between 3 and 18 with `i + length ≤ N`; so on the record of a
non-empty input `lz77gba_decompress` returns, never leaving the block of `N`
bytes. -/
theorem lz_matches_within_data (heap : Nat → Nat) (statics : LzState) (x : List Nat)
    (hx : Bytes x) (hlen : x.length ≤ 2 ^ 24 - 1) :
    ∃ out, lz77gba_compress heap statics x = some out ∧
      (x ≠ [] → lz77gba_decompress out ≠ none ∧ ∃ tr, lzMatchUnits out = some tr) ∧
      ∀ tr, lzMatchUnits out = some tr → ∀ t ∈ tr,
        t.2.2 ≤ t.1 ∧ 3 ≤ t.2.1 ∧ t.2.1 ≤ 18 ∧ t.1 + t.2.1 ≤ x.length := by
  by_cases hne : x = []
  · subst hne
    refine ⟨_, lz_empty heap statics, fun h => absurd rfl h, ?_⟩
    intro tr htr t ht
    rw [lzMatchUnits_header _ _ _ _ tr htr] at ht
    cases ht
  · obtain ⟨out, us, h1, h2, h3, hU⟩ := lz_stream heap statics x hx hne (by omega)
    refine ⟨out, h1, fun _ => ⟨by rw [h3]; exact fun h => Option.noConfusion h, _, h2⟩, ?_⟩
    intro tr htr t ht
    rw [h2] at htr
    cases htr
    obtain ⟨_, a2, a3, a4, a5⟩ := hU t ht
    exact ⟨a2, a3, a4, a5⟩

/-- Witness of `lz_matches_within_data`: the input `abcXabcYabcZ`. -/
theorem lz_matches_within_data_witness :
    Bytes [0x61, 0x62, 0x63, 0x58, 0x61, 0x62, 0x63, 0x59, 0x61, 0x62, 0x63, 0x5A] ∧
    ∃ out, lz77gba_compress (fun _ => 0) lzFresh
        [0x61, 0x62, 0x63, 0x58, 0x61, 0x62, 0x63, 0x59, 0x61, 0x62, 0x63, 0x5A] = some out ∧
      ([0x61, 0x62, 0x63, 0x58, 0x61, 0x62, 0x63, 0x59, 0x61, 0x62, 0x63, 0x5A] ≠ [] →
        lz77gba_decompress out ≠ none ∧ ∃ tr, lzMatchUnits out = some tr) ∧
      ∀ tr, lzMatchUnits out = some tr → ∀ t ∈ tr,
        t.2.2 ≤ t.1 ∧ 3 ≤ t.2.1 ∧ t.2.1 ≤ 18 ∧
          t.1 + t.2.1 ≤ [0x61, 0x62, 0x63, 0x58, 0x61, 0x62, 0x63, 0x59, 0x61, 0x62, 0x63, 0x5A].length :=
  ⟨by decide,
   lz_matches_within_data (fun _ => 0) lzFresh
     [0x61, 0x62, 0x63, 0x58, 0x61, 0x62, 0x63, 0x59, 0x61, 0x62, 0x63, 0x5A] (by decide)
     (by decide)⟩

end Gbacomp

namespace Gbacomp

/-! ## Huffman: the size of the coded stream -/

theorem mergeStep_kids (tree : List HNode) (node lnode rnode : HNode) (l r : Nat)
    (hk : KidsInv tree) (hl : tree.get? l = some lnode) (hr : tree.get? r = some rnode)
    (hnl : node.lson = some l) (hnr : node.rson = some r) (hnd : node.dad = none) :
    KidsInv (setDad (setDad (tree ++ [node]) r tree.length) l tree.length) := by
  have hllt := get?_lt _ _ _ hl
  have hrlt := get?_lt _ _ _ hr
  intro j nd' p hj hd
  rcases merge_get_inv tree node l r j nd' hllt hrlt hj with ⟨_, h2⟩ | ⟨hjlt, nd, hnd0⟩
  · rw [h2, hnd] at hd; cases hd
  · obtain ⟨nd2, e1, _, _, _, _, _, e7, e8⟩ := merge_get_old tree node l r j nd hnd0
    rw [hj] at e1
    cases e1
    by_cases hlr : j = l ∨ j = r
    · rw [e7 hlr] at hd
      cases hd
      refine ⟨node, merge_get_new tree node l r hllt hrlt, ?_⟩
      rcases hlr with h | h
      · left; rw [h]; exact hnl
      · right; rw [h]; exact hnr
    · have h1 : j ≠ l := fun h => hlr (Or.inl h)
      have h2 : j ≠ r := fun h => hlr (Or.inr h)
      rw [e8 h1 h2] at hd
      obtain ⟨pn, hp, hkid⟩ := hk j nd p hnd0 hd
      obtain ⟨pn2, f1, _, _, _, f5, f6, _, _⟩ := merge_get_old tree node l r p pn hp
      exact ⟨pn2, f1, by rw [f5, f6]; exact hkid⟩

theorem mergeLoop_kids (freqs : Nat → Nat) (max_symbols k : Nat)
    (htot : totalFreq freqs max_symbols < 2 ^ 32) (hk32 : k < 2 ^ 32) :
    ∀ (n : Nat) (tree : List HNode), TreeInv freqs max_symbols k tree → KidsInv tree →
      tree.length + n = 2 * k - 1 →
      ∃ t, mergeLoop k max_symbols n tree = some t ∧ TreeInv freqs max_symbols k t ∧
        KidsInv t ∧ t.length = 2 * k - 1 := by
  intro n
  induction n with
  | zero =>
    intro tree hinv hkid hlen
    exact ⟨tree, rfl, hinv, hkid, by omega⟩
  | succ n ih =>
    intro tree hinv hkid hlen
    obtain ⟨l, r, lnode, rnode, hl, hr, hln, hrn, hnew⟩ :=
      mergeStep_inv freqs max_symbols k (uadd (usub (tree.length + 1) k) max_symbols)
        htot hk32 tree hinv (by omega)
    have hkid2 := mergeStep_kids tree { symbol := uadd (usub (tree.length + 1) k) max_symbols, weight := uadd lnode.weight rnode.weight, leafs := uadd lnode.leafs rnode.leafs, dad := none, lson := some l, rson := some r } lnode rnode l r hkid hln hrn rfl rfl rfl
    unfold mergeLoop
    simp only [hl, hr, hln, hrn]
    apply ih _ hnew hkid2
    rw [setDad_length, setDad_length]
    simp only [List.length_append, List.length_singleton]
    omega

theorem createLeaves_kids (freqs : Nat → Nat) (max_symbols : Nat) :
    KidsInv (createLeaves freqs max_symbols) := by
  intro j nd p hj hd
  rw [createLeaves_get?] at hj
  cases h : (usedSymbols freqs max_symbols).get? j with
  | none => rw [h] at hj; cases hj
  | some s =>
    rw [h] at hj
    simp only [Option.map_some', Option.some.injEq] at hj
    rw [← hj] at hd
    cases hd

/-- The tree `HUF_CreateTree` builds, with the links between parents and
children. -/
theorem createTree_kids (freqs : Nat → Nat) (max_symbols : Nat)
    (hk : 2 ≤ countLeafs freqs max_symbols) (htot : totalFreq freqs max_symbols < 2 ^ 32) :
    ∃ tree, HUF_CreateTree freqs max_symbols (countLeafs freqs max_symbols)
        (2 * countLeafs freqs max_symbols - 1) = some tree ∧
      TreeInv freqs max_symbols (countLeafs freqs max_symbols) tree ∧ KidsInv tree ∧
      tree.length = 2 * countLeafs freqs max_symbols - 1 := by
  have hk32 : countLeafs freqs max_symbols < 2 ^ 32 :=
    Nat.lt_of_le_of_lt (countLeafs_le_total freqs _) htot
  have h1 : 1 ≤ countLeafs freqs max_symbols := by omega
  unfold HUF_CreateTree
  simp only
  apply mergeLoop_kids freqs max_symbols _ htot hk32 _ _ (createLeaves_inv freqs max_symbols h1)
    (createLeaves_kids freqs max_symbols)
  rw [createLeaves_length]
  omega

theorem dadOf_some (tree : List HNode) (j d : Nat) (h : dadOf tree j = some d) :
    ∃ nd, tree.get? j = some nd ∧ nd.dad = some d := by
  unfold dadOf at h
  cases hg : tree.get? j with
  | none => rw [hg] at h; cases h
  | some nd => rw [hg] at h; exact ⟨nd, rfl, h⟩

theorem dadOf_eq (tree : List HNode) (j : Nat) (nd : HNode) (h : tree.get? j = some nd) :
    dadOf tree j = nd.dad := by
  unfold dadOf; rw [h]; rfl

theorem dadOf_bounds (freqs : Nat → Nat) (ms k : Nat) (tree : List HNode)
    (hT : TreeInv freqs ms k tree) (j d : Nat) (h : dadOf tree j = some d) :
    j < d ∧ d < tree.length ∧ k ≤ d := by
  obtain ⟨nd, h1, h2⟩ := dadOf_some tree j d h
  exact hT.2.2.2.2.2.2.2.2 j nd d h1 h2

theorem chain_bounds (freqs : Nat → Nat) (ms k : Nat) (tree : List HNode)
    (hT : TreeInv freqs ms k tree) : ∀ (f j p : Nat), p ∈ chain tree f j →
      j < p ∧ p < tree.length ∧ k ≤ p := by
  intro f
  induction f with
  | zero => intro j p h; cases h
  | succ f ih =>
    intro j p h
    unfold chain at h
    cases hd : dadOf tree j with
    | none => rw [hd] at h; cases h
    | some d =>
      rw [hd] at h
      obtain ⟨b1, b2, b3⟩ := dadOf_bounds freqs ms k tree hT j d hd
      rcases List.mem_cons.1 h with h | h
      · rw [h]; exact ⟨b1, b2, b3⟩
      · obtain ⟨c1, c2, c3⟩ := ih d p h
        exact ⟨by omega, c2, c3⟩

theorem chain_nodup (freqs : Nat → Nat) (ms k : Nat) (tree : List HNode)
    (hT : TreeInv freqs ms k tree) : ∀ (f j : Nat), (chain tree f j).Nodup := by
  intro f
  induction f with
  | zero => intro j; exact List.nodup_nil
  | succ f ih =>
    intro j
    unfold chain
    cases hd : dadOf tree j with
    | none => exact List.nodup_nil
    | some d =>
      simp only
      rw [List.nodup_cons]
      refine ⟨?_, ih d⟩
      intro hm
      have := (chain_bounds freqs ms k tree hT f d d hm).1
      omega

/-- With fuel for all nodes above `j` the list of ancestors is complete. -/
theorem chain_stable (freqs : Nat → Nat) (ms k : Nat) (tree : List HNode)
    (hT : TreeInv freqs ms k tree) : ∀ (f g j : Nat), tree.length ≤ f + j + 1 →
      tree.length ≤ g + j + 1 → chain tree f j = chain tree g j := by
  intro f
  induction f with
  | zero =>
    intro g j hf hg
    have hnone : dadOf tree j = none := by
      cases hd : dadOf tree j with
      | none => rfl
      | some d =>
        have := dadOf_bounds freqs ms k tree hT j d hd
        omega
    cases g with
    | zero => rfl
    | succ g => unfold chain; rw [hnone]
  | succ f ih =>
    intro g j hf hg
    cases hd : dadOf tree j with
    | none =>
      cases g with
      | zero => unfold chain; rw [hd]
      | succ g => unfold chain; rw [hd]
    | some d =>
      have hb := dadOf_bounds freqs ms k tree hT j d hd
      cases g with
      | zero => omega
      | succ g =>
        unfold chain
        rw [hd]
        simp only
        rw [ih g d (by omega) (by omega)]

theorem chain_cons (freqs : Nat → Nat) (ms k : Nat) (tree : List HNode)
    (hT : TreeInv freqs ms k tree) (j d : Nat) (hd : dadOf tree j = some d) :
    chain tree tree.length j = d :: chain tree tree.length d := by
  have hb := dadOf_bounds freqs ms k tree hT j d hd
  obtain ⟨n, hn⟩ : ∃ n, tree.length = n + 1 := ⟨tree.length - 1, by omega⟩
  rw [hn]
  conv_lhs => unfold chain
  rw [hd]
  simp only
  rw [chain_stable freqs ms k tree hT n (n + 1) d (by omega) (by omega)]

theorem chain_none (tree : List HNode) (f j : Nat) (hd : dadOf tree j = none) :
    chain tree f j = [] := by
  cases f with
  | zero => rfl
  | succ f => unfold chain; rw [hd]

theorem pathBits_cons (tree : List HNode) (j d : Nat) (rest : List Nat) :
    pathBits tree j (d :: rest) =
      (if (tree.get? d).bind (fun dn => dn.lson) = some j then HUF_LNODE else HUF_RNODE) ::
        pathBits tree d rest := rfl

/-- The walk of `HUF_CreateCodeWorks` from node `j` ends, and gives one bit
for each ancestor. -/
theorem climb_eq (freqs : Nat → Nat) (ms k : Nat) (tree : List HNode)
    (hT : TreeInv freqs ms k tree) : ∀ (f j : Nat), j < tree.length → tree.length ≤ f + j + 1 →
      climb tree (f + 1) j = some (pathBits tree j (chain tree f j)) := by
  intro f
  induction f with
  | zero =>
    intro j hj hf
    obtain ⟨nd, hnd⟩ := get?_of_lt tree j hj
    have hnone : nd.dad = none := by
      cases hd : nd.dad with
      | none => rfl
      | some d =>
        have := hT.2.2.2.2.2.2.2.2 j nd d hnd hd
        omega
    unfold climb
    simp only [hnd, hnone]
    rfl
  | succ f ih =>
    intro j hj hf
    obtain ⟨nd, hnd⟩ := get?_of_lt tree j hj
    cases hd : nd.dad with
    | none =>
      unfold climb
      simp only [hnd, hd]
      have : dadOf tree j = none := by rw [dadOf_eq tree j nd hnd, hd]
      rw [chain_none tree _ j this]
      rfl
    | some d =>
      have hb := hT.2.2.2.2.2.2.2.2 j nd d hnd hd
      obtain ⟨dn, hdn⟩ := get?_of_lt tree d hb.2.1
      have hdo : dadOf tree j = some d := by rw [dadOf_eq tree j nd hnd, hd]
      have hrec := ih d hb.2.1 (by omega)
      conv_lhs => unfold climb
      simp only [hnd, hd, hdn, hrec]
      conv_rhs => unfold chain
      rw [hdo]
      simp only
      rw [pathBits_cons, hdn]
      rfl

theorem pathBits_length (tree : List HNode) : ∀ (c : List Nat) (j : Nat),
    (pathBits tree j c).length = c.length := by
  intro c
  induction c with
  | nil => intro j; rfl
  | cons d rest ih => intro j; simp [pathBits, ih]

open Finset in
/-- Two members of a set weigh at least as much as its two lightest. -/
theorem two_lightest (w : Nat → Nat) (A D : Finset Nat) (l r : Nat)
    (hmin : ∀ j ∈ A, w l ≤ w j ∧ (j ≠ l → w r ≤ w j))
    (hD : D ⊆ A) (hc : D.card = 2) : w l + w r ≤ ∑ j ∈ D, w j := by
  obtain ⟨x, y, hxy, rfl⟩ := Finset.card_eq_two.1 hc
  rw [Finset.sum_pair hxy]
  have hx : x ∈ A := hD (by simp)
  have hy : y ∈ A := hD (by simp)
  by_cases hxl : x = l
  · have := (hmin y hy).2 (by rw [← hxl]; exact fun h => hxy h.symm)
    rw [hxl]; omega
  · have h1 := (hmin x hx).2 hxl
    have h2 := (hmin y hy).1
    omega

open Finset in
/-- A set that leaves room for three more can give up the two lightest
members for others without losing weight. -/
theorem exchange_lightest (w : Nat → Nat) (A T : Finset Nat) (l r : Nat)
    (hl : l ∈ A) (hr : r ∈ A) (hlr : l ≠ r)
    (hmin : ∀ j ∈ A, w l ≤ w j ∧ (j ≠ l → w r ≤ w j)) (hlw : w l ≤ w r)
    (hT : T ⊆ A) (hc : T.card + 3 ≤ A.card) :
    ∃ T2, T2 ⊆ (A.erase l).erase r ∧ T2.card = T.card ∧ ∑ j ∈ T, w j ≤ ∑ j ∈ T2, w j := by
  classical
  have hpair : ({l, r} : Finset Nat).card = 2 := Finset.card_pair hlr
  have hQ := Finset.card_sdiff_add_card_inter T {l, r}
  have hun := Finset.card_union_add_card_inter T {l, r}
  have hsub : T ∪ {l, r} ⊆ A := by
    intro x hx
    rcases Finset.mem_union.1 hx with h | h
    · exact hT h
    · rcases Finset.mem_insert.1 h with h | h
      · rw [h]; exact hl
      · rw [Finset.mem_singleton.1 h]; exact hr
  have hR := Finset.card_sdiff hsub
  have hqle : (T ∩ {l, r}).card ≤ (A \ (T ∪ {l, r})).card := by omega
  obtain ⟨U, hU, hUc⟩ := Finset.exists_subset_card_eq hqle
  have hdisj : Disjoint (T \ {l, r}) U := by
    rw [Finset.disjoint_left]
    intro x hx hxU
    have := Finset.mem_sdiff.1 (hU hxU)
    exact this.2 (Finset.mem_union_left _ (Finset.mem_sdiff.1 hx).1)
  refine ⟨(T \ {l, r}) ∪ U, ?_, ?_, ?_⟩
  · intro x hx
    rcases Finset.mem_union.1 hx with h | h
    · have h1 := Finset.mem_sdiff.1 h
      have h2 : x ≠ l := fun e => h1.2 (by rw [e]; simp)
      have h3 : x ≠ r := fun e => h1.2 (by rw [e]; simp)
      exact Finset.mem_erase.2 ⟨h3, Finset.mem_erase.2 ⟨h2, hT h1.1⟩⟩
    · have h1 := Finset.mem_sdiff.1 (hU h)
      have h2 : x ≠ l := fun e => h1.2 (Finset.mem_union_right _ (by rw [e]; simp))
      have h3 : x ≠ r := fun e => h1.2 (Finset.mem_union_right _ (by rw [e]; simp))
      exact Finset.mem_erase.2 ⟨h3, Finset.mem_erase.2 ⟨h2, h1.1⟩⟩
  · rw [Finset.card_union_of_disjoint hdisj, hUc]; exact hQ
  · rw [Finset.sum_union hdisj]
    have hsplit : ∑ j ∈ T, w j = ∑ j ∈ T \ {l, r}, w j + ∑ j ∈ T ∩ {l, r}, w j := by
      rw [← Finset.sum_union (Finset.disjoint_sdiff_inter T {l, r})]
      rw [Finset.sdiff_union_inter]
    have h1 : ∑ j ∈ T ∩ {l, r}, w j ≤ (T ∩ {l, r}).card • w r := by
      apply Finset.sum_le_card_nsmul
      intro x hx
      have := (Finset.mem_inter.1 hx).2
      rcases Finset.mem_insert.1 this with h | h
      · rw [h]; exact hlw
      · rw [Finset.mem_singleton.1 h]
    have h2 : U.card • w r ≤ ∑ j ∈ U, w j := by
      apply Finset.card_nsmul_le_sum
      intro x hx
      have h1 := Finset.mem_sdiff.1 (hU hx)
      have h2 : x ≠ l := fun e => h1.2 (Finset.mem_union_right _ (by rw [e]; simp))
      exact (hmin x h1.1).2 h2
    rw [hUc] at h2
    omega

theorem pow_between (k : Nat) (hk : 1 ≤ k) : ∃ m, k ≤ 2 ^ m ∧ 2 ^ m < 2 * k := by
  by_cases h1 : k = 1
  · exact ⟨0, by rw [h1]; decide, by rw [h1]; decide⟩
  · have h2 : 1 < k := by omega
    refine ⟨Nat.clog 2 k, Nat.le_pow_clog (by decide) k, ?_⟩
    have h3 := Nat.pow_pred_clog_lt_self (b := 2) (by decide) h2
    have h4 : 0 < Nat.clog 2 k := Nat.clog_pos (by decide) (by omega)
    have h5 : 2 ^ Nat.clog 2 k = 2 * 2 ^ (Nat.clog 2 k).pred := by
      conv_lhs => rw [← Nat.succ_pred_eq_of_pos h4]
      rw [pow_succ]; ring
    omega

open Finset in
/-- The bound on the cost of the greedy merging: when each new node joins the
two lightest of the nodes not yet joined, the weights of all new nodes add up
to at most `m` times the weight of the `k` first ones, if `k ≤ 2 ^ m`. -/
theorem merge_cost (w : Nat → Nat) (k : Nat) (hk : 1 ≤ k) (A : Nat → Finset Nat)
    (h0 : A k = Finset.range k)
    (hstep : ∀ i, k ≤ i → i + 1 < 2 * k → ∃ l r, l ∈ A i ∧ r ∈ A i ∧ l ≠ r ∧ i ∉ A i ∧
      A (i + 1) = insert i ((A i).erase l |>.erase r) ∧ w i = w l + w r ∧ w l ≤ w r ∧
      ∀ j ∈ A i, w l ≤ w j ∧ (j ≠ l → w r ≤ w j))
    (m : Nat) (hm : k ≤ 2 ^ m) :
    ∑ p ∈ Finset.Ico k (2 * k - 1), w p ≤ m * ∑ j ∈ Finset.range k, w j := by
  classical
  obtain ⟨m0, hm0a, hm0b⟩ := pow_between k hk
  have hm0 : m0 ≤ m := by
    have : 2 ^ m0 < 2 ^ (m + 1) := by rw [pow_succ]; omega
    have := (Nat.pow_lt_pow_iff_right (a := 2) (by decide)).1 this
    omega
  set S := ∑ j ∈ Finset.range k, w j with hS
  have key : ∀ t, k + t + 1 ≤ 2 * k → (A (k + t)).card + (k + t) = 2 * k ∧
      ∑ j ∈ A (k + t), w j = S ∧
      ∃ mm T, T ⊆ A (k + t) ∧ T.card + (A (k + t)).card = 2 ^ mm ∧ T.card < (A (k + t)).card ∧
        ∑ p ∈ Finset.Ico k (k + t), w p + mm * S ≤ m0 * S + ∑ j ∈ T, w j := by
    intro t
    induction t with
    | zero =>
      intro _
      simp only [Nat.add_zero, h0, Finset.card_range]
      refine ⟨by omega, trivial, ?_⟩
      obtain ⟨T, hT, hTc⟩ := Finset.exists_subset_card_eq
        (s := Finset.range k) (n := 2 ^ m0 - k) (by rw [Finset.card_range]; omega)
      refine ⟨m0, T, hT, by omega, by omega, ?_⟩
      simp
    | succ t ih =>
      intro ht
      obtain ⟨hcard, hsum, mm, T, hT, hTc, hTlt, hcost⟩ := ih (by omega)
      obtain ⟨l, r, hl, hr, hlr, hi, hA, hw, hlw, hmin⟩ := hstep (k + t) (by omega) (by omega)
      have hrl : r ∈ (A (k + t)).erase l := Finset.mem_erase.2 ⟨fun e => hlr e.symm, hr⟩
      have hi2 : k + t ∉ ((A (k + t)).erase l).erase r := fun h =>
        hi (Finset.mem_of_mem_erase (Finset.mem_of_mem_erase h))
      have hc1 : ((A (k + t)).erase l).card = (A (k + t)).card - 1 := Finset.card_erase_of_mem hl
      have hc2 : (((A (k + t)).erase l).erase r).card = ((A (k + t)).erase l).card - 1 :=
        Finset.card_erase_of_mem hrl
      have hcA : (A (k + t + 1)).card = (((A (k + t)).erase l).erase r).card + 1 := by
        rw [hA]; exact Finset.card_insert_of_not_mem hi2
      have hs1 : ∑ j ∈ (A (k + t)).erase l, w j + w l = ∑ j ∈ A (k + t), w j :=
        Finset.sum_erase_add _ _ hl
      have hs2 : ∑ j ∈ ((A (k + t)).erase l).erase r, w j + w r =
          ∑ j ∈ (A (k + t)).erase l, w j := Finset.sum_erase_add _ _ hrl
      have hsA : ∑ j ∈ A (k + t + 1), w j =
          w (k + t) + ∑ j ∈ ((A (k + t)).erase l).erase r, w j := by
        rw [hA]; exact Finset.sum_insert hi2
      have hIco : ∑ p ∈ Finset.Ico k (k + t + 1), w p =
          ∑ p ∈ Finset.Ico k (k + t), w p + w (k + t) :=
        Finset.sum_Ico_succ_top (by omega) _
      rw [show k + (t + 1) = k + t + 1 from rfl]
      refine ⟨by omega, by omega, ?_⟩
      by_cases hroom : T.card + 3 ≤ (A (k + t)).card
      · obtain ⟨T2, hT2, hT2c, hT2s⟩ :=
          exchange_lightest w (A (k + t)) T l r hl hr hlr hmin hlw hT hroom
        have hi3 : k + t ∉ T2 := fun h => hi2 (hT2 h)
        refine ⟨mm, insert (k + t) T2, ?_, ?_, ?_, ?_⟩
        · rw [hA]; exact Finset.insert_subset_insert _ hT2
        · rw [Finset.card_insert_of_not_mem hi3]; omega
        · rw [Finset.card_insert_of_not_mem hi3]; omega
        · rw [Finset.sum_insert hi3, hIco]; omega
      · have hsd := Finset.card_sdiff hT
        have hssum : ∑ j ∈ A (k + t) \ T, w j + ∑ j ∈ T, w j = ∑ j ∈ A (k + t), w j :=
          Finset.sum_sdiff hT
        cases mm with
        | zero => simp only [pow_zero] at hTc; omega
        | succ m1 =>
          have hp : 2 ^ (m1 + 1) = 2 * 2 ^ m1 := by rw [pow_succ]; ring
          have hcard2 : (A (k + t) \ T).card = 2 := by omega
          have h2 := two_lightest w (A (k + t)) (A (k + t) \ T) l r hmin
            Finset.sdiff_subset hcard2
          refine ⟨m1, ∅, Finset.empty_subset _, ?_, ?_, ?_⟩
          · rw [Finset.card_empty]; omega
          · rw [Finset.card_empty]; omega
          · rw [Finset.sum_empty, hIco]
            have : (m1 + 1) * S = m1 * S + S := Nat.succ_mul m1 S
            omega
  by_cases hk1 : k = 1
  · subst hk1
    simp
  obtain ⟨hcard, hsum, mm, T, hT, hTc, hTlt, hcost⟩ := key (k - 1) (by omega)
  have e : k + (k - 1) = 2 * k - 1 := by omega
  rw [e] at hcard hsum hT hTc hTlt hcost
  have hT0 : T = ∅ := Finset.card_eq_zero.1 (by omega)
  rw [hT0, Finset.sum_empty] at hcost
  have : m0 * S ≤ m * S := Nat.mul_le_mul_right S hm0
  omega

theorem lexLe_wt (tree : List HNode) (a b : Nat) (h : LexLe tree a b) : wt tree a ≤ wt tree b := by
  rcases h with h | h
  · exact Nat.le_of_lt h
  · exact Nat.le_of_eq h.1

theorem mem_active (tree : List HNode) (i j : Nat) :
    j ∈ active tree i ↔ j < i ∧ ∀ d, dadOf tree j = some d → i ≤ d := by
  unfold active
  rw [Finset.mem_filter, Finset.mem_range]

theorem active_start (freqs : Nat → Nat) (ms k : Nat) (tree : List HNode)
    (hT : TreeInv freqs ms k tree) : active tree k = Finset.range k := by
  ext j
  rw [mem_active, Finset.mem_range]
  constructor
  · exact fun h => h.1
  · exact fun h => ⟨h, fun d hd => (dadOf_bounds freqs ms k tree hT j d hd).2.2⟩

theorem active_step (freqs : Nat → Nat) (ms k : Nat) (tree : List HNode)
    (hF : FinalTree freqs ms k tree) (i : Nat) (hki : k ≤ i) (hi : i + 1 < 2 * k) :
    ∃ l r, l ∈ active tree i ∧ r ∈ active tree i ∧ l ≠ r ∧ i ∉ active tree i ∧
      active tree (i + 1) = insert i ((active tree i).erase l |>.erase r) ∧
      wt tree i = wt tree l + wt tree r ∧ wt tree l ≤ wt tree r ∧
      ∀ j ∈ active tree i, wt tree l ≤ wt tree j ∧ (j ≠ l → wt tree r ≤ wt tree j) := by
  obtain ⟨hT, hK, hlen, hk⟩ := hF
  obtain ⟨nd, l, r, ln, rn, hnd, hls, hrs, hln, hrn, hli, hri, hlr, hw, _, hld, hrd, hlw, hmin⟩ :=
    hT.2.2.2.2.2.2.2.1 i hki (by omega)
  have hdl : dadOf tree l = some i := by rw [dadOf_eq tree l ln hln, hld]
  have hdr : dadOf tree r = some i := by rw [dadOf_eq tree r rn hrn, hrd]
  refine ⟨l, r, ?_, ?_, hlr, ?_, ?_, ?_, ?_, ?_⟩
  · rw [mem_active]
    refine ⟨hli, fun d hd => ?_⟩
    rw [hdl] at hd; cases hd; exact Nat.le_refl _
  · rw [mem_active]
    refine ⟨hri, fun d hd => ?_⟩
    rw [hdr] at hd; cases hd; exact Nat.le_refl _
  · rw [mem_active]; intro h; exact Nat.lt_irrefl _ h.1
  · ext j
    rw [mem_active, Finset.mem_insert, Finset.mem_erase, Finset.mem_erase, mem_active]
    constructor
    · intro ⟨h1, h2⟩
      by_cases hji : j = i
      · exact Or.inl hji
      · refine Or.inr ⟨?_, ?_, by omega, fun d hd => ?_⟩
        · intro e; rw [e] at h2; have := h2 i hdr; omega
        · intro e; rw [e] at h2; have := h2 i hdl; omega
        · have := h2 d hd; omega
    · intro h
      rcases h with h | ⟨h1, h2, h3, h4⟩
      · rw [h]
        exact ⟨Nat.lt_succ_self i, fun d hd => (dadOf_bounds freqs ms k tree hT i d hd).1⟩
      · refine ⟨by omega, fun d hd => ?_⟩
        have h5 := h4 d hd
        by_contra hcon
        have hdi : d = i := by omega
        rw [hdi] at hd
        obtain ⟨jn, hjn, hjd⟩ := dadOf_some tree j i hd
        obtain ⟨pn, hpn, hkid⟩ := hK j jn i hjn hjd
        rw [hnd] at hpn
        cases hpn
        rcases hkid with e | e
        · rw [hls] at e; cases e; exact h2 rfl
        · rw [hrs] at e; cases e; exact h1 rfl
  · rw [wt_eq tree i nd hnd, wt_eq tree l ln hln, wt_eq tree r rn hrn]; exact hw
  · rw [wt_eq tree l ln hln, wt_eq tree r rn hrn]; exact hlw
  · intro j hj
    rw [mem_active] at hj
    obtain ⟨jn, hjn⟩ := get?_of_lt tree j (by omega)
    have hcond : jn.dad = none ∨ ∃ p, jn.dad = some p ∧ i ≤ p := by
      cases hd : jn.dad with
      | none => exact Or.inl rfl
      | some p =>
        refine Or.inr ⟨p, rfl, hj.2 p ?_⟩
        rw [dadOf_eq tree j jn hjn, hd]
    have := hmin j jn hj.1 hjn hcond
    exact ⟨lexLe_wt tree l j this.1, fun hne => lexLe_wt tree r j (this.2 hne)⟩

/-- The weights of the internal nodes add up to at most `m` times the weight
of the leaves when there are at most `2 ^ m` leaves. -/
theorem tree_cost (freqs : Nat → Nat) (ms k : Nat) (tree : List HNode)
    (hF : FinalTree freqs ms k tree) (m : Nat) (hm : k ≤ 2 ^ m) :
    ∑ p ∈ Finset.Ico k (2 * k - 1), wt tree p ≤ m * ∑ j ∈ Finset.range k, wt tree j :=
  merge_cost (wt tree) k hF.2.2.2 (active tree) (active_start freqs ms k tree hF.1)
    (fun i h1 h2 => active_step freqs ms k tree hF i h1 h2) m hm

/-- Induction from the parent to the child. -/
theorem dad_induction (freqs : Nat → Nat) (ms k : Nat) (tree : List HNode)
    (hT : TreeInv freqs ms k tree) (P : Nat → Prop)
    (h : ∀ j, (∀ d, dadOf tree j = some d → P d) → P j) : ∀ j, P j := by
  have aux : ∀ n j, tree.length ≤ n + j → P j := by
    intro n
    induction n with
    | zero =>
      intro j hj
      apply h
      intro d hd
      have := dadOf_bounds freqs ms k tree hT j d hd
      omega
    | succ n ih =>
      intro j hj
      apply h
      intro d hd
      have := dadOf_bounds freqs ms k tree hT j d hd
      exact ih d (by omega)
  intro j
  exact aux tree.length j (by omega)

theorem under_some (freqs : Nat → Nat) (ms k : Nat) (tree : List HNode)
    (hT : TreeInv freqs ms k tree) (p j d : Nat) (hd : dadOf tree j = some d) :
    under tree p j ↔ j = p ∨ under tree p d := by
  unfold under
  rw [chain_cons freqs ms k tree hT j d hd, List.mem_cons]
  constructor
  · rintro (h | h | h)
    · exact Or.inl h
    · exact Or.inr (Or.inl h.symm)
    · exact Or.inr (Or.inr h)
  · rintro (h | h | h)
    · exact Or.inl h
    · exact Or.inr (Or.inl h.symm)
    · exact Or.inr (Or.inr h)

theorem under_none (tree : List HNode) (p j : Nat) (hd : dadOf tree j = none) :
    under tree p j ↔ j = p := by
  unfold under
  rw [chain_none tree _ j hd]
  simp

theorem under_le (freqs : Nat → Nat) (ms k : Nat) (tree : List HNode)
    (hT : TreeInv freqs ms k tree) (p j : Nat) (h : under tree p j) : j ≤ p := by
  rcases h with h | h
  · omega
  · have := chain_bounds freqs ms k tree hT _ j p h
    omega

theorem under_trans (freqs : Nat → Nat) (ms k : Nat) (tree : List HNode)
    (hT : TreeInv freqs ms k tree) (a b : Nat) (hab : under tree b a) :
    ∀ j, under tree a j → under tree b j := by
  apply dad_induction freqs ms k tree hT
  intro j ih hj
  cases hd : dadOf tree j with
  | none =>
    rw [under_none tree a j hd] at hj
    rw [hj]; exact hab
  | some d =>
    rw [under_some freqs ms k tree hT a j d hd] at hj
    rcases hj with hj | hj
    · rw [hj]; exact hab
    · rw [under_some freqs ms k tree hT b j d hd]
      exact Or.inr (ih d hd hj)

/-- The ancestors of a node lie on one line. -/
theorem under_linear (freqs : Nat → Nat) (ms k : Nat) (tree : List HNode)
    (hT : TreeInv freqs ms k tree) (a b : Nat) (hab : a ≤ b) :
    ∀ j, under tree a j → under tree b j → under tree b a := by
  apply dad_induction freqs ms k tree hT
  intro j ih ha hb
  cases hd : dadOf tree j with
  | none =>
    rw [under_none tree a j hd] at ha
    rw [← ha]; exact hb
  | some d =>
    rw [under_some freqs ms k tree hT a j d hd] at ha
    rw [under_some freqs ms k tree hT b j d hd] at hb
    rcases ha with ha | ha
    · rw [← ha, under_some freqs ms k tree hT b j d hd]; exact hb
    · rcases hb with hb | hb
      · have h1 := under_le freqs ms k tree hT a d ha
        have h2 := (dadOf_bounds freqs ms k tree hT j d hd).1
        omega
      · exact ih d hd ha hb

theorem under_kids (freqs : Nat → Nat) (ms k : Nat) (tree : List HNode)
    (hF : FinalTree freqs ms k tree) (p l r : Nat) (nd : HNode) (hnd : tree.get? p = some nd)
    (hls : nd.lson = some l) (hrs : nd.rson = some r)
    (hdl : dadOf tree l = some p) (hdr : dadOf tree r = some p) :
    ∀ j, j ≠ p → (under tree p j ↔ under tree l j ∨ under tree r j) := by
  obtain ⟨hT, hK, hlen, hk⟩ := hF
  have hpl : under tree p l := by
    rw [under_some freqs ms k tree hT p l p hdl]; exact Or.inr (Or.inl rfl)
  have hpr : under tree p r := by
    rw [under_some freqs ms k tree hT p r p hdr]; exact Or.inr (Or.inl rfl)
  intro j hjp
  constructor
  · revert hjp
    revert j
    apply dad_induction freqs ms k tree hT
    intro j ih hjp hj
    cases hd : dadOf tree j with
    | none =>
      rw [under_none tree p j hd] at hj
      exact absurd hj hjp
    | some d =>
      rw [under_some freqs ms k tree hT p j d hd] at hj
      rcases hj with hj | hj
      · exact absurd hj hjp
      · by_cases hdp : d = p
        · rw [hdp] at hd
          obtain ⟨jn, hjn, hjd⟩ := dadOf_some tree j p hd
          obtain ⟨pn, hpn, hkid⟩ := hK j jn p hjn hjd
          rw [hnd] at hpn
          cases hpn
          rcases hkid with e | e
          · rw [hls] at e; cases e; exact Or.inl (Or.inl rfl)
          · rw [hrs] at e; cases e; exact Or.inr (Or.inl rfl)
        · rcases ih d hd hdp hj with h | h
          · left; rw [under_some freqs ms k tree hT l j d hd]; exact Or.inr h
          · right; rw [under_some freqs ms k tree hT r j d hd]; exact Or.inr h
  · rintro (h | h)
    · exact under_trans freqs ms k tree hT l p hpl j h
    · exact under_trans freqs ms k tree hT r p hpr j h

theorem under_kids_disjoint (freqs : Nat → Nat) (ms k : Nat) (tree : List HNode)
    (hT : TreeInv freqs ms k tree) (p l r : Nat) (hlr : l ≠ r)
    (hdl : dadOf tree l = some p) (hdr : dadOf tree r = some p) (j : Nat)
    (h1 : under tree l j) (h2 : under tree r j) : False := by
  have hbl := dadOf_bounds freqs ms k tree hT l p hdl
  have hbr := dadOf_bounds freqs ms k tree hT r p hdr
  rcases Nat.lt_or_gt_of_ne hlr with h | h
  · have := under_linear freqs ms k tree hT l r (by omega) j h1 h2
    rw [under_some freqs ms k tree hT r l p hdl] at this
    rcases this with e | e
    · exact hlr e
    · have := under_le freqs ms k tree hT r p e
      omega
  · have := under_linear freqs ms k tree hT r l (by omega) j h2 h1
    rw [under_some freqs ms k tree hT l r p hdr] at this
    rcases this with e | e
    · exact hlr e.symm
    · have := under_le freqs ms k tree hT l p e
      omega

/-- The weight of a node is the weight of the leaves under it. -/
theorem subtree_weight (freqs : Nat → Nat) (ms k : Nat) (tree : List HNode)
    (hF : FinalTree freqs ms k tree) : ∀ p, p < tree.length →
      wt tree p = ∑ j ∈ (Finset.range k).filter (fun j => under tree p j), wt tree j := by
  obtain ⟨hT, hK, hlen, hk⟩ := hF
  intro p
  induction p using Nat.strong_induction_on with
  | _ p ih =>
    intro hp
    by_cases hpk : p < k
    · have : (Finset.range k).filter (fun j => under tree p j) = {p} := by
        ext j
        rw [Finset.mem_filter, Finset.mem_range, Finset.mem_singleton]
        constructor
        · rintro ⟨h1, h2 | h2⟩
          · exact h2
          · have := chain_bounds freqs ms k tree hT _ j p h2
            omega
        · intro h; rw [h]; exact ⟨hpk, Or.inl rfl⟩
      rw [this, Finset.sum_singleton]
    · obtain ⟨nd, l, r, ln, rn, hnd, hls, hrs, hln, hrn, hli, hri, hlr, hw, _, hld, hrd, _, _⟩ :=
        hT.2.2.2.2.2.2.2.1 p (by omega) hp
      have hdl : dadOf tree l = some p := by rw [dadOf_eq tree l ln hln, hld]
      have hdr : dadOf tree r = some p := by rw [dadOf_eq tree r rn hrn, hrd]
      have hsplit : (Finset.range k).filter (fun j => under tree p j) =
          (Finset.range k).filter (fun j => under tree l j) ∪
            (Finset.range k).filter (fun j => under tree r j) := by
        ext j
        rw [Finset.mem_union, Finset.mem_filter, Finset.mem_filter, Finset.mem_filter,
          Finset.mem_range]
        constructor
        · rintro ⟨h1, h2⟩
          rcases (under_kids freqs ms k tree ⟨hT, hK, hlen, hk⟩ p l r nd hnd hls hrs hdl hdr j
            (by omega)).1 h2 with h | h
          · exact Or.inl ⟨h1, h⟩
          · exact Or.inr ⟨h1, h⟩
        · rintro (⟨h1, h2⟩ | ⟨h1, h2⟩)
          · exact ⟨h1, (under_kids freqs ms k tree ⟨hT, hK, hlen, hk⟩ p l r nd hnd hls hrs hdl hdr j
              (by omega)).2 (Or.inl h2)⟩
          · exact ⟨h1, (under_kids freqs ms k tree ⟨hT, hK, hlen, hk⟩ p l r nd hnd hls hrs hdl hdr j
              (by omega)).2 (Or.inr h2)⟩
      have hdisj : Disjoint ((Finset.range k).filter (fun j => under tree l j))
          ((Finset.range k).filter (fun j => under tree r j)) := by
        rw [Finset.disjoint_left]
        intro j h1 h2
        exact under_kids_disjoint freqs ms k tree hT p l r hlr hdl hdr j
          (Finset.mem_filter.1 h1).2 (Finset.mem_filter.1 h2).2
      rw [hsplit, Finset.sum_union hdisj, ← ih l hli (by omega), ← ih r hri (by omega),
        wt_eq tree p nd hnd, wt_eq tree l ln hln, wt_eq tree r rn hrn]
      exact hw

/-- The weighted depth of the leaves is the weight of the internal nodes. -/
theorem depth_sum (freqs : Nat → Nat) (ms k : Nat) (tree : List HNode)
    (hF : FinalTree freqs ms k tree) :
    ∑ j ∈ Finset.range k, wt tree j * (chain tree tree.length j).length =
      ∑ p ∈ Finset.Ico k (2 * k - 1), wt tree p := by
  have hT := hF.1
  have hlen := hF.2.2.1
  have hcount : ∀ j, (chain tree tree.length j).length =
      ∑ p ∈ Finset.Ico k (2 * k - 1), if p ∈ chain tree tree.length j then 1 else 0 := by
    intro j
    rw [← List.toFinset_card_of_nodup (chain_nodup freqs ms k tree hT _ j)]
    rw [← Finset.card_filter]
    congr 1
    ext p
    rw [List.mem_toFinset, Finset.mem_filter, Finset.mem_Ico]
    constructor
    · intro h
      have := chain_bounds freqs ms k tree hT _ j p h
      exact ⟨⟨this.2.2, by omega⟩, h⟩
    · exact fun h => h.2
  have h1 : ∀ j ∈ Finset.range k, wt tree j * (chain tree tree.length j).length =
      ∑ p ∈ Finset.Ico k (2 * k - 1),
        if under tree p j then wt tree j else 0 := by
    intro j hj
    rw [hcount j, Finset.mul_sum]
    apply Finset.sum_congr rfl
    intro p hp
    have hpk := (Finset.mem_Ico.1 hp).1
    have hjk := Finset.mem_range.1 hj
    have : under tree p j ↔ p ∈ chain tree tree.length j := by
      unfold under
      constructor
      · rintro (h | h)
        · omega
        · exact h
      · exact fun h => Or.inr h
    by_cases hm : p ∈ chain tree tree.length j
    · rw [if_pos hm, if_pos (this.2 hm)]; simp
    · rw [if_neg hm, if_neg (fun h => hm (this.1 h))]; simp
  rw [Finset.sum_congr rfl h1, Finset.sum_comm]
  apply Finset.sum_congr rfl
  intro p hp
  have hp2 := Finset.mem_Ico.1 hp
  rw [subtree_weight freqs ms k tree hF p (by omega), Finset.sum_filter]

/-- The weighted depth of the leaves is at most `m` times their weight when
there are at most `2 ^ m` leaves. -/
theorem depth_bound (freqs : Nat → Nat) (ms k : Nat) (tree : List HNode)
    (hF : FinalTree freqs ms k tree) (m : Nat) (hm : k ≤ 2 ^ m) :
    ∑ j ∈ Finset.range k, wt tree j * (chain tree tree.length j).length ≤
      m * ∑ j ∈ Finset.range k, wt tree j := by
  rw [depth_sum freqs ms k tree hF]
  exact tree_cost freqs ms k tree hF m hm

theorem symbolsOfByte_8 (ch : Nat) : symbolsOfByte 8 8 8 ch = [ch] := by
  have h : usub 8 8 = 0 := by decide
  simp [symbolsOfByte, h]

theorem symbolsOfByte_4 (ch : Nat) :
    symbolsOfByte 4 8 8 ch = [ch >>> 4, ((ch <<< 4) &&& 0xFF) >>> 4] := by
  have h : usub 8 4 = 4 := by decide
  have h2 : usub 4 4 = 0 := by decide
  simp [symbolsOfByte, h, h2]

theorem symbolsOf_8 (x : List Nat) : symbolsOf 8 x = x := by
  unfold symbolsOf
  induction x with
  | nil => rfl
  | cons a rest ih => rw [List.flatMap_cons, symbolsOfByte_8, ih]; rfl

theorem symbolsOf_4_length (x : List Nat) : (symbolsOf 4 x).length = 2 * x.length := by
  unfold symbolsOf
  induction x with
  | nil => rfl
  | cons a rest ih =>
    rw [List.flatMap_cons, List.length_append, ih, symbolsOfByte_4]
    simp only [List.length_cons, List.length_nil]
    omega

theorem symbolsOf_4_lt (x : List Nat) (hx : Bytes x) : ∀ s ∈ symbolsOf 4 x, s < 16 := by
  unfold symbolsOf
  intro s hs
  rw [List.mem_flatMap] at hs
  obtain ⟨ch, hch, hs⟩ := hs
  rw [symbolsOfByte_4] at hs
  have hb := hx ch hch
  rcases List.mem_cons.1 hs with h | h
  · rw [h, Nat.shiftRight_eq_div_pow]
    have : (2:Nat) ^ 4 = 16 := by decide
    omega
  · rw [List.mem_singleton] at h
    rw [h, Nat.shiftRight_eq_div_pow]
    have h1 : (ch <<< 4) &&& 0xFF ≤ 0xFF := Nat.and_le_right
    have : (2:Nat) ^ 4 = 16 := by decide
    omega

theorem symbolsOf_lt (n : Nat) (hn : n = 4 ∨ n = 8) (x : List Nat) (hx : Bytes x) :
    ∀ s ∈ symbolsOf n x, s < 1 <<< n := by
  rcases hn with h | h
  · subst h
    intro s hs
    exact symbolsOf_4_lt x hx s hs
  · subst h
    rw [symbolsOf_8]
    intro s hs
    exact hx s hs

theorem symbolsOf_length (n : Nat) (hn : n = 4 ∨ n = 8) (x : List Nat) :
    n * (symbolsOf n x).length = 8 * x.length := by
  rcases hn with h | h
  · subst h; rw [symbolsOf_4_length]; omega
  · subst h; rw [symbolsOf_8]

/-- Without overflow the counting loop counts. -/
theorem countFreqs_count : ∀ (syms : List Nat) (f0 : Nat → Nat),
    (∀ s, f0 s + syms.count s < 2 ^ 32) → ∀ s, countFreqs f0 syms s = f0 s + syms.count s := by
  intro syms
  induction syms with
  | nil => intro f0 _ s; simp [countFreqs]
  | cons a rest ih =>
    intro f0 h s
    unfold countFreqs
    have ha := h a
    rw [List.count_cons_self] at ha
    rw [uadd_eq _ _ (by omega)]
    rw [ih]
    · unfold store
      rw [List.count_cons]
      by_cases hsa : s = a
      · subst hsa; simp; omega
      · have : ¬ (a == s) = true := by simp; exact fun e => hsa e.symm
        rw [if_neg hsa, if_neg this]
        omega
    · intro s
      have hs := h s
      unfold store
      rw [List.count_cons] at hs
      by_cases hsa : s = a
      · subst hsa; simp at hs ⊢; omega
      · rw [if_neg hsa]
        have : ¬ (a == s) = true := by simp; exact fun e => hsa e.symm
        rw [if_neg this] at hs
        omega

theorem countFreqs_zero (syms : List Nat) (h : syms.length < 2 ^ 32) (s : Nat) :
    countFreqs (fun _ => 0) syms s = syms.count s := by
  rw [countFreqs_count syms (fun _ => 0)]
  · simp
  · intro s
    have := List.count_le_length (a := s) (l := syms)
    simp only [Nat.zero_add]
    omega

/-- A sum over the symbols of a text, by symbol. -/
theorem weighted_count (ms : Nat) (g : Nat → Nat) : ∀ (syms : List Nat), (∀ s ∈ syms, s < ms) →
    ∑ s ∈ Finset.range ms, syms.count s * g s = (syms.map g).sum := by
  intro syms
  induction syms with
  | nil => intro _; simp
  | cons a rest ih =>
    intro h
    have ha := h a (List.mem_cons_self _ _)
    have hr := ih (fun s hs => h s (List.mem_cons_of_mem _ hs))
    rw [List.map_cons, List.sum_cons, ← hr]
    have : ∀ s, (a :: rest).count s * g s = rest.count s * g s + (if s = a then g s else 0) := by
      intro s
      rw [List.count_cons]
      by_cases hsa : s = a
      · subst hsa; simp; ring
      · have : ¬ (a == s) = true := by simp; exact fun e => hsa e.symm
        rw [if_neg hsa, if_neg this]; simp
    simp only [this]
    rw [Finset.sum_add_distrib, Finset.sum_ite_eq', if_pos (Finset.mem_range.2 ha)]
    omega

theorem list_sum_range (ms : Nat) (f : Nat → Nat) :
    ((List.range ms).map f).sum = ∑ s ∈ Finset.range ms, f s := by
  induction ms with
  | zero => rfl
  | succ n ih =>
    rw [List.range_succ, List.map_append, List.sum_append, ih, Finset.sum_range_succ]
    simp

theorem totalFreq_length (ms : Nat) (syms : List Nat) (h : syms.length < 2 ^ 32)
    (hlt : ∀ s ∈ syms, s < ms) :
    totalFreq (countFreqs (fun _ => 0) syms) ms = syms.length := by
  unfold totalFreq
  rw [list_sum_range]
  have := weighted_count ms (fun _ => 1) syms hlt
  simp only [Nat.mul_one] at this
  rw [Finset.sum_congr rfl (fun s _ => countFreqs_zero syms h s), this]
  simp

theorem usedSymbols_nodup (freqs : Nat → Nat) (ms : Nat) : (usedSymbols freqs ms).Nodup := by
  unfold usedSymbols
  exact (List.nodup_range ms).filter _

theorem usedSymbols_length (freqs : Nat → Nat) (ms : Nat) :
    (usedSymbols freqs ms).length = countLeafs freqs ms := rfl

/-- A sum over the symbols that occur is a sum over the leaves. -/
theorem sum_used (freqs : Nat → Nat) (ms : Nat) (h : Nat → Nat) :
    ∑ s ∈ Finset.range ms, freqs s * h s =
      ∑ j ∈ Finset.range (countLeafs freqs ms),
        freqs ((usedSymbols freqs ms).getD j 0) * h ((usedSymbols freqs ms).getD j 0) := by
  rw [← list_sum_range, ← list_sum_range]
  have h1 : ((List.range ms).map (fun s => freqs s * h s)).sum =
      ((usedSymbols freqs ms).map (fun s => freqs s * h s)).sum := by
    unfold usedSymbols
    generalize List.range ms = l
    induction l with
    | nil => rfl
    | cons a rest ih =>
      rw [List.map_cons, List.sum_cons, ih, List.filter_cons]
      by_cases ha : freqs a = 0
      · simp [ha]
      · simp [ha]
  rw [h1]
  congr 1
  apply List.ext_getElem
  · simp [usedSymbols_length]
  · intro j h1 h2
    simp only [List.getElem_map, List.getElem_range]
    rw [List.getD_eq_getElem _ _ (by simpa using h1)]

theorem leaf_symbol (freqs : Nat → Nat) (ms k : Nat) (tree : List HNode)
    (hT : TreeInv freqs ms k tree) (j : Nat) (hj : j < k) :
    ∃ nd, tree.get? j = some nd ∧ nd.symbol = symAt freqs ms j ∧
      nd.weight = freqs (symAt freqs ms j) := by
  obtain ⟨nd, h1, _, _, _, h5, h6⟩ := hT.2.2.2.2.2.2.1 j hj
  have : nd.symbol = symAt freqs ms j := by
    unfold symAt
    rw [List.getD_eq_getElem?_getD, ← List.get?_eq_getElem?, h5]
    rfl
  exact ⟨nd, h1, this, by rw [← this]; exact h6⟩

theorem symAt_inj (freqs : Nat → Nat) (ms : Nat) (i j : Nat)
    (hi : i < countLeafs freqs ms) (hj : j < countLeafs freqs ms)
    (h : symAt freqs ms i = symAt freqs ms j) : i = j := by
  unfold symAt at h
  rw [List.getD_eq_getElem _ _ (by rw [usedSymbols_length]; exact hi),
    List.getD_eq_getElem _ _ (by rw [usedSymbols_length]; exact hj)] at h
  exact (List.Nodup.getElem_inj_iff (usedSymbols_nodup freqs ms)).1 h

/-- The loop of `HUF_CreateCodeWorks` gives every leaf a code as long as the
leaf is deep, and leaves the other entries as they were. -/
theorem createCodeWorks_spec (freqs : Nat → Nat) (ms : Nat) (tree : List HNode)
    (hT : TreeInv freqs ms (countLeafs freqs ms) tree) :
    ∀ (n i : Nat) (codes0 : Nat → Option HCode), i + n ≤ countLeafs freqs ms →
      ∃ codes, createCodeWorks tree n i codes0 = some codes ∧
        (∀ j, i ≤ j → j < i + n → codes (symAt freqs ms j) =
          some { nbits := (pathBits tree j (chain tree tree.length j)).length,
                 codework := packBits (pathBits tree j (chain tree tree.length j)).reverse
                   HUF_MASK 0 [] }) ∧
        (∀ s, (∀ j, i ≤ j → j < i + n → symAt freqs ms j ≠ s) → codes s = codes0 s) := by
  intro n
  induction n with
  | zero =>
    intro i codes0 _
    refine ⟨codes0, rfl, ?_, fun _ _ => rfl⟩
    intro j h1 h2; omega
  | succ n ih =>
    intro i codes0 hi
    obtain ⟨nd, hnd, hsym, _⟩ := leaf_symbol freqs ms _ tree hT i (by omega)
    have hlen : i < tree.length := by have := hT.1; omega
    have hcl := climb_eq freqs ms _ tree hT tree.length i hlen (by omega)
    unfold createCodeWorks
    simp only [hnd, hcl]
    obtain ⟨codes, hc, ha, hb⟩ := ih (i + 1)
      (fun s => if s = nd.symbol then
        some { nbits := (pathBits tree i (chain tree tree.length i)).length,
               codework := packBits (pathBits tree i (chain tree tree.length i)).reverse
                 HUF_MASK 0 [] }
        else codes0 s) (by omega)
    refine ⟨codes, hc, ?_, ?_⟩
    · intro j h1 h2
      by_cases hji : j = i
      · subst hji
        rw [hb]
        · rw [if_pos hsym.symm]
        · intro j2 h3 h4 e
          have := symAt_inj freqs ms j2 j (by omega) (by omega) e
          omega
      · exact ha j (by omega) (by omega)
    · intro s hs
      rw [hb s (fun j h1 h2 => hs j (by omega) (by omega))]
      have := hs i (Nat.le_refl _) (by omega)
      rw [if_neg]
      rw [hsym]; exact fun e => this e.symm

theorem two_pow_shiftRight_one (e : Nat) (he : 0 < e) : (2 ^ e) >>> 1 = 2 ^ (e - 1) := by
  obtain ⟨m, rfl⟩ : ∃ m, e = m + 1 := ⟨e - 1, by omega⟩
  rw [Nat.shiftRight_eq_div_pow, pow_succ]
  simp

theorem bitInv_open (b : Nat) (bo : BitOut) (h : BitInv b bo) :
    BitInv (b + 1)
      (if bo.mask4 >>> 1 = 0 then
        { mask4 := HUF_MASK4, cur := some 0,
          words := match bo.cur with
            | some w => bo.words ++ [w]
            | none => bo.words }
      else { bo with mask4 := bo.mask4 >>> 1 }) := by
  rcases h with ⟨h1, h2, h3, h4⟩ | ⟨h1, h2, h3, h4⟩
  · rw [h2, if_pos (by decide), h3, h4, h1]
    exact Or.inr ⟨by decide, by decide, rfl, rfl⟩
  · by_cases hr : (b - 1) % 32 = 31
    · have hm : bo.mask4 >>> 1 = 0 := by rw [h2, hr]; decide
      rw [if_pos hm]
      obtain ⟨w, hw⟩ := Option.isSome_iff_exists.1 h3
      rw [hw]
      refine Or.inr ⟨by omega, ?_, rfl, ?_⟩
      · have : (b + 1 - 1) % 32 = 0 := by omega
        show HUF_MASK4 = 2 ^ (31 - (b + 1 - 1) % 32)
        rw [this]; decide
      · simp only [List.length_append, List.length_cons, List.length_nil, h4]
        omega
    · have hlt : (b - 1) % 32 < 31 := by
        have := Nat.mod_lt (b - 1) (show 0 < 32 by decide)
        omega
      have hm : bo.mask4 >>> 1 = 2 ^ (31 - (b - 1) % 32 - 1) := by
        rw [h2]; exact two_pow_shiftRight_one _ (by omega)
      have hne : bo.mask4 >>> 1 ≠ 0 := by
        rw [hm]; exact Nat.pos_iff_ne_zero.1 (Nat.two_pow_pos _)
      rw [if_neg hne]
      refine Or.inr ⟨by omega, ?_, h3, ?_⟩
      · show bo.mask4 >>> 1 = _
        rw [hm]
        congr 1
        omega
      · show bo.words.length = _
        rw [h4]; omega

theorem bitInv_setBit (b : Nat) (bo : BitOut) (c : Prop) [Decidable c] (f : Nat → Nat)
    (h : BitInv (b + 1) bo) :
    BitInv (b + 1) (if c then { bo with cur := bo.cur.map f } else bo) := by
  split
  · rcases h with ⟨h1, _⟩ | ⟨h1, h2, h3, h4⟩
    · omega
    · refine Or.inr ⟨h1, h2, ?_, h4⟩
      show (bo.cur.map f).isSome = true
      obtain ⟨w, hw⟩ := Option.isSome_iff_exists.1 h3
      rw [hw]; rfl
  · exact h

theorem emitCode_inv (cw : List Nat) : ∀ (n k b : Nat) (bo : BitOut), BitInv b bo →
    BitInv (b + n) (emitCode cw n k bo) := by
  intro n
  induction n with
  | zero => intro k b bo h; exact h
  | succ n ih =>
    intro k b bo h
    unfold emitCode
    rw [show b + (n + 1) = (b + 1) + n by omega]
    exact ih _ _ _ (bitInv_setBit b _ _ _ (bitInv_open b bo h))

theorem emitAll_inv (codes : Nat → Option HCode) : ∀ (syms : List Nat) (b : Nat) (bo : BitOut),
    (∀ s ∈ syms, ∃ c, codes s = some c) → BitInv b bo →
      ∃ bo1, emitAll codes syms bo = some bo1 ∧ BitInv (b + codeBits codes syms) bo1 := by
  intro syms
  induction syms with
  | nil => intro b bo _ h; exact ⟨bo, rfl, h⟩
  | cons a rest ih =>
    intro b bo hc h
    obtain ⟨c, hca⟩ := hc a (List.mem_cons_self _ _)
    unfold emitAll
    simp only [hca]
    obtain ⟨bo1, h1, h2⟩ := ih (b + c.nbits) (emitCode c.codework c.nbits 0 bo)
      (fun s hs => hc s (List.mem_cons_of_mem _ hs)) (emitCode_inv c.codework c.nbits 0 b bo h)
    refine ⟨bo1, h1, ?_⟩
    have : codeBits codes (a :: rest) = c.nbits + codeBits codes rest := by
      unfold codeBits
      rw [List.map_cons, List.sum_cons]
      unfold codeLen
      rw [hca]
    rw [this, ← Nat.add_assoc]
    exact h2

theorem bitInv_words (b : Nat) (bo : BitOut) (h : BitInv b bo) :
    (closeWords bo).length = (b + 31) / 32 := by
  unfold closeWords
  rcases h with ⟨h1, h2, h3, h4⟩ | ⟨h1, h2, h3, h4⟩
  · rw [h3, h4, h1]; rfl
  · obtain ⟨w, hw⟩ := Option.isSome_iff_exists.1 h3
    rw [hw]
    simp only [List.length_append, List.length_cons, List.length_nil, h4]
    omega

theorem mem_usedSymbols (freqs : Nat → Nat) (ms s : Nat) :
    s ∈ usedSymbols freqs ms ↔ s < ms ∧ freqs s ≠ 0 := by
  unfold usedSymbols
  simp [List.mem_filter]

theorem exists_symAt (freqs : Nat → Nat) (ms s : Nat) (h1 : s < ms) (h2 : freqs s ≠ 0) :
    ∃ j, j < countLeafs freqs ms ∧ symAt freqs ms j = s := by
  have hm := (mem_usedSymbols freqs ms s).2 ⟨h1, h2⟩
  obtain ⟨j, hj, hjs⟩ := List.getElem_of_mem hm
  refine ⟨j, hj, ?_⟩
  unfold symAt
  rw [List.getD_eq_getElem _ _ hj]
  exact hjs

/-- Two different symbols in the text give two leaves. -/
theorem countLeafs_two (ms : Nat) (syms : List Nat) (hlen : syms.length < 2 ^ 32)
    (hlt : ∀ s ∈ syms, s < ms) (a b : Nat) (ha : a ∈ syms) (hb : b ∈ syms) (hab : a ≠ b) :
    2 ≤ countLeafs (countFreqs (fun _ => 0) syms) ms := by
  have fa : countFreqs (fun _ => 0) syms a ≠ 0 := by
    rw [countFreqs_zero syms hlen]
    exact Nat.pos_iff_ne_zero.1 (List.count_pos_iff.2 ha)
  have fb : countFreqs (fun _ => 0) syms b ≠ 0 := by
    rw [countFreqs_zero syms hlen]
    exact Nat.pos_iff_ne_zero.1 (List.count_pos_iff.2 hb)
  obtain ⟨i, hi, hia⟩ := exists_symAt _ ms a (hlt a ha) fa
  obtain ⟨j, hj, hjb⟩ := exists_symAt _ ms b (hlt b hb) fb
  have : i ≠ j := by
    intro e; rw [e] at hia; rw [hia] at hjb; exact hab hjb
  omega

theorem createFreqs_eq (n : Nat) (x : List Nat) (hms : 1 <<< n ≤ 256)
    (hk : 2 ≤ countLeafs (countFreqs (fun _ => 0) (symbolsOf n x)) (1 <<< n)) :
    HUF_CreateFreqs n x = (countFreqs (fun _ => 0) (symbolsOf n x),
      countLeafs (countFreqs (fun _ => 0) (symbolsOf n x)) (1 <<< n),
      2 * countLeafs (countFreqs (fun _ => 0) (symbolsOf n x)) (1 <<< n) - 1) := by
  have hle := countLeafs_le (countFreqs (fun _ => 0) (symbolsOf n x)) (1 <<< n)
  unfold HUF_CreateFreqs
  simp only
  rw [if_neg (by omega)]
  simp only
  generalize countLeafs (countFreqs (fun _ => 0) (symbolsOf n x)) (1 <<< n) = k at hk hle ⊢
  have h2 : k <<< 1 = 2 * k := by rw [Nat.shiftLeft_eq]; omega
  rw [h2, usub_eq _ _ (by omega) (by omega)]

/-- The bits of the codes of a text: at most `n` for each symbol when the
alphabet has `2 ^ n` symbols. -/
theorem codeBits_bound (n : Nat) (syms : List Nat) (hlen : syms.length < 2 ^ 32)
    (hlt : ∀ s ∈ syms, s < 2 ^ n) (tree : List HNode)
    (hF : FinalTree (countFreqs (fun _ => 0) syms) (2 ^ n)
      (countLeafs (countFreqs (fun _ => 0) syms) (2 ^ n)) tree)
    (codes : Nat → Option HCode)
    (hcodes : ∀ j, j < countLeafs (countFreqs (fun _ => 0) syms) (2 ^ n) →
      ∃ c, codes (symAt (countFreqs (fun _ => 0) syms) (2 ^ n) j) = some c ∧
        c.nbits = (chain tree tree.length j).length) :
    codeBits codes syms ≤ n * syms.length := by
  have hT := hF.1
  unfold codeBits
  rw [← weighted_count (2 ^ n) (codeLen codes) syms hlt]
  rw [Finset.sum_congr rfl (fun s _ => by rw [← countFreqs_zero syms hlen s])]
  rw [sum_used]
  have h1 : ∀ j ∈ Finset.range (countLeafs (countFreqs (fun _ => 0) syms) (2 ^ n)),
      countFreqs (fun _ => 0) syms ((usedSymbols (countFreqs (fun _ => 0) syms) (2 ^ n)).getD j 0) *
        codeLen codes ((usedSymbols (countFreqs (fun _ => 0) syms) (2 ^ n)).getD j 0) =
      wt tree j * (chain tree tree.length j).length := by
    intro j hj
    have hj := Finset.mem_range.1 hj
    obtain ⟨nd, hnd, hsym, hw⟩ := leaf_symbol _ _ _ tree hT j hj
    obtain ⟨c, hc, hcn⟩ := hcodes j hj
    rw [wt_eq tree j nd hnd, hw]
    unfold symAt at hc ⊢
    simp only [codeLen, hc, hcn]
  rw [Finset.sum_congr rfl h1]
  refine Nat.le_trans (depth_bound _ _ _ tree hF n (countLeafs_le _ _)) ?_
  apply Nat.mul_le_mul_left
  have h2 : ∀ j ∈ Finset.range (countLeafs (countFreqs (fun _ => 0) syms) (2 ^ n)),
      wt tree j =
      countFreqs (fun _ => 0) syms ((usedSymbols (countFreqs (fun _ => 0) syms) (2 ^ n)).getD j 0) *
        (fun _ => 1) ((usedSymbols (countFreqs (fun _ => 0) syms) (2 ^ n)).getD j 0) := by
    intro j hj
    have hj := Finset.mem_range.1 hj
    obtain ⟨nd, hnd, hsym, hw⟩ := leaf_symbol _ _ _ tree hT j hj
    rw [wt_eq tree j nd hnd, hw]
    unfold symAt
    simp
  rw [Finset.sum_congr rfl h2, ← sum_used _ _ (fun _ => 1)]
  simp only [Nat.mul_one]
  rw [← list_sum_range]
  have := totalFreq_length (2 ^ n) syms hlen hlt
  unfold totalFreq at this
  rw [this]

/-- The length of the output of `HUF_Code` in the table size byte and the
words of the bit writer. -/
theorem HUF_Code_length (n : Nat) (x : List Nat) (tree : List HNode) (codes : Nat → Option HCode)
    (bo : BitOut)
    (hT : HUF_CreateTree (HUF_CreateFreqs n x).1 (1 <<< n) (HUF_CreateFreqs n x).2.1
      (HUF_CreateFreqs n x).2.2 = some tree)
    (hC : HUF_CreateCodeWorks tree (HUF_CreateFreqs n x).2.1 = some codes)
    (hE : emitAll codes (symbolsOf n x) { mask4 := 0, cur := none, words := [] } = some bo)
    (out : List Nat) (h : HUF_Code n x = some out) :
    out.getD 4 0 = (usub (HUF_CreateFreqs n x).2.1 1 ||| 1) % 256 ∧
    out.length = 4 + 2 * (out.getD 4 0 + 1) + 4 * (closeWords bo).length := by
  unfold HUF_Code at h
  simp only [hT] at h
  split at h
  · simp at h
  · rename_i codetree hct
    have hc0 := createCodeTree_slot0 _ _ _ _ hct
    have hget : codetree.getD 0 0 = (usub (HUF_CreateFreqs n x).2.1 1 ||| 1) % 256 := by
      rw [List.get?_eq_getElem?] at hc0
      simp [List.getD, hc0]
    simp only [hC] at h
    split at h
    · simp at h
    · rename_i hlen
      simp only [hE, Option.some.injEq] at h
      rw [hget, Nat.shiftLeft_eq] at hlen h
      have h4 : out.getD 4 0 = (usub (HUF_CreateFreqs n x).2.1 1 ||| 1) % 256 := by
        rw [← h, List.append_assoc, List.getD_eq_getElem?_getD,
          List.getElem?_append_right (by rw [write32le_length])]
        rw [write32le_length, Nat.sub_self,
          List.getElem?_append_left (by rw [List.length_take]; omega),
          List.getElem?_take_of_lt (by omega), ← List.get?_eq_getElem?, hc0]
        rfl
      refine ⟨h4, ?_⟩
      have hl := congrArg List.length h
      simp only [List.length_append, write32le_length, flatMap_write32le_length,
        List.length_take] at hl
      rw [Nat.min_eq_left (by omega)] at hl
      rw [h4, ← hl]
      unfold closeWords
      cases hb : bo.cur with
      | none => simp only [hb]; omega
      | some w => simp only [hb]; omega

theorem or_one_lt (a m : Nat) (hm : 1 ≤ m) (ha : a < 2 ^ m) : a ||| 1 < 2 ^ m := by
  apply Nat.or_lt_two_pow ha
  calc 1 < 2 ^ 1 := by decide
    _ ≤ 2 ^ m := Nat.pow_le_pow_right (by decide) hm

/-- The encoder up to the emission of the codes, for an alphabet of `2 ^ n`
symbols with `n ≤ 8`. -/
theorem huffman_output_core (n : Nat) (x : List Nat) (hn1 : 1 ≤ n) (hn8 : n ≤ 8)
    (hsy : n * (symbolsOf n x).length = 8 * x.length)
    (hlt : ∀ s ∈ symbolsOf n x, s < 1 <<< n)
    (hsl : (symbolsOf n x).length < 2 ^ 32)
    (h2 : ∃ a ∈ symbolsOf n x, ∃ b ∈ symbolsOf n x, a ≠ b) :
    ∃ tree codes bo,
      HUF_CreateTree (HUF_CreateFreqs n x).1 (1 <<< n) (HUF_CreateFreqs n x).2.1
        (HUF_CreateFreqs n x).2.2 = some tree ∧
      HUF_CreateCodeWorks tree (HUF_CreateFreqs n x).2.1 = some codes ∧
      emitAll codes (symbolsOf n x) { mask4 := 0, cur := none, words := [] } = some bo ∧
      codeBits codes (symbolsOf n x) ≤ 8 * x.length ∧
      4 + 2 * ((((HUF_CreateFreqs n x).2.1 - 1) ||| 1) + 1) +
          4 * ((codeBits codes (symbolsOf n x) + 31) / 32) ≤ 4 + 2 * 2 ^ n + x.length + 3 ∧
      ∀ out, HUF_Code n x = some out →
        out.getD 4 0 = ((HUF_CreateFreqs n x).2.1 - 1) ||| 1 ∧
        out.length = 4 + 2 * (out.getD 4 0 + 1) +
          4 * ((codeBits codes (symbolsOf n x) + 31) / 32) := by
  have hms : 1 <<< n = 2 ^ n := by rw [Nat.shiftLeft_eq, Nat.one_mul]
  have h256 : 2 ^ n ≤ 256 := by
    calc 2 ^ n ≤ 2 ^ 8 := Nat.pow_le_pow_right (by decide) hn8
      _ = 256 := by decide
  obtain ⟨a, ha, b, hb, hab⟩ := h2
  have hk := countLeafs_two (1 <<< n) (symbolsOf n x) hsl hlt a b ha hb hab
  have hkle : countLeafs (countFreqs (fun _ => 0) (symbolsOf n x)) (1 <<< n) ≤ 2 ^ n := by
    rw [← hms]; exact countLeafs_le _ _
  have hfr := createFreqs_eq n x (by rw [hms]; exact h256) hk
  have htot := totalFreq_length (1 <<< n) (symbolsOf n x) hsl hlt
  obtain ⟨tree, hT, hTI, hKI, hTl⟩ := createTree_kids
    (countFreqs (fun _ => 0) (symbolsOf n x)) (1 <<< n) hk (by rw [htot]; exact hsl)
  have hF : FinalTree (countFreqs (fun _ => 0) (symbolsOf n x)) (1 <<< n)
      (countLeafs (countFreqs (fun _ => 0) (symbolsOf n x)) (1 <<< n)) tree :=
    ⟨hTI, hKI, hTl, by omega⟩
  obtain ⟨codes, hC, hca, _⟩ := createCodeWorks_spec _ _ tree hTI
    (countLeafs (countFreqs (fun _ => 0) (symbolsOf n x)) (1 <<< n)) 0 (fun _ => none)
    (by omega)
  have hcj : ∀ j, j < countLeafs (countFreqs (fun _ => 0) (symbolsOf n x)) (1 <<< n) →
      ∃ c, codes (symAt (countFreqs (fun _ => 0) (symbolsOf n x)) (1 <<< n) j) = some c ∧
        c.nbits = (chain tree tree.length j).length :=
    fun j hj => ⟨_, hca j (Nat.zero_le _) (by omega), pathBits_length tree _ _⟩
  have hall : ∀ s ∈ symbolsOf n x, ∃ c, codes s = some c := by
    intro s hs
    have fs : countFreqs (fun _ => 0) (symbolsOf n x) s ≠ 0 := by
      rw [countFreqs_zero _ hsl]
      exact Nat.pos_iff_ne_zero.1 (List.count_pos_iff.2 hs)
    obtain ⟨j, hj, hjs⟩ := exists_symAt _ (1 <<< n) s (hlt s hs) fs
    obtain ⟨c, hc, _⟩ := hcj j hj
    rw [hjs] at hc
    exact ⟨c, hc⟩
  obtain ⟨bo, hE, hB⟩ := emitAll_inv codes (symbolsOf n x) 0
    { mask4 := 0, cur := none, words := [] } hall (Or.inl ⟨rfl, rfl, rfl, rfl⟩)
  rw [Nat.zero_add] at hB
  have hbits : codeBits codes (symbolsOf n x) ≤ 8 * x.length := by
    rw [hms] at hF hcj hlt
    have := codeBits_bound n (symbolsOf n x) hsl hlt tree hF codes hcj
    omega
  have hT2 : HUF_CreateTree (HUF_CreateFreqs n x).1 (1 <<< n) (HUF_CreateFreqs n x).2.1
      (HUF_CreateFreqs n x).2.2 = some tree := by rw [hfr]; exact hT
  have hC2 : HUF_CreateCodeWorks tree (HUF_CreateFreqs n x).2.1 = some codes := by
    rw [hfr]; exact hC
  have hk1 : (HUF_CreateFreqs n x).2.1 =
      countLeafs (countFreqs (fun _ => 0) (symbolsOf n x)) (1 <<< n) := by rw [hfr]
  have ht : usub (HUF_CreateFreqs n x).2.1 1 = (HUF_CreateFreqs n x).2.1 - 1 := by
    rw [hk1]; exact usub_eq _ _ (by omega) (by omega)
  have ht2 : ((HUF_CreateFreqs n x).2.1 - 1) ||| 1 < 2 ^ n := by
    rw [hk1]
    apply or_one_lt _ n hn1
    omega
  refine ⟨tree, codes, bo, hT2, hC2, hE, hbits, by omega, ?_⟩
  intro out hout
  obtain ⟨g1, g2⟩ := HUF_Code_length n x tree codes bo hT2 hC2 hE out hout
  rw [bitInv_words _ bo hB] at g2
  rw [ht, Nat.mod_eq_of_lt (by omega)] at g1
  exact ⟨g1, g2⟩

/-- C35. Huffman output bound: for an input of `N` bytes (`N < 2 ^ 31`) with at
least two different symbols at width `n`, 4 or 8, `HUF_Code` builds its tree
and its codes, emits a code for every symbol, and the code bits of all symbols
together are at most `8 * N`; so with `t = (leaf_count - 1) | 1` the stream
length `4 + 2 * (t + 1) + 4 * ceil(bits / 32)` is at most the
`4 + 2 * 2 ^ n + N + 3` bytes allocated for `pak_buffer`, and every output of
`HUF_Code` has `t` as byte 4 and exactly that length. -/
theorem huffman_output_bound (n : Nat) (hn : n = 4 ∨ n = 8) (x : List Nat) (hx : Bytes x)
    (hlen : x.length < 2 ^ 31)
    (h2 : ∃ a ∈ symbolsOf n x, ∃ b ∈ symbolsOf n x, a ≠ b) :
    ∃ tree codes bo,
      HUF_CreateTree (HUF_CreateFreqs n x).1 (1 <<< n) (HUF_CreateFreqs n x).2.1
        (HUF_CreateFreqs n x).2.2 = some tree ∧
      HUF_CreateCodeWorks tree (HUF_CreateFreqs n x).2.1 = some codes ∧
      emitAll codes (symbolsOf n x) { mask4 := 0, cur := none, words := [] } = some bo ∧
      codeBits codes (symbolsOf n x) ≤ 8 * x.length ∧
      4 + 2 * ((((HUF_CreateFreqs n x).2.1 - 1) ||| 1) + 1) +
          4 * ((codeBits codes (symbolsOf n x) + 31) / 32) ≤ 4 + 2 * 2 ^ n + x.length + 3 ∧
      ∀ out, HUF_Code n x = some out →
        out.getD 4 0 = ((HUF_CreateFreqs n x).2.1 - 1) ||| 1 ∧
        out.length = 4 + 2 * (out.getD 4 0 + 1) +
          4 * ((codeBits codes (symbolsOf n x) + 31) / 32) :=
  huffman_output_core n x (by rcases hn with h | h <;> omega) (by rcases hn with h | h <;> omega)
    (symbolsOf_length n hn x) (symbolsOf_lt n hn x hx)
    (by
      have h1 := symbolsOf_length n hn x
      have h3 : (2:Nat) ^ 32 = 2 * 2 ^ 31 := by decide
      rcases hn with h | h <;> subst h <;> omega) h2

theorem huffman_output_bound_witness :
    ∃ tree codes bo,
      HUF_CreateTree (HUF_CreateFreqs 8 [0x41, 0x42, 0x41, 0x42, 0x41, 0x43]).1 (1 <<< 8)
        (HUF_CreateFreqs 8 [0x41, 0x42, 0x41, 0x42, 0x41, 0x43]).2.1
        (HUF_CreateFreqs 8 [0x41, 0x42, 0x41, 0x42, 0x41, 0x43]).2.2 = some tree ∧
      HUF_CreateCodeWorks tree (HUF_CreateFreqs 8 [0x41, 0x42, 0x41, 0x42, 0x41, 0x43]).2.1
        = some codes ∧
      emitAll codes (symbolsOf 8 [0x41, 0x42, 0x41, 0x42, 0x41, 0x43])
        { mask4 := 0, cur := none, words := [] } = some bo ∧
      codeBits codes (symbolsOf 8 [0x41, 0x42, 0x41, 0x42, 0x41, 0x43]) ≤
        8 * [0x41, 0x42, 0x41, 0x42, 0x41, 0x43].length ∧
      4 + 2 * ((((HUF_CreateFreqs 8 [0x41, 0x42, 0x41, 0x42, 0x41, 0x43]).2.1 - 1) ||| 1) + 1) +
          4 * ((codeBits codes (symbolsOf 8 [0x41, 0x42, 0x41, 0x42, 0x41, 0x43]) + 31) / 32) ≤
        4 + 2 * 2 ^ 8 + [0x41, 0x42, 0x41, 0x42, 0x41, 0x43].length + 3 ∧
      ∀ out, HUF_Code 8 [0x41, 0x42, 0x41, 0x42, 0x41, 0x43] = some out →
        out.getD 4 0 = ((HUF_CreateFreqs 8 [0x41, 0x42, 0x41, 0x42, 0x41, 0x43]).2.1 - 1) ||| 1 ∧
        out.length = 4 + 2 * (out.getD 4 0 + 1) +
          4 * ((codeBits codes (symbolsOf 8 [0x41, 0x42, 0x41, 0x42, 0x41, 0x43]) + 31) / 32) :=
  huffman_output_bound 8 (Or.inr rfl) [0x41, 0x42, 0x41, 0x42, 0x41, 0x43] (by decide) (by decide)
    ⟨0x41, by decide, 0x42, by decide, by decide⟩

end Gbacomp

namespace Gbacomp

/-! ## Huffman: the round trip of 4-bit symbols -/

theorem maskLoop_spec : ∀ (n : Nat) (ct : CodeTree), n < ct.codetree.length →
    ct.codetree.length = ct.codemask.length →
    ∃ ct', maskLoop n ct = some ct' ∧ ct'.codemask = ct.codemask ∧
      ct'.codetree.length = ct.codetree.length ∧
      ∀ i c m, rd ct.codetree i = some c → rd ct.codemask i = some m →
        rd ct'.codetree i = some (if 1 ≤ i ∧ i ≤ n ∧ m ≠ 0xFF then (c ||| m) % 256 else c) := by
  intro n
  induction n with
  | zero =>
    intro ct _ _
    refine ⟨ct, rfl, rfl, rfl, ?_⟩
    intro i c m h1 h2
    rw [if_neg (by omega)]
    exact h1
  | succ n ih =>
    intro ct hn hlen
    obtain ⟨c0, hc0⟩ := get?_of_lt ct.codetree (n + 1) hn
    obtain ⟨m0, hm0⟩ := get?_of_lt ct.codemask (n + 1) (by omega)
    unfold maskLoop
    have e1 : rd ct.codemask (n + 1) = some m0 := hm0
    have e2 : rd ct.codetree (n + 1) = some c0 := hc0
    simp only [e1, e2]
    by_cases hm : m0 ≠ 0xFF
    · rw [if_pos hm]
      unfold wr
      rw [if_pos hn]
      simp only
      obtain ⟨ct', h1, h2, h3, h4⟩ := ih
        { ct with codetree := ct.codetree.set (n + 1) ((c0 ||| m0) % 256) }
        (by simp only [List.length_set]; omega) (by simp only [List.length_set]; exact hlen)
      refine ⟨ct', h1, h2, by rw [h3]; simp, ?_⟩
      intro i c m g1 g2
      by_cases hi : i = n + 1
      · subst hi
        obtain rfl : c0 = c := Option.some.inj (e2.symm.trans g1)
        obtain rfl : m0 = m := Option.some.inj (e1.symm.trans g2)
        have := h4 (n + 1) ((c0 ||| m0) % 256) m0 (rd_set_eq _ _ _ hn) e1
        rw [if_neg (by omega)] at this
        rw [this, if_pos ⟨by omega, Nat.le_refl _, hm⟩]
      · have := h4 i c m (by simp only; rw [rd_set_ne _ _ _ _ hi]; exact g1) g2
        rw [this]
        by_cases hc : 1 ≤ i ∧ i ≤ n ∧ m ≠ 0xFF
        · rw [if_pos hc, if_pos ⟨hc.1, by omega, hc.2.2⟩]
        · rw [if_neg hc, if_neg]
          intro ⟨a1, a2, a3⟩
          have hlt := rd_lt _ _ _ g1
          exact hc ⟨a1, by omega, a3⟩
    · rw [if_neg hm]
      obtain ⟨ct', h1, h2, h3, h4⟩ := ih ct (by omega) hlen
      refine ⟨ct', h1, h2, h3, ?_⟩
      intro i c m g1 g2
      rw [h4 i c m g1 g2]
      by_cases hi : i = n + 1
      · subst hi
        obtain rfl : m0 = m := Option.some.inj (e1.symm.trans g2)
        rw [if_neg (by omega), if_neg (fun h => hm h.2.2)]
      · by_cases hc : 1 ≤ i ∧ i ≤ n ∧ m ≠ 0xFF
        · rw [if_pos hc, if_pos ⟨hc.1, by omega, hc.2.2⟩]
        · rw [if_neg hc, if_neg]
          intro ⟨a1, a2, a3⟩
          exact hc ⟨a1, by omega, a3⟩

/-- The table `HUF_CreateCodeTree` makes for a tree with at most 64 leaves:
the breadth-first placement of the tree, with the leaf flags in the entries of
the inner nodes. -/
theorem createCodeTree_table (freqs : Nat → Nat) (ms : Nat) (tree : List HNode)
    (hk : 2 ≤ countLeafs freqs ms) (hk64 : countLeafs freqs ms ≤ 64)
    (hT : TreeInv freqs ms (countLeafs freqs ms) tree)
    (hlen : tree.length = 2 * countLeafs freqs ms - 1) :
    ∃ table stack,
      HUF_CreateCodeTree tree (countLeafs freqs ms) (2 * countLeafs freqs ms - 1) = some table ∧
      table.length = 2 * (((countLeafs freqs ms - 1) ||| 1) + 1) ∧
      table.get? 0 = some ((countLeafs freqs ms - 1) ||| 1) ∧
      stack.get? 0 = some (2 * countLeafs freqs ms - 2) ∧
      stack.length = 2 * countLeafs freqs ms - 1 ∧
      ∀ j, j < stack.length → TableOK tree stack table j := by
  have hwf := treeInv_wf _ _ _ _ hT
  obtain ⟨i1, i2, i3, i4, i5, i6, i7, i8, i9⟩ := hT
  obtain ⟨ct0, hput, hsmall, hl1, hl2, hl3, hslot0⟩ :=
    initCodeTree_small (countLeafs freqs ms) (by omega) hk64
  have hroot_idx : usub (2 * countLeafs freqs ms - 1) 1 = 2 * countLeafs freqs ms - 2 := by
    rw [usub_eq _ _ (by omega) (by omega)]
    omega
  obtain ⟨last, hlast⟩ := get?_of_lt tree (2 * countLeafs freqs ms - 2) (by omega)
  have hld : last.dad = none := by
    cases hd : last.dad with
    | none => rfl
    | some p =>
      have := i9 _ _ p hlast hd
      omega
  have hcount : (parentless tree).length = 1 := by omega
  have hleafs : last.leafs = countLeafs freqs ms := by
    rw [← sumPar_single (fun nd => nd.leafs) tree _ last hlast hld hcount]
    exact i5
  obtain ⟨stack, ct, r1, r2, r3, r4, r5, r6⟩ :=
    createCodeBranch_bfs tree hwf _ last hlast (by omega) ct0 hsmall hl1 (by omega) (by omega)
      tree.length
  obtain ⟨_, _, b3, ⟨b4, b4'⟩, b5, b6⟩ := r2
  have hu : usub (countLeafs freqs ms) 1 = countLeafs freqs ms - 1 :=
    usub_eq _ _ (by omega) (by omega)
  have hb := or_one_bounds (countLeafs freqs ms - 1)
  have hupd : HUF_UpdateCodeTree updateFuel ct = some ct := by
    unfold HUF_UpdateCodeTree
    rw [r4, hslot0]
    simp only
    rw [hu] at hl2 ⊢
    have hmax : ((countLeafs freqs ms - 1 ||| 1) + 1) <<< 1
        = 2 * ((countLeafs freqs ms - 1 ||| 1) + 1) := by
      rw [Nat.shiftLeft_eq]; omega
    rw [hmax]
    exact updateLoop_noop _ ct b6 b4 (by omega) (by omega) updateFuel 1 (by
      unfold updateFuel; omega)
  rw [hu] at hl2 hslot0
  have hmask : ((((countLeafs freqs ms - 1) ||| 1) + 1) <<< 1) - 1
      = 2 * (((countLeafs freqs ms - 1) ||| 1) + 1) - 1 := by
    rw [Nat.shiftLeft_eq]; omega
  obtain ⟨ct', m1, m2, m3, m4⟩ := maskLoop_spec
    (2 * (((countLeafs freqs ms - 1) ||| 1) + 1) - 1) ct (by omega) b4
  have hslen : stack.length = 2 * countLeafs freqs ms - 1 := by
    rw [List.drop_length, hleafs] at b3
    simp only [need, List.map_nil, List.sum_nil] at b3
    omega
  refine ⟨ct'.codetree, stack, ?_, by rw [m3, r6]; exact hl2, ?_, r3, hslen, ?_⟩
  · unfold HUF_CreateCodeTree
    simp only [hput, hroot_idx, r1, hupd, r4, hslot0, hmask, m1]
  · obtain ⟨m00, hm00⟩ := get?_of_lt ct.codemask 0 (by omega)
    have := m4 0 _ m00 (by rw [r4]; exact hslot0) hm00
    rw [if_neg (by omega)] at this
    exact this
  · intro j hj
    obtain ⟨ni, node, s1, s2, s3, s4⟩ := b5 j hj
    refine ⟨ni, node, s1, s2, ?_, ?_⟩
    · intro hl
      obtain ⟨t1, t2⟩ := s3 hl
      have := m4 (j + 1) _ _ t1 t2
      rw [if_neg (fun h => h.2.2 rfl)] at this
      exact this
    · intro hl
      obtain ⟨c, l, r, t1, t2, t3, t4, t5, t6, t7, t8⟩ := s4 hl
      have h63 := b6 (j + 1) _ _ t8 t7 (nodeFlags_ne_ff tree l r)
      have hlt := rd_lt _ _ _ t7
      have hj1 : 1 ≤ j + 1 := Nat.succ_le_succ (Nat.zero_le j)
      have hj2 : j + 1 ≤ 2 * (((countLeafs freqs ms - 1) ||| 1) + 1) - 1 := by
        rw [r6, hl2] at hlt; exact Nat.le_sub_one_of_lt hlt
      have := m4 (j + 1) _ _ t7 t8
      rw [if_pos ⟨hj1, hj2, nodeFlags_ne_ff tree l r⟩] at this
      have h8 : (c - (j + 1)) >>> 1 < 2 ^ 8 := Nat.lt_of_le_of_lt h63 (by decide)
      have hor : ((c - (j + 1)) >>> 1) ||| nodeFlags tree l r < 256 :=
        Nat.or_lt_two_pow h8 (nodeFlags_lt tree l r)
      rw [Nat.mod_eq_of_lt hor] at this
      exact ⟨c, l, r, t1, t2, t3, t4, t5, t6, h63, this⟩

theorem emitCode_succ (cw : List Nat) (n k : Nat) (bo : BitOut) :
    emitCode cw (n + 1) k bo =
      emitCode cw n (k + 1) (putBit (bitOfBytes cw k) (openWord bo)) := by
  conv_lhs => unfold emitCode
  unfold putBit bitOfBytes openWord closeWords
  simp only [decide_eq_true_eq]
  try rfl

theorem openWord_new (bo : BitOut) (h : bo.mask4 >>> 1 = 0) :
    openWord bo = { mask4 := HUF_MASK4, cur := some 0, words := closeWords bo } := by
  unfold openWord; rw [if_pos h]

theorem openWord_same (bo : BitOut) (h : ¬ bo.mask4 >>> 1 = 0) :
    openWord bo = { bo with mask4 := bo.mask4 >>> 1 } := by
  unfold openWord; rw [if_neg h]

theorem putBit_some (v : Bool) (m w : Nat) (ws : List Nat) :
    putBit v { mask4 := m, cur := some w, words := ws } =
      { mask4 := m, cur := some (if v then w ||| m else w), words := ws } := by
  cases v <;> rfl

theorem mod32_cases (b : Nat) (hb : 0 < b) :
    ((b - 1) % 32 = 31 ∧ b % 32 = 0 ∧ b / 32 = (b - 1) / 32 + 1) ∨
    ((b - 1) % 32 < 31 ∧ b % 32 = (b - 1) % 32 + 1 ∧ b / 32 = (b - 1) / 32) := by
  omega

/-- One round of the bit writer appends one bit to the stream. -/
theorem bitsInv_step (bits : List Bool) (bo : BitOut) (v : Bool) (h : BitsInv bits bo) :
    BitsInv (bits ++ [v]) (putBit v (openWord bo)) := by
  have hlen : (bits ++ [v]).length - 1 = bits.length := by simp
  have hne : bits ++ [v] ≠ [] := by simp
  rcases h with ⟨h1, h2⟩ | ⟨ws, w, h1, h2, h3, h4, h5, h6, h7⟩
  · subst h1 h2
    right
    refine ⟨[], if v then 0 ||| HUF_MASK4 else 0, hne, ?_, by simp, ?_, ?_, ?_, ?_⟩
    · rw [openWord_new _ (by decide), putBit_some]
      rfl
    · intro x hx; cases hx
    · cases v <;> decide
    · intro e he
      cases v
      · exact Nat.zero_testBit e
      · simp only [List.nil_append, List.length_singleton] at he
        show (0 ||| HUF_MASK4).testBit e = false
        rw [Nat.testBit_or, Nat.zero_testBit, Bool.false_or]
        show (2 ^ 31).testBit e = false
        rw [Nat.testBit_two_pow]
        simp only [decide_eq_false_iff_not]
        have : (1 - 1) % 32 = 0 := by decide
        omega
    · intro i hi
      simp only [List.nil_append, List.length_singleton] at hi
      have : i = 0 := by omega
      subst this
      cases v <;> decide
  · subst h2
    have hb : 0 < bits.length := List.length_pos.2 h1
    right
    rcases mod32_cases bits.length hb with ⟨c1, c2, c3⟩ | ⟨c1, c2, c3⟩
    · -- a new word is opened
      have hm : (2 ^ (31 - (bits.length - 1) % 32)) >>> 1 = 0 := by rw [c1]; decide
      refine ⟨ws ++ [w], if v then 0 ||| HUF_MASK4 else 0, hne, ?_, ?_, ?_, ?_, ?_, ?_⟩
      · rw [openWord_new _ hm, putBit_some, hlen, c2]
        rfl
      · rw [hlen, List.length_append, h3, c3]; rfl
      · intro x hx
        rcases List.mem_append.1 hx with hx | hx
        · exact h4 x hx
        · rw [List.mem_singleton.1 hx]; exact h5
      · cases v <;> decide
      · intro e he
        rw [hlen, c2] at he
        cases v
        · exact Nat.zero_testBit e
        · show (0 ||| HUF_MASK4).testBit e = false
          rw [Nat.testBit_or, Nat.zero_testBit, Bool.false_or]
          show (2 ^ 31).testBit e = false
          rw [Nat.testBit_two_pow]
          simp only [decide_eq_false_iff_not]
          omega
      · intro i hi
        rw [List.length_append, List.length_singleton] at hi
        by_cases hib : i < bits.length
        · rw [List.getD_append _ _ _ _ hib, ← h7 i hib]
          unfold bitAt
          rw [List.getD_append _ _ _ _ (by
            rw [List.length_append, List.length_singleton, h3]; omega)]
        · have hi2 : i = bits.length := by omega
          subst hi2
          rw [List.getD_append_right _ _ _ _ (Nat.le_refl _), Nat.sub_self]
          unfold bitAt
          rw [List.getD_append_right _ _ _ _ (by
            rw [List.length_append, List.length_singleton, h3]; omega)]
          rw [List.length_append, List.length_singleton, h3, c3, Nat.sub_self, c2]
          cases v <;> decide
    · -- the open word takes the bit
      have hm : (2 ^ (31 - (bits.length - 1) % 32)) >>> 1 = 2 ^ (31 - bits.length % 32) := by
        rw [two_pow_shiftRight_one _ (by omega)]
        congr 1; omega
      have hm0 : ¬ (2 ^ (31 - (bits.length - 1) % 32)) >>> 1 = 0 := by
        rw [hm]; exact Nat.pos_iff_ne_zero.1 (Nat.two_pow_pos _)
      refine ⟨ws, if v then w ||| 2 ^ (31 - bits.length % 32) else w, hne, ?_, ?_, h4, ?_, ?_, ?_⟩
      · rw [openWord_same _ hm0, hlen]
        simp only [hm]
        rw [putBit_some]
      · rw [hlen, h3, c3]
      · cases v
        · exact h5
        · exact Nat.or_lt_two_pow h5 (Nat.pow_lt_pow_right (by decide) (by omega))
      · intro e he
        rw [hlen] at he
        have hw := h6 e (by omega)
        cases v
        · exact hw
        · show (w ||| 2 ^ (31 - bits.length % 32)).testBit e = false
          rw [Nat.testBit_or, hw, Bool.false_or, Nat.testBit_two_pow]
          simp only [decide_eq_false_iff_not]
          omega
      · intro i hi
        rw [List.length_append, List.length_singleton] at hi
        have hwb : w.testBit (31 - bits.length % 32) = false := h6 _ (by omega)
        by_cases hib : i < bits.length
        · rw [List.getD_append _ _ _ _ hib, ← h7 i hib]
          unfold bitAt
          by_cases hq : i / 32 < ws.length
          · rw [List.getD_append _ _ _ _ hq, List.getD_append _ _ _ _ hq]
          · have hq2 : i / 32 = ws.length := by
              have : i / 32 ≤ (bits.length - 1) / 32 := Nat.div_le_div_right (by omega)
              omega
            rw [List.getD_append_right _ _ _ _ (by omega),
              List.getD_append_right _ _ _ _ (by omega), hq2, Nat.sub_self]
            show (if v then w ||| 2 ^ (31 - bits.length % 32) else w).testBit _ = w.testBit _
            cases v
            · rfl
            · show (w ||| 2 ^ (31 - bits.length % 32)).testBit _ = _
              rw [Nat.testBit_or, Nat.testBit_two_pow]
              have : ¬ (31 - bits.length % 32 = 31 - i % 32) := by
                have h32 := Nat.mod_lt i (show 0 < 32 by decide)
                have e1 : i = 32 * (i / 32) + i % 32 := (Nat.div_add_mod i 32).symm
                have e2 : bits.length = 32 * (bits.length / 32) + bits.length % 32 :=
                  (Nat.div_add_mod _ 32).symm
                omega
              simp [this]
        · have hi2 : i = bits.length := by omega
          subst hi2
          rw [List.getD_append_right _ _ _ _ (Nat.le_refl _), Nat.sub_self]
          unfold bitAt
          rw [List.getD_append_right _ _ _ _ (by omega), h3, c3, Nat.sub_self]
          show (if v then w ||| 2 ^ (31 - bits.length % 32) else w).testBit _ = v
          cases v
          · exact hwb
          · show (w ||| 2 ^ (31 - bits.length % 32)).testBit _ = true
            rw [Nat.testBit_or, Nat.testBit_two_pow_self, Bool.or_true]

theorem emitCode_bits (cw : List Nat) : ∀ (n k : Nat) (bits : List Bool) (bo : BitOut),
    BitsInv bits bo →
      BitsInv (bits ++ (List.range' k n).map (bitOfBytes cw)) (emitCode cw n k bo) := by
  intro n
  induction n with
  | zero =>
    intro k bits bo h
    simp only [List.range'_zero, List.map_nil, List.append_nil]
    exact h
  | succ n ih =>
    intro k bits bo h
    rw [emitCode_succ, List.range'_succ, List.map_cons]
    have := ih (k + 1) (bits ++ [bitOfBytes cw k]) _ (bitsInv_step bits bo _ h)
    rw [List.append_assoc] at this
    exact this

theorem emitAll_bits (codes : Nat → Option HCode) : ∀ (syms : List Nat) (bits : List Bool)
    (bo : BitOut), (∀ s ∈ syms, ∃ c, codes s = some c) → BitsInv bits bo →
      ∃ bo1, emitAll codes syms bo = some bo1 ∧
        BitsInv (bits ++ syms.flatMap (symBools codes)) bo1 := by
  intro syms
  induction syms with
  | nil =>
    intro bits bo _ h
    refine ⟨bo, rfl, ?_⟩
    simp only [List.flatMap_nil, List.append_nil]
    exact h
  | cons a rest ih =>
    intro bits bo hc h
    obtain ⟨c, hca⟩ := hc a (List.mem_cons_self _ _)
    unfold emitAll
    simp only [hca]
    obtain ⟨bo1, h1, h2⟩ := ih (bits ++ codeBools c) (emitCode c.codework c.nbits 0 bo)
      (fun s hs => hc s (List.mem_cons_of_mem _ hs)) (emitCode_bits c.codework c.nbits 0 bits bo h)
    refine ⟨bo1, h1, ?_⟩
    rw [List.flatMap_cons, ← List.append_assoc]
    have : symBools codes a = codeBools c := by unfold symBools; rw [hca]
    rw [this]
    exact h2

theorem mask_shift (r : Nat) (hr : r < 8) : HUF_MASK >>> r = 2 ^ (7 - r) := by
  have : ∀ r, r < 8 → HUF_MASK >>> r = 2 ^ (7 - r) := by decide
  exact this r hr

theorem bitOfBytes_eq (bs : List Nat) (k : Nat) :
    bitOfBytes bs k = (bs.getD (k / 8) 0).testBit (7 - k % 8) := by
  unfold bitOfBytes
  rw [mask_shift _ (Nat.mod_lt _ (by decide)), Nat.and_two_pow]
  cases (bs.getD (k / 8) 0).testBit (7 - k % 8) <;> simp

/-- The packing loop of `HUF_CreateCodeWorks` stores bit after bit, the first
in the top bit of the first byte. -/
theorem packBits_spec : ∀ (B : List Nat) (r cur : Nat) (done : List Nat), r < 8 →
    (∀ e, e ≤ 7 - r → cur.testBit e = false) →
    (∀ k, k < 8 * done.length →
      bitOfBytes (packBits B (HUF_MASK >>> r) cur done) k = bitOfBytes done k) ∧
    (∀ i, i < r →
      bitOfBytes (packBits B (HUF_MASK >>> r) cur done) (8 * done.length + i)
        = cur.testBit (7 - i)) ∧
    (∀ i, i < B.length →
      bitOfBytes (packBits B (HUF_MASK >>> r) cur done) (8 * done.length + r + i)
        = decide (B.getD i 0 ≠ 0)) := by
  intro B
  induction B with
  | nil =>
    intro r cur done hr hz
    unfold packBits
    by_cases h0 : r = 0
    · subst h0
      rw [if_pos (by decide)]
      refine ⟨fun k _ => rfl, ?_, ?_⟩
      · intro i hi; omega
      · intro i hi; cases hi
    · have hm : ¬ HUF_MASK >>> r = HUF_MASK := by
        have : ∀ r, r < 8 → r ≠ 0 → ¬ HUF_MASK >>> r = HUF_MASK := by decide
        exact this r hr h0
      rw [if_neg hm]
      refine ⟨?_, ?_, ?_⟩
      · intro k hk
        rw [bitOfBytes_eq, bitOfBytes_eq, List.getD_append _ _ _ _ (by omega)]
      · intro i hi
        rw [bitOfBytes_eq]
        have e1 : (8 * done.length + i) / 8 = done.length := by omega
        have e2 : (8 * done.length + i) % 8 = i := by omega
        rw [e1, e2, List.getD_append_right _ _ _ _ (Nat.le_refl _), Nat.sub_self]
        rfl
      · intro i hi; cases hi
  | cons b bits ih =>
    intro r cur done hr hz
    have hmr := mask_shift r hr
    unfold packBits
    simp only
    have hcur : ∀ e, (if b ≠ 0 then cur ||| HUF_MASK >>> r else cur).testBit e =
        if e = 7 - r then decide (b ≠ 0) else cur.testBit e := by
      intro e
      by_cases hb : b ≠ 0
      · rw [if_pos hb, hmr, Nat.testBit_or, Nat.testBit_two_pow]
        by_cases he : e = 7 - r
        · subst he; simp [hb]
        · rw [if_neg he]
          have : ¬ (7 - r = e) := fun h => he h.symm
          simp [this]
      · rw [if_neg hb]
        by_cases he : e = 7 - r
        · subst he
          rw [if_pos rfl, hz _ (Nat.le_refl _)]
          simp only [ne_eq, Decidable.not_not] at hb
          simp [hb]
        · rw [if_neg he]
    by_cases h7 : r = 7
    · subst h7
      have hm : (HUF_MASK >>> 7) >>> 1 = 0 := by decide
      rw [if_pos hm]
      have hI := ih 0 0 (done ++ [if b ≠ 0 then cur ||| HUF_MASK >>> 7 else cur]) (by decide)
        (fun e _ => Nat.zero_testBit e)
      simp only [List.length_append, List.length_singleton, Nat.shiftRight_zero] at hI
      obtain ⟨a1, a2, a3⟩ := hI
      refine ⟨?_, ?_, ?_⟩
      · intro k hk
        rw [a1 k (by omega), bitOfBytes_eq, bitOfBytes_eq, List.getD_append _ _ _ _ (by omega)]
      · intro i hi
        rw [a1 _ (by omega), bitOfBytes_eq]
        have e1 : (8 * done.length + i) / 8 = done.length := by omega
        have e2 : (8 * done.length + i) % 8 = i := by omega
        rw [e1, e2, List.getD_append_right _ _ _ _ (Nat.le_refl _), Nat.sub_self]
        show (if b ≠ 0 then cur ||| HUF_MASK >>> 7 else cur).testBit (7 - i) = _
        rw [hcur, if_neg (by omega)]
      · intro i hi
        cases i with
        | zero =>
          rw [a1 _ (by omega), bitOfBytes_eq]
          have e1 : (8 * done.length + 7 + 0) / 8 = done.length := by omega
          have e2 : (8 * done.length + 7 + 0) % 8 = 7 := by omega
          rw [e1, e2, List.getD_append_right _ _ _ _ (Nat.le_refl _), Nat.sub_self]
          show (if b ≠ 0 then cur ||| HUF_MASK >>> 7 else cur).testBit (7 - 7) = _
          rw [hcur, if_pos rfl]
          rfl
        | succ i =>
          have := a3 i (by simpa using hi)
          rw [show 8 * done.length + 7 + (i + 1) = 8 * (done.length + 1) + 0 + i by omega, this]
          rfl
    · have hm : ¬ (HUF_MASK >>> r) >>> 1 = 0 := by
        have : ∀ r, r < 8 → r ≠ 7 → ¬ (HUF_MASK >>> r) >>> 1 = 0 := by decide
        exact this r hr h7
      have hm2 : (HUF_MASK >>> r) >>> 1 = HUF_MASK >>> (r + 1) := by
        rw [Nat.shiftRight_add]
      rw [if_neg hm, hm2]
      obtain ⟨a1, a2, a3⟩ := ih (r + 1) (if b ≠ 0 then cur ||| HUF_MASK >>> r else cur) done
        (by omega) (by
          intro e he
          rw [hcur, if_neg (by omega)]
          exact hz e (by omega))
      refine ⟨a1, ?_, ?_⟩
      · intro i hi
        rw [a2 i (by omega), hcur, if_neg (by omega)]
      · intro i hi
        cases i with
        | zero =>
          have := a2 r (by omega)
          rw [hcur, if_pos rfl] at this
          exact this
        | succ i =>
          have := a3 i (by simpa using hi)
          rw [show 8 * done.length + r + (i + 1) = 8 * done.length + (r + 1) + i by omega, this]
          rfl

theorem codeBools_pack (B : List Nat) :
    codeBools { nbits := B.length, codework := packBits B HUF_MASK 0 [] } =
      B.map (fun b => decide (b ≠ 0)) := by
  have h := (packBits_spec B 0 0 [] (by decide) (fun e _ => Nat.zero_testBit e)).2.2
  simp only [Nat.shiftRight_zero, List.length_nil, Nat.mul_zero, Nat.zero_add] at h
  unfold codeBools
  apply List.ext_getElem
  · simp
  · intro i h1 h2
    simp only [List.length_map, List.length_range'] at h1
    simp only [List.getElem_map, List.getElem_range', Nat.zero_add, Nat.one_mul]
    rw [h i h1, List.getD_eq_getElem _ _ h1]

theorem parentless_unique (tree : List HNode) (hcount : (parentless tree).length = 1)
    (a b : Nat) (na nb : HNode) (ha : tree.get? a = some na) (hb : tree.get? b = some nb)
    (hda : na.dad = none) (hdb : nb.dad = none) : a = b := by
  have aux : ∀ (a b : Nat) (na nb : HNode), tree.get? a = some na → tree.get? b = some nb →
      na.dad = none → nb.dad = none → a < b → False := by
    intro a b na nb ha hb hda hdb hab
    have h1 : na ∈ tree.take b := by
      apply List.get?_mem (n := a)
      rw [List.get?_eq_getElem?, List.getElem?_take_of_lt hab, ← List.get?_eq_getElem?]
      exact ha
    have h2 := drop_get_cons tree b nb hb
    have h3 : parentless tree = parentless (tree.take b) ++ parentless (tree.drop b) := by
      unfold parentless
      rw [← List.filter_append, List.take_append_drop]
    have h4 : 0 < (parentless (tree.take b)).length := by
      apply List.length_pos_of_mem (a := na)
      unfold parentless
      rw [List.mem_filter]
      exact ⟨h1, by simp [hda]⟩
    have h5 : 0 < (parentless (tree.drop b)).length := by
      apply List.length_pos_of_mem (a := nb)
      unfold parentless
      rw [List.mem_filter, h2]
      exact ⟨List.mem_cons_self _ _, by simp [hdb]⟩
    rw [h3, List.length_append] at hcount
    omega
  rcases Nat.lt_trichotomy a b with h | h | h
  · exact (aux a b na nb ha hb hda hdb h).elim
  · exact h
  · exact (aux b a nb na hb ha hdb hda h).elim

theorem final_root (freqs : Nat → Nat) (ms k : Nat) (tree : List HNode)
    (hF : FinalTree freqs ms k tree) (j : Nat) (hj : j < tree.length)
    (hd : dadOf tree j = none) : j = 2 * k - 2 := by
  obtain ⟨hT, hK, hlen, hk⟩ := hF
  obtain ⟨i1, i2, i3, i4, i5, i6, i7, i8, i9⟩ := hT
  obtain ⟨last, hlast⟩ := get?_of_lt tree (2 * k - 2) (by omega)
  have hld : last.dad = none := by
    cases hd : last.dad with
    | none => rfl
    | some p =>
      have := i9 _ _ p hlast hd
      omega
  obtain ⟨nd, hnd⟩ := get?_of_lt tree j hj
  rw [dadOf_eq tree j nd hnd] at hd
  exact parentless_unique tree (by omega) j _ nd last hnd hlast hd hld

theorem descent_snoc (tree : List HNode) : ∀ (bs : List Bool) (p d j : Nat) (b : Bool) (dn : HNode),
    Descent tree p bs d → tree.get? d = some dn →
    (if b then dn.rson = some j else dn.lson = some j) → Descent tree p (bs ++ [b]) j := by
  intro bs
  induction bs with
  | nil =>
    intro p d j b dn h1 h2 h3
    unfold Descent at h1
    subst h1
    show Descent tree p [b] j
    unfold Descent
    exact ⟨dn, j, h2, h3, by unfold Descent; rfl⟩
  | cons a rest ih =>
    intro p d j b dn h1 h2 h3
    unfold Descent at h1
    obtain ⟨pn, c, g1, g2, g3⟩ := h1
    show Descent tree p (a :: (rest ++ [b])) j
    unfold Descent
    exact ⟨pn, c, g1, g2, ih c d j b dn g3 h2 h3⟩

theorem leafBools_none (tree : List HNode) (j : Nat) (hd : dadOf tree j = none) :
    leafBools tree j = [] := by
  unfold leafBools
  rw [chain_none tree _ j hd]
  rfl

theorem leafBools_some (freqs : Nat → Nat) (ms k : Nat) (tree : List HNode)
    (hT : TreeInv freqs ms k tree) (j d : Nat) (dn : HNode) (hd : dadOf tree j = some d)
    (hdn : tree.get? d = some dn) :
    leafBools tree j = leafBools tree d ++ [decide (dn.lson ≠ some j)] := by
  unfold leafBools
  rw [chain_cons freqs ms k tree hT j d hd, pathBits_cons, hdn, List.reverse_cons,
    List.map_append]
  congr 1
  simp only [List.map_cons, List.map_nil, Option.bind]
  by_cases h : dn.lson = some j
  · simp [h, HUF_LNODE]
  · simp [h, HUF_RNODE]

/-- The code of a leaf leads from the root to the leaf. -/
theorem descent_leaf (freqs : Nat → Nat) (ms k : Nat) (tree : List HNode)
    (hF : FinalTree freqs ms k tree) :
    ∀ j, j < tree.length → Descent tree (2 * k - 2) (leafBools tree j) j := by
  have hT := hF.1
  have hK := hF.2.1
  apply dad_induction freqs ms k tree hT
  intro j ih hj
  cases hd : dadOf tree j with
  | none =>
    rw [leafBools_none tree j hd]
    unfold Descent
    exact (final_root freqs ms k tree hF j hj hd).symm
  | some d =>
    have hb := dadOf_bounds freqs ms k tree hT j d hd
    obtain ⟨dn, hdn⟩ := get?_of_lt tree d hb.2.1
    rw [leafBools_some freqs ms k tree hT j d dn hd hdn]
    apply descent_snoc tree _ _ d j _ dn (ih d hd hb.2.1) hdn
    obtain ⟨jn, hjn, hjd⟩ := dadOf_some tree j d hd
    obtain ⟨pn, hpn, hkid⟩ := hK j jn d hjn hjd
    rw [hdn] at hpn
    cases hpn
    by_cases h : dn.lson = some j
    · simp [h]
    · rcases hkid with e | e
      · exact absurd e h
      · simp [h, e]

theorem leafBools_length (tree : List HNode) (j : Nat) :
    (leafBools tree j).length = (chain tree tree.length j).length := by
  unfold leafBools
  rw [List.length_map, List.length_reverse, pathBits_length]

/-- The bits emitted for the symbol of a leaf are the code bits of the leaf. -/
theorem symBools_leaf (freqs : Nat → Nat) (ms : Nat) (tree : List HNode)
    (codes : Nat → Option HCode) (j : Nat)
    (hc : codes (symAt freqs ms j) =
      some { nbits := (pathBits tree j (chain tree tree.length j)).length,
             codework := packBits (pathBits tree j (chain tree tree.length j)).reverse
               HUF_MASK 0 [] }) :
    symBools codes (symAt freqs ms j) = leafBools tree j := by
  unfold symBools leafBools
  rw [hc]
  simp only
  rw [← codeBools_pack, List.length_reverse]

theorem and_two_pow_ne (x e : Nat) : decide (x &&& 2 ^ e ≠ 0) = x.testBit e := by
  rw [Nat.and_two_pow]
  cases h : x.testBit e <;> simp

/-- The cursor of the decoder before a bit that is in the stream: either a
word has to be loaded, and it is there, or the word at hand has the bit. -/
theorem cursor_cases (buf : List Nat) (pak_len : Nat) (table words : List Nat)
    (hS : HufStream buf pak_len table words) (b mask4 pak code : Nat)
    (hc : DecCur words (4 + table.length) b mask4 pak code) (hb : b < 32 * words.length) :
    (mask4 >>> 1 = 0 ∧ pak + 3 < pak_len ∧ ∃ b0 b1 b2 b3,
      buf.get? pak = some b0 ∧ buf.get? (pak + 1) = some b1 ∧ buf.get? (pak + 2) = some b2 ∧
      buf.get? (pak + 3) = some b3 ∧
      DecCur words (4 + table.length) (b + 1) HUF_MASK4 (pak + 4) (read32le b0 b1 b2 b3) ∧
      decide (read32le b0 b1 b2 b3 &&& HUF_MASK4 ≠ 0) = bitAt words b) ∨
    (mask4 >>> 1 ≠ 0 ∧ DecCur words (4 + table.length) (b + 1) (mask4 >>> 1) pak code ∧
      decide (code &&& (mask4 >>> 1) ≠ 0) = bitAt words b) := by
  obtain ⟨s1, s2, s3⟩ := hS
  have hq : b / 32 < words.length := by omega
  have hM : HUF_MASK4 = 2 ^ 31 := by decide
  rcases hc with ⟨c1, c2, c3⟩ | ⟨c1, c2, c3, c4⟩
  · left
    subst c1 c2 c3
    obtain ⟨b0, b1, b2, b3, g0, g1, g2, g3, g4⟩ := s3 0 (by omega)
    refine ⟨by decide, by omega, b0, b1, b2, b3, g0, g1, g2, g3, ?_, ?_⟩
    · exact Or.inr ⟨by omega, by decide, by omega, g4⟩
    · rw [hM, and_two_pow_ne, g4]; rfl
  · rcases mod32_cases b c1 with ⟨m1, m2, m3⟩ | ⟨m1, m2, m3⟩
    · left
      have hpak : pak = 4 + table.length + 4 * (b / 32) := by rw [c3, m3]
      obtain ⟨b0, b1, b2, b3, g0, g1, g2, g3, g4⟩ := s3 (b / 32) hq
      rw [← hpak] at g0 g1 g2 g3
      refine ⟨by rw [c2, m1]; decide, by omega, b0, b1, b2, b3, g0, g1, g2, g3, ?_, ?_⟩
      · refine Or.inr ⟨by omega, ?_, ?_, ?_⟩
        · rw [hM, Nat.add_sub_cancel, m2]
        · rw [Nat.add_sub_cancel, hpak]; omega
        · rw [Nat.add_sub_cancel]; exact g4
      · rw [hM, and_two_pow_ne, g4]
        unfold bitAt
        rw [m2]
    · right
      have hm : mask4 >>> 1 = 2 ^ (31 - b % 32) := by
        rw [c2, two_pow_shiftRight_one _ (by omega)]
        congr 1; omega
      refine ⟨?_, ?_, ?_⟩
      · rw [hm]; exact Nat.pos_iff_ne_zero.1 (Nat.two_pow_pos _)
      · refine Or.inr ⟨by omega, ?_, ?_, ?_⟩
        · rw [hm, Nat.add_sub_cancel]
        · rw [Nat.add_sub_cancel, c3, m3]
        · rw [Nat.add_sub_cancel, c4, m3]
      · rw [hm, and_two_pow_ne, c4, ← m3]
        rfl

set_option maxRecDepth 100000 in
theorem flags_facts : ∀ off, off ≤ 63 → ∀ a b : Bool,
    (off ||| ((if a then HUF_LCHAR else 0) ||| (if b then HUF_RCHAR else 0))) &&& HUF_NEXT = off ∧
    (decide ((off ||| ((if a then HUF_LCHAR else 0) ||| (if b then HUF_RCHAR else 0)))
      &&& HUF_LCHAR ≠ 0) = a) ∧
    (decide ((off ||| ((if a then HUF_LCHAR else 0) ||| (if b then HUF_RCHAR else 0)))
      &&& HUF_RCHAR ≠ 0) = b) := by
  decide

theorem nodeFlags_bool (tree : List HNode) (l r : Nat) :
    nodeFlags tree l r = (if decide (lf tree l = 1) then HUF_LCHAR else 0) |||
      (if decide (lf tree r = 1) then HUF_RCHAR else 0) := by
  unfold nodeFlags
  by_cases h1 : lf tree l = 1 <;> by_cases h2 : lf tree r = 1 <;> simp [h1, h2]

/-- One round of the walk of `HUF_Decode` at an inner node: the bit read
selects the child, whose entry is fetched from the pair of slots the offset
leads to. -/
theorem fetch_bit (buf : List Nat) (pak_len : Nat) (table words : List Nat)
    (hS : HufStream buf pak_len table words) (tree : List HNode) (stack : List Nat)
    (hTab : ∀ j, j < stack.length → TableOK tree stack table j)
    (hsl : stack.length < 2 ^ 31) (rpos : Nat) (hroot : table.get? 1 = some rpos)
    (jp p : Nat) (pn : HNode) (hp : stack.get? jp = some p) (hpn : tree.get? p = some pn)
    (hinner : pn.leafs ≠ 1) (d : HDec) (hat : AtSlot table jp d.pos d.next) (b : Nat)
    (hc : DecCur words (4 + table.length) b d.mask4 d.pak d.code)
    (hb : b < 32 * words.length) :
    ∃ c l r mask4 pak code cpos, pn.lson = some l ∧ pn.rson = some r ∧
      stack.get? c = some l ∧ stack.get? (c + 1) = some r ∧ c % 2 = 1 ∧
      DecCur words (4 + table.length) (b + 1) mask4 pak code ∧
      table.get? (c + (if bitAt words b then 1 else 0) + 1) = some cpos ∧
      hufFetch buf pak_len 4 d = some (some
        { pak := pak, mask4 := mask4, code := code, pos := cpos, next := c + 1,
          leaf := decide (lf tree (if bitAt words b then r else l) = 1), root := rpos }) := by
  have hjp : jp < stack.length := get?_lt _ _ _ hp
  obtain ⟨ni, node, s1, s2, _, s4⟩ := hTab jp hjp
  rw [hp] at s1; cases s1
  rw [hpn] at s2; cases s2
  obtain ⟨c, l, r, t1, t2, t3, t4, t5, t6, t7, t8⟩ := s4 hinner
  have hc1 : c + 1 < stack.length := get?_lt _ _ _ t4
  obtain ⟨a1, a2⟩ := hat
  rw [t8] at a1
  have hpos : d.pos = ((c - (jp + 1)) >>> 1) ||| nodeFlags tree l r := (Option.some.inj a1).symm
  have hff := flags_facts _ t7 (decide (lf tree l = 1)) (decide (lf tree r = 1))
  rw [← nodeFlags_bool, ← hpos] at hff
  obtain ⟨f1, f2, f3⟩ := hff
  -- the entry of the child
  have hchild : ∃ cpos, table.get? (c + (if bitAt words b then 1 else 0) + 1) = some cpos := by
    have hlt : c + (if bitAt words b then 1 else 0) < stack.length := by
      cases bitAt words b <;> simp <;> omega
    obtain ⟨ni, node, _, _, u3, u4⟩ := hTab _ hlt
    by_cases hl : node.leafs = 1
    · exact ⟨_, u3 hl⟩
    · obtain ⟨_, _, _, _, _, _, _, _, _, _, u⟩ := u4 hl
      exact ⟨_, u⟩
  obtain ⟨cpos, hcpos⟩ := hchild
  have hnext : uadd d.next (((d.pos &&& HUF_NEXT) + 1) <<< 1) = c + 1 := by
    rw [f1, a2, Nat.shiftLeft_eq, Nat.shiftRight_eq_div_pow, uadd_eq _ _ (by
      have : (2:Nat) ^ 32 = 2 * 2 ^ 31 := by decide
      omega)]
    omega
  obtain ⟨q1, q2, q3⟩ := hS
  have hbroot : buf.get? (4 + 1) = some rpos := by
    rw [q2 1 (get?_lt _ _ _ hroot)]; exact hroot
  have hbchild : buf.get? (4 + (c + 1) + (if bitAt words b then 1 else 0)) = some cpos := by
    have := q2 _ (get?_lt _ _ _ hcpos)
    rw [hcpos] at this
    rw [← this]
    congr 1
    omega
  refine ⟨c, l, r, ?_⟩
  rcases cursor_cases buf pak_len table words ⟨q1, q2, q3⟩ b d.mask4 d.pak d.code hc hb with
    ⟨e1, e2, b0, b1, b2, b3, g0, g1, g2, g3, e3, e4⟩ | ⟨e1, e3, e4⟩
  · refine ⟨HUF_MASK4, d.pak + 4, read32le b0 b1 b2 b3, cpos, t1, t2, t3, t4, t5, e3, hcpos, ?_⟩
    unfold hufFetch
    simp only [e1, true_and, if_neg (show ¬ d.pak + 3 ≥ pak_len by omega), if_true, g0, g1, g2,
      g3, hnext]
    cases hbit : bitAt words b
    · rw [hbit] at e4 hbchild
      simp only [decide_eq_false_iff_not] at e4
      simp only [if_neg e4, Bool.false_eq_true, if_false, Nat.add_zero] at hbchild ⊢
      simp only [hbchild, hbroot]
      rw [f2]
    · rw [hbit] at e4 hbchild
      simp only [decide_eq_true_eq] at e4
      simp only [if_pos e4, if_true] at hbchild ⊢
      simp only [hbchild, hbroot]
      rw [f3]
  · refine ⟨d.mask4 >>> 1, d.pak, d.code, cpos, t1, t2, t3, t4, t5, e3, hcpos, ?_⟩
    unfold hufFetch
    simp only [e1, false_and, if_false, hnext]
    cases hbit : bitAt words b
    · rw [hbit] at e4 hbchild
      simp only [decide_eq_false_iff_not] at e4
      simp only [if_neg e4, Bool.false_eq_true, if_false, Nat.add_zero] at hbchild ⊢
      simp only [hbchild, hbroot]
      rw [f2]
    · rw [hbit] at e4 hbchild
      simp only [decide_eq_true_eq] at e4
      simp only [if_pos e4, if_true] at hbchild ⊢
      simp only [hbchild, hbroot]
      rw [f3]

theorem inner_of_child (freqs : Nat → Nat) (ms k : Nat) (tree : List HNode)
    (hT : TreeInv freqs ms k tree) (p : Nat) (pn : HNode) (hpn : tree.get? p = some pn)
    (c : Nat) (hc : pn.lson = some c ∨ pn.rson = some c) : pn.leafs ≠ 1 := by
  obtain ⟨i1, i2, i3, i4, i5, i6, i7, i8, i9⟩ := hT
  have hlt := get?_lt _ _ _ hpn
  by_cases hpk : p < k
  · obtain ⟨nd, hnd, _, h3, h4, _⟩ := i7 p hpk
    rw [hpn] at hnd; cases hnd
    rcases hc with e | e
    · rw [h3] at e; cases e
    · rw [h4] at e; cases e
  · obtain ⟨nd, l, r, ln, rn, g1, _, _, g4, g5, _, _, _, _, g10, _⟩ := i8 p (by omega) hlt
    rw [hpn] at g1; cases g1
    have := (i6 l ln g4).2
    have := (i6 r rn g5).2
    omega

/-- The walk of `HUF_Decode` along the code of a leaf ends with the commit of
the symbol of the leaf. -/
theorem decode_walk (freqs : Nat → Nat) (ms k : Nat) (tree : List HNode)
    (hT : TreeInv freqs ms k tree)
    (buf : List Nat) (pak_len raw_len : Nat) (table words : List Nat)
    (hS : HufStream buf pak_len table words) (stack : List Nat)
    (hTab : ∀ j, j < stack.length → TableOK tree stack table j)
    (hsl : stack.length < 2 ^ 31) (rpos : Nat) (hroot : table.get? 1 = some rpos)
    (j : Nat) (jn : HNode) (hj : tree.get? j = some jn) (hjl : jn.leafs = 1) :
    ∀ (bs : List Bool) (p jp b fuel : Nat) (d : HDec), bs ≠ [] → Descent tree p bs j →
      stack.get? jp = some p → AtSlot table jp d.pos d.next →
      DecCur words (4 + table.length) b d.mask4 d.pak d.code →
      (∀ i, i < bs.length → bitAt words (b + i) = bs.getD i false) →
      b + bs.length ≤ 32 * words.length → d.raw.length < raw_len →
      ∃ mask4 pak code, DecCur words (4 + table.length) (b + bs.length) mask4 pak code ∧
        hufDecLoop buf pak_len 4 raw_len 4 (fuel + bs.length) d =
          hufDecLoop buf pak_len 4 raw_len 4 fuel
            (commit4 d mask4 pak code rpos (jn.symbol % 256)) := by
  intro bs
  induction bs with
  | nil => intro p jp b fuel d h; exact absurd rfl h
  | cons b0 rest ih =>
    intro p jp b fuel d _ hD hp hat hc hbits hlen hraw
    unfold Descent at hD
    obtain ⟨pn, c', hpn, hside, hrest⟩ := hD
    have hinner : pn.leafs ≠ 1 := by
      apply inner_of_child freqs ms k tree hT p pn hpn c'
      cases b0
      · exact Or.inl hside
      · exact Or.inr hside
    simp only [List.length_cons] at hlen hbits ⊢
    obtain ⟨c, l, r, mask4, pak, code, cpos, t1, t2, t3, t4, t5, t6, t7, t8⟩ :=
      fetch_bit buf pak_len table words hS tree stack hTab hsl rpos hroot jp p pn hp hpn hinner
        d hat b hc (by omega)
    have hb0 : bitAt words b = b0 := by
      have := hbits 0 (by omega)
      simpa using this
    rw [hb0] at t7 t8
    have hchild : (if b0 = true then r else l) = c' := by
      cases b0
      · simp only [Bool.false_eq_true, if_false] at hside ⊢
        rw [t1] at hside; exact Option.some.inj hside
      · simp only [if_true] at hside ⊢
        rw [t2] at hside; exact Option.some.inj hside
    rw [hchild] at t8
    have hcc : stack.get? (c + (if b0 = true then 1 else 0)) = some c' := by
      rw [← hchild]
      cases b0
      · simpa using t3
      · simpa using t4
    have hcclt : c + (if b0 = true then 1 else 0) < stack.length := get?_lt _ _ _ hcc
    obtain ⟨ni, node, u1, u2, u3, u4⟩ := hTab _ hcclt
    rw [hcc] at u1; cases u1
    rw [show fuel + (rest.length + 1) = (fuel + rest.length) + 1 by omega, hufDecLoop_succ,
      if_pos hraw, t8]
    simp only
    cases rest with
    | nil =>
      unfold Descent at hrest
      subst hrest
      rw [hj] at u2; cases u2
      have hleaf : decide (lf tree c' = 1) = true := by
        rw [lf_eq tree c' jn hj, hjl]; rfl
      have hcp : cpos = jn.symbol % 256 := by
        have := u3 hjl
        rw [t7] at this
        exact Option.some.inj this
      refine ⟨mask4, pak, code, t6, ?_⟩
      simp only [hleaf, if_true, List.length_nil, Nat.add_zero]
      unfold commit4
      rw [hcp]
      by_cases h0 : (d.nbits + 4) &&& 7 = 0
      · rw [if_pos h0, if_pos h0]
      · rw [if_neg h0, if_neg h0]
    | cons b1 rest2 =>
      have hD2 := hrest
      unfold Descent at hD2
      obtain ⟨cn, c2, hcn, hside2, _⟩ := hD2
      have hinner2 : cn.leafs ≠ 1 := by
        apply inner_of_child freqs ms k tree hT c' cn hcn c2
        cases b1
        · exact Or.inl hside2
        · exact Or.inr hside2
      have hleaf : decide (lf tree c' = 1) = false := by
        rw [lf_eq tree c' cn hcn]
        simp [hinner2]
      simp only [hleaf, Bool.false_eq_true, if_false]
      obtain ⟨mask4', pak', code', v1, v2⟩ := ih c' (c + (if b0 = true then 1 else 0)) (b + 1) fuel
        { d with pak := pak, mask4 := mask4, code := code, pos := cpos, next := c + 1 }
        (by simp) hrest hcc
        ⟨t7, by
          show c + 1 = 2 * ((c + (if b0 = true then 1 else 0) + 1) / 2)
          cases b0 <;> simp <;> omega⟩
        t6
        (by
          intro i hi
          have := hbits (i + 1) (by omega)
          rw [show b + 1 + i = b + (i + 1) by omega, this]
          rfl)
        (by omega) hraw
      refine ⟨mask4', pak', code', ?_, ?_⟩
      · rw [show b + ((b1 :: rest2).length + 1) = b + 1 + (b1 :: rest2).length by omega]
        exact v1
      · rw [v2]
        rfl

theorem hufDecLoop_done (buf : List Nat) (pak_len num_bits raw_len tree fuel : Nat) (d : HDec)
    (h : ¬ d.raw.length < raw_len) :
    hufDecLoop buf pak_len num_bits raw_len tree fuel d = some d.raw := by
  cases fuel with
  | zero => unfold hufDecLoop; rw [if_neg h]
  | succ f => rw [hufDecLoop_succ, if_neg h]

theorem leafBools_ne_nil (freqs : Nat → Nat) (ms k : Nat) (tree : List HNode)
    (hF : FinalTree freqs ms k tree) (hk : 2 ≤ k) (j : Nat) (hj : j < k) :
    leafBools tree j ≠ [] := by
  intro h
  have hl := leafBools_length tree j
  rw [h] at hl
  have hT := hF.1
  have hlen := hF.2.2.1
  cases hd : dadOf tree j with
  | none =>
    have := final_root freqs ms k tree hF j (by omega) hd
    omega
  | some d =>
    rw [chain_cons freqs ms k tree hT j d hd] at hl
    simp at hl

theorem commit4_fields (d : HDec) (mask4 pak code root sym : Nat) :
    (commit4 d mask4 pak code root sym).mask4 = mask4 ∧
    (commit4 d mask4 pak code root sym).pak = pak ∧
    (commit4 d mask4 pak code root sym).code = code ∧
    (commit4 d mask4 pak code root sym).pos = root ∧
    (commit4 d mask4 pak code root sym).next = 0 := by
  unfold commit4
  split <;> exact ⟨rfl, rfl, rfl, rfl, rfl⟩

/-- The loop of `HUF_Decode` on the code bits of a sequence of 4-bit symbols
returns the bytes the symbols make in pairs. -/
theorem decode_all (freqs : Nat → Nat) (ms : Nat) (tree : List HNode)
    (hF : FinalTree freqs ms (countLeafs freqs ms) tree) (hk : 2 ≤ countLeafs freqs ms)
    (buf : List Nat) (pak_len raw_len : Nat) (table words : List Nat)
    (hS : HufStream buf pak_len table words) (stack : List Nat)
    (hTab : ∀ j, j < stack.length → TableOK tree stack table j)
    (hsl : stack.length < 2 ^ 31) (rpos : Nat) (hroot : table.get? 1 = some rpos)
    (hst0 : stack.get? 0 = some (2 * countLeafs freqs ms - 2))
    (codes : Nat → Option HCode)
    (hcodes : ∀ j, j < countLeafs freqs ms →
      symBools codes (symAt freqs ms j) = leafBools tree j) :
    ∀ (rest done : List Nat) (b fuel : Nat) (d : HDec),
      NibbleRel d done → AtSlot table 0 d.pos d.next →
      DecCur words (4 + table.length) b d.mask4 d.pak d.code →
      (∀ s ∈ rest, s < 256 ∧ ∃ j, j < countLeafs freqs ms ∧ symAt freqs ms j = s) →
      (∀ i, i < (rest.flatMap (symBools codes)).length →
        bitAt words (b + i) = (rest.flatMap (symBools codes)).getD i false) →
      b + (rest.flatMap (symBools codes)).length ≤ 32 * words.length →
      (done ++ rest).length = 2 * raw_len →
      hufDecLoop buf pak_len 4 raw_len 4 (fuel + (rest.flatMap (symBools codes)).length) d
        = some (packHigh (done ++ rest)) := by
  have hT := hF.1
  intro rest
  induction rest with
  | nil =>
    intro done b fuel d hrel _ _ _ _ _ hlen
    have hl := nibbleRel_length d done hrel
    rw [List.append_nil] at hlen ⊢
    rw [hufDecLoop_done _ _ _ _ _ _ _ (by omega), nibbleRel_packHigh d done hrel]
  | cons s rest ih =>
    intro done b fuel d hrel hat hc hsyms hbits hlen htot
    obtain ⟨hs256, j, hj, hjs⟩ := hsyms s (List.mem_cons_self _ _)
    have hL : symBools codes s = leafBools tree j := by rw [← hjs]; exact hcodes j hj
    rw [List.flatMap_cons, hL] at hbits hlen ⊢
    rw [List.length_append] at hbits hlen ⊢
    obtain ⟨jn, hjn, hjsym, _⟩ := leaf_symbol freqs ms _ tree hT j hj
    have hjl : jn.leafs = 1 := by
      obtain ⟨nd, h1, h2, _⟩ := hT.2.2.2.2.2.2.1 j hj
      rw [hjn] at h1; cases h1; exact h2
    have hl := nibbleRel_length d done hrel
    simp only [List.length_append, List.length_cons] at htot
    obtain ⟨mask4, pak, code, w1, w2⟩ := decode_walk freqs ms _ tree hT buf pak_len raw_len table
      words hS stack hTab hsl rpos hroot j jn hjn hjl (leafBools tree j)
      (2 * countLeafs freqs ms - 2) 0 b (fuel + (rest.flatMap (symBools codes)).length) d
      (leafBools_ne_nil freqs ms _ tree hF hk j hj)
      (descent_leaf freqs ms _ tree hF j (by have := hT.1; omega)) hst0 hat hc
      (by
        intro i hi
        rw [hbits i (by omega), List.getD_append _ _ _ _ hi])
      (by omega) (by omega)
    rw [show fuel + ((leafBools tree j).length + (rest.flatMap (symBools codes)).length)
      = fuel + (rest.flatMap (symBools codes)).length + (leafBools tree j).length by omega, w2]
    have hsym : jn.symbol % 256 = s := by
      rw [hjsym, hjs]; exact Nat.mod_eq_of_lt hs256
    rw [hsym]
    obtain ⟨f1, f2, f3, f4, f5⟩ := commit4_fields d mask4 pak code rpos s
    have := ih (done ++ [s]) (b + (leafBools tree j).length) fuel
      (commit4 d mask4 pak code rpos s)
      (by unfold commit4; exact nibbleRel_commit d done hrel pak mask4 code rpos s)
      (by rw [f4, f5]; exact ⟨hroot, rfl⟩)
      (by rw [f1, f2, f3]; exact w1)
      (fun t ht => hsyms t (List.mem_cons_of_mem _ ht))
      (by
        intro i hi
        rw [show b + (leafBools tree j).length + i = b + ((leafBools tree j).length + i) by omega,
          hbits _ (by omega), List.getD_append_right _ _ _ _ (by omega)]
        congr 1
        omega)
      (by omega)
      (by simp only [List.length_append, List.length_cons, List.length_nil]; omega)
    rw [this, List.append_assoc]
    rfl

set_option maxRecDepth 100000 in
theorem nibbles_byte : ∀ ch, ch < 256 →
    ((((ch >>> 4) % 256) <<< 4) ||| (((ch <<< 4) &&& 0xFF) >>> 4)) % 256 = ch := by
  decide

theorem packHigh_symbolsOf (x : List Nat) (hx : Bytes x) : packHigh (symbolsOf 4 x) = x := by
  unfold symbolsOf
  induction x with
  | nil => rfl
  | cons a rest ih =>
    rw [List.flatMap_cons, symbolsOfByte_4]
    show _ :: packHigh (rest.flatMap _) = a :: rest
    rw [ih (fun b hb => hx b (List.mem_cons_of_mem _ hb)),
      nibbles_byte a (hx a (List.mem_cons_self _ _))]

theorem read32le_write32le (w : Nat) (h : w < 2 ^ 32) :
    ∃ b0 b1 b2 b3, write32le w = [b0, b1, b2, b3] ∧ read32le b0 b1 b2 b3 = w := by
  refine ⟨w % 2 ^ 16 % 256, w % 2 ^ 16 / 2 ^ 8 % 256, w / 2 ^ 16 % 2 ^ 16 % 256,
    w / 2 ^ 16 % 2 ^ 16 / 2 ^ 8 % 256, by simp [write32le, write16le], ?_⟩
  rw [read32le_eq _ _ _ _ (Nat.mod_lt _ (by decide)) (Nat.mod_lt _ (by decide))
    (Nat.mod_lt _ (by decide))]
  omega

theorem flatMap_word : ∀ (ws : List Nat) (q : Nat), q < ws.length →
    ∃ pre post, ws.flatMap write32le = pre ++ write32le (ws.getD q 0) ++ post ∧
      pre.length = 4 * q := by
  intro ws
  induction ws with
  | nil => intro q hq; cases hq
  | cons w rest ih =>
    intro q hq
    cases q with
    | zero => exact ⟨[], rest.flatMap write32le, by simp, rfl⟩
    | succ q =>
      obtain ⟨pre, post, h1, h2⟩ := ih q (by simpa using hq)
      refine ⟨write32le w ++ pre, post, ?_, ?_⟩
      · rw [List.flatMap_cons, h1]
        simp
      · rw [List.length_append, write32le_length, h2]; omega

theorem get?_append_add (A B : List Nat) (i : Nat) : (A ++ B).get? (A.length + i) = B.get? i := by
  rw [List.get?_eq_getElem?, List.get?_eq_getElem?, List.getElem?_append_right (by omega)]
  congr 1
  omega

/-- The buffer of a file made of a header word, a table and code words. -/
theorem hufStream_of (hdr table words : List Nat) (hh : hdr.length = 4)
    (hw : ∀ w ∈ words, w < 2 ^ 32) :
    HufStream (hdr ++ table ++ words.flatMap write32le ++ [0, 0, 0])
      (4 + table.length + 4 * words.length) table words := by
  refine ⟨rfl, ?_, ?_⟩
  · intro i hi
    rw [List.append_assoc, List.append_assoc, ← hh, get?_append_add,
      List.get?_eq_getElem?, List.get?_eq_getElem?, List.getElem?_append_left hi]
  · intro q hq
    obtain ⟨pre, post, h1, h2⟩ := flatMap_word words q hq
    have hwq : words.getD q 0 < 2 ^ 32 := by
      rw [List.getD_eq_getElem _ _ hq]
      exact hw _ (List.getElem_mem hq)
    obtain ⟨b0, b1, b2, b3, h3, h4⟩ := read32le_write32le _ hwq
    have hbuf : hdr ++ table ++ words.flatMap write32le ++ [0, 0, 0] =
        (hdr ++ table ++ pre) ++ ([b0, b1, b2, b3] ++ (post ++ [0, 0, 0])) := by
      rw [h1, h3]; simp
    have hl : (hdr ++ table ++ pre).length = 4 + table.length + 4 * q := by
      simp only [List.length_append, hh, h2]
    refine ⟨b0, b1, b2, b3, ?_, ?_, ?_, ?_, h4⟩
    · rw [hbuf, ← hl, ← Nat.add_zero (hdr ++ table ++ pre).length, get?_append_add]; rfl
    · rw [hbuf, ← hl, get?_append_add]; rfl
    · rw [hbuf, ← hl, get?_append_add]; rfl
    · rw [hbuf, ← hl, get?_append_add]; rfl

/-- The output of `HUF_Code` from its parts. -/
theorem HUF_Code_eq (n : Nat) (x : List Nat) (tree : List HNode) (table : List Nat)
    (codes : Nat → Option HCode) (bo : BitOut)
    (hT : HUF_CreateTree (HUF_CreateFreqs n x).1 (1 <<< n) (HUF_CreateFreqs n x).2.1
      (HUF_CreateFreqs n x).2.2 = some tree)
    (hCT : HUF_CreateCodeTree tree (HUF_CreateFreqs n x).2.1 (HUF_CreateFreqs n x).2.2
      = some table)
    (hC : HUF_CreateCodeWorks tree (HUF_CreateFreqs n x).2.1 = some codes)
    (hE : emitAll codes (symbolsOf n x) { mask4 := 0, cur := none, words := [] } = some bo)
    (hlen : table.length = 2 * (table.getD 0 0 + 1)) :
    HUF_Code n x = some (write32le (((CMD_CODE_20 + n) ||| (x.length <<< 8)) % 2 ^ 32) ++
      table ++ (closeWords bo).flatMap write32le) := by
  unfold HUF_Code
  simp only [hT, hCT, hC, hE]
  have hl2 : (table.getD 0 0 + 1) <<< 1 = table.length := by
    rw [Nat.shiftLeft_eq, hlen]; omega
  rw [hl2, if_neg (Nat.lt_irrefl _), List.take_length]
  unfold closeWords
  cases hb : bo.cur <;> rfl

theorem bitsInv_words (bits : List Bool) (bo : BitOut) (h : BitsInv bits bo) :
    (∀ w ∈ closeWords bo, w < 2 ^ 32) ∧
    (∀ i, i < bits.length → bitAt (closeWords bo) i = bits.getD i false) ∧
    bits.length ≤ 32 * (closeWords bo).length := by
  rcases h with ⟨h1, h2⟩ | ⟨ws, w, h1, h2, h3, h4, h5, h6, h7⟩
  · subst h1 h2
    refine ⟨?_, ?_, ?_⟩
    · intro w hw; cases hw
    · intro i hi; cases hi
    · simp
  · have hcw : closeWords bo = ws ++ [w] := by rw [h2]; rfl
    rw [hcw]
    refine ⟨?_, h7, ?_⟩
    · intro y hy
      rcases List.mem_append.1 hy with hy | hy
      · exact h4 y hy
      · rw [List.mem_singleton.1 hy]; exact h5
    · rw [List.length_append, List.length_singleton, h3]
      omega

/-- The steps of `huffman_decode` on a file with the tag `0x24` and a table of
at least two bytes, up to the loop. -/
theorem huffman_decode_eq (b1 b2 b3 t0 rpos : Nat) (rest : List Nat) :
    huffman_decode (0x24 :: b1 :: b2 :: b3 :: t0 :: rpos :: rest) =
      hufDecLoop ((0x24 :: b1 :: b2 :: b3 :: t0 :: rpos :: rest) ++ [0, 0, 0])
        (0x24 :: b1 :: b2 :: b3 :: t0 :: rpos :: rest).length 4
        (read32le 0x24 b1 b2 b3 >>> 8) 4
        (8 * (0x24 :: b1 :: b2 :: b3 :: t0 :: rpos :: rest).length + 1)
        { pak := 4 + ((t0 + 1) <<< 1), mask4 := 0, code := 0, pos := rpos, next := 0,
          nbits := 0, cur := 0, raw := [] } := by
  unfold huffman_decode
  simp only [List.cons_append]
  have ht : ¬ (0x24 ≠ CMD_CODE_24 ∧ 0x24 ≠ CMD_CODE_28) := by decide
  rw [if_neg ht]
  have h4 : 0x24 &&& 0xF = 4 := by decide
  rw [h4]

/-- C4. Huffman-4 round trip: for every byte sequence `x` of at most
`2 ^ 24 - 1` bytes whose nibbles take at least two different values,
`huffman_encode x 4` produces a stream, and `huffman_decode` of that stream
returns exactly `x`. -/
theorem huffman4_round_trip (x : List Nat) (hx : Bytes x) (hlen : x.length ≤ 2 ^ 24 - 1)
    (h2 : ∃ a ∈ symbolsOf 4 x, ∃ b ∈ symbolsOf 4 x, a ≠ b) :
    ∃ out, huffman_encode x 4 = some out ∧ huffman_decode out = some x := by
  have hn : (4 : Nat) = 4 ∨ (4 : Nat) = 8 := Or.inl rfl
  have hsy := symbolsOf_length 4 hn x
  have hlt := symbolsOf_lt 4 hn x hx
  have hsl : (symbolsOf 4 x).length < 2 ^ 32 := by omega
  have h16 : (1 <<< 4 : Nat) = 16 := by decide
  obtain ⟨a, ha, b, hb, hab⟩ := h2
  have hk := countLeafs_two (1 <<< 4) (symbolsOf 4 x) hsl hlt a b ha hb hab
  have hkle := countLeafs_le (countFreqs (fun _ => 0) (symbolsOf 4 x)) (1 <<< 4)
  have hfr := createFreqs_eq 4 x (by rw [h16]; omega) hk
  have htot := totalFreq_length (1 <<< 4) (symbolsOf 4 x) hsl hlt
  obtain ⟨tree, hT, hTI, hKI, hTl⟩ := createTree_kids
    (countFreqs (fun _ => 0) (symbolsOf 4 x)) (1 <<< 4) hk (by rw [htot]; exact hsl)
  have hF : FinalTree (countFreqs (fun _ => 0) (symbolsOf 4 x)) (1 <<< 4)
      (countLeafs (countFreqs (fun _ => 0) (symbolsOf 4 x)) (1 <<< 4)) tree :=
    ⟨hTI, hKI, hTl, by omega⟩
  obtain ⟨codes, hC, hca, _⟩ := createCodeWorks_spec _ _ tree hTI
    (countLeafs (countFreqs (fun _ => 0) (symbolsOf 4 x)) (1 <<< 4)) 0 (fun _ => none)
    (by omega)
  obtain ⟨table, stack, hCT, htl, ht0, hst0, hstl, hTab⟩ := createCodeTree_table
    (countFreqs (fun _ => 0) (symbolsOf 4 x)) (1 <<< 4) tree hk (by omega) hTI hTl
  have hall : ∀ s ∈ symbolsOf 4 x, ∃ c, codes s = some c := by
    intro s hs
    have fs : countFreqs (fun _ => 0) (symbolsOf 4 x) s ≠ 0 := by
      rw [countFreqs_zero _ hsl]
      exact Nat.pos_iff_ne_zero.1 (List.count_pos_iff.2 hs)
    obtain ⟨j, hj, hjs⟩ := exists_symAt _ (1 <<< 4) s (hlt s hs) fs
    have := hca j (Nat.zero_le _) (by omega)
    rw [hjs] at this
    exact ⟨_, this⟩
  obtain ⟨bo, hE, hB⟩ := emitAll_bits codes (symbolsOf 4 x) []
    { mask4 := 0, cur := none, words := [] } hall (Or.inl ⟨rfl, rfl⟩)
  rw [List.nil_append] at hB
  obtain ⟨hw32, hbitsAt, hWlen⟩ := bitsInv_words _ bo hB
  have hT2 : HUF_CreateTree (HUF_CreateFreqs 4 x).1 (1 <<< 4) (HUF_CreateFreqs 4 x).2.1
      (HUF_CreateFreqs 4 x).2.2 = some tree := by rw [hfr]; exact hT
  have hC2 : HUF_CreateCodeWorks tree (HUF_CreateFreqs 4 x).2.1 = some codes := by
    rw [hfr]; exact hC
  have hCT2 : HUF_CreateCodeTree tree (HUF_CreateFreqs 4 x).2.1 (HUF_CreateFreqs 4 x).2.2
      = some table := by rw [hfr]; exact hCT
  have hg0 : table.getD 0 0 =
      (countLeafs (countFreqs (fun _ => 0) (symbolsOf 4 x)) (1 <<< 4) - 1) ||| 1 := by
    rw [List.getD_eq_getElem?_getD, ← List.get?_eq_getElem?, ht0]; rfl
  have hcode := HUF_Code_eq 4 x tree table codes bo hT2 hCT2 hC2 hE (by rw [hg0, htl])
  -- the size test of `HUF_Encode`
  obtain ⟨tree', codes', bo', _, _, _, _, hbound, hout⟩ := huffman_output_core 4 x (by decide)
    (by decide) hsy hlt hsl ⟨a, ha, b, hb, hab⟩
  obtain ⟨o1, o2⟩ := hout _ hcode
  have hsize : (write32le (((CMD_CODE_20 + 4) ||| (x.length <<< 8)) % 2 ^ 32) ++
      table ++ (closeWords bo).flatMap write32le).length < HUF_MAXIM + 1 := by
    rw [o2, o1]
    have : HUF_MAXIM = 0x01400000 := rfl
    have h24 : (2:Nat) ^ 4 = 16 := by decide
    omega
  refine ⟨write32le (((CMD_CODE_20 + 4) ||| (x.length <<< 8)) % 2 ^ 32) ++
      table ++ (closeWords bo).flatMap write32le, ?_, ?_⟩
  · unfold huffman_encode
    rw [if_neg (by decide), if_neg (by decide)]
    unfold HUF_Encode
    have h4 : CMD_CODE_24 &&& 0xF = 4 := by decide
    simp only [h4, hcode, if_pos hsize]
  · -- the stream as the decoder sees it
    have hhdr := write32le_header (CMD_CODE_20 + 4) x.length (by decide) (by omega)
    have h24 : CMD_CODE_20 + 4 = 0x24 := by decide
    rw [hhdr, h24]
    have htl4 : 4 ≤ table.length := by
      have := or_one_bounds (countLeafs (countFreqs (fun _ => 0) (symbolsOf 4 x)) (1 <<< 4) - 1)
      omega
    obtain ⟨t0, rpos, tl, htab⟩ : ∃ t0 rpos tl, table = t0 :: rpos :: tl := by
      rcases table with _ | ⟨t0, _ | ⟨rpos, tl⟩⟩
      · simp at htl4
      · simp at htl4
      · exact ⟨t0, rpos, tl, rfl⟩
    have hfile : [0x24, x.length % 256, x.length / 2 ^ 8 % 256, x.length / 2 ^ 16 % 256] ++ table ++
        (closeWords bo).flatMap write32le =
        0x24 :: (x.length % 256) :: (x.length / 2 ^ 8 % 256) :: (x.length / 2 ^ 16 % 256) ::
          t0 :: rpos :: (tl ++ (closeWords bo).flatMap write32le) := by
      rw [htab]; rfl
    rw [hfile, huffman_decode_eq, ← hfile]
    have hS := hufStream_of
      [0x24, x.length % 256, x.length / 2 ^ 8 % 256, x.length / 2 ^ 16 % 256] table
      (closeWords bo) rfl hw32
    have hpl : ([0x24, x.length % 256, x.length / 2 ^ 8 % 256, x.length / 2 ^ 16 % 256] ++ table ++
        (closeWords bo).flatMap write32le).length = 4 + table.length + 4 * (closeWords bo).length := by
      simp only [List.length_append, flatMap_write32le_length, List.length_cons, List.length_nil]
    rw [hpl]
    have hraw : read32le 0x24 (x.length % 256) (x.length / 2 ^ 8 % 256) (x.length / 2 ^ 16 % 256)
        >>> 8 = x.length := by
      rw [read32le_size _ _ _ _ (by decide) (Nat.mod_lt _ (by decide)) (Nat.mod_lt _ (by decide))]
      omega
    rw [hraw]
    have ht0' : t0 = (countLeafs (countFreqs (fun _ => 0) (symbolsOf 4 x)) (1 <<< 4) - 1) ||| 1 := by
      rw [htab] at hg0; exact hg0
    have hpak : 4 + ((t0 + 1) <<< 1) = 4 + table.length := by
      rw [Nat.shiftLeft_eq, htl, ← ht0']; omega
    have hrp : table.get? 1 = some rpos := by rw [htab]; rfl
    have hfuel : 8 * (4 + table.length + 4 * (closeWords bo).length) + 1 =
        (8 * (4 + table.length + 4 * (closeWords bo).length) + 1 -
          ((symbolsOf 4 x).flatMap (symBools codes)).length) +
          ((symbolsOf 4 x).flatMap (symBools codes)).length := by omega
    rw [hfuel]
    have := decode_all (countFreqs (fun _ => 0) (symbolsOf 4 x)) (1 <<< 4) tree hF hk _ _
      x.length table (closeWords bo) hS stack hTab (by rw [hstl]; omega) rpos hrp hst0 codes
      (fun j hj => symBools_leaf _ _ tree codes j (hca j (Nat.zero_le _) (by omega)))
      (symbolsOf 4 x) []
      0 (8 * (4 + table.length + 4 * (closeWords bo).length) + 1 -
          ((symbolsOf 4 x).flatMap (symBools codes)).length)
      { pak := 4 + ((t0 + 1) <<< 1), mask4 := 0, code := 0, pos := rpos, next := 0,
        nbits := 0, cur := 0, raw := [] }
      (Or.inl ⟨rfl, rfl, rfl, rfl⟩) ⟨hrp, rfl⟩ (Or.inl ⟨rfl, rfl, hpak⟩)
      (by
        intro s hs
        have fs : countFreqs (fun _ => 0) (symbolsOf 4 x) s ≠ 0 := by
          rw [countFreqs_zero _ hsl]
          exact Nat.pos_iff_ne_zero.1 (List.count_pos_iff.2 hs)
        have h1 := hlt s hs
        exact ⟨by omega, exists_symAt _ (1 <<< 4) s h1 fs⟩)
      (by
        intro i hi
        rw [Nat.zero_add]
        exact hbitsAt i hi)
      (by omega)
      (by rw [List.nil_append]; omega)
    rw [this, List.nil_append, packHigh_symbolsOf x hx]

set_option maxRecDepth 100000 in
theorem huffman4_round_trip_witness :
    ∃ out, huffman_encode [0x12, 0x21, 0x13] 4 = some out ∧
      huffman_decode out = some [0x12, 0x21, 0x13] :=
  huffman4_round_trip [0x12, 0x21, 0x13] (by decide) (by decide)
    ⟨1, by decide, 2, by decide, by decide⟩

end Gbacomp

namespace Gbacomp

/-! ## Huffman: the compacting pass and the symbol slots -/

theorem wr_keep (t t' : List Nat) (i v p : Nat) (h : wr t i v = some t') (hp : p ≠ i) :
    rd t' p = rd t p := by
  unfold wr at h
  split at h
  · simp only [Option.some.injEq] at h
    subst h
    exact rd_set_ne _ _ _ _ hp
  · simp at h

theorem wr_at (t t' : List Nat) (i v : Nat) (h : wr t i v = some t') :
    rd t' i = some (v % 256) := by
  unfold wr at h
  split at h
  · rename_i hlt
    simp only [Option.some.injEq] at h
    subst h
    exact rd_set_eq _ _ _ hlt
  · simp at h

theorem slideLoop_keep (l0 p : Nat) (hp : p ≤ l0) : ∀ (n j : Nat) (t t' : List Nat),
    slideLoop l0 n j t = some t' → rd t' p = rd t p := by
  intro n
  induction n with
  | zero => intro j t t' h; simp only [slideLoop, Option.some.injEq] at h; subst h; rfl
  | succ n ih =>
    intro j t t' h
    simp only [slideLoop] at h
    split at h
    · rename_i hgt
      split at h
      · split at h
        · simp at h
        · rename_i t1 h1
          split at h
          · simp at h
          · rename_i t2 h2
            rw [ih _ t2 t' h, wr_keep _ _ _ _ p h2 (by omega), wr_keep _ _ _ _ p h1 (by omega)]
      · simp at h
    · simp only [Option.some.injEq] at h; subst h; rfl

theorem slidePair_keep (t : List Nat) (l0 l1 : Nat) (t' : List Nat) (p : Nat) (hp : p < l0)
    (h : slidePair t l0 l1 = some t') : rd t' p = rd t p := by
  unfold slidePair at h
  split at h
  · split at h
    · simp at h
    · rename_i t1 h1
      split at h
      · simp at h
      · rename_i t2 h2
        rw [wr_keep _ _ _ _ p h (by omega), wr_keep _ _ _ _ p h2 (by omega),
          slideLoop_keep l0 p (by omega) _ _ _ _ h1]
  · simp at h

theorem bumpLoop_keep (codemask : List Nat) (l0 n0 n1 p : Nat) : ∀ (n j : Nat) (t t' : List Nat),
    p < j → bumpLoop codemask l0 n0 n1 n j t = some t' → rd t' p = rd t p := by
  intro n
  induction n with
  | zero => intro j t t' _ h; simp only [bumpLoop, Option.some.injEq] at h; subst h; rfl
  | succ n ih =>
    intro j t t' hj h
    simp only [bumpLoop] at h
    split at h
    · split at h
      · split at h
        · split at h
          · split at h
            · simp at h
            · rename_i t1 h1
              rw [ih (j + 1) t1 t' (by omega) h, wr_keep _ _ _ _ p h1 (by omega)]
          · exact ih (j + 1) t t' (by omega) h
        · exact ih (j + 1) t t' (by omega) h
      · simp at h
    · simp only [Option.some.injEq] at h; subst h; rfl

theorem dropLoop_keep (codemask : List Nat) (l1 n1 p : Nat) : ∀ (n j : Nat) (t t' : List Nat),
    p < j → dropLoop codemask l1 n1 n j t = some t' → rd t' p = rd t p := by
  intro n
  induction n with
  | zero => intro j t t' _ h; simp only [dropLoop, Option.some.injEq] at h; subst h; rfl
  | succ n ih =>
    intro j t t' hj h
    simp only [dropLoop] at h
    split at h
    · split at h
      · split at h
        · split at h
          · split at h
            · simp at h
            · rename_i t1 h1
              rw [ih (j + 1) t1 t' (by omega) h, wr_keep _ _ _ _ p h1 (by omega)]
          · exact ih (j + 1) t t' (by omega) h
        · exact ih (j + 1) t t' (by omega) h
      · simp at h
    · simp only [Option.some.injEq] at h; subst h; rfl

theorem updateFix_keep (m : List Nat) (inc : Nat) (t : List Nat) (j : Nat) (t' : List Nat)
    (p : Nat) (hp : p ≠ j) (h : updateFix m inc t j = some t') : rd t' p = rd t p := by
  unfold updateFix at h
  split at h
  · split at h
    · exact wr_keep _ _ _ _ p h hp
    · simp only [Option.some.injEq] at h; subst h; rfl
  · simp at h

/-- The adjustments after the slide change the slot chosen by the decrement
only. -/
theorem updateAdjust_at (m t : List Nat) (i inc n0 n1 : Nat) (t' : List Nat) (c : Nat)
    (hc : rd t i = some c) (hl0 : i < n0 <<< 1)
    (h : updateAdjust m t i inc n0 n1 = some t') :
    rd t' i = some (usub c inc % 256) := by
  unfold updateAdjust at h
  simp only at h
  split at h
  · simp at h
  · rename_i t1 h1
    split at h
    · simp at h
    · rename_i t2 h2
      split at h
      · simp at h
      · rename_i t3 h3
        split at h
        · simp at h
        · rename_i t4 h4
          rw [dropLoop_keep _ _ _ i _ _ _ _ (by omega) h,
            updateFix_keep _ _ _ _ _ i (by omega) h4,
            updateFix_keep _ _ _ _ _ i (by omega) h3,
            bumpLoop_keep _ _ _ _ i _ _ _ _ (by omega) h2]
          unfold updateDec at h1
          rw [hc] at h1
          exact wr_at _ _ _ _ h1

/-- C31, a defect of the code. The compacting pass takes a symbol for an
offset: when the loop of `HUF_UpdateCodeTree` works on an odd slot `i` and the
slot `i - 1` beside it holds the value `0x3F` and is marked as a symbol
(`codemask[i - 1] = 0xFF`), the body of the `if` takes the slot `i - 1` with
`inc = 1`, as if `0x3F` were an offset at its limit, and whenever it comes to
an end it leaves the symbol slot holding `0x3E`. -/
theorem update_takes_symbol_for_offset (ct : CodeTree) (i : Nat) (r : CodeTree × Nat)
    (hodd : i % 2 = 1) (h32 : i < 2 ^ 32)
    (hsym : rd ct.codetree (i - 1) = some HUF_NEXT)
    (hmask : rd ct.codemask (i - 1) = some 0xFF)
    (hrun : updateAt ct i = some r) :
    updateSel ct.codetree i = some (i - 1, 1) ∧
    rd r.1.codetree (i - 1) = some 0x3E ∧ rd r.1.codemask (i - 1) = some 0xFF := by
  have hu : usub i 1 = i - 1 := usub_eq _ _ (by omega) h32
  have hand : i &&& 1 ≠ 0 := (and_one_ne_zero i).2 hodd
  have hsel : updateSel ct.codetree i = some (i - 1, 1) := by
    unfold updateSel
    simp only [if_pos hand, hu, hsym]
    cases hci : rd ct.codetree i with
    | none =>
      unfold updateAt updateSel at hrun
      simp only [if_pos hand, hu, hsym, hci] at hrun
      cases hrun
    | some ci => simp
  refine ⟨hsel, ?_⟩
  unfold updateAt at hrun
  rw [hsel] at hrun
  simp only at hrun
  split at hrun
  · simp at hrun
  · rename_i ct' hmove
    simp only [Option.some.injEq] at hrun
    subst hrun
    simp only
    unfold updateMove at hmove
    rw [hsym] at hmove
    simp only at hmove
    have h63 : HUF_NEXT = 63 := rfl
    have hn1 : usub ((i - 1) >>> 1 + 1 + HUF_NEXT) 1 = (i - 1) >>> 1 + HUF_NEXT := by
      rw [usub_eq _ _ (by omega) (by
        rw [Nat.shiftRight_eq_div_pow, h63]
        have : (i - 1) / 2 ^ 1 ≤ i := Nat.le_trans (Nat.div_le_self _ _) (Nat.sub_le _ _)
        have : (2:Nat) ^ 32 = 4294967296 := by decide
        omega)]
      omega
    rw [hn1] at hmove
    have hl0 : i - 1 < ((i - 1) >>> 1 + HUF_NEXT) <<< 1 := by
      rw [Nat.shiftLeft_eq, Nat.shiftRight_eq_div_pow, h63]
      omega
    split at hmove
    · rename_i t m ht hm
      split at hmove
      · simp at hmove
      · rename_i t' hadj
        simp only [Option.some.injEq] at hmove
        subst hmove
        simp only
        have hk1 := slidePair_keep _ _ _ _ (i - 1) hl0 ht
        have hk2 := slidePair_keep _ _ _ _ (i - 1) hl0 hm
        refine ⟨?_, by rw [hk2, hmask]⟩
        rw [updateAdjust_at m t (i - 1) 1 _ _ t' HUF_NEXT (by rw [hk1, hsym]) hl0 hadj]
        rfl
    · simp at hmove

set_option maxRecDepth 100000 in
theorem update_takes_symbol_for_offset_witness :
    ∃ r, updateAt { codetree := ((List.replicate 132 0).set 2 0x3F).set 3 0x40,
                    codemask := (List.replicate 132 0xFF).set 3 0 } 3 = some r ∧
      updateSel (((List.replicate 132 0).set 2 0x3F).set 3 0x40) 3 = some (2, 1) ∧
      rd r.1.codetree 2 = some 0x3E ∧ rd r.1.codemask 2 = some 0xFF := by
  have h : (updateAt { codetree := ((List.replicate 132 0).set 2 0x3F).set 3 0x40,
                       codemask := (List.replicate 132 0xFF).set 3 0 } 3).isSome = true := by
    decide
  obtain ⟨r, hr⟩ := Option.isSome_iff_exists.1 h
  exact ⟨r, hr, update_takes_symbol_for_offset _ 3 r (by decide) (by decide) (by decide)
    (by decide) hr⟩

end Gbacomp

namespace Gbacomp

/-! ## LZ: the two scenarios, for every content of the static arrays -/

/-! ## Single steps of the LZ encoder -/

/-- The comparison loop of `InsertNode` runs to its end with `cmp = 0` when the
two strings agree at every index it looks at. -/
theorem cmpLoop_equal (tb : Nat → Nat) (r p : Nat) :
    ∀ (n i : Nat) (c : Int), (∀ k, i ≤ k → k < i + (n + 1) → tb (r + k) = tb (p + k)) →
      cmpLoop tb r p (n + 1) i c = (i + (n + 1), 0) := by
  intro n
  induction n with
  | zero =>
    intro i c h
    have e := h i (Nat.le_refl _) (by omega)
    unfold cmpLoop
    simp only [e, sub_self, ne_eq, not_true_eq_false, if_false]
    rfl
  | succ n ih =>
    intro i c h
    have e := h i (Nat.le_refl _) (by omega)
    unfold cmpLoop
    simp only [e, sub_self, ne_eq, not_true_eq_false, if_false]
    rw [ih (i + 1) 0 (fun k hk1 hk2 => h k (by omega) (by omega))]
    congr 1
    omega

/-- A round of the descent of `InsertNode` that finds no right child: the new
node becomes the right child. -/
theorem insertLoop_attach (r fuel : Nat) (st : LzState) (p : Nat) (cmp : Int) (hc : cmp ≥ 0)
    (h : st.rson p = NIL) :
    insertLoop r (fuel + 1) st p cmp
      = some { st with rson := store st.rson p r, dad := store st.dad r p } := by
  unfold insertLoop
  rw [if_pos ⟨hc, h⟩]

/-- A round of the descent of `InsertNode` to a right child that is the node
just before `r` and agrees with the new string over the whole frame: the match
is not taken, the descent goes on. -/
theorem insertLoop_skip (r fuel : Nat) (st : LzState) (p : Nat) (cmp : Int) (hc : cmp ≥ 0)
    (h : st.rson p ≠ NIL) (i : Nat) (c : Int)
    (hcmp : cmpLoop st.text_buf r (st.rson p) (FRAME_MAX - 1) 1 cmp = (i, c))
    (hi : i > st.match_length) (hprev : st.rson p = andNMASK ((r : Int) - 1))
    (hml : ¬ st.match_length ≥ FRAME_MAX) :
    insertLoop r (fuel + 1) st p cmp = insertLoop r fuel st (st.rson p) c := by
  conv_lhs => unfold insertLoop
  rw [if_neg (fun hh => h hh.2), if_neg (fun hh => hh.1 hc)]
  simp only [if_pos hc, hcmp, if_pos hi]
  rw [if_neg (fun hh : st.rson p ≠ andNMASK ((r : Int) - 1) => hh hprev), if_neg hml]

/-- A round of the descent of `InsertNode` to a right child that is not the
node just before `r` and agrees with the new string over the whole frame: the
match is taken and the new node replaces the old one. -/
theorem insertLoop_full (r fuel : Nat) (st : LzState) (p : Nat) (cmp : Int) (hc : cmp ≥ 0)
    (h : st.rson p ≠ NIL) (i : Nat) (c : Int)
    (hcmp : cmpLoop st.text_buf r (st.rson p) (FRAME_MAX - 1) 1 cmp = (i, c))
    (hi : i > st.match_length) (hprev : st.rson p ≠ andNMASK ((r : Int) - 1))
    (hfull : i ≥ FRAME_MAX) :
    insertLoop r (fuel + 1) st p cmp
      = some (replaceNode { st with match_length := i, match_position := st.rson p } r (st.rson p)) := by
  conv_lhs => unfold insertLoop
  rw [if_neg (fun hh => h hh.2), if_neg (fun hh => hh.1 hc)]
  simp only [if_pos hc, hcmp, if_pos hi]
  rw [if_pos hprev, if_pos (show i ≥ FRAME_MAX from hfull)]

/-- `DeleteNode` of a place that is not in a tree changes nothing. -/
theorem deleteNode_free (p : Nat) (st : LzState) (h : st.dad p = NIL) :
    DeleteNode p st = some st := by
  unfold DeleteNode
  rw [if_pos h]

/-- One round of the loop that reads the bytes behind a unit. -/
theorem readLoop_one (x : List Nat) (n : Nat) (e : LzEnc) (g1 g2 : LzState)
    (hlt : e.InOffset < x.length) (hD : DeleteNode e.s e.g = some g1)
    (hI : InsertNode ((e.r + 1) % RING_MAX) { g1 with text_buf := (if e.s < FRAME_MAX - 1 then store (store g1.text_buf e.s (x.getD e.InOffset 0)) (e.s + RING_MAX) (x.getD e.InOffset 0) else store g1.text_buf e.s (x.getD e.InOffset 0)) } = some g2) :
    readLoop x (n + 1) e = readLoop x n { e with g := g2, s := (e.s + 1) % RING_MAX, r := (e.r + 1) % RING_MAX, InOffset := e.InOffset + 1 } := by
  conv_lhs => unfold readLoop
  rw [if_pos hlt]
  simp only [hD, hI]

/-- The loop that reads the bytes behind a unit stops at the end of the input. -/
theorem readLoop_done (x : List Nat) (n : Nat) (e : LzEnc) (h : ¬ e.InOffset < x.length) :
    readLoop x n e = some (e, n) := by
  cases n with
  | zero => rfl
  | succ n =>
    unfold readLoop
    rw [if_neg h]

/-- One round of the main loop of `CompressLZ77`, once the bytes behind the
unit have been read. -/
theorem mainLoop_round (x : List Nat) (fuel : Nat) (e e1 : LzEnc) (n : Nat)
    (h : readLoop x (emitUnit e).g.match_length (emitUnit e) = some (e1, n)) :
    mainLoop x (fuel + 1) e
      = (tailLoop n e1).bind (fun e2 => if e2.len > 0 then mainLoop x fuel e2 else some e2) := by
  conv_lhs => unfold mainLoop
  simp only [h]
  cases tailLoop n e1 <;> rfl

/-- The loop over the positions behind the end of the input leaves the output
alone and counts `len` down. -/
theorem tailLoop_out : ∀ (n : Nat) (e e1 : LzEnc), tailLoop n e = some e1 →
    e1.code_buf0 = e.code_buf0 ∧ e1.code_buf = e.code_buf ∧ e1.out = e.out ∧
      e1.len = e.len - n := by
  intro n
  induction n with
  | zero =>
    intro e e1 h
    have : e = e1 := Option.some.inj h
    subst this
    exact ⟨rfl, rfl, rfl, by simp⟩
  | succ n ih =>
    intro e e1 h
    unfold tailLoop at h
    cases hD : DeleteNode e.s e.g with
    | none => simp only [hD] at h; exact absurd h (by simp)
    | some g =>
      simp only [hD] at h
      by_cases hl : e.len - 1 ≠ 0
      · rw [if_pos hl] at h
        cases hI : InsertNode ((e.r + 1) % RING_MAX) g with
        | none => simp only [hI] at h; exact absurd h (by simp)
        | some g2 =>
          simp only [hI] at h
          obtain ⟨a, b, c, d⟩ := ih _ _ h
          refine ⟨a, b, c, ?_⟩
          rw [d]
          show e.len - 1 - (n : Int) = e.len - ((n + 1 : Nat) : Int)
          push_cast; ring
      · rw [if_neg hl] at h
        obtain ⟨a, b, c, d⟩ := ih _ _ h
        refine ⟨a, b, c, ?_⟩
        rw [d]
        show e.len - 1 - (n : Int) = e.len - ((n + 1 : Nat) : Int)
        push_cast; ring

theorem insertNode_eq (r : Nat) (st : LzState) :
    InsertNode r st = insertLoop r (RING_MAX + 1) { st with lson := store st.lson r NIL, rson := store st.rson r NIL, match_length := 0 } (RING_MAX + 1 + st.text_buf r) 1 := rfl

/-- `InsertNode(r)` when the tree of the first byte is empty: `r` becomes its
root and no string is compared. -/
theorem insertNode_first (r : Nat) (st : LzState) (p : Nat)
    (hp : p = RING_MAX + 1 + st.text_buf r) (hpr : p ≠ r) (h : st.rson p = NIL) :
    InsertNode r st = some { st with lson := store st.lson r NIL, rson := store (store st.rson r NIL) p r, match_length := 0, dad := store st.dad r p } := by
  rw [insertNode_eq, ← hp]
  rw [insertLoop_attach _ _ _ _ _ (by decide) (by show store st.rson r NIL p = NIL; unfold store; rw [if_neg hpr]; exact h)]

/-- `InsertNode(r)` when the tree of the first byte is the single node `q`
just before `r` and the two strings agree over the whole frame: the match at
distance 1 is not taken, and `r` becomes the right child of `q`. -/
theorem insertNode_second (r q : Nat) (st : LzState) (p : Nat)
    (hp : p = RING_MAX + 1 + st.text_buf r) (hpr : p ≠ r) (hq : st.rson p = q) (hqN : q ≠ NIL)
    (hqr : q ≠ r) (hc : ∀ k, 1 ≤ k → k < 1 + 17 → st.text_buf (r + k) = st.text_buf (q + k))
    (hprev : q = andNMASK ((r : Int) - 1)) (hqn : st.rson q = NIL) :
    InsertNode r st = some { st with lson := store st.lson r NIL, rson := store (store st.rson r NIL) q r, match_length := 0, dad := store st.dad r q } := by
  rw [insertNode_eq, ← hp]
  obtain ⟨st1, hst1⟩ : ∃ st1 : LzState, st1 = { st with lson := store st.lson r NIL, rson := store st.rson r NIL, match_length := 0 } := ⟨_, rfl⟩
  rw [← hst1]
  have hq2 : st1.rson p = q := by rw [hst1]; show store st.rson r NIL p = q; unfold store; rw [if_neg hpr]; exact hq
  have hqn2 : st1.rson q = NIL := by rw [hst1]; show store st.rson r NIL q = NIL; unfold store; rw [if_neg hqr]; exact hqn
  have hm : st1.match_length = 0 := by rw [hst1]
  have ht : st1.text_buf = st.text_buf := by rw [hst1]
  have hcm : cmpLoop st1.text_buf r (st1.rson p) (FRAME_MAX - 1) 1 1 = (18, 0) := by
    rw [ht, hq2]; exact cmpLoop_equal st.text_buf r q 16 1 1 hc
  rw [insertLoop_skip r RING_MAX st1 p 1 (by decide) (by rw [hq2]; exact hqN) 18 0
    hcm (by rw [hm]; decide) (by rw [hq2]; exact hprev) (by rw [hm]; decide)]
  rw [hq2]
  have h4 : RING_MAX = 4095 + 1 := rfl
  rw [h4, insertLoop_attach _ _ _ _ _ (by decide) hqn2, hst1]

/-- `InsertNode(r)` when the tree of the first byte has the root `q`, not the
node just before `r`, and the two strings agree over the whole frame: the
match of length `FRAME_MAX` at `q` is taken and `r` replaces `q`. -/
theorem insertNode_third (r q : Nat) (st : LzState) (p : Nat)
    (hp : p = RING_MAX + 1 + st.text_buf r) (hpr : p ≠ r) (hq : st.rson p = q) (hqN : q ≠ NIL)
    (hc : ∀ k, 1 ≤ k → k < 1 + 17 → st.text_buf (r + k) = st.text_buf (q + k))
    (hprev : q ≠ andNMASK ((r : Int) - 1)) :
    InsertNode r st = some (replaceNode { st with lson := store st.lson r NIL, rson := store st.rson r NIL, match_length := 18, match_position := q } r q) := by
  rw [insertNode_eq, ← hp]
  obtain ⟨st1, hst1⟩ : ∃ st1 : LzState, st1 = { st with lson := store st.lson r NIL, rson := store st.rson r NIL, match_length := 0 } := ⟨_, rfl⟩
  rw [← hst1]
  have hq2 : st1.rson p = q := by rw [hst1]; show store st.rson r NIL p = q; unfold store; rw [if_neg hpr]; exact hq
  have hm : st1.match_length = 0 := by rw [hst1]
  have ht : st1.text_buf = st.text_buf := by rw [hst1]
  have hcm : cmpLoop st1.text_buf r (st1.rson p) (FRAME_MAX - 1) 1 1 = (18, 0) := by
    rw [ht, hq2]; exact cmpLoop_equal st.text_buf r q 16 1 1 hc
  rw [insertLoop_full r RING_MAX st1 p 1 (by decide) (by rw [hq2]; exact hqN) 18 0
    hcm (by rw [hm]; decide) (by rw [hq2]; exact hprev) (by decide)]
  rw [hq2, hst1]

/-- The run of the main loop of `CompressLZ77` on twenty bytes `0x41`, for any
content of the trees and of the ring buffer outside the eighteen bytes
loaded: two literals, then a match of length 18 at distance 2. -/
theorem run_equal_bytes (g0 : LzState) (hT : ∀ j, j < 18 → g0.text_buf (4078 + j) = 65)
    (hR : g0.rson 4162 = NIL) (hD0 : g0.dad 0 = NIL) (hD1 : g0.dad 1 = NIL)
    (g : LzState) (hI : InsertNode 4078 g0 = some g) (e2 : LzEnc)
    (hm : mainLoop (List.replicate 20 0x41) 20 { g := g, InOffset := 18, len := 18, r := 4078, s := 0, curmatch := 4078, code_buf0 := 0, code_buf := [], mask := 0x80, out := [] } = some e2) :
    e2.out = [] ∧ e2.code_buf0 = 0x20 ∧ e2.code_buf = [0x41, 0x41, 0xF0, 0x01] := by
  have t0 : g0.text_buf 4078 = 65 := hT 0 (by decide)
  -- the first node
  have hI1 := insertNode_first 4078 g0 4162 (by rw [t0]; rfl) (by decide) hR
  obtain ⟨G1, hG1⟩ : ∃ G1 : LzState, G1 = { g0 with lson := store g0.lson 4078 NIL, rson := store (store g0.rson 4078 NIL) 4162 4078, match_length := 0, dad := store g0.dad 4078 4162 } := ⟨_, rfl⟩
  rw [← hG1] at hI1
  have hg : g = G1 := Option.some.inj (hI.symm.trans hI1)
  subst hg
  have G1t : g.text_buf = g0.text_buf := by rw [hG1]
  have G1r : g.rson = store (store g0.rson 4078 NIL) 4162 4078 := by rw [hG1]
  have G1d : g.dad = store g0.dad 4078 4162 := by rw [hG1]
  have G1m : g.match_length = 0 := by rw [hG1]
  clear hG1 hI hI1
  -- the first unit
  have hE1 : emitUnit { g := g, InOffset := 18, len := 18, r := 4078, s := 0, curmatch := 4078, code_buf0 := 0, code_buf := [], mask := 0x80, out := [] } = { g := { g with match_length := 1 }, InOffset := 18, len := 18, r := 4078, s := 0, curmatch := 4079, code_buf0 := 0, code_buf := [65], mask := 0x40, out := [] } := by
    rw [emitUnit_lit _ (by unfold clampLen; simp [G1m, THRESHOLD])]
    simp [emitTail, G1t, t0, uadd, NMASK, RING_MAX]
    decide
  -- the byte 18 is read, the second node goes below the first
  obtain ⟨tb1, htb1⟩ : ∃ tb1 : Nat → Nat, tb1 = store (store g0.text_buf 0 65) 4096 65 := ⟨_, rfl⟩
  have tb1v : ∀ j, j ≤ 18 → tb1 (4078 + j) = 65 := by
    intro j hj
    rw [htb1]
    unfold store
    by_cases h18 : j = 18
    · subst h18; rfl
    · rw [if_neg (by omega), if_neg (by omega)]
      exact hT j (by omega)
  have hI2 := insertNode_second 4079 4078 { g with match_length := 1, text_buf := tb1 } 4162
    (by show 4162 = RING_MAX + 1 + tb1 4079; rw [tb1v 1 (by decide)]; rfl) (by decide)
    (by show g.rson 4162 = 4078; rw [G1r]; rfl) (by decide) (by decide)
    (by
      intro k hk1 hk2
      show tb1 (4079 + k) = tb1 (4078 + k)
      have e : 4079 + k = 4078 + (k + 1) := by omega
      rw [e, tb1v (k + 1) (by omega), tb1v k (by omega)])
    (by decide) (by show g.rson 4078 = NIL; rw [G1r]; rfl)
  obtain ⟨G2, hG2⟩ : ∃ G2 : LzState, G2 = { g with match_length := 0, text_buf := tb1, lson := store g.lson 4079 NIL, rson := store (store g.rson 4079 NIL) 4078 4079, dad := store g.dad 4079 4078 } := ⟨_, rfl⟩
  have hI2' : InsertNode 4079 { g with match_length := 1, text_buf := tb1 } = some G2 := by
    rw [hI2, hG2]
  have G2t : G2.text_buf = tb1 := by rw [hG2]
  have G2r : G2.rson = store (store g.rson 4079 NIL) 4078 4079 := by rw [hG2]
  have G2d : G2.dad = store g.dad 4079 4078 := by rw [hG2]
  have G2m : G2.match_length = 0 := by rw [hG2]
  clear hG2 hI2
  have hR1 : readLoop (List.replicate 20 0x41) 1 { g := { g with match_length := 1 }, InOffset := 18, len := 18, r := 4078, s := 0, curmatch := 4079, code_buf0 := 0, code_buf := [65], mask := 0x40, out := [] } = some ({ g := G2, InOffset := 19, len := 18, r := 4079, s := 1, curmatch := 4079, code_buf0 := 0, code_buf := [65], mask := 0x40, out := [] }, 0) := by
    rw [readLoop_one _ 0 _ { g with match_length := 1 } G2
      (by show 18 < (List.replicate 20 65).length; decide)
      (deleteNode_free _ _ (by show g.dad 0 = NIL; rw [G1d]; exact hD0))
      (by rw [← hI2', htb1, G1t]; rfl)]
    rfl
  have hM1 := mainLoop_round (List.replicate 20 0x41) 19 _ _ 0 (by rw [hE1]; exact hR1)
  rw [hM1] at hm
  clear hM1 hR1 hE1
  replace hm : mainLoop (List.replicate 20 0x41) 19 { g := G2, InOffset := 19, len := 18, r := 4079, s := 1, curmatch := 4079, code_buf0 := 0, code_buf := [65], mask := 0x40, out := [] } = some e2 := hm
  -- the second unit
  have hE2 : emitUnit { g := G2, InOffset := 19, len := 18, r := 4079, s := 1, curmatch := 4079, code_buf0 := 0, code_buf := [65], mask := 0x40, out := [] } = { g := { G2 with match_length := 1 }, InOffset := 19, len := 18, r := 4079, s := 1, curmatch := 4080, code_buf0 := 0, code_buf := [65, 65], mask := 0x20, out := [] } := by
    rw [emitUnit_lit _ (by unfold clampLen; simp [G2m, THRESHOLD])]
    simp [emitTail, G2t, tb1v 1 (by decide), uadd, NMASK, RING_MAX]
    decide
  -- the byte 19 is read, the third node finds the first at distance 2
  obtain ⟨tb2, htb2⟩ : ∃ tb2 : Nat → Nat, tb2 = store (store tb1 1 65) 4097 65 := ⟨_, rfl⟩
  have tb2v : ∀ j, j ≤ 19 → tb2 (4078 + j) = 65 := by
    intro j hj
    rw [htb2]
    unfold store
    by_cases h19 : j = 19
    · subst h19; rfl
    · rw [if_neg (by omega), if_neg (by omega)]
      exact tb1v j (by omega)
  have hI3 := insertNode_third 4080 4078 { G2 with match_length := 1, text_buf := tb2 } 4162
    (by show 4162 = RING_MAX + 1 + tb2 4080; rw [tb2v 2 (by decide)]; rfl) (by decide)
    (by show G2.rson 4162 = 4078; rw [G2r, G1r]; rfl) (by decide)
    (by
      intro k hk1 hk2
      show tb2 (4080 + k) = tb2 (4078 + k)
      have e : 4080 + k = 4078 + (k + 2) := by omega
      rw [e, tb2v (k + 2) (by omega), tb2v k (by omega)])
    (by decide)
  obtain ⟨G3, hG3⟩ : ∃ G3 : LzState, G3 = replaceNode { G2 with match_length := 18, text_buf := tb2, lson := store G2.lson 4080 NIL, rson := store G2.rson 4080 NIL, match_position := 4078 } 4080 4078 := ⟨_, rfl⟩
  have hI3' : InsertNode 4080 { G2 with match_length := 1, text_buf := tb2 } = some G3 := by
    rw [hI3, hG3]
  have G3m : G3.match_length = 18 := by rw [hG3]; rfl
  have G3p : G3.match_position = 4078 := by rw [hG3]; rfl
  clear hG3 hI3
  have hR2 : readLoop (List.replicate 20 0x41) 1 { g := { G2 with match_length := 1 }, InOffset := 19, len := 18, r := 4079, s := 1, curmatch := 4080, code_buf0 := 0, code_buf := [65, 65], mask := 0x20, out := [] } = some ({ g := G3, InOffset := 20, len := 18, r := 4080, s := 2, curmatch := 4080, code_buf0 := 0, code_buf := [65, 65], mask := 0x20, out := [] }, 0) := by
    rw [readLoop_one _ 0 _ { G2 with match_length := 1 } G3
      (by show 19 < (List.replicate 20 65).length; decide)
      (deleteNode_free _ _ (by show G2.dad 1 = NIL; rw [G2d, G1d]; exact hD1))
      (by rw [← hI3', htb2, G2t]; rfl)]
    rfl
  have hM2 := mainLoop_round (List.replicate 20 0x41) 18 _ _ 0 (by rw [hE2]; exact hR2)
  rw [hM2] at hm
  clear hM2 hR2 hE2
  replace hm : mainLoop (List.replicate 20 0x41) 18 { g := G3, InOffset := 20, len := 18, r := 4080, s := 2, curmatch := 4080, code_buf0 := 0, code_buf := [65, 65], mask := 0x20, out := [] } = some e2 := hm
  -- the third unit
  have hE3 : emitUnit { g := G3, InOffset := 20, len := 18, r := 4080, s := 2, curmatch := 4080, code_buf0 := 0, code_buf := [65, 65], mask := 0x20, out := [] } = { g := { G3 with match_length := 18 }, InOffset := 20, len := 18, r := 4080, s := 2, curmatch := 2, code_buf0 := 0x20, code_buf := [65, 65, 0xF0, 0x01], mask := 0x10, out := [] } := by
    rw [emitUnit_mat _ (by unfold clampLen; simp [G3m, THRESHOLD])]
    simp [emitTail, clampLen, saveMatch, G3m, G3p, uadd, usub, NMASK, RING_MAX, THRESHOLD]
    decide
  have hR3 := readLoop_done (List.replicate 20 0x41) 18 { g := { G3 with match_length := 18 }, InOffset := 20, len := 18, r := 4080, s := 2, curmatch := 2, code_buf0 := 0x20, code_buf := [65, 65, 0xF0, 0x01], mask := 0x10, out := [] } (by show ¬ 20 < (List.replicate 20 65).length; decide)
  have hM3 := mainLoop_round (List.replicate 20 0x41) 17 _ _ 18 (by rw [hE3]; exact hR3)
  rw [hM3] at hm
  clear hM3 hR3 hE3
  cases ht : tailLoop 18 { g := { G3 with match_length := 18 }, InOffset := 20, len := 18, r := 4080, s := 2, curmatch := 2, code_buf0 := 0x20, code_buf := [65, 65, 0xF0, 0x01], mask := 0x10, out := [] } with
  | none =>
    rw [ht] at hm
    exact absurd hm (by simp)
  | some e4 =>
    rw [ht] at hm
    obtain ⟨h1, h2, h3, h4⟩ := tailLoop_out _ _ _ ht
    have h5 : ¬ e4.len > 0 := by
      rw [h4]
      show ¬ ((18 : Int) - ((18 : Nat) : Int) > 0)
      decide
    have h6 : some e4 = some e2 := by
      have h7 : (if e4.len > 0 then mainLoop (List.replicate 20 0x41) 17 e4 else some e4) = some e2 := hm
      rw [if_neg h5] at h7
      exact h7
    have h8 : e4 = e2 := Option.some.inj h6
    subst h8
    exact ⟨h3, h1, h2⟩

/-- The copy loop of the decoder only appends to the output. -/
theorem lzCopy_extends (dstS ofs : Nat) : ∀ (count : Nat) (d d2 : List Nat),
    lzCopy dstS ofs count d = some d2 → d <+: d2 := by
  intro count
  induction count with
  | zero =>
    intro d d2 h
    have : d = d2 := Option.some.inj h
    subst this
    exact (⟨[], List.append_nil _⟩ : _ <+: _)
  | succ n ih =>
    intro d d2 h
    unfold lzCopy at h
    by_cases hc : ofs ≤ d.length ∧ d.length < dstS
    · rw [if_pos hc] at h
      exact List.IsPrefix.trans ((⟨_, rfl⟩ : _ <+: _ ++ _)) (ih _ _ h)
    · rw [if_neg hc] at h
      cases h

/-- A copy of at least one byte repeats a byte of the output. -/
theorem lzCopy_repeats (dstS ofs : Nat) (hofs : 1 ≤ ofs) (n : Nat) (d d2 : List Nat)
    (h : lzCopy dstS ofs (n + 1) d = some d2) : ¬ d2.Nodup := by
  intro hnd
  unfold lzCopy at h
  by_cases hc : ofs ≤ d.length ∧ d.length < dstS
  · rw [if_pos hc] at h
    have hp := lzCopy_extends dstS ofs n _ _ h
    have hnd1 : (d ++ [d.getD (d.length - ofs) 0]).Nodup := hnd.sublist hp.sublist
    have hmem : d.getD (d.length - ofs) 0 ∈ d := by
      have hlt : d.length - ofs < d.length := by omega
      rw [List.getD_eq_getElem _ _ hlt]
      exact List.getElem_mem hlt
    rw [List.nodup_append] at hnd1
    exact hnd1.2.2 hmem (List.mem_singleton_self _)
  · rw [if_neg hc] at h
    cases h

/-- A unit only appends to the output. -/
theorem applyUnit_extends (dstS : Nat) (u : LzUnit) (d d2 : List Nat)
    (h : applyUnit dstS u d = some d2) : d <+: d2 := by
  unfold applyUnit at h
  by_cases hc : d.length < dstS
  · rw [if_pos hc] at h
    cases u with
    | lit b =>
      have : d ++ [b] = d2 := Option.some.inj h
      rw [← this]
      exact (⟨_, rfl⟩ : _ <+: _ ++ _)
    | mat b0 b1 => exact lzCopy_extends _ _ _ _ _ h
  · rw [if_neg hc] at h
    cases h

/-- The units of a list only append to the output. -/
theorem decUnits_extends (dstS : Nat) : ∀ (us : List LzUnit) (d d2 : List Nat),
    decUnits dstS us d = some d2 → d <+: d2 := by
  intro us
  induction us with
  | nil =>
    intro d d2 h
    have : d = d2 := Option.some.inj h
    subst this
    exact (⟨[], List.append_nil _⟩ : _ <+: _)
  | cons u us ih =>
    intro d d2 h
    simp only [decUnits] at h
    cases h1 : applyUnit dstS u d with
    | none => rw [h1] at h; cases h
    | some d1 =>
      rw [h1] at h
      exact List.IsPrefix.trans (applyUnit_extends dstS u d d1 h1) (ih d1 d2 h)

/-- Units that decode to bytes without a repetition are all literals. -/
theorem decUnits_literals (dstS : Nat) : ∀ (us : List LzUnit) (d d2 : List Nat),
    decUnits dstS us d = some d2 → d2.Nodup → us = (d2.drop d.length).map LzUnit.lit := by
  intro us
  induction us with
  | nil =>
    intro d d2 h _
    have : d = d2 := Option.some.inj h
    subst this
    simp
  | cons u us ih =>
    intro d d2 h hnd
    simp only [decUnits] at h
    cases h1 : applyUnit dstS u d with
    | none => rw [h1] at h; cases h
    | some d1 =>
      rw [h1] at h
      have hp : d1 <+: d2 := decUnits_extends dstS us d1 d2 h
      have hrec := ih d1 d2 h hnd
      unfold applyUnit at h1
      by_cases hc : d.length < dstS
      · rw [if_pos hc] at h1
        cases u with
        | lit b =>
          have e1 : d ++ [b] = d1 := Option.some.inj h1
          subst e1
          obtain ⟨t, ht⟩ := hp
          rw [hrec, ← ht]
          simp
        | mat b0 b1 =>
          exact absurd (hnd.sublist hp.sublist)
            (lzCopy_repeats dstS _ (Nat.le_add_left 1 _) ((b0 >>> 4) + THRESHOLD) d d1 h1)
      · rw [if_neg hc] at h1
        cases h1

/-- `CompressLZ77` of "ABCDEFGH", whatever the statics hold: one group of
eight literals. -/
theorem CompressLZ77_distinct_bytes (heap : Nat → Nat) (statics : LzState) :
    CompressLZ77 heap statics [0x41, 0x42, 0x43, 0x44, 0x45, 0x46, 0x47, 0x48]
      = some [0x10, 8, 0, 0, 0, 0x41, 0x42, 0x43, 0x44, 0x45, 0x46, 0x47, 0x48] := by
  obtain ⟨full, last, hfull, hlast, hC, hdec, _⟩ := CompressLZ77_spec heap statics
    [0x41, 0x42, 0x43, 0x44, 0x45, 0x46, 0x47, 0x48] (by decide) (by simp)
  have hus := decUnits_literals _ _ _ _ hdec (by decide)
  have hus2 : full.flatMap id ++ last = [LzUnit.lit 0x41, .lit 0x42, .lit 0x43, .lit 0x44, .lit 0x45, .lit 0x46, .lit 0x47, .lit 0x48] := hus
  have hlen := congrArg List.length hus2
  simp only [List.length_append, List.length_cons, List.length_nil] at hlen
  cases full with
  | nil =>
    simp only [List.flatMap_nil, List.length_nil] at hlen
    omega
  | cons g1 rest =>
    have h1 := hfull g1 (List.mem_cons_self _ _)
    cases rest with
    | nil =>
      simp only [List.flatMap_cons, List.flatMap_nil, List.append_nil, id, List.length_append] at hlen hus2
      have hl0 : last = [] := List.length_eq_zero.mp (by omega)
      subst hl0
      rw [List.append_nil] at hus2
      subst hus2
      rw [hC]
      rfl
    | cons g2 rest2 =>
      have h2 := hfull g2 (List.mem_cons_of_mem _ (List.mem_cons_self _ _))
      simp only [List.flatMap_cons, id, List.length_append] at hlen
      omega

/-- The output of `CompressLZ77` in terms of the run of its main loop. -/
theorem CompressLZ77_run (heap : Nat → Nat) (statics : LzState) (x : List Nat) (L : Nat)
    (tb : Nat → Nat) (g : LzState) (e2 : LzEnc)
    (hfill : fillLoop x (RING_MAX - FRAME_MAX) FRAME_MAX 0 (fun i => if 0 ≤ i ∧ i < RING_MAX - FRAME_MAX then 0 else (InitTree { statics with match_position := RING_MAX - FRAME_MAX }).text_buf i) = (L, tb))
    (hL : L ≠ 0)
    (hI : InsertNode (RING_MAX - FRAME_MAX) { InitTree { statics with match_position := RING_MAX - FRAME_MAX } with text_buf := tb } = some g)
    (hmain : mainLoop x x.length { g := g, InOffset := L, len := L, r := RING_MAX - FRAME_MAX, s := 0, curmatch := RING_MAX - FRAME_MAX, code_buf0 := 0, code_buf := [], mask := 0x80, out := [] } = some e2) :
    CompressLZ77 heap statics x = some ([CPRS_LZ77_TAG, (x.length >>> 0) &&& 0xFF, (x.length >>> 8) &&& 0xFF, (x.length >>> 16) &&& 0xFF] ++ (if e2.code_buf.length + 1 > 1 then e2.out ++ (e2.code_buf0 :: e2.code_buf) else e2.out)) := by
  unfold CompressLZ77
  simp only []
  rw [hfill]
  simp only []
  rw [if_neg hL]
  simp only [hI, hmain]

/-- `CompressLZ77` of twenty bytes `0x41`, whatever the statics hold: two
literals and one match of length 18 at distance 2. -/
theorem CompressLZ77_equal_bytes (heap : Nat → Nat) (statics : LzState) :
    CompressLZ77 heap statics (List.replicate 20 0x41)
      = some [0x10, 0x14, 0, 0, 0x20, 0x41, 0x41, 0xF0, 0x01] := by
  have hx : Bytes (List.replicate 20 0x41) := by decide
  obtain ⟨L, tb, hlt⟩ : ∃ L tb, fillLoop (List.replicate 20 0x41) (RING_MAX - FRAME_MAX) FRAME_MAX 0 (fun i => if 0 ≤ i ∧ i < RING_MAX - FRAME_MAX then 0 else (InitTree { statics with match_position := RING_MAX - FRAME_MAX }).text_buf i) = (L, tb) := ⟨_, _, rfl⟩
  obtain ⟨hf1, hf2⟩ := fillLoop_spec (List.replicate 20 0x41) (RING_MAX - FRAME_MAX) FRAME_MAX 0 (fun i => if 0 ≤ i ∧ i < RING_MAX - FRAME_MAX then 0 else (InitTree { statics with match_position := RING_MAX - FRAME_MAX }).text_buf i)
    (Nat.zero_le _) (fun j hj => absurd hj (Nat.not_lt_zero j))
  rw [hlt] at hf1 hf2
  have hL : L = 18 := hf1
  subst hL
  obtain ⟨g, e2, us, hI, hmain, _⟩ := comp_core (List.replicate 20 0x41) hx
    { statics with match_position := RING_MAX - FRAME_MAX } tb 18 hf2 (by decide) (by decide)
  obtain ⟨a, b, c⟩ := run_equal_bytes
    { InitTree { statics with match_position := RING_MAX - FRAME_MAX } with text_buf := tb }
    (fun j hj => by
      have := hf2 j hj
      have e : (List.replicate 20 65).getD j 0 = 65 := by
        interval_cases j <;> rfl
      rw [e] at this
      exact this)
    (by simp [InitTree, RING_MAX, NIL]) (by simp [InitTree, RING_MAX, NIL])
    (by simp [InitTree, RING_MAX, NIL]) g hI e2 hmain
  rw [CompressLZ77_run heap statics _ 18 tb g e2 hlt (by decide) hI hmain, a, b, c]
  rfl

/-- The output record of `lz77gba_compress` in terms of the output of
`CompressLZ77`: the bytes written, then what the block held up to the 4-byte
boundary. -/
theorem lz77gba_compress_of (heap : Nat → Nat) (statics : LzState) (x buf : List Nat)
    (h : CompressLZ77 heap statics x = some buf) :
    lz77gba_compress heap statics x
      = some (buf ++ heapBytes heap buf.length (ALIGN4 buf.length - buf.length)) := by
  unfold lz77gba_compress
  rw [h]

set_option maxRecDepth 100000 in
/-- C16, amended. `lz77gba_compress` of "ABCDEFGH" returns 16 bytes, whatever
earlier calls left in the static arrays: the header `10 08 00 00`, the flag
byte `00`, the eight literals, and three bytes of padding (the bytes the output
block held at the offsets 13..15); `lz77gba_decompress` of them returns
"ABCDEFGH". -/
theorem lz_trivial_scenario (heap : Nat → Nat) (statics : LzState) :
    lz77gba_compress heap statics [0x41, 0x42, 0x43, 0x44, 0x45, 0x46, 0x47, 0x48]
        = some ([0x10, 8, 0, 0, 0, 0x41, 0x42, 0x43, 0x44, 0x45, 0x46, 0x47, 0x48]
            ++ heapBytes heap 13 3) ∧
      ([0x10, 8, 0, 0, 0, 0x41, 0x42, 0x43, 0x44, 0x45, 0x46, 0x47, 0x48]
            ++ heapBytes heap 13 3).length = 16 ∧
      lz77gba_decompress ([0x10, 8, 0, 0, 0, 0x41, 0x42, 0x43, 0x44, 0x45, 0x46, 0x47, 0x48]
            ++ heapBytes heap 13 3)
        = some [0x41, 0x42, 0x43, 0x44, 0x45, 0x46, 0x47, 0x48] := by
  have hc := CompressLZ77_distinct_bytes heap statics
  refine ⟨?_, ?_, ?_⟩
  · rw [lz77gba_compress_of heap statics _ _ hc]
    rfl
  · simp [heapBytes_length]
  · exact lz77gba_decompress_append _ _ _ _ _ _ _ (by decide)

set_option maxRecDepth 100000 in
/-- C17, amended. `lz77gba_compress` of twenty bytes `0x41` returns, whatever
earlier calls left in the static arrays, the header `10 14 00 00`, the flag
byte `0x20`, two literal units `41 41` and one match unit `F0 01` of length 18
and distance 2, then three bytes of padding: the units cover `1 + 1 + 18 = 20`
bytes and no match has distance 1; `lz77gba_decompress` of the output returns
the twenty bytes. -/
theorem lz_run_scenario (heap : Nat → Nat) (statics : LzState) :
    lz77gba_compress heap statics (List.replicate 20 0x41)
        = some ([0x10, 0x14, 0, 0, 0x20, 0x41, 0x41, 0xF0, 0x01] ++ heapBytes heap 9 3) ∧
      ((0x20 >>> 7) &&& 1 = 0 ∧ (0x20 >>> 6) &&& 1 = 0 ∧ (0x20 >>> 5) &&& 1 = 1) ∧
      ((0xF0 >>> 4) + THRESHOLD + 1 = 18 ∧ (((0xF0 &&& 0x0F) <<< 8) ||| 0x01) + 1 = 2) ∧
      lz77gba_decompress ([0x10, 0x14, 0, 0, 0x20, 0x41, 0x41, 0xF0, 0x01] ++ heapBytes heap 9 3)
        = some (List.replicate 20 0x41) := by
  have hc := CompressLZ77_equal_bytes heap statics
  refine ⟨?_, by decide, by decide, ?_⟩
  · rw [lz77gba_compress_of heap statics _ _ hc]
    rfl
  · exact lz77gba_decompress_append _ _ _ _ _ _ _ (by decide)

end Gbacomp

namespace Gbacomp

/-! ## Huffman: the decoder on a stream cut short -/

/-! ## Huffman: a stream cut short behind its table -/

set_option maxRecDepth 100000 in
/-- The stream of ten times "ABC" decodes to its 30 bytes; cut behind its
first code word it has a valid tag and the declared size 30, its code words
run out, and `huffman_decode` returns the 19 bytes completed so far. -/
theorem huffman_truncated_example :
    huffman_decode [0x28, 30, 0, 0, 3, 0x80, 0x43, 0xC0, 0x41, 0x42, 0, 0, 0x5A, 0x6B, 0xAD, 0xB5, 0x00, 0x80, 0xB5, 0xD6]
      = some (List.replicate 10 [0x41, 0x42, 0x43]).flatten ∧
    huffman_decode_exit [0x28, 30, 0, 0, 3, 0x80, 0x43, 0xC0, 0x41, 0x42, 0, 0, 0x5A, 0x6B, 0xAD, 0xB5]
      = some (((List.replicate 10 [0x41, 0x42, 0x43]).flatten).take 19, true) := by
  decide

end Gbacomp
